import Mathlib

/-!
# Segment tracing: blob tree, Lipschitz bounds and BVH construction

A shallow embedding of the C++ sources `evector.h`, `fundamentals.{h,cpp}`,
`blobtree.{h,cpp}` and `main.cpp`.

Conventions of the embedding.

* A C++ `double` is an element of a linearly ordered field `α`; arithmetic is
  exact.  The definitions are computable for every such field with decidable
  order (for instance `ℚ`); the analytic theorems instantiate `α := ℝ`.
* The library function `sqrt` of `<math.h>` is a parameter `sqrt : α → α` of
  every definition that reaches it (`Norm`, `Normalized`, the segment bound);
  the theorems instantiate it with `Real.sqrt`.
* Division is the division of the field, so `x / 0 = 0`, unless a definition
  says otherwise.
* Virtual dispatch on `BlobTreeNode` is pattern matching on an inductive type
  with the two concrete classes `BlobTreePoint` and `BlobTreeBlend`; the
  members `box` and `k`, which are set once by the constructors, are the
  functions `GetBox` and `K`.
-/

namespace SegmentTracing

/-! ## evector.h -/

/-- Vectors in three dimensions (`class Vector`): the components `c[0..2]`. -/
structure Vector (α : Type) where
  c0 : α
  c1 : α
  c2 : α
deriving DecidableEq

/-- The `fundamentals.h` class `Ray`: origin and direction. -/
structure Ray (α : Type) where
  o : Vector α
  d : Vector α
deriving DecidableEq

/-- The `fundamentals.h` class `Box`: the two corners. -/
structure Box (α : Type) where
  a : Vector α
  b : Vector α
deriving DecidableEq

/-- The `fundamentals.h` class `Segment`: the two end points. -/
structure Segment (α : Type) where
  a : Vector α
  b : Vector α
deriving DecidableEq

/-- The class hierarchy `BlobTreeNode` / `BlobTreePoint` / `BlobTreeBlend`.
`Point c r e` is `BlobTreePoint(c, r, e)`, `Blend e1 e2` is
`BlobTreeBlend(e1, e2)`. -/
inductive BlobTreeNode (α : Type) where
  | Point (c : Vector α) (r : α) (e : α) : BlobTreeNode α
  | Blend (e1 : BlobTreeNode α) (e2 : BlobTreeNode α) : BlobTreeNode α
deriving DecidableEq

/-- The class `BlobTree`: the root pointer, `none` for `nullptr`. -/
structure BlobTree (α : Type) where
  root : Option (BlobTreeNode α)

section Defs

variable {α : Type} [LinearOrderedField α]

/-- Constructor `Vector(const double& a)`: the same coordinate three times. -/
def Vector.splat (a : α) : Vector α := ⟨a, a, a⟩

/-- Access `operator[]`; only the indices 0, 1, 2 are ever used. -/
def Vector.get (v : Vector α) (i : Nat) : α :=
  if i = 0 then v.c0 else if i = 1 then v.c1 else v.c2

/-- Unary `operator-`. -/
def Vector.neg (u : Vector α) : Vector α := ⟨-u.c0, -u.c1, -u.c2⟩

/-- Comparison `operator>`: every component is greater. -/
def Vector.gt (u v : Vector α) : Bool :=
  decide (u.c0 > v.c0) && decide (u.c1 > v.c1) && decide (u.c2 > v.c2)

/-- Comparison `operator<`: every component is smaller. -/
def Vector.lt (u v : Vector α) : Bool :=
  decide (u.c0 < v.c0) && decide (u.c1 < v.c1) && decide (u.c2 < v.c2)

/-- Sum `operator+`. -/
def Vector.add (u v : Vector α) : Vector α := ⟨u.c0 + v.c0, u.c1 + v.c1, u.c2 + v.c2⟩

/-- Difference `operator-`. -/
def Vector.sub (u v : Vector α) : Vector α := ⟨u.c0 - v.c0, u.c1 - v.c1, u.c2 - v.c2⟩

/-- Scalar product `operator*` of two vectors. -/
def Vector.dot (u v : Vector α) : α := u.c0 * v.c0 + u.c1 * v.c1 + u.c2 * v.c2

/-- Right multiplication by a scalar, `operator*`; the left multiplication
`a * v` is defined as `v * a`. -/
def Vector.mul (u : Vector α) (a : α) : Vector α := ⟨u.c0 * a, u.c1 * a, u.c2 * a⟩

/-- Cross product, `operator/` of two vectors. -/
def Vector.cross (u v : Vector α) : Vector α :=
  ⟨u.c1 * v.c2 - u.c2 * v.c1, u.c2 * v.c0 - u.c0 * v.c2, u.c0 * v.c1 - u.c1 * v.c0⟩

/-- Division by a scalar, `operator/`. -/
def Vector.div (u : Vector α) (a : α) : Vector α := ⟨u.c0 / a, u.c1 / a, u.c2 / a⟩

/-- The function `Norm`: Euclidean norm. -/
def Norm (sqrt : α → α) (u : Vector α) : α :=
  sqrt (u.c0 * u.c0 + u.c1 * u.c1 + u.c2 * u.c2)

/-- The function `SquaredNorm`. -/
def SquaredNorm (u : Vector α) : α := u.c0 * u.c0 + u.c1 * u.c1 + u.c2 * u.c2

/-- The function `Normalized`: `u * (1.0 / Norm(u))`.  The source "does not
check if the vector is null": there `1.0 / Norm(u)` is `+inf` and every
component `0 * inf` is NaN.  The field has no NaN and `1 / 0 = 0` in it, so this
definition has the null vector there; `Normalized.NaN` tells when that is, and
the callers spell the case out (`BlobTreePoint.KNaN`, `SegmentTrace.tk`). -/
def Normalized (sqrt : α → α) (u : Vector α) : Vector α :=
  u.mul (1 / Norm sqrt u)

/-- Whether `Normalized(u)` is a vector of NaN in the source: `Norm(u)` is `0`. -/
def Normalized.NaN (sqrt : α → α) (u : Vector α) : Bool :=
  decide (Norm sqrt u = 0)

/-- The member `Vector::MaxIndex`. -/
def Vector.MaxIndex (v : Vector α) : Nat :=
  if v.c0 ≥ v.c1 then
    if v.c0 ≥ v.c2 then 0 else 2
  else
    if v.c1 ≥ v.c2 then 1 else 2

/-- The function `Abs` on vectors. -/
def Abs (u : Vector α) : Vector α :=
  ⟨if u.c0 > 0 then u.c0 else -u.c0, if u.c1 > 0 then u.c1 else -u.c1,
   if u.c2 > 0 then u.c2 else -u.c2⟩

/-- The static member `Vector::Min`. -/
def Vector.Min (a b : Vector α) : Vector α :=
  ⟨if a.c0 < b.c0 then a.c0 else b.c0, if a.c1 < b.c1 then a.c1 else b.c1,
   if a.c2 < b.c2 then a.c2 else b.c2⟩

/-- The static member `Vector::Max`. -/
def Vector.Max (a b : Vector α) : Vector α :=
  ⟨if a.c0 > b.c0 then a.c0 else b.c0, if a.c1 > b.c1 then a.c1 else b.c1,
   if a.c2 > b.c2 then a.c2 else b.c2⟩

/-- The function `Lerp`: `a + t * (b - a)`. -/
def Lerp (a b : Vector α) (t : α) : Vector α := a.add ((b.sub a).mul t)

/-! ## mathematics.h -/

/-- The static member `Math::Min` of two reals. -/
def Math.Min (a b : α) : α := if a < b then a else b

/-- The static member `Math::Max` of two reals. -/
def Math.Max (a b : α) : α := if a > b then a else b

/-- The static member `Math::Abs`, that is `fabs`. -/
def Math.Abs (x : α) : α := |x|

/-! ## fundamentals.{h,cpp} -/

/-- The function `Epsilon()`. -/
def Epsilon : α := 1e-3

/-- The call `Ray::operator()(t)`: `o + t * d`. -/
def Ray.eval (ray : Ray α) (t : α) : Vector α := ray.o.add (ray.d.mul t)

/-- Constructor `Box(const Box& b1, const Box& b2)`: the smallest box holding
both. -/
def Box.ofBoxes (b1 b2 : Box α) : Box α := ⟨Vector.Min b1.a b2.a, Vector.Max b1.b b2.b⟩

/-- The member `Box::Inside`: `p > a && p < b`, the strict interior. -/
def Box.Inside (box : Box α) (p : Vector α) : Bool := p.gt box.a && p.lt box.b

/-- The member `Box::Intersect(const Box&)`: overlap of two boxes. -/
def Box.Intersect (self box : Box α) : Bool :=
  if self.a.get 0 ≥ box.b.get 0 ∨ self.a.get 1 ≥ box.b.get 1 ∨ self.a.get 2 ≥ box.b.get 2 ∨
      self.b.get 0 ≤ box.a.get 0 ∨ self.b.get 1 ≤ box.a.get 1 ∨ self.b.get 2 ≤ box.a.get 2 then
    false
  else
    true

/-- The access `Box::operator[]`: corner `a` for 0, corner `b` otherwise. -/
def Box.get (box : Box α) (i : Nat) : Vector α := if i = 0 then box.a else box.b

/-- The member `Box::Diagonal`. -/
def Box.Diagonal (box : Box α) : Vector α := box.b.sub box.a

/-- The member `Box::Center`: `0.5 * (a + b)`. -/
def Box.Center (box : Box α) : Vector α := (box.a.add box.b).mul 0.5

/-- The access `Segment::operator[]`. -/
def Segment.get (s : Segment α) (i : Nat) : Vector α := if i = 0 then s.a else s.b

/-- The member `Segment::Intersect(const Box&)`: six separating-axis tests
against the box diagonal. -/
def Segment.Intersect (s : Segment α) (box : Box α) : Bool :=
  let ba := box.Diagonal
  let d := (s.b.sub s.a).mul 0.5
  let c := (s.a.add s.b).mul 0.5
  let cc := c.sub box.Center
  let fd0 := |d.get 0|
  if |cc.get 0| > ba.get 0 + fd0 then false else
  let fd1 := |d.get 1|
  if |cc.get 1| > ba.get 1 + fd1 then false else
  let fd2 := |d.get 2|
  if |cc.get 2| > ba.get 2 + fd2 then false else
  if |d.get 1 * cc.get 2 - d.get 2 * cc.get 1| > ba.get 1 * fd2 + ba.get 2 * fd1 then false else
  if |d.get 2 * cc.get 0 - d.get 0 * cc.get 2| > ba.get 0 * fd2 + ba.get 2 * fd0 then false else
  if |d.get 0 * cc.get 1 - d.get 1 * cc.get 0| > ba.get 0 * fd1 + ba.get 1 * fd0 then false else
  true

/-- The member `Segment::GetBox`: the bounding box of the two end points. -/
def Segment.GetBox (s : Segment α) : Box α := ⟨Vector.Min s.a s.b, Vector.Max s.a s.b⟩

/-! ## blobtree.{h,cpp} -/

/-- The member `BlobTreeNode::CubicFalloff(x, r)`. -/
def CubicFalloff (x r : α) : α :=
  if x > r then 0 else (1 - x / r) * (1 - x / r) * (1 - x / r)

/-- The member `BlobTreeNode::CubicFalloffK(e, R)`: the global bound. -/
def CubicFalloffK (e R : α) : α := 1.72 * |e| / R

/-- The member `BlobTreeNode::CubicFalloffK(a, b, R, s)`: the piecewise bound
over the squared distances `a` (nearest) and `b` (farthest). -/
def CubicFalloffK4 (sqrt : α → α) (a b R s : α) : α :=
  if a > R * R then 0
  else if b < (R * R) / 5 then
    let t := 1 - b / (R * R)
    |s| * 6 * (sqrt b / (R * R)) * (t * t)
  else if a > (R * R) / 5 then
    let t := 1 - a / (R * R)
    |s| * 6 * (sqrt a / (R * R)) * (t * t)
  else CubicFalloffK s R

/-- The bounding box `BlobTreePoint` hands to the base constructor:
`Box(pp - Vector(rr, rr, rr), pp + Vector(rr, rr, rr))`. -/
def BlobTreePoint.box (c : Vector α) (r : α) : Box α :=
  ⟨c.sub ⟨r, r, r⟩, c.add ⟨r, r, r⟩⟩

/-- The member `BlobTreePoint::Intensity`. -/
def BlobTreePoint.Intensity (c : Vector α) (r _e : α) (p : Vector α) : α :=
  if !(BlobTreePoint.box c r).Inside p then 0
  else
    let delta := p.sub c
    CubicFalloff (delta.dot delta) (r * r)

/-- The member `BlobTreePoint::K(const Segment&)`.  On the segments where
`BlobTreePoint.KNaN` holds the source returns NaN, which the field does not
have; on all others the value below is the one the source computes. -/
def BlobTreePoint.K (sqrt : α → α) (c : Vector α) (r e : α) (s : Segment α) : α :=
  let a := s.get 0
  let b := s.get 1
  if !s.Intersect (BlobTreePoint.box c r) then 0
  else
    let axis := Normalized sqrt (b.sub a)
    let l := (c.sub a).dot axis
    let kk :=
      if l < 0 then
        CubicFalloffK4 sqrt (SquaredNorm (c.sub a)) (SquaredNorm (c.sub b)) r e
      else if Norm sqrt (b.sub a) < l then
        CubicFalloffK4 sqrt (SquaredNorm (c.sub b)) (SquaredNorm (c.sub a)) r e
      else
        let dd := SquaredNorm (c.sub a) - l * l
        CubicFalloffK4 sqrt dd (Math.Max (SquaredNorm (c.sub b)) (SquaredNorm (c.sub a))) r e
    let grad := Math.Max (Math.Abs (axis.dot (Normalized sqrt (c.sub a))))
      (Math.Abs (axis.dot (Normalized sqrt (c.sub b))))
    kk * grad

/-- Whether `BlobTreePoint::K(const Segment&)` returns NaN, for `r > 0`.  Past
the box test, `axis = Normalized(b - a)` is NaN when `b - a` is null, and then
so are `l` and both arguments of `Math::Max` in `grad`; the second argument,
`Math::Abs(axis * Normalized(c - b))`, is NaN as well when `c - b` is null.
`Math::Max(x, y) = (x > y ? x : y)` is `y` when `x` is NaN and NaN when `y` is,
so `grad` is NaN exactly when its second argument is.  `kk` is finite either
way: a comparison with NaN is false, so with `l` NaN the last branch is taken
and `CubicFalloffK(NaN, b, R, s)` returns its second or its last branch.  Hence
`kk * grad` is NaN exactly when `b - a` or `c - b` is null.  When `c - a` alone
is null, `grad` is its second argument, which is also the value of
`BlobTreePoint.K` with the null vector for `Normalized(c - a)`. -/
def BlobTreePoint.KNaN (sqrt : α → α) (c : Vector α) (r : α) (s : Segment α) : Bool :=
  let a := s.get 0
  let b := s.get 1
  if !s.Intersect (BlobTreePoint.box c r) then false
  else Normalized.NaN sqrt (b.sub a) || Normalized.NaN sqrt (c.sub b)

/-- The member `GetBox`: the box set by the constructor of the node's class. -/
def BlobTreeNode.GetBox : BlobTreeNode α → Box α
  | .Point c r _ => BlobTreePoint.box c r
  | .Blend e1 e2 => Box.ofBoxes e1.GetBox e2.GetBox

/-- The virtual member `Intensity`: `BlobTreePoint::Intensity` on a point,
`BlobTreeBlend::Intensity` on a blend. -/
def BlobTreeNode.Intensity : BlobTreeNode α → Vector α → α
  | .Point c r e, p => BlobTreePoint.Intensity c r e p
  | .Blend e1 e2, p =>
    if !(Box.ofBoxes e1.GetBox e2.GetBox).Inside p then 0
    else e1.Intensity p + e2.Intensity p

/-- The virtual member `K()`: the member `k` set by `BlobTreePoint`'s
constructor on a point, `BlobTreeBlend::K()` on a blend. -/
def BlobTreeNode.K : BlobTreeNode α → α
  | .Point _ r e => CubicFalloffK e r
  | .Blend e1 e2 => e1.K + e2.K

/-- The virtual member `K(const Segment&)`: `BlobTreePoint::K` on a point,
`BlobTreeBlend::K` on a blend. -/
def BlobTreeNode.KSeg (sqrt : α → α) : BlobTreeNode α → Segment α → α
  | .Point c r e, s => BlobTreePoint.K sqrt c r e s
  | .Blend e1 e2, s =>
    if !(Box.ofBoxes e1.GetBox e2.GetBox).Intersect s.GetBox then 0
    else e1.KSeg sqrt s + e2.KSeg sqrt s

/-- Whether the virtual member `K(const Segment&)` returns NaN:
`BlobTreePoint.KNaN` on a point; a blend returns `0.0` when its box test fails
and otherwise the sum `e[0]->K(s) + e[1]->K(s)`, which is NaN when one of the
two is. -/
def BlobTreeNode.KSegNaN (sqrt : α → α) : BlobTreeNode α → Segment α → Bool
  | .Point c r _, s => BlobTreePoint.KNaN sqrt c r s
  | .Blend e1 e2, s =>
    if !(Box.ofBoxes e1.GetBox e2.GetBox).Intersect s.GetBox then false
    else e1.KSegNaN sqrt s || e2.KSegNaN sqrt s

/-- The contract of the library algorithm `std::partition`, which is not part
of the sources: the range is permuted so that the elements satisfying the
predicate precede those that do not.  The order inside the two groups is left
to the implementation, so the builder takes an implementation as a parameter. -/
structure StdPartition (β : Type) where
  run : (β → Bool) → List β → List β
  perm : ∀ p l, List.Perm (run p l) l
  split : ∀ p l, run p l = (run p l).filter p ++ (run p l).filter (fun x => !p x)

/-- An implementation of `std::partition` that keeps the relative order inside
both groups. -/
def StdPartition.stable (β : Type) : StdPartition β where
  run := fun p l => l.filter p ++ l.filter (fun x => !p x)
  perm := fun p l => by
    have h := List.filter_append_perm p l
    simpa using h
  split := fun p l => by
    simp only [List.filter_append, List.filter_filter]
    simp

/-- The elements of `pts` at the indices `begin ≤ i < end_`. -/
def slice {β : Type} (pts : List β) (begin end_ : Nat) : List β :=
  (pts.drop begin).take (end_ - begin)

/-- The vector `pts` with the range `begin ≤ i < end_` overwritten by `mid`. -/
def setSlice {β : Type} (pts : List β) (begin end_ : Nat) (mid : List β) : List β :=
  pts.take begin ++ mid ++ pts.drop end_

/-- The functor `BVHPartitionPredicate` local to `BVHRecursive`. -/
def BVHPartitionPredicate (axis : Nat) (cut : α) (p : BlobTreeNode α) : Bool :=
  decide (p.GetBox.Center.get axis < cut)

/-- The static member `BlobTreePoint::BVHRecursive(pts, begin, end)`.  The
vector `pts` is passed in and handed back, since `std::partition` reorders it
in place.  The first argument bounds the recursion depth; an access outside
the vector (undefined behaviour in C++) and exhausted fuel give `none`. -/
def BVHRecursive (P : StdPartition (BlobTreeNode α)) :
    Nat → List (BlobTreeNode α) → Nat → Nat → Option (BlobTreeNode α × List (BlobTreeNode α))
  | 0, _, _, _ => none
  | fuel + 1, pts, begin, end_ =>
    let nodeCount := end_ - begin
    if nodeCount ≤ 1 then
      match pts[begin]? with
      | none => none
      | some n => some (n, pts)
    else if pts.length < end_ then none
    else
      match pts[begin]? with
      | none => none
      | some first =>
        let bbox := (slice pts (begin + 1) end_).foldl
          (fun bb n => Box.ofBoxes bb n.GetBox) first.GetBox
        let stretchedAxis := bbox.Diagonal.MaxIndex
        let axisMiddleCut := ((bbox.get 0).get stretchedAxis + (bbox.get 1).get stretchedAxis) / 2
        let pred := BVHPartitionPredicate stretchedAxis axisMiddleCut
        let pts1 := setSlice pts begin end_ (P.run pred (slice pts begin end_))
        let pmid := begin + (slice pts begin end_).countP pred
        let midIndex := if pmid = begin ∨ pmid = end_ then (begin + end_) / 2 else pmid
        match BVHRecursive P fuel pts1 begin midIndex with
        | none => none
        | some (left, pts2) =>
          match BVHRecursive P fuel pts2 midIndex end_ with
          | none => none
          | some (right, pts3) => some (BlobTreeNode.Blend left right, pts3)

/-- The static member `BlobTreePoint::OptimizeHierarchy(pts, begin, end)`;
`none` is `nullptr`. -/
def OptimizeHierarchyRange (P : StdPartition (BlobTreeNode α))
    (pts : List (BlobTreeNode α)) (begin end_ : Nat) : Option (BlobTreeNode α) :=
  if pts.isEmpty then none
  else (BVHRecursive P (end_ - begin + 1) pts begin end_).map Prod.fst

/-- The static member `BlobTreePoint::OptimizeHierarchy(c, r)`: one point
primitive of radius `r` and energy `1.0f` per centre. -/
def OptimizeHierarchy (P : StdPartition (BlobTreeNode α))
    (c : List (Vector α)) (r : α) : Option (BlobTreeNode α) :=
  let all := c.map (fun ci => BlobTreeNode.Point ci r 1)
  OptimizeHierarchyRange P all 0 all.length

/-- The member `BlobTree::Intensity`: `root->Intensity(p) - 0.5f`; `none` when
the root is `nullptr`. -/
def BlobTree.Intensity (tree : BlobTree α) (p : Vector α) : Option α :=
  tree.root.map (fun root => root.Intensity p - 0.5)

/-- The member `BlobTree::K()`. -/
def BlobTree.K (tree : BlobTree α) : Option α :=
  tree.root.map (fun root => root.K)

/-- The member `BlobTree::K(const Segment&)`. -/
def BlobTree.KSeg (sqrt : α → α) (tree : BlobTree α) (s : Segment α) : Option α :=
  tree.root.map (fun root => root.KSeg sqrt s)

/-- Whether the member `BlobTree::K(const Segment&)` returns NaN. -/
def BlobTree.KSegNaN (sqrt : α → α) (tree : BlobTree α) (s : Segment α) : Option Bool :=
  tree.root.map (fun root => root.KSegNaN sqrt s)

/-- The member `BlobTree::GetBox`. -/
def BlobTree.GetBox (tree : BlobTree α) : Option (Box α) :=
  tree.root.map (fun root => root.GetBox)

/-- The leaves (point primitives) below a node, from left to right. -/
def BlobTreeNode.leaves : BlobTreeNode α → List (BlobTreeNode α)
  | .Point c r e => [.Point c r e]
  | .Blend e1 e2 => e1.leaves ++ e2.leaves

/-- The number of `BlobTreeBlend` nodes of a tree. -/
def BlobTreeNode.blendCount : BlobTreeNode α → Nat
  | .Point _ _ _ => 0
  | .Blend e1 e2 => e1.blendCount + e2.blendCount + 1

/-- A node is a leaf when it is a `BlobTreePoint`. -/
def BlobTreeNode.isPoint : BlobTreeNode α → Bool
  | .Point _ _ _ => true
  | .Blend _ _ => false

/-- Every point primitive of the tree has a positive radius. -/
def BlobTreeNode.PositiveRadii : BlobTreeNode α → Prop
  | .Point _ r _ => 0 < r
  | .Blend e1 e2 => e1.PositiveRadii ∧ e2.PositiveRadii

/-- Every point primitive of the tree has the energy `1.0`, the value
`OptimizeHierarchy(c, r)` gives to all of them. -/
def BlobTreeNode.UnitEnergy : BlobTreeNode α → Prop
  | .Point _ _ e => e = 1
  | .Blend e1 e2 => e1.UnitEnergy ∧ e2.UnitEnergy

/-- The plain sum over the leaves of a tree of the leaf intensities at `p`,
with no bounding-box test at the blend nodes. -/
def BlobTreeNode.plainSum (n : BlobTreeNode α) (p : Vector α) : α :=
  (n.leaves.map (fun l => l.Intensity p)).sum

/-- Every point primitive of the tree has a non-zero energy. -/
def BlobTreeNode.EnergyNonzero : BlobTreeNode α → Prop
  | .Point _ _ e => e ≠ 0
  | .Blend e1 e2 => e1.EnergyNonzero ∧ e2.EnergyNonzero

/-- The depth of a tree: the number of nodes on the longest path from the root
down to a leaf. -/
def BlobTreeNode.depth : BlobTreeNode α → Nat
  | .Point _ _ _ => 1
  | .Blend e1 e2 => 1 + max e1.depth e2.depth

/-- The loop of the constructor `BlobTree::BlobTree(const char* path)` over the
lines `std::getline` delivers: every pass runs `in >> x >> y >> z` on the line
and pushes `Vector(x, y, z)`.  The formatted extraction of the standard library
is not part of the sources; `extract` is what it leaves in `x`, `y` and `z`,
whatever the line holds. -/
def BlobTree.readCenters {Line : Type} (extract : Line → Vector α) (lines : List Line) :
    List (Vector α) :=
  lines.foldl (fun centers line => centers ++ [extract line]) []

/-- The constructor `BlobTree::BlobTree(const char* path)`: `file` is `none`
when the file cannot be opened and the list of its lines otherwise; the radius
`2.25` is the one the constructor hard-codes. -/
def BlobTree.ofFile {Line : Type} (P : StdPartition (BlobTreeNode α))
    (extract : Line → Vector α) (file : Option (List Line)) : BlobTree α :=
  match file with
  | none => ⟨none⟩
  | some lines => ⟨OptimizeHierarchy P (BlobTree.readCenters extract lines) 2.25⟩

/-- The virtual member `Gradient`: the central differences of
`BlobTreeNode::Gradient` on a point primitive, which does not override it, and
`BlobTreeBlend::Gradient` on a blend. -/
def BlobTreeNode.Gradient : BlobTreeNode α → Vector α → Vector α
  | .Point c r e, p =>
    let x := BlobTreePoint.Intensity c r e ⟨p.get 0 + Epsilon, p.get 1, p.get 2⟩
      - BlobTreePoint.Intensity c r e ⟨p.get 0 - Epsilon, p.get 1, p.get 2⟩
    let y := BlobTreePoint.Intensity c r e ⟨p.get 0, p.get 1 + Epsilon, p.get 2⟩
      - BlobTreePoint.Intensity c r e ⟨p.get 0, p.get 1 - Epsilon, p.get 2⟩
    let z := BlobTreePoint.Intensity c r e ⟨p.get 0, p.get 1, p.get 2 + Epsilon⟩
      - BlobTreePoint.Intensity c r e ⟨p.get 0, p.get 1, p.get 2 - Epsilon⟩
    (Vector.mk x y z).div (2 * Epsilon)
  | .Blend e1 e2, p =>
    if !(Box.ofBoxes e1.GetBox e2.GetBox).Inside p then Vector.splat 0
    else (e1.Gradient p).add (e2.Gradient p)

/-- The member `BlobTree::Gradient`. -/
def BlobTree.Gradient (tree : BlobTree α) (p : Vector α) : Option (Vector α) :=
  tree.root.map (fun root => root.Gradient p)

/-- One slab of `Box::Intersect(const Ray&, tmin, tmax, epsilon)`: the block
the function repeats for the axes Ox, Oy and Oz, with `a`, `b`, `p`, `d` the
coordinates on that axis of the two corners, of the ray origin and of the ray
direction.  The first component is `false` when the block executes `return 0`;
the other two are `tmin` and `tmax` as the block leaves them. -/
def Box.IntersectAxis (a b p d epsilon tmin tmax : α) : Bool × α × α :=
  if d < -epsilon then
    let t := (a - p) / d
    if t < tmin then (false, tmin, tmax)
    else
      let tmax1 := if t ≤ tmax then t else tmax
      let t1 := (b - p) / d
      if t1 ≥ tmin then
        if t1 > tmax1 then (false, tmin, tmax1) else (true, t1, tmax1)
      else (true, tmin, tmax1)
  else if d > epsilon then
    let t := (b - p) / d
    if t < tmin then (false, tmin, tmax)
    else
      let tmax1 := if t ≤ tmax then t else tmax
      let t1 := (a - p) / d
      if t1 ≥ tmin then
        if t1 > tmax1 then (false, tmin, tmax1) else (true, t1, tmax1)
      else (true, tmin, tmax1)
  else if p < a ∨ p > b then (false, tmin, tmax)
  else (true, tmin, tmax)

/-- The member `Box::Intersect(const Ray&, tmin, tmax, epsilon)`: the returned
`int` and the two output parameters. -/
def Box.IntersectRay (box : Box α) (ray : Ray α) (epsilon : α) : Int × α × α :=
  let tmin : α := -1e16
  let tmax : α := 1e16
  let p := ray.o
  let d := ray.d
  let x := Box.IntersectAxis (box.a.get 0) (box.b.get 0) (p.get 0) (d.get 0) epsilon tmin tmax
  if !x.1 then (0, x.2.1, x.2.2)
  else
    let y := Box.IntersectAxis (box.a.get 1) (box.b.get 1) (p.get 1) (d.get 1) epsilon
      x.2.1 x.2.2
    if !y.1 then (0, y.2.1, y.2.2)
    else
      let z := Box.IntersectAxis (box.a.get 2) (box.b.get 2) (p.get 2) (d.get 2) epsilon
        y.2.1 y.2.2
      if !z.1 then (0, z.2.1, z.2.2) else (1, z.2.1, z.2.2)

/-! ## main.cpp -/

/-- The function `ComputeRayFromPixel(px, py)`.  The file variables `camera`,
`imgWidth` and `imgHeight` it reads (`Vector(0, -80, 0)`, `500`, `500` in
`main.cpp`) are passed as arguments, and `sqrt`, `atan`, `tan` are the library
functions. -/
def ComputeRayFromPixel (sqrt atan tan : α → α) (camera : Vector α) (imgWidth imgHeight : Int)
    (px py : Int) : Ray α :=
  let cah : α := 1.995
  let fl : α := 35.0
  let view := Normalized sqrt camera.neg
  let horizontal := Normalized sqrt (view.cross ⟨0, 0, 1.0⟩)
  let vertical := Normalized sqrt (horizontal.cross view)
  let length : α := 1.0
  let avh := 2.0 * atan (cah * 25.4 * 0.5 / fl)
  let avv := 2.0 * atan (tan (avh / 2.0) * (imgHeight : α) / (imgWidth : α))
  let rad := avv
  let vLength := tan (rad / 2.0) * length
  let hLength := vLength * ((imgWidth : α) / (imgHeight : α))
  let vertical := vertical.mul vLength
  let horizontal := horizontal.mul hLength
  let x := (px : α) - (imgWidth : α) / 2.0
  let y := (imgHeight : α) / 2.0 - (py : α)
  let x := x / ((imgWidth : α) / 2.0)
  let y := y / ((imgHeight : α) / 2.0)
  ⟨camera, Normalized sqrt (((view.mul length).add (horizontal.mul x)).add (vertical.mul y))⟩

/-- What one pass through the body of a marching loop does: `hit t s` is
`return true` with the outputs `t` and `s` as they are then; `retreat` and
`advance` carry the loop variables at the end of a pass that took the branch
moving `t` backward, respectively the branch moving it forward. -/
inductive Pass (σ : Type) (α : Type) where
  | hit (t : α) (s : Int) : Pass σ α
  | retreat (st : σ) : Pass σ α
  | advance (st : σ) : Pass σ α

/-- The loop `while (t < b) { ... } return false;` that the three marchers
share, over their loop variables `σ`: `pass` is the body, `time` and `count` read
`t` and `s`.  The result is the returned `bool` with the outputs `t` and `s`.
The first argument bounds the number of passes; `none` when it is exhausted or
when the body has no defined result. -/
def marchLoop {σ : Type} (pass : σ → Option (Pass σ α)) (time : σ → α) (count : σ → Int)
    (b : α) : Nat → σ → Option (Bool × α × Int)
  | 0, _ => none
  | fuel + 1, st =>
    if time st < b then
      match pass st with
      | none => none
      | some (Pass.hit t s) => some (true, t, s)
      | some (Pass.retreat st1) => marchLoop pass time count b fuel st1
      | some (Pass.advance st1) => marchLoop pass time count b fuel st1
    else some (false, time st, count st)

/-- The loop variables of `while (t < b) { ... }` after `n` complete passes
started from `st`; `none` when the loop has left before. -/
def marchStates {σ : Type} (pass : σ → Option (Pass σ α)) (time : σ → α) (b : α) :
    Nat → σ → Option σ
  | 0, st => some st
  | n + 1, st =>
    if time st < b then
      match pass st with
      | some (Pass.retreat st1) => marchStates pass time b n st1
      | some (Pass.advance st1) => marchStates pass time b n st1
      | _ => none
    else none

/-- The loop variables of `SphereTrace`. -/
structure SphereTrace.State (α : Type) where
  t : α
  s : Int

/-- The body of the loop of `SphereTrace`. -/
def SphereTrace.pass (tree : BlobTree α) (ray : Ray α) (k : α) (st : SphereTrace.State α) :
    Option (Pass (SphereTrace.State α) α) :=
  let s := st.s + 1
  match tree.Intensity (ray.eval st.t) with
  | none => none
  | some I =>
    if I > 0 then some (Pass.hit st.t s)
    else
      let ts := Math.Max (|I| / k) Epsilon
      some (Pass.advance ⟨st.t + ts, s⟩)

/-- The function `SphereTrace(ray, t, s, k)` on the global `tree`: the
returned `bool` and the output parameters `t` and `s`, which keep the values
passed in when the ray misses the bounding box. -/
def SphereTrace (fuel : Nat) (tree : BlobTree α) (ray : Ray α) (t : α) (s : Int) (k : α) :
    Option (Bool × α × Int) :=
  match tree.GetBox with
  | none => none
  | some box =>
    let r := box.IntersectRay ray 1e-3
    if r.1 = 0 then some (false, t, s)
    else
      marchLoop (SphereTrace.pass tree ray k) SphereTrace.State.t SphereTrace.State.s r.2.2
        fuel ⟨r.2.1, 0⟩

/-- The loop variables of `EnhancedSphereTrace`. -/
structure EnhancedSphereTrace.State (α : Type) where
  t : α
  s : Int
  te : α

/-- The body of the loop of `EnhancedSphereTrace`, with the overstep factor
`e = 1.25`. -/
def EnhancedSphereTrace.pass (tree : BlobTree α) (ray : Ray α) (k : α)
    (st : EnhancedSphereTrace.State α) : Option (Pass (EnhancedSphereTrace.State α) α) :=
  let e : α := 1.25
  let s := st.s + 1
  match tree.Intensity (ray.eval st.t) with
  | none => none
  | some i =>
    if i > 0 then some (Pass.hit st.t s)
    else
      let tk := |i| / k
      if tk < (e - 1) * st.te then
        some (Pass.retreat ⟨st.t - (e - 1) * st.te, s, 0⟩)
      else
        some (Pass.advance ⟨st.t + Math.Max (tk * e) Epsilon, s, tk⟩)

/-- The function `EnhancedSphereTrace(ray, t, s, k)` on the global `tree`. -/
def EnhancedSphereTrace (fuel : Nat) (tree : BlobTree α) (ray : Ray α) (t : α) (s : Int)
    (k : α) : Option (Bool × α × Int) :=
  match tree.GetBox with
  | none => none
  | some box =>
    let r := box.IntersectRay ray 1e-3
    if r.1 = 0 then some (false, t, s)
    else
      marchLoop (EnhancedSphereTrace.pass tree ray k) EnhancedSphereTrace.State.t
        EnhancedSphereTrace.State.s r.2.2 fuel ⟨r.2.1, 0, 0⟩

/-- The loop variables of `SegmentTrace`. -/
structure SegmentTrace.State (α : Type) where
  t : α
  s : Int
  ts : α
  te : α

/-- The safe stepping distance of `SegmentTrace`:
`tk = fabs(i) / k; tk = Math::Min(tk, ts)`.  For `k = 0` the quotient of the
doubles is `+inf` (NaN when `i` is zero as well) and `Math::Min` of either with
`ts` returns `ts`; the field has no such values, so the case is spelled out. -/
def SegmentTrace.safeStep (i k ts : α) : α :=
  if k = 0 then ts else Math.Min (|i| / k) ts

/-- The variable `tk` of `SegmentTrace` after
`tk = fabs(i) / k; tk = Math::Min(tk, ts)`, where `nan` tells that `k` is NaN:
then the quotient is NaN and `Math::Min(NaN, ts) = (NaN < ts ? NaN : ts)` is
`ts`.  Otherwise it is `SegmentTrace.safeStep`. -/
def SegmentTrace.tk (nan : Bool) (i k ts : α) : α :=
  if nan then ts else SegmentTrace.safeStep i k ts

/-- The body of the loop of `SegmentTrace`, with the overstep factor `e = 1.0`
and the acceleration factor `c = 1.5`.  The value `k` of
`tree->K(Segment(pt, pts))` is read together with `BlobTree.KSegNaN`, which
tells whether it is NaN. -/
def SegmentTrace.pass (sqrt : α → α) (tree : BlobTree α) (ray : Ray α)
    (st : SegmentTrace.State α) : Option (Pass (SegmentTrace.State α) α) :=
  let e : α := 1.0
  let c : α := 1.5
  let ce := e - 1.0
  let s := st.s + 1
  match tree.Intensity (ray.eval st.t) with
  | none => none
  | some i =>
    if i > 0 then some (Pass.hit st.t s)
    else
      let pt := ray.eval st.t
      let pts := ray.eval (st.t + st.ts)
      match tree.KSeg sqrt ⟨pt, pts⟩ with
      | none => none
      | some k =>
        match tree.KSegNaN sqrt ⟨pt, pts⟩ with
        | none => none
        | some nan =>
          let tk := SegmentTrace.tk nan i k st.ts
          if tk < ce * st.te then
            some (Pass.retreat ⟨st.t - ce * st.te, s, tk * c, 0⟩)
          else
            let te := Math.Max (tk * e) Epsilon
            some (Pass.advance ⟨st.t + te, s, tk * c, te⟩)

/-- The function `SegmentTrace(ray, t, s)` on the global `tree`. -/
def SegmentTrace (sqrt : α → α) (fuel : Nat) (tree : BlobTree α) (ray : Ray α) (t : α)
    (s : Int) : Option (Bool × α × Int) :=
  match tree.GetBox with
  | none => none
  | some box =>
    let r := box.IntersectRay ray 1e-3
    if r.1 = 0 then some (false, t, s)
    else
      marchLoop (SegmentTrace.pass sqrt tree ray) SegmentTrace.State.t SegmentTrace.State.s
        r.2.2 fuel ⟨r.2.1, 0, r.2.2 - r.2.1, 0⟩

/-- The enumeration `RayTraceMethod`. -/
inductive RayTraceMethod where
  | SphereTracing
  | EnhancedSphereTracing
  | SegmentTracing
  | COUNT

/-- The block `// Compute intersection` of `PixelColor`: the `switch` over the
method, started with `t = 0.0` and `s = 0`; the `default` branch sets
`hit = false` and leaves `t` and `s` as they are. -/
def PixelColor.trace (sqrt : α → α) (fuel : Nat) (tree : BlobTree α) (ray : Ray α) (k : α)
    (method : RayTraceMethod) : Option (Bool × α × Int) :=
  match method with
  | .SphereTracing => SphereTrace fuel tree ray 0.0 0 k
  | .EnhancedSphereTracing => EnhancedSphereTrace fuel tree ray 0.0 0 k
  | .SegmentTracing => SegmentTrace sqrt fuel tree ray 0.0 0
  | .COUNT => some (false, 0.0, 0)

/-- The function `PixelColor(i, j, k, method, color, cost)`: the two output
parameters `color` and `cost`.  The file variables `tree`, `camera`, `sunDir`,
`imgWidth` and `imgHeight` are passed as arguments; `fuel` bounds the passes of
the marching loop. -/
def PixelColor (sqrt atan tan : α → α) (fuel : Nat) (tree : BlobTree α)
    (camera sunDir : Vector α) (imgWidth imgHeight : Int) (i j : Int) (k : α)
    (method : RayTraceMethod) : Option (Vector α × Vector α) :=
  let ray := ComputeRayFromPixel sqrt atan tan camera imgWidth imgHeight i j
  match PixelColor.trace sqrt fuel tree ray k method with
  | none => none
  | some (hit, t, s) =>
    let c := Math.Min ((s : α) / 512) 1.0
    let cost : Vector α := ⟨0, c * 255.0, 0⟩
    if hit then
      let hitPosition := ray.eval t
      match tree.Gradient hitPosition with
      | none => none
      | some g =>
        let hitNormal := (Normalized sqrt g).neg
        let NDotL := Math.Max (hitNormal.dot sunDir) 0.1
        some (⟨255 * NDotL, 0, 0⟩, cost)
    else some (⟨0, 0, 0⟩, cost)

/-- The conversion `color[n] = ((int)c[n]) % 256` of `WriteToFile`: the cast to
`int` truncates toward zero, `%` is the remainder of the truncated division, and
the store into an `unsigned char` reduces modulo `256`.  (The cast is defined in
C++ only when the truncated value fits an `int`.) -/
def WriteToFile.channel [FloorRing α] (x : α) : Nat :=
  (Int.tmod (if 0 ≤ x then ⌊x⌋ else ⌈x⌉) 256 % 256).toNat

/-- The three bytes `WriteToFile` writes for one pixel. -/
def WriteToFile.pixel [FloorRing α] (c : Vector α) : List Nat :=
  [WriteToFile.channel (c.get 0), WriteToFile.channel (c.get 1), WriteToFile.channel (c.get 2)]

/-- The bytes `WriteToFile` writes after the header: the pixels `pixels[j][i]`
row by row, `i` over the height and `j` over the width. -/
def WriteToFile.body [FloorRing α] (pixels : Nat → Nat → Vector α) (imgWidth imgHeight : Nat) :
    List Nat :=
  (List.range imgHeight).flatMap (fun i =>
    (List.range imgWidth).flatMap (fun j => WriteToFile.pixel (pixels j i)))

/-! ## Uniform grids of centres -/

/-- The point of the grid with origin `o` and spacings `h` at the indices
`m 0`, `m 1`, `m 2`. -/
def gridPoint (o h : Vector α) (m : Nat → Nat) : Vector α :=
  ⟨o.c0 + (m 0 : α) * h.c0, o.c1 + (m 1 : α) * h.c1, o.c2 + (m 2 : α) * h.c2⟩

/-- The list `centers` holds, once each, the points of the grid whose index on
the axis `i` runs over the `2 ^ e i` values from `lo i` on. -/
def IsGridBlock (o h : Vector α) (lo e : Nat → Nat) (centers : List (Vector α)) : Prop :=
  centers.Nodup ∧ ∀ c, c ∈ centers ↔
    ∃ m : Nat → Nat, (∀ i, i < 3 → lo i ≤ m i ∧ m i < lo i + 2 ^ e i) ∧ c = gridPoint o h m

end Defs

section Theorems

variable {α : Type}

/-! ## Compact support and bounding-box pruning -/

theorem Box.Inside_eq_true_iff [LinearOrderedField α] (box : Box α) (p : Vector α) :
    box.Inside p = true ↔
      (box.a.c0 < p.c0 ∧ box.a.c1 < p.c1 ∧ box.a.c2 < p.c2) ∧
      (p.c0 < box.b.c0 ∧ p.c1 < box.b.c1 ∧ p.c2 < box.b.c2) := by
  simp [Box.Inside, Vector.gt, Vector.lt, and_assoc]

theorem Box.Inside_ofBoxes_left [LinearOrderedField α] (b1 b2 : Box α) (p : Vector α)
    (h : b1.Inside p = true) : (Box.ofBoxes b1 b2).Inside p = true := by
  rw [Box.Inside_eq_true_iff] at h ⊢
  obtain ⟨⟨h0, h1, h2⟩, h3, h4, h5⟩ := h
  simp only [Box.ofBoxes, Vector.Min, Vector.Max]
  refine ⟨⟨?_, ?_, ?_⟩, ?_, ?_, ?_⟩ <;> split_ifs <;> linarith

theorem Box.Inside_ofBoxes_right [LinearOrderedField α] (b1 b2 : Box α) (p : Vector α)
    (h : b2.Inside p = true) : (Box.ofBoxes b1 b2).Inside p = true := by
  rw [Box.Inside_eq_true_iff] at h ⊢
  obtain ⟨⟨h0, h1, h2⟩, h3, h4, h5⟩ := h
  simp only [Box.ofBoxes, Vector.Min, Vector.Max]
  refine ⟨⟨?_, ?_, ?_⟩, ?_, ?_, ?_⟩ <;> split_ifs <;> linarith

theorem BlobTreeNode.Intensity_eq_zero_of_not_inside [LinearOrderedField α] (n : BlobTreeNode α) (p : Vector α)
    (h : n.GetBox.Inside p = false) : n.Intensity p = 0 := by
  cases n with
  | Point c r e =>
    simp only [BlobTreeNode.GetBox] at h
    simp [BlobTreeNode.Intensity, BlobTreePoint.Intensity, h]
  | Blend e1 e2 =>
    simp only [BlobTreeNode.GetBox] at h
    simp [BlobTreeNode.Intensity, h]

theorem BlobTreeNode.Intensity_blend [LinearOrderedField α] (e1 e2 : BlobTreeNode α) (p : Vector α) :
    (BlobTreeNode.Blend e1 e2).Intensity p = e1.Intensity p + e2.Intensity p := by
  by_cases h : (Box.ofBoxes e1.GetBox e2.GetBox).Inside p = true
  · simp [BlobTreeNode.Intensity, h]
  · have h1 : e1.GetBox.Inside p = false := by
      by_contra hc
      exact h (Box.Inside_ofBoxes_left _ _ _ (by simpa using hc))
    have h2 : e2.GetBox.Inside p = false := by
      by_contra hc
      exact h (Box.Inside_ofBoxes_right _ _ _ (by simpa using hc))
    rw [BlobTreeNode.Intensity_eq_zero_of_not_inside e1 p h1,
      BlobTreeNode.Intensity_eq_zero_of_not_inside e2 p h2]
    simp [BlobTreeNode.Intensity, h]

theorem BlobTreeNode.Intensity_eq_sum_leaves [LinearOrderedField α] (n : BlobTreeNode α) (p : Vector α) :
    n.Intensity p = (n.leaves.map (fun l => l.Intensity p)).sum := by
  induction n with
  | Point c r e => simp [BlobTreeNode.leaves]
  | Blend e1 e2 ih1 ih2 =>
    rw [BlobTreeNode.Intensity_blend, ih1, ih2]
    simp [BlobTreeNode.leaves]

/-! ## Ranges of the node vector -/

theorem slice_append {β : Type} (pts : List β) (b m e : Nat) (hbm : b ≤ m) (hme : m ≤ e) :
    slice pts b m ++ slice pts m e = slice pts b e := by
  unfold slice
  have h1 : pts.drop m = (pts.drop b).drop (m - b) := by
    rw [List.drop_drop]; congr 1; omega
  rw [h1]
  have h2 : e - b = (m - b) + (e - m) := by omega
  rw [h2, List.take_add]

theorem slice_length {β : Type} (pts : List β) (b e : Nat) (he : e ≤ pts.length) :
    (slice pts b e).length = e - b := by
  unfold slice
  rw [List.length_take, List.length_drop]; omega

theorem setSlice_length {β : Type} (pts mid : List β) (b e : Nat) (hbe : b ≤ e)
    (he : e ≤ pts.length) (hm : mid.length = e - b) :
    (setSlice pts b e mid).length = pts.length := by
  unfold setSlice
  simp only [List.length_append, List.length_take, List.length_drop, hm]; omega

theorem setSlice_take {β : Type} (pts mid : List β) (b e : Nat) (hbe : b ≤ e)
    (he : e ≤ pts.length) :
    (setSlice pts b e mid).take b = pts.take b := by
  unfold setSlice
  rw [List.append_assoc, List.take_append_of_le_length (by rw [List.length_take]; omega)]
  rw [List.take_take]; simp

theorem drop_append_of_length {β : Type} (l1 l2 : List β) (n : Nat) (h : l1.length = n) :
    (l1 ++ l2).drop n = l2 := by
  subst h; simp

theorem take_append_of_length {β : Type} (l1 l2 : List β) (n : Nat) (h : l1.length = n) :
    (l1 ++ l2).take n = l1 := by
  subst h; simp

theorem setSlice_drop {β : Type} (pts mid : List β) (b e : Nat) (hbe : b ≤ e)
    (he : e ≤ pts.length) (hm : mid.length = e - b) :
    (setSlice pts b e mid).drop e = pts.drop e := by
  unfold setSlice
  apply drop_append_of_length
  rw [List.length_append, List.length_take, hm]; omega

theorem setSlice_slice {β : Type} (pts mid : List β) (b e : Nat) (hbe : b ≤ e)
    (he : e ≤ pts.length) (hm : mid.length = e - b) :
    slice (setSlice pts b e mid) b e = mid := by
  unfold setSlice slice
  have hl : (pts.take b).length = b := by rw [List.length_take]; omega
  rw [List.append_assoc, drop_append_of_length _ _ _ hl, take_append_of_length _ _ _ hm]

theorem slice_congr {β : Type} (p q : List β) (b e : Nat) (h : p.drop b = q.drop b) :
    slice p b e = slice q b e := by
  unfold slice; rw [h]

theorem drop_congr_of_le {β : Type} (p q : List β) (m e : Nat) (hme : m ≤ e)
    (h : p.drop m = q.drop m) : p.drop e = q.drop e := by
  have : ∀ l : List β, l.drop e = (l.drop m).drop (e - m) := by
    intro l; rw [List.drop_drop]; congr 1; omega
  rw [this p, this q, h]

theorem take_congr_of_le {β : Type} (p q : List β) (b m : Nat) (hbm : b ≤ m)
    (h : p.take m = q.take m) : p.take b = q.take b := by
  have : ∀ l : List β, l.take b = (l.take m).take b := by
    intro l; rw [List.take_take]; congr 1; omega
  rw [this p, this q, h]

theorem slice_singleton {β : Type} (pts : List β) (b : Nat) (x : β) (h : pts[b]? = some x) :
    slice pts b (b + 1) = [x] := by
  unfold slice
  have hb : b < pts.length := by
    by_contra hc
    rw [List.getElem?_eq_none (by omega)] at h
    exact absurd h (by simp)
  rw [List.getElem?_eq_getElem hb] at h
  have h1 : b + 1 - b = 1 := by omega
  rw [h1, List.drop_eq_getElem_cons hb]
  simp only [Option.some.injEq] at h
  simp [h]

theorem BVHRecursive_spec [LinearOrderedField α] (P : StdPartition (BlobTreeNode α)) :
    ∀ (fuel : Nat) (pts : List (BlobTreeNode α)) (b e : Nat),
      b < e → e ≤ pts.length → e - b ≤ fuel →
      ∃ root pts', BVHRecursive P fuel pts b e = some (root, pts') ∧
        pts'.length = pts.length ∧ pts'.take b = pts.take b ∧ pts'.drop e = pts.drop e ∧
        root.leaves.Perm ((slice pts b e).flatMap BlobTreeNode.leaves) := by
  intro fuel
  induction fuel with
  | zero => intro pts b e hbe he hf; omega
  | succ fuel ih =>
    intro pts b e hbe he hf
    have hb : b < pts.length := by omega
    obtain ⟨first, hfirst⟩ : ∃ first, pts[b]? = some first :=
      ⟨pts[b], List.getElem?_eq_getElem hb⟩
    by_cases h1 : e - b ≤ 1
    · have he1 : e = b + 1 := by omega
      refine ⟨first, pts, ?_, rfl, rfl, rfl, ?_⟩
      · simp [BVHRecursive, h1, hfirst]
      · rw [he1, slice_singleton pts b first hfirst]
        simp
    · have hlen : ¬ pts.length < e := by omega
      simp only [BVHRecursive, h1, if_false, hlen, hfirst]
      generalize @BVHPartitionPredicate α _ _ _ = pred
      have hrun : (P.run pred (slice pts b e)).length = e - b := by
        rw [(P.perm pred (slice pts b e)).length_eq, slice_length pts b e he]
      have hcount : (slice pts b e).countP pred ≤ e - b := by
        have hc : (slice pts b e).countP pred ≤ (slice pts b e).length :=
          List.countP_le_length pred
        rw [slice_length pts b e he] at hc
        exact hc
      generalize hmid : (if b + (slice pts b e).countP pred = b ∨
          b + (slice pts b e).countP pred = e then (b + e) / 2
          else b + (slice pts b e).countP pred) = mid
      have hmid1 : b < mid ∧ mid < e := by
        rw [← hmid]; split_ifs with hc <;> omega
      generalize hpts1 : setSlice pts b e (P.run pred (slice pts b e)) = pts1
      have hl1 : pts1.length = pts.length := by
        rw [← hpts1]; exact setSlice_length _ _ _ _ hbe.le he hrun
      have ht1 : pts1.take b = pts.take b := by
        rw [← hpts1]; exact setSlice_take _ _ _ _ hbe.le he
      have hd1 : pts1.drop e = pts.drop e := by
        rw [← hpts1]; exact setSlice_drop _ _ _ _ hbe.le he hrun
      have hs1 : (slice pts1 b e).Perm (slice pts b e) := by
        rw [← hpts1, setSlice_slice _ _ _ _ hbe.le he hrun]; exact P.perm _ _
      obtain ⟨left, pts2, hL, hl2, ht2, hd2, hp2⟩ :=
        ih pts1 b mid hmid1.1 (by omega) (by omega)
      obtain ⟨right, pts3, hR, hl3, ht3, hd3, hp3⟩ :=
        ih pts2 mid e hmid1.2 (by omega) (by omega)
      refine ⟨BlobTreeNode.Blend left right, pts3, ?_, ?_, ?_, ?_, ?_⟩
      · rw [hL]; simp only; rw [hR]
      · rw [hl3, hl2, hl1]
      · rw [take_congr_of_le pts3 pts2 b mid hmid1.1.le ht3, ht2, ht1]
      · rw [hd3, drop_congr_of_le pts2 pts1 mid e hmid1.2.le hd2, hd1]
      · rw [slice_congr pts2 pts1 mid e hd2] at hp3
        have := hp2.append hp3
        rw [← List.flatMap_append, slice_append pts1 b mid e hmid1.1.le hmid1.2.le] at this
        simp only [BlobTreeNode.leaves]
        exact this.trans (hs1.flatMap_right _)

theorem BlobTreeNode.leaves_length (n : BlobTreeNode α) : n.leaves.length = n.blendCount + 1 := by
  induction n with
  | Point c r e => simp [BlobTreeNode.leaves, BlobTreeNode.blendCount]
  | Blend e1 e2 ih1 ih2 =>
    simp [BlobTreeNode.leaves, BlobTreeNode.blendCount, ih1, ih2]; omega

theorem BlobTreeNode.K_eq_sum_leaves [LinearOrderedField α] (n : BlobTreeNode α) :
    n.K = (n.leaves.map BlobTreeNode.K).sum := by
  induction n with
  | Point c r e => simp [BlobTreeNode.leaves]
  | Blend e1 e2 ih1 ih2 =>
    simp [BlobTreeNode.leaves, BlobTreeNode.K, ih1, ih2]

theorem flatMap_leaves_of_isPoint (l : List (BlobTreeNode α))
    (h : ∀ n ∈ l, n.isPoint = true) : l.flatMap BlobTreeNode.leaves = l := by
  induction l with
  | nil => simp
  | cons x xs ih =>
    have hx := h x (by simp)
    have hxs := ih (fun n hn => h n (by simp [hn]))
    cases x with
    | Point c r e => simp [List.flatMap_cons, BlobTreeNode.leaves, hxs]
    | Blend e1 e2 => simp [BlobTreeNode.isPoint] at hx

theorem slice_full {β : Type} (pts : List β) : slice pts 0 pts.length = pts := by
  simp [slice]

/-- The builder on the whole vector: the leaves, the number of blends and the
global bound of the result. -/
theorem BVHRecursive_whole [LinearOrderedField α] (P : StdPartition (BlobTreeNode α))
    (pts : List (BlobTreeNode α)) (hne : pts ≠ [])
    (hleaf : ∀ n ∈ pts, n.isPoint = true) (fuel : Nat) (hfuel : pts.length ≤ fuel) :
    ∃ root pts', BVHRecursive P fuel pts 0 pts.length = some (root, pts') ∧
      root.leaves.Perm pts ∧
      root.blendCount = pts.length - 1 ∧
      root.K = (pts.map BlobTreeNode.K).sum := by
  have hpos : 0 < pts.length := List.length_pos.mpr hne
  obtain ⟨root, pts', h, -, -, -, hp⟩ :=
    BVHRecursive_spec P fuel pts 0 pts.length hpos le_rfl (by omega)
  rw [slice_full, flatMap_leaves_of_isPoint pts hleaf] at hp
  refine ⟨root, pts', h, hp, ?_, ?_⟩
  · have := BlobTreeNode.leaves_length root
    rw [hp.length_eq] at this; omega
  · rw [BlobTreeNode.K_eq_sum_leaves root]
    exact (hp.map _).sum_eq

/-! ## The cubic falloff along a path -/

theorem CubicFalloff_of_le (x R : ℝ) (h : x ≤ R) : CubicFalloff x R = (1 - x / R) ^ 3 := by
  unfold CubicFalloff
  rw [if_neg (not_lt.mpr h)]; ring

theorem CubicFalloff_of_ge (x R : ℝ) (hR : 0 < R) (h : R ≤ x) : CubicFalloff x R = 0 := by
  unfold CubicFalloff
  split_ifs with hx
  · rfl
  · have : x = R := le_antisymm (not_lt.mp hx) h
    rw [this, div_self hR.ne']; ring

theorem quad_sublevel_convex (A M L2 R : ℝ) (hL2 : 0 ≤ L2) :
    Convex ℝ {σ : ℝ | 0 ≤ σ ∧ σ ≤ 1 ∧ A + 2 * σ * M + σ ^ 2 * L2 ≤ R} := by
  apply Set.OrdConnected.convex
  refine ⟨fun x hx y hy z hz => ?_⟩
  obtain ⟨hx0, hx1, hxW⟩ := hx
  obtain ⟨hy0, hy1, hyW⟩ := hy
  obtain ⟨hxz, hzy⟩ := hz
  refine ⟨by linarith, by linarith, ?_⟩
  by_cases hxy : x = y
  · have : z = x := le_antisymm (by linarith) hxz
    rw [this]; exact hxW
  · have hlt : 0 < y - x := by
      have : x ≤ y := le_trans hxz hzy
      exact sub_pos.mpr (lt_of_le_of_ne this hxy)
    have key : (A + 2 * z * M + z ^ 2 * L2) * (y - x) =
        (A + 2 * x * M + x ^ 2 * L2) * (y - z) + (A + 2 * y * M + y ^ 2 * L2) * (z - x)
          - L2 * ((z - x) * (y - z) * (y - x)) := by ring
    have h1 : (A + 2 * x * M + x ^ 2 * L2) * (y - z) ≤ R * (y - z) :=
      mul_le_mul_of_nonneg_right hxW (by linarith)
    have h2 : (A + 2 * y * M + y ^ 2 * L2) * (z - x) ≤ R * (z - x) :=
      mul_le_mul_of_nonneg_right hyW (by linarith)
    have h3 : 0 ≤ L2 * ((z - x) * (y - z) * (y - x)) :=
      mul_nonneg hL2 (mul_nonneg (mul_nonneg (by linarith) (by linarith)) hlt.le)
    have h4 : (A + 2 * z * M + z ^ 2 * L2) * (y - x) ≤ R * (y - x) := by
      rw [key]; nlinarith
    exact le_of_mul_le_mul_right h4 hlt

theorem cubic_path_hasDerivAt (A M L2 R σ : ℝ) :
    HasDerivAt (fun σ : ℝ => (1 - (A + 2 * σ * M + σ ^ 2 * L2) / R) ^ 3)
      (-(3 * (1 - (A + 2 * σ * M + σ ^ 2 * L2) / R) ^ 2 * ((2 * M + 2 * σ * L2) / R))) σ := by
  have hW : HasDerivAt (fun σ : ℝ => A + 2 * σ * M + σ ^ 2 * L2) (2 * M + 2 * σ * L2) σ := by
    have h1 : HasDerivAt (fun σ : ℝ => 2 * σ * M) (2 * M) σ := by
      have := ((hasDerivAt_id σ).const_mul (2 : ℝ)).mul_const M
      simpa using this
    have h2 : HasDerivAt (fun σ : ℝ => σ ^ 2 * L2) (2 * σ * L2) σ := by
      have := ((hasDerivAt_id σ).pow 2).mul_const L2
      simpa using this
    have := ((hasDerivAt_const σ A).add h1).add h2
    simpa using this
  have h3 := ((hasDerivAt_const σ (1 : ℝ)).sub (hW.div_const R)).pow 3
  convert h3 using 1
  simp

theorem cubic_path_lipschitz (A M L2 R C : ℝ) (hR : 0 < R) (hL2 : 0 ≤ L2) (hC : 0 ≤ C)
    (hbound : ∀ σ : ℝ, 0 ≤ σ → σ ≤ 1 → A + 2 * σ * M + σ ^ 2 * L2 ≤ R →
      |3 * (1 - (A + 2 * σ * M + σ ^ 2 * L2) / R) ^ 2 * ((2 * M + 2 * σ * L2) / R)| ≤ C)
    (σ₁ σ₂ : ℝ) (h1 : 0 ≤ σ₁ ∧ σ₁ ≤ 1) (h2 : 0 ≤ σ₂ ∧ σ₂ ≤ 1) :
    |CubicFalloff (A + 2 * σ₁ * M + σ₁ ^ 2 * L2) R
      - CubicFalloff (A + 2 * σ₂ * M + σ₂ ^ 2 * L2) R| ≤ C * |σ₁ - σ₂| := by
  -- Lipschitz estimate inside the support
  have hin : ∀ x y : ℝ, (0 ≤ x ∧ x ≤ 1 ∧ A + 2 * x * M + x ^ 2 * L2 ≤ R) →
      (0 ≤ y ∧ y ≤ 1 ∧ A + 2 * y * M + y ^ 2 * L2 ≤ R) →
      |(1 - (A + 2 * x * M + x ^ 2 * L2) / R) ^ 3 - (1 - (A + 2 * y * M + y ^ 2 * L2) / R) ^ 3|
        ≤ C * |x - y| := by
    intro x y hx hy
    have hderiv : ∀ z ∈ {σ : ℝ | 0 ≤ σ ∧ σ ≤ 1 ∧ A + 2 * σ * M + σ ^ 2 * L2 ≤ R},
        HasDerivWithinAt (fun σ : ℝ => (1 - (A + 2 * σ * M + σ ^ 2 * L2) / R) ^ 3)
          ((fun σ : ℝ => -(3 * (1 - (A + 2 * σ * M + σ ^ 2 * L2) / R) ^ 2 *
            ((2 * M + 2 * σ * L2) / R))) z)
          {σ : ℝ | 0 ≤ σ ∧ σ ≤ 1 ∧ A + 2 * σ * M + σ ^ 2 * L2 ≤ R} z :=
      fun z _ => (cubic_path_hasDerivAt A M L2 R z).hasDerivWithinAt
    have hnorm : ∀ z ∈ {σ : ℝ | 0 ≤ σ ∧ σ ≤ 1 ∧ A + 2 * σ * M + σ ^ 2 * L2 ≤ R},
        ‖(fun σ : ℝ => -(3 * (1 - (A + 2 * σ * M + σ ^ 2 * L2) / R) ^ 2 *
            ((2 * M + 2 * σ * L2) / R))) z‖ ≤ C := by
      intro z hz
      simp only [norm_neg, Real.norm_eq_abs]
      exact hbound z hz.1 hz.2.1 hz.2.2
    have := Convex.norm_image_sub_le_of_norm_hasDerivWithin_le hderiv hnorm
      (quad_sublevel_convex A M L2 R hL2) hy hx
    simpa [Real.norm_eq_abs] using this
  -- one point inside, one outside
  have hmixed : ∀ x y : ℝ, (0 ≤ x ∧ x ≤ 1) → (0 ≤ y ∧ y ≤ 1) →
      A + 2 * x * M + x ^ 2 * L2 ≤ R → R < A + 2 * y * M + y ^ 2 * L2 →
      |(1 - (A + 2 * x * M + x ^ 2 * L2) / R) ^ 3| ≤ C * |x - y| := by
    intro x y hx hy hxW hyW
    have hcont : ContinuousOn (fun σ : ℝ => A + 2 * σ * M + σ ^ 2 * L2) (Set.uIcc x y) := by
      apply Continuous.continuousOn; continuity
    have hmem : R ∈ Set.uIcc (A + 2 * x * M + x ^ 2 * L2) (A + 2 * y * M + y ^ 2 * L2) :=
      Set.mem_uIcc.mpr (Or.inl ⟨hxW, hyW.le⟩)
    obtain ⟨z, hz, hzW⟩ := intermediate_value_uIcc hcont hmem
    simp only at hzW
    have hz' : min x y ≤ z ∧ z ≤ max x y := Set.mem_Icc.mp hz
    have hz01 : 0 ≤ z ∧ z ≤ 1 :=
      ⟨le_trans (le_min hx.1 hy.1) hz'.1, le_trans hz'.2 (max_le hx.2 hy.2)⟩
    have h := hin x z ⟨hx.1, hx.2, hxW⟩ ⟨hz01.1, hz01.2, hzW.le⟩
    rw [hzW, div_self hR.ne'] at h
    have hxz : |x - z| ≤ |x - y| := by
      rcases le_total x y with hxy | hxy
      · rw [min_eq_left hxy, max_eq_right hxy] at hz'
        rw [abs_sub_comm x z, abs_sub_comm x y, abs_of_nonneg (by linarith),
          abs_of_nonneg (by linarith)]
        linarith
      · rw [min_eq_right hxy, max_eq_left hxy] at hz'
        rw [abs_of_nonneg (by linarith), abs_of_nonneg (by linarith)]
        linarith
    calc |(1 - (A + 2 * x * M + x ^ 2 * L2) / R) ^ 3|
        = |(1 - (A + 2 * x * M + x ^ 2 * L2) / R) ^ 3 - (1 - 1) ^ 3| := by norm_num
      _ ≤ C * |x - z| := h
      _ ≤ C * |x - y| := mul_le_mul_of_nonneg_left hxz hC
  rcases le_or_lt (A + 2 * σ₁ * M + σ₁ ^ 2 * L2) R with hW1 | hW1 <;>
    rcases le_or_lt (A + 2 * σ₂ * M + σ₂ ^ 2 * L2) R with hW2 | hW2
  · rw [CubicFalloff_of_le _ _ hW1, CubicFalloff_of_le _ _ hW2]
    exact hin σ₁ σ₂ ⟨h1.1, h1.2, hW1⟩ ⟨h2.1, h2.2, hW2⟩
  · rw [CubicFalloff_of_le _ _ hW1, CubicFalloff_of_ge _ _ hR hW2.le, sub_zero]
    exact hmixed σ₁ σ₂ h1 h2 hW1 hW2
  · rw [CubicFalloff_of_ge _ _ hR hW1.le, CubicFalloff_of_le _ _ hW2, zero_sub, abs_neg,
      abs_sub_comm]
    exact hmixed σ₂ σ₁ h2 h1 hW2 hW1
  · rw [CubicFalloff_of_ge _ _ hR hW1.le, CubicFalloff_of_ge _ _ hR hW2.le]
    simp only [sub_self, abs_zero]
    exact mul_nonneg hC (abs_nonneg _)

/-! ## The radial slope of the falloff -/

theorem quintic_le (v : ℝ) (h1 : v ≤ 1) : v * (1 - v) ^ 4 ≤ 256 / 3125 := by
  have hR : 0 ≤ -v ^ 3 + 18 / 5 * v ^ 2 - 113 / 25 * v + 256 / 125 := by
    nlinarith [sq_nonneg (v - 13 / 10), mul_nonneg (sub_nonneg.mpr h1) (sq_nonneg (v - 13 / 10))]
  have h := mul_nonneg (sq_nonneg (v - 1 / 5)) hR
  nlinarith [h]

theorem quintic_hasDerivAt (v : ℝ) :
    HasDerivAt (fun v : ℝ => v * (1 - v) ^ 4) ((1 - v) ^ 3 * (1 - 5 * v)) v := by
  have h1 : HasDerivAt (fun v : ℝ => (1 - v) ^ 4) (4 * (1 - v) ^ 3 * (0 - 1)) v := by
    have := ((hasDerivAt_const v (1 : ℝ)).sub (hasDerivAt_id v)).pow 4
    simpa using this
  have := (hasDerivAt_id v).mul h1
  convert this using 1
  simp; ring

theorem quintic_monotoneOn : MonotoneOn (fun v : ℝ => v * (1 - v) ^ 4) (Set.Icc 0 (1 / 5)) := by
  apply monotoneOn_of_deriv_nonneg (convex_Icc _ _)
  · apply Continuous.continuousOn; continuity
  · intro x _; exact (quintic_hasDerivAt x).differentiableAt.differentiableWithinAt
  · intro x hx
    rw [interior_Icc] at hx
    rw [(quintic_hasDerivAt x).deriv]
    have h1 : 0 ≤ 1 - x := by linarith [hx.2]
    have h2 : 0 ≤ 1 - 5 * x := by linarith [hx.2]
    positivity

theorem quintic_antitoneOn : AntitoneOn (fun v : ℝ => v * (1 - v) ^ 4) (Set.Icc (1 / 5) 1) := by
  apply antitoneOn_of_deriv_nonpos (convex_Icc _ _)
  · apply Continuous.continuousOn; continuity
  · intro x _; exact (quintic_hasDerivAt x).differentiableAt.differentiableWithinAt
  · intro x hx
    rw [interior_Icc] at hx
    rw [(quintic_hasDerivAt x).deriv]
    have h1 : 0 ≤ (1 - x) ^ 3 := by
      have : 0 ≤ 1 - x := by linarith [hx.2]
      positivity
    have h2 : 1 - 5 * x ≤ 0 := by linarith [hx.1]
    exact mul_nonpos_of_nonneg_of_nonpos h1 h2

/-- The radial slope `sqrt w / R² * (1 - w / R²)²`, squared. -/
theorem slope_sq (w r : ℝ) (hr : 0 < r) (hw : 0 ≤ w) :
    (Real.sqrt w / (r * r) * ((1 - w / (r * r)) * (1 - w / (r * r)))) ^ 2 =
      (w / (r * r)) * (1 - w / (r * r)) ^ 4 / (r * r) := by
  have h := Real.sq_sqrt hw
  have hr2 : r * r ≠ 0 := (mul_pos hr hr).ne'
  calc (Real.sqrt w / (r * r) * ((1 - w / (r * r)) * (1 - w / (r * r)))) ^ 2
      = Real.sqrt w ^ 2 * ((1 - w / (r * r)) ^ 4 / (r * r) ^ 2) := by ring
    _ = w * ((1 - w / (r * r)) ^ 4 / (r * r) ^ 2) := by rw [h]
    _ = (w / (r * r)) * (1 - w / (r * r)) ^ 4 / (r * r) := by ring

theorem slope_nonneg (w r : ℝ) :
    0 ≤ Real.sqrt w / (r * r) * ((1 - w / (r * r)) * (1 - w / (r * r))) := by
  apply mul_nonneg
  · exact div_nonneg (Real.sqrt_nonneg w) (mul_self_nonneg r)
  · exact mul_self_nonneg _

theorem slope_le_global (w r : ℝ) (hr : 0 < r) (hw : 0 ≤ w) (hwr : w ≤ r * r) :
    6 * (Real.sqrt w / (r * r) * ((1 - w / (r * r)) * (1 - w / (r * r)))) ≤ 1.72 / r := by
  have hr2 : 0 < r * r := mul_pos hr hr
  have hv1 : w / (r * r) ≤ 1 := (div_le_one hr2).mpr hwr
  have hq := quintic_le (w / (r * r)) hv1
  have hsq := slope_sq w r hr hw
  have hb : (Real.sqrt w / (r * r) * ((1 - w / (r * r)) * (1 - w / (r * r)))) ^ 2
      ≤ (43 / 150 / r) ^ 2 := by
    rw [hsq, div_pow, div_le_div_iff₀ hr2 (by positivity)]
    have : (43 / 150 : ℝ) ^ 2 * (r * r) = (43 / 150) ^ 2 * r ^ 2 := by ring
    nlinarith [mul_le_mul_of_nonneg_right hq (by positivity : (0:ℝ) ≤ r ^ 2)]
  have := le_of_sq_le_sq hb (by positivity)
  have h2 : (1.72 : ℝ) / r = 6 * (43 / 150 / r) := by norm_num; ring
  rw [h2]; linarith

theorem slope_mono (w₁ w₂ r : ℝ) (hr : 0 < r) (hw : 0 ≤ w₁) (h12 : w₁ ≤ w₂)
    (h2 : w₂ ≤ r * r / 5) :
    Real.sqrt w₁ / (r * r) * ((1 - w₁ / (r * r)) * (1 - w₁ / (r * r))) ≤
      Real.sqrt w₂ / (r * r) * ((1 - w₂ / (r * r)) * (1 - w₂ / (r * r))) := by
  have hr2 : 0 < r * r := mul_pos hr hr
  apply le_of_sq_le_sq _ (slope_nonneg w₂ r)
  rw [slope_sq w₁ r hr hw, slope_sq w₂ r hr (le_trans hw h12)]
  apply div_le_div_of_nonneg_right _ hr2.le
  have hv : ∀ w : ℝ, 0 ≤ w → w ≤ r * r / 5 → w / (r * r) ∈ Set.Icc (0 : ℝ) (1 / 5) := by
    intro w h0 h5
    refine ⟨div_nonneg h0 hr2.le, ?_⟩
    rw [div_le_iff₀ hr2]; linarith
  exact quintic_monotoneOn (hv w₁ hw (le_trans h12 h2)) (hv w₂ (le_trans hw h12) h2)
    (div_le_div_of_nonneg_right h12 hr2.le)

theorem slope_anti (w₁ w₂ r : ℝ) (hr : 0 < r) (h1 : r * r / 5 ≤ w₁) (h12 : w₁ ≤ w₂)
    (h2 : w₂ ≤ r * r) :
    Real.sqrt w₂ / (r * r) * ((1 - w₂ / (r * r)) * (1 - w₂ / (r * r))) ≤
      Real.sqrt w₁ / (r * r) * ((1 - w₁ / (r * r)) * (1 - w₁ / (r * r))) := by
  have hr2 : 0 < r * r := mul_pos hr hr
  have hw : 0 ≤ w₁ := le_trans (by positivity) h1
  apply le_of_sq_le_sq _ (slope_nonneg w₁ r)
  rw [slope_sq w₁ r hr hw, slope_sq w₂ r hr (le_trans hw h12)]
  apply div_le_div_of_nonneg_right _ hr2.le
  have hv : ∀ w : ℝ, r * r / 5 ≤ w → w ≤ r * r → w / (r * r) ∈ Set.Icc (1 / 5 : ℝ) 1 := by
    intro w h5 h1
    refine ⟨?_, (div_le_one hr2).mpr h1⟩
    rw [le_div_iff₀ hr2]; linarith
  exact quintic_antitoneOn (hv w₁ h1 (le_trans h12 h2)) (hv w₂ (le_trans h1 h12) h2)
    (div_le_div_of_nonneg_right h12 hr2.le)



theorem Math.Max_eq_max (a b : ℝ) : Math.Max a b = max a b := by
  unfold Math.Max
  split_ifs with h
  · exact (max_eq_left h.le).symm
  · exact (max_eq_right (not_lt.mp h)).symm

/-- An auxiliary inequality: `x * sqrt P ≤ y * sqrt Q` follows from the squares. -/
theorem mul_sqrt_le_mul_sqrt (x y P Q : ℝ) (hy : 0 ≤ y) (hP : 0 ≤ P) (hQ : 0 ≤ Q)
    (h : x ^ 2 * P ≤ y ^ 2 * Q) : x * Real.sqrt P ≤ y * Real.sqrt Q := by
  apply le_of_sq_le_sq _ (mul_nonneg hy (Real.sqrt_nonneg Q))
  rw [mul_pow, mul_pow, Real.sq_sqrt hP, Real.sq_sqrt hQ]
  exact h

theorem grad_bound (A B W l len τ : ℝ) (hlA : l * l ≤ A)
    (hB : B = A - 2 * l * len + len * len) (hW : W = A - 2 * τ * l + τ * τ)
    (hτ0 : 0 ≤ τ) (hτ1 : τ ≤ len) :
    |τ - l| ≤ Math.Max (Math.Abs (l / Real.sqrt A)) (Math.Abs ((l - len) / Real.sqrt B))
      * Real.sqrt W := by
  rw [Math.Max_eq_max]
  unfold Math.Abs
  have hA0 : 0 ≤ A := le_trans (mul_self_nonneg l) hlA
  have hW0 : 0 ≤ W := by rw [hW]; nlinarith [sq_nonneg (τ - l)]
  have hB0 : 0 ≤ B := by rw [hB]; nlinarith [sq_nonneg (len - l)]
  have hsW := Real.sqrt_nonneg W
  rcases le_or_lt τ l with h | h
  · -- the foot of the perpendicular is past the point
    have hl0 : 0 ≤ l := le_trans hτ0 h
    rw [abs_sub_comm, abs_of_nonneg (sub_nonneg.mpr h)]
    refine le_trans ?_ (mul_le_mul_of_nonneg_right (le_max_left _ _) hsW)
    rw [abs_of_nonneg (div_nonneg hl0 (Real.sqrt_nonneg A))]
    rcases eq_or_lt_of_le hA0 with hA | hA
    · have hl : l = 0 := by nlinarith
      have hτ : τ = 0 := by linarith
      rw [hl, hτ]; simp
    · have hsA : 0 < Real.sqrt A := Real.sqrt_pos.mpr hA
      rw [div_mul_eq_mul_div, le_div_iff₀ hsA]
      apply mul_sqrt_le_mul_sqrt _ _ _ _ hl0 hA0 hW0
      rw [hW]
      have h1 : 0 ≤ l - τ := sub_nonneg.mpr h
      have h2 : (l - τ) ^ 2 ≤ l ^ 2 := by nlinarith
      have h3 : 0 ≤ A - l * l := sub_nonneg.mpr hlA
      nlinarith [mul_le_mul_of_nonneg_right h2 h3]
  · have hll : 0 < len - l := by linarith
    rw [abs_of_pos (sub_pos.mpr h)]
    refine le_trans ?_ (mul_le_mul_of_nonneg_right (le_max_right _ _) hsW)
    have hBpos : 0 < B := by rw [hB]; nlinarith [sq_nonneg (len - l)]
    have hsB : 0 < Real.sqrt B := Real.sqrt_pos.mpr hBpos
    rw [abs_of_nonpos (div_nonpos_of_nonpos_of_nonneg (by linarith) hsB.le), ← neg_div,
      neg_sub, div_mul_eq_mul_div, le_div_iff₀ hsB]
    apply mul_sqrt_le_mul_sqrt _ _ _ _ hll.le hB0 hW0
    rw [hW, hB]
    have h1 : 0 ≤ τ - l := (sub_pos.mpr h).le
    have h2 : (τ - l) ^ 2 ≤ (len - l) ^ 2 := by nlinarith
    have h3 : 0 ≤ A - l * l := sub_nonneg.mpr hlA
    nlinarith [mul_le_mul_of_nonneg_right h2 h3]

theorem CubicFalloffK4_ge (amin amax W r e : ℝ) (hr : 0 < r) (hW0 : 0 ≤ W)
    (h1 : amin ≤ W) (h2 : W ≤ amax) (hWr : W ≤ r * r) :
    |e| * (6 * (Real.sqrt W / (r * r) * ((1 - W / (r * r)) * (1 - W / (r * r)))))
      ≤ CubicFalloffK4 Real.sqrt amin amax r e := by
  have he := abs_nonneg e
  unfold CubicFalloffK4
  split_ifs with c1 c2 c3
  · linarith
  · have := slope_mono W amax r hr hW0 h2 c2.le
    simp only
    nlinarith [mul_le_mul_of_nonneg_left this he]
  · have := slope_anti amin W r hr c3.le h1 hWr
    simp only
    nlinarith [mul_le_mul_of_nonneg_left this he]
  · have := slope_le_global W r hr hW0 hWr
    unfold CubicFalloffK
    have h3 : (1.72 : ℝ) * |e| / r = |e| * (1.72 / r) := by ring
    rw [h3]
    exact mul_le_mul_of_nonneg_left this he

theorem CubicFalloffK4_nonneg (amin amax r e : ℝ) (hr : 0 < r) :
    0 ≤ CubicFalloffK4 Real.sqrt amin amax r e := by
  have he := abs_nonneg e
  unfold CubicFalloffK4
  split_ifs with c1 c2 c3
  · exact le_rfl
  · simp only
    have := slope_nonneg amax r
    nlinarith [mul_nonneg he this]
  · simp only
    have := slope_nonneg amin r
    nlinarith [mul_nonneg he this]
  · unfold CubicFalloffK
    have : (0:ℝ) ≤ 1.72 := by norm_num
    positivity

theorem CubicFalloffK4_le (amin amax r e : ℝ) (hr : 0 < r) (h01 : 0 ≤ amax) :
    CubicFalloffK4 Real.sqrt amin amax r e ≤ CubicFalloffK e r := by
  have he := abs_nonneg e
  have hK : CubicFalloffK e r = |e| * (1.72 / r) := by unfold CubicFalloffK; ring
  unfold CubicFalloffK4
  split_ifs with c1 c2 c3
  · rw [hK]
    have : (0:ℝ) ≤ 1.72 := by norm_num
    positivity
  · simp only
    have h5 : amax ≤ r * r := by nlinarith [mul_pos hr hr]
    have := slope_le_global amax r hr h01 h5
    rw [hK]
    nlinarith [mul_le_mul_of_nonneg_left this he]
  · simp only
    have h0 : 0 ≤ amin := le_trans (by positivity) c3.le
    have := slope_le_global amin r hr h0 (not_lt.mp c1)
    rw [hK]
    nlinarith [mul_le_mul_of_nonneg_left this he]
  · exact le_rfl

/-! ## Vectors -/

theorem SquaredNorm_nonneg (u : Vector ℝ) : 0 ≤ SquaredNorm u := by
  unfold SquaredNorm
  nlinarith [mul_self_nonneg u.c0, mul_self_nonneg u.c1, mul_self_nonneg u.c2]

theorem Norm_eq_sqrt (u : Vector ℝ) : Norm Real.sqrt u = Real.sqrt (SquaredNorm u) := rfl

theorem Norm_mul_self (u : Vector ℝ) : Norm Real.sqrt u * Norm Real.sqrt u = SquaredNorm u := by
  rw [Norm_eq_sqrt]; exact Real.mul_self_sqrt (SquaredNorm_nonneg u)

theorem Norm_nonneg (u : Vector ℝ) : 0 ≤ Norm Real.sqrt u := Real.sqrt_nonneg _

theorem dot_sq_le (u v : Vector ℝ) : (u.dot v) ^ 2 ≤ SquaredNorm u * SquaredNorm v := by
  unfold Vector.dot SquaredNorm
  nlinarith [sq_nonneg (u.c0 * v.c1 - u.c1 * v.c0), sq_nonneg (u.c0 * v.c2 - u.c2 * v.c0),
    sq_nonneg (u.c1 * v.c2 - u.c2 * v.c1)]

theorem dot_mul (u v : Vector ℝ) (k : ℝ) : u.dot (v.mul k) = u.dot v * k := by
  unfold Vector.dot Vector.mul; ring

theorem dot_comm (u v : Vector ℝ) : u.dot v = v.dot u := by
  unfold Vector.dot; ring

theorem dot_self (u : Vector ℝ) : u.dot u = SquaredNorm u := rfl

theorem path_sq (a b c : Vector ℝ) (σ : ℝ) :
    SquaredNorm ((Lerp a b σ).sub c) =
      SquaredNorm (c.sub a) + 2 * σ * (-((c.sub a).dot (b.sub a))) + σ ^ 2 * SquaredNorm (b.sub a) := by
  unfold SquaredNorm Lerp Vector.dot Vector.sub Vector.add Vector.mul
  ring

theorem path_dist (a b : Vector ℝ) (σ₁ σ₂ : ℝ) :
    Norm Real.sqrt ((Lerp a b σ₁).sub (Lerp a b σ₂)) = |σ₁ - σ₂| * Norm Real.sqrt (b.sub a) := by
  rw [Norm_eq_sqrt, Norm_eq_sqrt]
  have : SquaredNorm ((Lerp a b σ₁).sub (Lerp a b σ₂)) = (σ₁ - σ₂) ^ 2 * SquaredNorm (b.sub a) := by
    unfold SquaredNorm Lerp Vector.sub Vector.add Vector.mul
    ring
  rw [this, Real.sqrt_mul (sq_nonneg _), Real.sqrt_sq_eq_abs]

/-- Projection on the normalised direction times the length is the scalar product. -/
theorem dot_axis_mul_len (v u : Vector ℝ) (hlen : 0 < Norm Real.sqrt u) :
    v.dot (Normalized Real.sqrt u) * Norm Real.sqrt u = v.dot u := by
  unfold Normalized
  rw [dot_mul]
  field_simp

theorem axis_sq_le (v u : Vector ℝ) (hlen : 0 < Norm Real.sqrt u) :
    v.dot (Normalized Real.sqrt u) * v.dot (Normalized Real.sqrt u) ≤ SquaredNorm v := by
  have h1 := dot_axis_mul_len v u hlen
  have h2 := dot_sq_le v u
  have h3 := Norm_mul_self u
  have hpos : 0 < SquaredNorm u := by rw [← h3]; positivity
  -- l^2 * len^2 = (v.u)^2 ≤ |v|^2 |u|^2
  have h4 : (v.dot (Normalized Real.sqrt u) * v.dot (Normalized Real.sqrt u)) * SquaredNorm u
      ≤ SquaredNorm v * SquaredNorm u := by
    calc (v.dot (Normalized Real.sqrt u) * v.dot (Normalized Real.sqrt u)) * SquaredNorm u
        = (v.dot (Normalized Real.sqrt u) * Norm Real.sqrt u) ^ 2 := by rw [← h3]; ring
      _ = (v.dot u) ^ 2 := by rw [h1]
      _ ≤ SquaredNorm v * SquaredNorm u := h2
  exact le_of_mul_le_mul_right h4 hpos

theorem far_end_sq (a b c : Vector ℝ) (hlen : 0 < Norm Real.sqrt (b.sub a)) :
    SquaredNorm (c.sub b) = SquaredNorm (c.sub a)
      - 2 * (c.sub a).dot (Normalized Real.sqrt (b.sub a)) * Norm Real.sqrt (b.sub a)
      + Norm Real.sqrt (b.sub a) * Norm Real.sqrt (b.sub a) := by
  rw [mul_assoc, dot_axis_mul_len _ _ hlen, Norm_mul_self]
  unfold SquaredNorm Vector.dot Vector.sub
  ring

theorem dot_Normalized (u v : Vector ℝ) :
    u.dot (Normalized Real.sqrt v) = u.dot v / Norm Real.sqrt v := by
  unfold Normalized
  rw [dot_mul]; ring

theorem grad_near (a b c : Vector ℝ) :
    (Normalized Real.sqrt (b.sub a)).dot (Normalized Real.sqrt (c.sub a)) =
      (c.sub a).dot (Normalized Real.sqrt (b.sub a)) / Real.sqrt (SquaredNorm (c.sub a)) := by
  rw [dot_Normalized _ (c.sub a), dot_comm, Norm_eq_sqrt (c.sub a)]

theorem grad_far (a b c : Vector ℝ) (hlen : 0 < Norm Real.sqrt (b.sub a)) :
    (Normalized Real.sqrt (b.sub a)).dot (Normalized Real.sqrt (c.sub b)) =
      ((c.sub a).dot (Normalized Real.sqrt (b.sub a)) - Norm Real.sqrt (b.sub a))
        / Real.sqrt (SquaredNorm (c.sub b)) := by
  rw [dot_Normalized _ (c.sub b), dot_comm, Norm_eq_sqrt (c.sub b)]
  have h1 : (c.sub b).dot (Normalized Real.sqrt (b.sub a)) =
      (c.sub a).dot (Normalized Real.sqrt (b.sub a)) - Norm Real.sqrt (b.sub a) := by
    have h2 : (c.sub b).dot (Normalized Real.sqrt (b.sub a)) =
        (c.sub a).dot (Normalized Real.sqrt (b.sub a))
          - (b.sub a).dot (Normalized Real.sqrt (b.sub a)) := by
      unfold Vector.dot Vector.sub; ring
    have h3 : (b.sub a).dot (Normalized Real.sqrt (b.sub a)) = Norm Real.sqrt (b.sub a) := by
      have := dot_axis_mul_len (b.sub a) (b.sub a) hlen
      rw [dot_self, ← Norm_mul_self] at this
      exact mul_right_cancel₀ hlen.ne' this
    rw [h2, h3]
  rw [h1]

/-! ## The separating-axis test -/

theorem half_eq [LinearOrderedField α] : (0.5 : α) = 1 / 2 := by norm_num

theorem sat_axis [LinearOrderedField α] (a b lo hi σ : α) (h0 : 0 ≤ σ) (h1 : σ ≤ 1)
    (hlo : lo ≤ a + (b - a) * σ) (hhi : a + (b - a) * σ ≤ hi) :
    |(a + b) * 0.5 - (lo + hi) * 0.5| ≤ (hi - lo) + |(b - a) * 0.5| := by
  rw [half_eq]
  have hD1 := le_abs_self ((b - a) * (1 / 2))
  have hD2 := neg_abs_le ((b - a) * (1 / 2))
  have hs1 : 0 ≤ 1 - σ := sub_nonneg.mpr h1
  rw [abs_le]
  constructor
  · rcases le_total a b with hab | hab
    · nlinarith [mul_nonneg (sub_nonneg.mpr hab) h0, mul_nonneg (sub_nonneg.mpr hab) hs1]
    · nlinarith [mul_nonneg (sub_nonneg.mpr hab) h0, mul_nonneg (sub_nonneg.mpr hab) hs1]
  · rcases le_total a b with hab | hab
    · nlinarith [mul_nonneg (sub_nonneg.mpr hab) h0, mul_nonneg (sub_nonneg.mpr hab) hs1]
    · nlinarith [mul_nonneg (sub_nonneg.mpr hab) h0, mul_nonneg (sub_nonneg.mpr hab) hs1]

theorem sat_cross [LinearOrderedField α] (a1 b1 a2 b2 lo1 hi1 lo2 hi2 σ : α)
    (hlo1 : lo1 ≤ a1 + (b1 - a1) * σ) (hhi1 : a1 + (b1 - a1) * σ ≤ hi1)
    (hlo2 : lo2 ≤ a2 + (b2 - a2) * σ) (hhi2 : a2 + (b2 - a2) * σ ≤ hi2) :
    |(b1 - a1) * 0.5 * ((a2 + b2) * 0.5 - (lo2 + hi2) * 0.5)
        - (b2 - a2) * 0.5 * ((a1 + b1) * 0.5 - (lo1 + hi1) * 0.5)|
      ≤ (hi1 - lo1) * |(b2 - a2) * 0.5| + (hi2 - lo2) * |(b1 - a1) * 0.5| := by
  rw [half_eq]
  have key : (b1 - a1) * (1 / 2) * ((a2 + b2) * (1 / 2) - (lo2 + hi2) * (1 / 2))
        - (b2 - a2) * (1 / 2) * ((a1 + b1) * (1 / 2) - (lo1 + hi1) * (1 / 2))
      = (b1 - a1) * (1 / 2) * (a2 + (b2 - a2) * σ - (lo2 + hi2) * (1 / 2))
        - (b2 - a2) * (1 / 2) * (a1 + (b1 - a1) * σ - (lo1 + hi1) * (1 / 2)) := by ring
  rw [key]
  have q1 : |a1 + (b1 - a1) * σ - (lo1 + hi1) * (1 / 2)| ≤ (hi1 - lo1) * (1 / 2) := by
    rw [abs_le]; constructor <;> linarith
  have q2 : |a2 + (b2 - a2) * σ - (lo2 + hi2) * (1 / 2)| ≤ (hi2 - lo2) * (1 / 2) := by
    rw [abs_le]; constructor <;> linarith
  have hh1 : 0 ≤ hi1 - lo1 := by linarith
  have hh2 : 0 ≤ hi2 - lo2 := by linarith
  have e1 := abs_nonneg ((b1 - a1) * (1 / 2))
  have e2 := abs_nonneg ((b2 - a2) * (1 / 2))
  calc |(b1 - a1) * (1 / 2) * (a2 + (b2 - a2) * σ - (lo2 + hi2) * (1 / 2))
        - (b2 - a2) * (1 / 2) * (a1 + (b1 - a1) * σ - (lo1 + hi1) * (1 / 2))|
      ≤ |(b1 - a1) * (1 / 2) * (a2 + (b2 - a2) * σ - (lo2 + hi2) * (1 / 2))|
        + |(b2 - a2) * (1 / 2) * (a1 + (b1 - a1) * σ - (lo1 + hi1) * (1 / 2))| := abs_sub _ _
    _ = |(b1 - a1) * (1 / 2)| * |a2 + (b2 - a2) * σ - (lo2 + hi2) * (1 / 2)|
        + |(b2 - a2) * (1 / 2)| * |a1 + (b1 - a1) * σ - (lo1 + hi1) * (1 / 2)| := by
        rw [abs_mul ((b1 - a1) * (1 / 2)), abs_mul ((b2 - a2) * (1 / 2))]
    _ ≤ |(b1 - a1) * (1 / 2)| * ((hi2 - lo2) * (1 / 2))
        + |(b2 - a2) * (1 / 2)| * ((hi1 - lo1) * (1 / 2)) :=
        add_le_add (mul_le_mul_of_nonneg_left q2 e1) (mul_le_mul_of_nonneg_left q1 e2)
    _ ≤ (hi1 - lo1) * |(b2 - a2) * (1 / 2)| + (hi2 - lo2) * |(b1 - a1) * (1 / 2)| := by
        nlinarith [mul_nonneg hh1 e2, mul_nonneg hh2 e1]

/-- No false negative of the separating-axis test: a segment with a point in
the closed box passes `Segment::Intersect`. -/
theorem Segment.Intersect_of_point [LinearOrderedField α] (s : Segment α) (box : Box α) (σ : α)
    (h0 : 0 ≤ σ) (h1 : σ ≤ 1)
    (hx : box.a.c0 ≤ (Lerp s.a s.b σ).c0 ∧ (Lerp s.a s.b σ).c0 ≤ box.b.c0)
    (hy : box.a.c1 ≤ (Lerp s.a s.b σ).c1 ∧ (Lerp s.a s.b σ).c1 ≤ box.b.c1)
    (hz : box.a.c2 ≤ (Lerp s.a s.b σ).c2 ∧ (Lerp s.a s.b σ).c2 ≤ box.b.c2) :
    s.Intersect box = true := by
  simp only [Lerp, Vector.add, Vector.sub, Vector.mul] at hx hy hz
  have t0 := sat_axis s.a.c0 s.b.c0 box.a.c0 box.b.c0 σ h0 h1 hx.1 hx.2
  have t1 := sat_axis s.a.c1 s.b.c1 box.a.c1 box.b.c1 σ h0 h1 hy.1 hy.2
  have t2 := sat_axis s.a.c2 s.b.c2 box.a.c2 box.b.c2 σ h0 h1 hz.1 hz.2
  have t3 := sat_cross s.a.c1 s.b.c1 s.a.c2 s.b.c2 box.a.c1 box.b.c1 box.a.c2 box.b.c2 σ
    hy.1 hy.2 hz.1 hz.2
  have t4 := le_trans (sat_cross s.a.c2 s.b.c2 s.a.c0 s.b.c0 box.a.c2 box.b.c2 box.a.c0
    box.b.c0 σ hz.1 hz.2 hx.1 hx.2) (le_of_eq (add_comm _ _))
  have t5 := sat_cross s.a.c0 s.b.c0 s.a.c1 s.b.c1 box.a.c0 box.b.c0 box.a.c1 box.b.c1 σ
    hx.1 hx.2 hy.1 hy.2
  simp only [Segment.Intersect, Box.Diagonal, Box.Center, Vector.get, Vector.sub, Vector.add,
    Vector.mul, if_true, one_ne_zero, if_false, OfNat.ofNat_ne_zero, OfNat.ofNat_ne_one,
    not_lt.mpr t0, not_lt.mpr t1, not_lt.mpr t2, not_lt.mpr t3, not_lt.mpr t4, not_lt.mpr t5,
    gt_iff_lt]

/-! ## The segment bound of a point primitive -/

theorem BlobTreePoint.Intensity_eq (c : Vector ℝ) (r e : ℝ) (p : Vector ℝ) (hr : 0 < r) :
    BlobTreePoint.Intensity c r e p = CubicFalloff (SquaredNorm (p.sub c)) (r * r) := by
  unfold BlobTreePoint.Intensity
  by_cases h : (BlobTreePoint.box c r).Inside p = true
  · simp only [h, Bool.not_true, Bool.false_eq_true, if_false]
    rfl
  · have h' : (BlobTreePoint.box c r).Inside p = false := by simpa using h
    simp only [h', Bool.not_false, if_true]
    symm
    apply CubicFalloff_of_ge _ _ (mul_pos hr hr)
    rw [Box.Inside_eq_true_iff] at h
    simp only [BlobTreePoint.box, Vector.sub, Vector.add] at h
    unfold SquaredNorm Vector.sub
    simp only
    have s0 := mul_self_nonneg (p.c0 - c.c0)
    have s1 := mul_self_nonneg (p.c1 - c.c1)
    have s2 := mul_self_nonneg (p.c2 - c.c2)
    by_contra hc
    apply h
    have hc' := not_le.mp hc
    have b0 : (p.c0 - c.c0) * (p.c0 - c.c0) < r * r := by linarith
    have b1 : (p.c1 - c.c1) * (p.c1 - c.c1) < r * r := by linarith
    have b2 : (p.c2 - c.c2) * (p.c2 - c.c2) < r * r := by linarith
    have a0 : -r < p.c0 - c.c0 ∧ p.c0 - c.c0 < r :=
      abs_lt_of_sq_lt_sq' (by rw [sq, sq]; exact b0) hr.le
    have a1 : -r < p.c1 - c.c1 ∧ p.c1 - c.c1 < r :=
      abs_lt_of_sq_lt_sq' (by rw [sq, sq]; exact b1) hr.le
    have a2 : -r < p.c2 - c.c2 ∧ p.c2 - c.c2 < r :=
      abs_lt_of_sq_lt_sq' (by rw [sq, sq]; exact b2) hr.le
    refine ⟨⟨?_, ?_, ?_⟩, ?_, ?_, ?_⟩ <;> linarith

theorem Math.Max_nonneg_abs (x y : ℝ) : 0 ≤ Math.Max (Math.Abs x) (Math.Abs y) := by
  rw [Math.Max_eq_max]
  exact le_trans (abs_nonneg x) (le_max_left _ _)

theorem seg_slope_bound (A B l len r e τ : ℝ) (hr : 0 < r) (hlA : l * l ≤ A)
    (hB : B = A - 2 * l * len + len * len) (hτ0 : 0 ≤ τ) (hτ1 : τ ≤ len)
    (hWr : A - 2 * τ * l + τ * τ ≤ r * r) :
    |e| * (6 * ((1 - (A - 2 * τ * l + τ * τ) / (r * r)) ^ 2 * |τ - l| / (r * r))) ≤
      (if l < 0 then CubicFalloffK4 Real.sqrt A B r e
       else if len < l then CubicFalloffK4 Real.sqrt B A r e
       else CubicFalloffK4 Real.sqrt (A - l * l) (Math.Max B A) r e)
      * Math.Max (Math.Abs (l / Real.sqrt A)) (Math.Abs ((l - len) / Real.sqrt B)) := by
  have hg := grad_bound A B (A - 2 * τ * l + τ * τ) l len τ hlA hB rfl hτ0 hτ1
  have hg0 := Math.Max_nonneg_abs (l / Real.sqrt A) ((l - len) / Real.sqrt B)
  generalize Math.Max (Math.Abs (l / Real.sqrt A)) (Math.Abs ((l - len) / Real.sqrt B)) = g
    at hg hg0 ⊢
  have hW0 : 0 ≤ A - 2 * τ * l + τ * τ := by nlinarith [sq_nonneg (τ - l)]
  have hkk : |e| * (6 * (Real.sqrt (A - 2 * τ * l + τ * τ) / (r * r) *
      ((1 - (A - 2 * τ * l + τ * τ) / (r * r)) * (1 - (A - 2 * τ * l + τ * τ) / (r * r)))))
      ≤ (if l < 0 then CubicFalloffK4 Real.sqrt A B r e
       else if len < l then CubicFalloffK4 Real.sqrt B A r e
       else CubicFalloffK4 Real.sqrt (A - l * l) (Math.Max B A) r e) := by
    split_ifs with c1 c2
    · apply CubicFalloffK4_ge _ _ _ _ _ hr hW0 _ _ hWr
      · nlinarith
      · rw [hB]; nlinarith [mul_nonneg (sub_nonneg.mpr hτ1) (by linarith : 0 ≤ len + τ - 2 * l)]
    · apply CubicFalloffK4_ge _ _ _ _ _ hr hW0 _ _ hWr
      · rw [hB]; nlinarith [mul_nonneg (sub_nonneg.mpr hτ1) (by linarith : 0 ≤ 2 * l - len - τ)]
      · nlinarith [mul_nonneg hτ0 (by linarith : 0 ≤ 2 * l - τ)]
    · apply CubicFalloffK4_ge _ _ _ _ _ hr hW0 _ _ hWr
      · nlinarith [sq_nonneg (τ - l)]
      · rw [Math.Max_eq_max]
        rcases le_or_lt τ (2 * l) with h | h
        · apply le_trans _ (le_max_right _ _)
          nlinarith [mul_nonneg hτ0 (by linarith : 0 ≤ 2 * l - τ)]
        · apply le_trans _ (le_max_left _ _)
          rw [hB]
          nlinarith [mul_nonneg (sub_nonneg.mpr hτ1) (by linarith : 0 ≤ len + τ - 2 * l)]
  generalize (if l < 0 then CubicFalloffK4 Real.sqrt A B r e
       else if len < l then CubicFalloffK4 Real.sqrt B A r e
       else CubicFalloffK4 Real.sqrt (A - l * l) (Math.Max B A) r e) = kk at hkk ⊢
  generalize A - 2 * τ * l + τ * τ = W at hg hkk hW0 hWr ⊢
  have hr2 : 0 < r * r := mul_pos hr hr
  have hX : 0 ≤ (1 - W / (r * r)) ^ 2 / (r * r) := by positivity
  have h1 : (1 - W / (r * r)) ^ 2 * |τ - l| / (r * r)
      ≤ (Real.sqrt W / (r * r) * ((1 - W / (r * r)) * (1 - W / (r * r)))) * g := by
    have := mul_le_mul_of_nonneg_left hg hX
    calc (1 - W / (r * r)) ^ 2 * |τ - l| / (r * r)
        = (1 - W / (r * r)) ^ 2 / (r * r) * |τ - l| := by ring
      _ ≤ (1 - W / (r * r)) ^ 2 / (r * r) * (g * Real.sqrt W) := this
      _ = (Real.sqrt W / (r * r) * ((1 - W / (r * r)) * (1 - W / (r * r)))) * g := by ring
  calc |e| * (6 * ((1 - W / (r * r)) ^ 2 * |τ - l| / (r * r)))
      ≤ |e| * (6 * ((Real.sqrt W / (r * r) * ((1 - W / (r * r)) * (1 - W / (r * r)))) * g)) :=
        mul_le_mul_of_nonneg_left (mul_le_mul_of_nonneg_left h1 (by norm_num)) (abs_nonneg e)
    _ = (|e| * (6 * (Real.sqrt W / (r * r) * ((1 - W / (r * r)) * (1 - W / (r * r)))))) * g := by
        ring
    _ ≤ kk * g := mul_le_mul_of_nonneg_right hkk hg0


theorem BlobTreePoint.K_eq (c : Vector ℝ) (r e : ℝ) (s : Segment ℝ)
    (hI : s.Intersect (BlobTreePoint.box c r) = true)
    (hlen : 0 < Norm Real.sqrt (s.b.sub s.a)) :
    BlobTreePoint.K Real.sqrt c r e s =
      (if (c.sub s.a).dot (Normalized Real.sqrt (s.b.sub s.a)) < 0 then
        CubicFalloffK4 Real.sqrt (SquaredNorm (c.sub s.a)) (SquaredNorm (c.sub s.b)) r e
       else if Norm Real.sqrt (s.b.sub s.a) < (c.sub s.a).dot (Normalized Real.sqrt (s.b.sub s.a))
       then CubicFalloffK4 Real.sqrt (SquaredNorm (c.sub s.b)) (SquaredNorm (c.sub s.a)) r e
       else CubicFalloffK4 Real.sqrt
        (SquaredNorm (c.sub s.a) - (c.sub s.a).dot (Normalized Real.sqrt (s.b.sub s.a))
          * (c.sub s.a).dot (Normalized Real.sqrt (s.b.sub s.a)))
        (Math.Max (SquaredNorm (c.sub s.b)) (SquaredNorm (c.sub s.a))) r e)
      * Math.Max
          (Math.Abs ((c.sub s.a).dot (Normalized Real.sqrt (s.b.sub s.a))
            / Real.sqrt (SquaredNorm (c.sub s.a))))
          (Math.Abs (((c.sub s.a).dot (Normalized Real.sqrt (s.b.sub s.a))
            - Norm Real.sqrt (s.b.sub s.a)) / Real.sqrt (SquaredNorm (c.sub s.b)))) := by
  unfold BlobTreePoint.K
  simp only [hI, Bool.not_true, Bool.false_eq_true, if_false, Segment.get, if_true, one_ne_zero]
  rw [grad_near, grad_far _ _ _ hlen]

theorem BlobTreePoint.K_seg_nonneg (c : Vector ℝ) (r e : ℝ) (s : Segment ℝ) (hr : 0 < r) :
    0 ≤ BlobTreePoint.K Real.sqrt c r e s := by
  unfold BlobTreePoint.K
  simp only
  split_ifs
  · exact le_rfl
  all_goals exact mul_nonneg (CubicFalloffK4_nonneg _ _ _ _ hr) (Math.Max_nonneg_abs _ _)

/-- Off the closed box of the primitive the segment test is the only way to
return early; a segment that fails it carries no intensity. -/
theorem BlobTreePoint.Intensity_zero_of_not_Intersect (c : Vector ℝ) (r e : ℝ) (s : Segment ℝ)
    (hI : s.Intersect (BlobTreePoint.box c r) = false) (σ : ℝ) (h0 : 0 ≤ σ) (h1 : σ ≤ 1) :
    BlobTreePoint.Intensity c r e (Lerp s.a s.b σ) = 0 := by
  unfold BlobTreePoint.Intensity
  by_cases h : (BlobTreePoint.box c r).Inside (Lerp s.a s.b σ) = true
  · exfalso
    rw [Box.Inside_eq_true_iff] at h
    have := Segment.Intersect_of_point s (BlobTreePoint.box c r) σ h0 h1
      ⟨h.1.1.le, h.2.1.le⟩ ⟨h.1.2.1.le, h.2.2.1.le⟩ ⟨h.1.2.2.le, h.2.2.2.le⟩
    rw [hI] at this
    exact absurd this (by simp)
  · have h' : (BlobTreePoint.box c r).Inside (Lerp s.a s.b σ) = false := by simpa using h
    simp [h']

theorem BlobTreePoint.K_seg_lipschitz (c : Vector ℝ) (r e : ℝ) (hr : 0 < r) (he : 1 ≤ |e|)
    (s : Segment ℝ) (σ₁ σ₂ : ℝ) (h1 : 0 ≤ σ₁ ∧ σ₁ ≤ 1) (h2 : 0 ≤ σ₂ ∧ σ₂ ≤ 1) :
    |BlobTreePoint.Intensity c r e (Lerp s.a s.b σ₁)
        - BlobTreePoint.Intensity c r e (Lerp s.a s.b σ₂)|
      ≤ BlobTreePoint.K Real.sqrt c r e s
        * Norm Real.sqrt ((Lerp s.a s.b σ₁).sub (Lerp s.a s.b σ₂)) := by
  have hK0 := BlobTreePoint.K_seg_nonneg c r e s hr
  by_cases hI : s.Intersect (BlobTreePoint.box c r) = true
  swap
  · have hI' : s.Intersect (BlobTreePoint.box c r) = false := by simpa using hI
    rw [BlobTreePoint.Intensity_zero_of_not_Intersect c r e s hI' σ₁ h1.1 h1.2,
      BlobTreePoint.Intensity_zero_of_not_Intersect c r e s hI' σ₂ h2.1 h2.2]
    simp only [sub_self, abs_zero]
    exact mul_nonneg hK0 (Norm_nonneg _)
  rw [BlobTreePoint.Intensity_eq _ _ _ _ hr, BlobTreePoint.Intensity_eq _ _ _ _ hr, path_sq,
    path_sq, path_dist]
  have hlen0 := Norm_nonneg (s.b.sub s.a)
  have hL2 := Norm_mul_self (s.b.sub s.a)
  have hr2 : 0 < r * r := mul_pos hr hr
  have key := cubic_path_lipschitz (SquaredNorm (c.sub s.a)) (-((c.sub s.a).dot (s.b.sub s.a)))
    (SquaredNorm (s.b.sub s.a)) (r * r)
    (BlobTreePoint.K Real.sqrt c r e s * Norm Real.sqrt (s.b.sub s.a)) hr2
    (SquaredNorm_nonneg _) (mul_nonneg hK0 hlen0) ?_ σ₁ σ₂ h1 h2
  · calc _ ≤ _ := key
      _ = _ := by ring
  intro σ hσ0 hσ1 hW
  rcases eq_or_lt_of_le hlen0 with hz | hpos
  · -- a degenerate segment
    have hL0 : SquaredNorm (s.b.sub s.a) = 0 := by rw [← hL2, ← hz]; ring
    have hM0 : (c.sub s.a).dot (s.b.sub s.a) = 0 := by
      have := dot_sq_le (c.sub s.a) (s.b.sub s.a)
      rw [hL0, mul_zero] at this
      exact pow_eq_zero_iff (two_ne_zero) |>.mp (le_antisymm this (sq_nonneg _))
    rw [hL0, hM0, ← hz]
    simp
  · have hdot := dot_axis_mul_len (c.sub s.a) (s.b.sub s.a) hpos
    have hlA := axis_sq_le (c.sub s.a) (s.b.sub s.a) hpos
    have hB := far_end_sq s.a s.b c hpos
    rw [BlobTreePoint.K_eq c r e s hI hpos]
    generalize (c.sub s.a).dot (Normalized Real.sqrt (s.b.sub s.a)) = l at hdot hlA hB ⊢
    generalize Norm Real.sqrt (s.b.sub s.a) = len at hlen0 hL2 hpos hdot hB ⊢
    rw [← hdot, ← hL2] at hW ⊢
    generalize SquaredNorm (c.sub s.a) = A at hlA hB hW ⊢
    generalize SquaredNorm (c.sub s.b) = B at hB ⊢
    have hτ0 : 0 ≤ σ * len := mul_nonneg hσ0 hlen0
    have hτ1 : σ * len ≤ len := by nlinarith
    have hWeq : A + 2 * σ * -(l * len) + σ ^ 2 * (len * len)
        = A - 2 * (σ * len) * l + (σ * len) * (σ * len) := by ring
    rw [hWeq] at hW ⊢
    have hb := seg_slope_bound A B l len r e (σ * len) hr hlA
      hB hτ0 hτ1 hW
    generalize A - 2 * (σ * len) * l + (σ * len) * (σ * len) = W at hW hb ⊢
    have hX : 0 ≤ 6 * ((1 - W / (r * r)) ^ 2 * |σ * len - l| / (r * r)) := by positivity
    have h3 : |3 * (1 - W / (r * r)) ^ 2 * ((2 * -(l * len) + 2 * σ * (len * len)) / (r * r))|
        = (6 * ((1 - W / (r * r)) ^ 2 * |σ * len - l| / (r * r))) * len := by
      have : 3 * (1 - W / (r * r)) ^ 2 * ((2 * -(l * len) + 2 * σ * (len * len)) / (r * r))
          = (6 * (1 - W / (r * r)) ^ 2 / (r * r) * len) * (σ * len - l) := by ring
      rw [this, abs_mul, abs_of_nonneg (by positivity)]
      ring
    rw [h3]
    apply mul_le_mul_of_nonneg_right _ hlen0
    calc 6 * ((1 - W / (r * r)) ^ 2 * |σ * len - l| / (r * r))
        ≤ |e| * (6 * ((1 - W / (r * r)) ^ 2 * |σ * len - l| / (r * r))) :=
          le_mul_of_one_le_left hX he
      _ ≤ _ := hb

/-! ## Lipschitz bounds of a tree -/

theorem Lerp_zero [LinearOrderedField α] (a b : Vector α) : Lerp a b 0 = a := by
  cases a; simp [Lerp, Vector.add, Vector.sub, Vector.mul]

theorem Lerp_one [LinearOrderedField α] (a b : Vector α) : Lerp a b 1 = b := by
  cases a; cases b; simp [Lerp, Vector.add, Vector.sub, Vector.mul]

theorem CubicFalloffK_nonneg (e r : ℝ) (hr : 0 < r) : 0 ≤ CubicFalloffK e r := by
  unfold CubicFalloffK
  have : (0:ℝ) ≤ 1.72 := by norm_num
  positivity

/-- The global bound of a point primitive along a path. -/
theorem BlobTreePoint.K_global_path (c : Vector ℝ) (r e : ℝ) (hr : 0 < r) (he : 1 ≤ |e|)
    (a b : Vector ℝ) (σ₁ σ₂ : ℝ) (h1 : 0 ≤ σ₁ ∧ σ₁ ≤ 1) (h2 : 0 ≤ σ₂ ∧ σ₂ ≤ 1) :
    |BlobTreePoint.Intensity c r e (Lerp a b σ₁) - BlobTreePoint.Intensity c r e (Lerp a b σ₂)|
      ≤ CubicFalloffK e r * Norm Real.sqrt ((Lerp a b σ₁).sub (Lerp a b σ₂)) := by
  have hK0 := CubicFalloffK_nonneg e r hr
  rw [BlobTreePoint.Intensity_eq _ _ _ _ hr, BlobTreePoint.Intensity_eq _ _ _ _ hr, path_sq,
    path_sq, path_dist]
  have hlen0 := Norm_nonneg (b.sub a)
  have hL2 := Norm_mul_self (b.sub a)
  have hr2 : 0 < r * r := mul_pos hr hr
  have key := cubic_path_lipschitz (SquaredNorm (c.sub a)) (-((c.sub a).dot (b.sub a)))
    (SquaredNorm (b.sub a)) (r * r) (CubicFalloffK e r * Norm Real.sqrt (b.sub a)) hr2
    (SquaredNorm_nonneg _) (mul_nonneg hK0 hlen0) ?_ σ₁ σ₂ h1 h2
  · calc _ ≤ _ := key
      _ = _ := by ring
  intro σ _ _ hW
  have hcs := dot_sq_le (c.sub a) (b.sub a)
  have hW0 : 0 ≤ SquaredNorm (c.sub a) + 2 * σ * -((c.sub a).dot (b.sub a))
      + σ ^ 2 * SquaredNorm (b.sub a) := by
    rw [← path_sq]; exact SquaredNorm_nonneg _
  rw [← hL2] at hcs hW hW0 ⊢
  generalize Norm Real.sqrt (b.sub a) = len at hlen0 hcs hW hW0 ⊢
  generalize (c.sub a).dot (b.sub a) = m at hcs hW hW0 ⊢
  generalize SquaredNorm (c.sub a) = A at hcs hW hW0 ⊢
  have hsl := slope_le_global _ r hr hW0 hW
  generalize hWdef : A + 2 * σ * -m + σ ^ 2 * (len * len) = W at hW hW0 hsl ⊢
  have hsW := Real.sqrt_nonneg W
  have hproj : |-m + σ * (len * len)| ≤ Real.sqrt W * len := by
    apply abs_le_of_sq_le_sq _ (mul_nonneg hsW hlen0)
    rw [mul_pow, Real.sq_sqrt hW0, ← hWdef]
    nlinarith
  have hX : 0 ≤ 6 * (1 - W / (r * r)) ^ 2 / (r * r) := by positivity
  have h3 : |3 * (1 - W / (r * r)) ^ 2 * ((2 * -m + 2 * σ * (len * len)) / (r * r))|
      = 6 * (1 - W / (r * r)) ^ 2 / (r * r) * |-m + σ * (len * len)| := by
    have : 3 * (1 - W / (r * r)) ^ 2 * ((2 * -m + 2 * σ * (len * len)) / (r * r))
        = (6 * (1 - W / (r * r)) ^ 2 / (r * r)) * (-m + σ * (len * len)) := by ring
    rw [this, abs_mul, abs_of_nonneg hX]
  rw [h3]
  have hKe : (1.72 : ℝ) / r ≤ CubicFalloffK e r := by
    unfold CubicFalloffK
    have h172 : (0:ℝ) ≤ 1.72 / r := by
      have : (0:ℝ) ≤ 1.72 := by norm_num
      positivity
    calc (1.72 : ℝ) / r ≤ |e| * (1.72 / r) := le_mul_of_one_le_left h172 he
      _ = 1.72 * |e| / r := by ring
  calc 6 * (1 - W / (r * r)) ^ 2 / (r * r) * |-m + σ * (len * len)|
      ≤ 6 * (1 - W / (r * r)) ^ 2 / (r * r) * (Real.sqrt W * len) :=
        mul_le_mul_of_nonneg_left hproj hX
    _ = 6 * (Real.sqrt W / (r * r) * ((1 - W / (r * r)) * (1 - W / (r * r)))) * len := by ring
    _ ≤ 1.72 / r * len := mul_le_mul_of_nonneg_right hsl hlen0
    _ ≤ CubicFalloffK e r * len := mul_le_mul_of_nonneg_right hKe hlen0

theorem BlobTreePoint.K_global_lipschitz (c : Vector ℝ) (r e : ℝ) (hr : 0 < r) (he : 1 ≤ |e|)
    (p q : Vector ℝ) :
    |BlobTreePoint.Intensity c r e p - BlobTreePoint.Intensity c r e q|
      ≤ CubicFalloffK e r * Norm Real.sqrt (p.sub q) := by
  have := BlobTreePoint.K_global_path c r e hr he p q 0 1 ⟨le_rfl, zero_le_one⟩ ⟨zero_le_one, le_rfl⟩
  rwa [Lerp_zero, Lerp_one] at this

/-- The global bound `K()` is a Lipschitz constant of a tree of unit-energy primitives. -/
theorem BlobTreeNode.K_lipschitz (n : BlobTreeNode ℝ) (hpos : n.PositiveRadii)
    (hunit : n.UnitEnergy) (p q : Vector ℝ) :
    |n.Intensity p - n.Intensity q| ≤ n.K * Norm Real.sqrt (p.sub q) := by
  induction n with
  | Point c r e =>
    simp only [BlobTreeNode.PositiveRadii] at hpos
    simp only [BlobTreeNode.UnitEnergy] at hunit
    simp only [BlobTreeNode.Intensity, BlobTreeNode.K]
    exact BlobTreePoint.K_global_lipschitz c r e hpos (by rw [hunit]; simp) p q
  | Blend e1 e2 ih1 ih2 =>
    simp only [BlobTreeNode.PositiveRadii] at hpos
    simp only [BlobTreeNode.UnitEnergy] at hunit
    rw [BlobTreeNode.Intensity_blend, BlobTreeNode.Intensity_blend]
    simp only [BlobTreeNode.K]
    have h1 := ih1 hpos.1 hunit.1
    have h2 := ih2 hpos.2 hunit.2
    calc |e1.Intensity p + e2.Intensity p - (e1.Intensity q + e2.Intensity q)|
        = |(e1.Intensity p - e1.Intensity q) + (e2.Intensity p - e2.Intensity q)| := by ring_nf
      _ ≤ |e1.Intensity p - e1.Intensity q| + |e2.Intensity p - e2.Intensity q| := abs_add _ _
      _ ≤ e1.K * Norm Real.sqrt (p.sub q) + e2.K * Norm Real.sqrt (p.sub q) := add_le_add h1 h2
      _ = (e1.K + e2.K) * Norm Real.sqrt (p.sub q) := by ring

theorem Lerp_mem_GetBox [LinearOrderedField α] (s : Segment α) (σ : α) (h0 : 0 ≤ σ) (h1 : σ ≤ 1) :
    (s.GetBox.a.c0 ≤ (Lerp s.a s.b σ).c0 ∧ (Lerp s.a s.b σ).c0 ≤ s.GetBox.b.c0) ∧
    (s.GetBox.a.c1 ≤ (Lerp s.a s.b σ).c1 ∧ (Lerp s.a s.b σ).c1 ≤ s.GetBox.b.c1) ∧
    (s.GetBox.a.c2 ≤ (Lerp s.a s.b σ).c2 ∧ (Lerp s.a s.b σ).c2 ≤ s.GetBox.b.c2) := by
  have hs : 0 ≤ 1 - σ := sub_nonneg.mpr h1
  simp only [Segment.GetBox, Vector.Min, Vector.Max, Lerp, Vector.add, Vector.sub, Vector.mul]
  refine ⟨⟨?_, ?_⟩, ⟨?_, ?_⟩, ⟨?_, ?_⟩⟩ <;> split_ifs with h <;>
    first
    | nlinarith [mul_nonneg (sub_nonneg.mpr h.le) h0, mul_nonneg (sub_nonneg.mpr h.le) hs]
    | nlinarith [mul_nonneg (sub_nonneg.mpr (not_lt.mp h)) h0,
        mul_nonneg (sub_nonneg.mpr (not_lt.mp h)) hs]

theorem Box.not_Inside_of_not_Intersect [LinearOrderedField α] (box sb : Box α) (p : Vector α)
    (hp : (sb.a.c0 ≤ p.c0 ∧ p.c0 ≤ sb.b.c0) ∧ (sb.a.c1 ≤ p.c1 ∧ p.c1 ≤ sb.b.c1) ∧
      (sb.a.c2 ≤ p.c2 ∧ p.c2 ≤ sb.b.c2))
    (h : box.Intersect sb = false) : box.Inside p = false := by
  by_contra hc
  have hin : box.Inside p = true := by simpa using hc
  rw [Box.Inside_eq_true_iff] at hin
  obtain ⟨⟨i0, i1, i2⟩, j0, j1, j2⟩ := hin
  obtain ⟨⟨p0, q0⟩, ⟨p1, q1⟩, p2, q2⟩ := hp
  have : box.Intersect sb = true := by
    simp only [Box.Intersect, Vector.get, if_true, one_ne_zero, if_false, OfNat.ofNat_ne_zero,
      OfNat.ofNat_ne_one, ge_iff_le]
    rw [if_neg]
    intro hd
    rcases hd with hd | hd | hd | hd | hd | hd <;> linarith
  rw [h] at this
  exact absurd this (by simp)

/-- The segment bound `K(s)` is a Lipschitz constant along `s` of a tree of
unit-energy primitives. -/
theorem BlobTreeNode.KSeg_lipschitz (n : BlobTreeNode ℝ) (hpos : n.PositiveRadii)
    (hunit : n.UnitEnergy) (s : Segment ℝ) (σ₁ σ₂ : ℝ) (h1 : 0 ≤ σ₁ ∧ σ₁ ≤ 1)
    (h2 : 0 ≤ σ₂ ∧ σ₂ ≤ 1) :
    |n.Intensity (Lerp s.a s.b σ₁) - n.Intensity (Lerp s.a s.b σ₂)|
      ≤ n.KSeg Real.sqrt s * Norm Real.sqrt ((Lerp s.a s.b σ₁).sub (Lerp s.a s.b σ₂)) := by
  induction n with
  | Point c r e =>
    simp only [BlobTreeNode.PositiveRadii] at hpos
    simp only [BlobTreeNode.UnitEnergy] at hunit
    simp only [BlobTreeNode.Intensity, BlobTreeNode.KSeg]
    exact BlobTreePoint.K_seg_lipschitz c r e hpos (by rw [hunit]; simp) s σ₁ σ₂ h1 h2
  | Blend e1 e2 ih1 ih2 =>
    simp only [BlobTreeNode.PositiveRadii] at hpos
    simp only [BlobTreeNode.UnitEnergy] at hunit
    by_cases hI : (Box.ofBoxes e1.GetBox e2.GetBox).Intersect s.GetBox = true
    · rw [BlobTreeNode.Intensity_blend, BlobTreeNode.Intensity_blend]
      simp only [BlobTreeNode.KSeg, hI, Bool.not_true, Bool.false_eq_true, if_false]
      have h1 := ih1 hpos.1 hunit.1
      have h2 := ih2 hpos.2 hunit.2
      generalize Norm Real.sqrt ((Lerp s.a s.b σ₁).sub (Lerp s.a s.b σ₂)) = d at h1 h2 ⊢
      generalize Lerp s.a s.b σ₁ = p at h1 h2 ⊢
      generalize Lerp s.a s.b σ₂ = q at h1 h2 ⊢
      calc |e1.Intensity p + e2.Intensity p - (e1.Intensity q + e2.Intensity q)|
          = |(e1.Intensity p - e1.Intensity q) + (e2.Intensity p - e2.Intensity q)| := by ring_nf
        _ ≤ |e1.Intensity p - e1.Intensity q| + |e2.Intensity p - e2.Intensity q| := abs_add _ _
        _ ≤ e1.KSeg Real.sqrt s * d + e2.KSeg Real.sqrt s * d := add_le_add h1 h2
        _ = (e1.KSeg Real.sqrt s + e2.KSeg Real.sqrt s) * d := by ring
    · have hI' : (Box.ofBoxes e1.GetBox e2.GetBox).Intersect s.GetBox = false := by simpa using hI
      have z1 := Box.not_Inside_of_not_Intersect _ _ _ (Lerp_mem_GetBox s σ₁ h1.1 h1.2) hI'
      have z2 := Box.not_Inside_of_not_Intersect _ _ _ (Lerp_mem_GetBox s σ₂ h2.1 h2.2) hI'
      simp [BlobTreeNode.Intensity, BlobTreeNode.KSeg, hI', z1, z2]


theorem SquaredNorm_Normalized_le (u : Vector ℝ) : SquaredNorm (Normalized Real.sqrt u) ≤ 1 := by
  have h : SquaredNorm (Normalized Real.sqrt u)
      = SquaredNorm u * ((1 / Norm Real.sqrt u) * (1 / Norm Real.sqrt u)) := by
    unfold Normalized SquaredNorm Vector.mul; ring
  rw [h, ← Norm_mul_self u]
  rcases eq_or_lt_of_le (Norm_nonneg u) with hz | hpos
  · rw [← hz]; simp
  · have : Norm Real.sqrt u * Norm Real.sqrt u * (1 / Norm Real.sqrt u * (1 / Norm Real.sqrt u))
        = 1 := by field_simp
    rw [this]

theorem abs_dot_Normalized_le (u v : Vector ℝ) :
    Math.Abs ((Normalized Real.sqrt u).dot (Normalized Real.sqrt v)) ≤ 1 := by
  unfold Math.Abs
  apply abs_le_of_sq_le_sq _ zero_le_one
  have h := dot_sq_le (Normalized Real.sqrt u) (Normalized Real.sqrt v)
  have h1 := SquaredNorm_Normalized_le u
  have h2 := SquaredNorm_Normalized_le v
  have h3 := SquaredNorm_nonneg (Normalized Real.sqrt u)
  have h4 := SquaredNorm_nonneg (Normalized Real.sqrt v)
  nlinarith

theorem Math.Max_le (x y z : ℝ) (hx : x ≤ z) (hy : y ≤ z) : Math.Max x y ≤ z := by
  rw [Math.Max_eq_max]; exact max_le hx hy

theorem BlobTreePoint.K_le (c : Vector ℝ) (r e : ℝ) (s : Segment ℝ) (hr : 0 < r) :
    BlobTreePoint.K Real.sqrt c r e s ≤ CubicFalloffK e r := by
  have hK := CubicFalloffK_nonneg e r hr
  have hmax : ∀ u v : Vector ℝ, 0 ≤ Math.Max (SquaredNorm u) (SquaredNorm v) := by
    intro u v
    rw [Math.Max_eq_max]
    exact le_trans (SquaredNorm_nonneg u) (le_max_left _ _)
  unfold BlobTreePoint.K
  simp only
  split_ifs
  · exact hK
  all_goals
    refine le_trans (mul_le_mul (CubicFalloffK4_le _ _ _ _ hr ?_)
      (Math.Max_le _ _ _ (abs_dot_Normalized_le _ _) (abs_dot_Normalized_le _ _))
      (Math.Max_nonneg_abs _ _) hK) (le_of_eq (mul_one _))
  · exact SquaredNorm_nonneg _
  · exact SquaredNorm_nonneg _
  · exact hmax _ _

theorem BlobTreeNode.K_nonneg (n : BlobTreeNode ℝ) (hpos : n.PositiveRadii) : 0 ≤ n.K := by
  induction n with
  | Point c r e => exact CubicFalloffK_nonneg e r hpos
  | Blend e1 e2 ih1 ih2 =>
    simp only [BlobTreeNode.PositiveRadii] at hpos
    simp only [BlobTreeNode.K]
    exact add_nonneg (ih1 hpos.1) (ih2 hpos.2)

theorem BlobTreeNode.KSeg_nonneg (n : BlobTreeNode ℝ) (hpos : n.PositiveRadii) (s : Segment ℝ) :
    0 ≤ n.KSeg Real.sqrt s := by
  induction n with
  | Point c r e => exact BlobTreePoint.K_seg_nonneg c r e s hpos
  | Blend e1 e2 ih1 ih2 =>
    simp only [BlobTreeNode.PositiveRadii] at hpos
    simp only [BlobTreeNode.KSeg]
    split_ifs
    · exact le_rfl
    · exact add_nonneg (ih1 hpos.1) (ih2 hpos.2)

theorem BlobTreeNode.KSeg_le_K (n : BlobTreeNode ℝ) (hpos : n.PositiveRadii) (s : Segment ℝ) :
    n.KSeg Real.sqrt s ≤ n.K := by
  induction n with
  | Point c r e => exact BlobTreePoint.K_le c r e s hpos
  | Blend e1 e2 ih1 ih2 =>
    have h0 := BlobTreeNode.K_nonneg _ hpos
    simp only [BlobTreeNode.PositiveRadii] at hpos
    simp only [BlobTreeNode.KSeg]
    split_ifs
    · exact h0
    · simp only [BlobTreeNode.K]
      exact add_le_add (ih1 hpos.1) (ih2 hpos.2)

theorem BlobTreeNode.PositiveRadii_iff_leaves [LinearOrderedField α] (n : BlobTreeNode α) :
    n.PositiveRadii ↔ ∀ l ∈ n.leaves, l.PositiveRadii := by
  induction n with
  | Point c r e => simp [BlobTreeNode.leaves]
  | Blend e1 e2 ih1 ih2 =>
    simp only [BlobTreeNode.PositiveRadii, BlobTreeNode.leaves, List.mem_append, ih1, ih2]
    constructor
    · rintro ⟨h1, h2⟩ l (hl | hl)
      · exact h1 l hl
      · exact h2 l hl
    · intro h
      exact ⟨fun l hl => h l (Or.inl hl), fun l hl => h l (Or.inr hl)⟩

theorem BlobTreeNode.UnitEnergy_iff_leaves [LinearOrderedField α] (n : BlobTreeNode α) :
    n.UnitEnergy ↔ ∀ l ∈ n.leaves, l.UnitEnergy := by
  induction n with
  | Point c r e => simp [BlobTreeNode.leaves]
  | Blend e1 e2 ih1 ih2 =>
    simp only [BlobTreeNode.UnitEnergy, BlobTreeNode.leaves, List.mem_append, ih1, ih2]
    constructor
    · rintro ⟨h1, h2⟩ l (hl | hl)
      · exact h1 l hl
      · exact h2 l hl
    · intro h
      exact ⟨fun l hl => h l (Or.inl hl), fun l hl => h l (Or.inr hl)⟩

/-- The tree built from a non-empty list of centres exists and its leaves are
the primitives `Point c r 1`, up to order. -/
theorem OptimizeHierarchy_spec [LinearOrderedField α] (P : StdPartition (BlobTreeNode α))
    (c : List (Vector α)) (r : α) (hne : c ≠ []) :
    ∃ root, OptimizeHierarchy P c r = some root ∧
      root.leaves.Perm (c.map (fun ci => BlobTreeNode.Point ci r 1)) := by
  have hne' : c.map (fun ci => BlobTreeNode.Point ci r 1) ≠ [] := by simpa using hne
  obtain ⟨root, pts', h, hp, -, -⟩ := BVHRecursive_whole P
    (c.map (fun ci => BlobTreeNode.Point ci r 1)) hne'
    (by
      intro n hn
      rw [List.mem_map] at hn
      obtain ⟨ci, -, rfl⟩ := hn
      rfl)
    ((c.map (fun ci => BlobTreeNode.Point ci r 1)).length - 0 + 1) (by omega)
  refine ⟨root, ?_, hp⟩
  unfold OptimizeHierarchy OptimizeHierarchyRange
  simp only
  rw [if_neg (by simpa using hne), h]
  rfl

theorem OptimizeHierarchy_props [LinearOrderedField α] (P : StdPartition (BlobTreeNode α))
    (c : List (Vector α)) (r : α) (hne : c ≠ []) (hr : 0 < r) :
    ∃ root, OptimizeHierarchy P c r = some root ∧ root.PositiveRadii ∧ root.UnitEnergy := by
  obtain ⟨root, h, hp⟩ := OptimizeHierarchy_spec P c r hne
  refine ⟨root, h, ?_, ?_⟩
  · rw [BlobTreeNode.PositiveRadii_iff_leaves]
    intro l hl
    have := hp.subset hl
    rw [List.mem_map] at this
    obtain ⟨ci, -, rfl⟩ := this
    exact hr
  · rw [BlobTreeNode.UnitEnergy_iff_leaves]
    intro l hl
    have := hp.subset hl
    rw [List.mem_map] at this
    obtain ⟨ci, -, rfl⟩ := this
    rfl

/-! ## Rays and the stepping distance -/

theorem Ray.eval_sub (ray : Ray ℝ) (t t' : ℝ) :
    Norm Real.sqrt ((ray.eval t').sub (ray.eval t)) = |t' - t| * Norm Real.sqrt ray.d := by
  rw [Norm_eq_sqrt, Norm_eq_sqrt]
  have : SquaredNorm ((ray.eval t').sub (ray.eval t)) = (t' - t) ^ 2 * SquaredNorm ray.d := by
    unfold SquaredNorm Ray.eval Vector.sub Vector.add Vector.mul
    ring
  rw [this, Real.sqrt_mul (sq_nonneg _), Real.sqrt_sq_eq_abs]

theorem Ray.eval_Lerp (ray : Ray ℝ) (t ts σ : ℝ) :
    Lerp (ray.eval t) (ray.eval (t + ts)) σ = ray.eval (t + ts * σ) := by
  unfold Lerp Ray.eval Vector.sub Vector.add Vector.mul
  simp only [Vector.mk.injEq]
  refine ⟨?_, ?_, ?_⟩ <;> ring

theorem SegmentTrace.safeStep_le (i k ts : ℝ) : SegmentTrace.safeStep i k ts ≤ ts := by
  unfold SegmentTrace.safeStep Math.Min
  split_ifs with h1 h2
  · exact le_rfl
  · exact h2.le
  · exact le_rfl

theorem SegmentTrace.mul_safeStep_le (i k ts : ℝ) (hk : 0 ≤ k) :
    k * SegmentTrace.safeStep i k ts ≤ |i| := by
  unfold SegmentTrace.safeStep Math.Min
  split_ifs with h1 h2
  · rw [h1, zero_mul]; exact abs_nonneg i
  · have hk' : 0 < k := lt_of_le_of_ne hk (Ne.symm h1)
    rw [mul_div_cancel₀ _ hk'.ne']
  · have hk' : 0 < k := lt_of_le_of_ne hk (Ne.symm h1)
    have := not_lt.mp h2
    calc k * ts ≤ k * (|i| / k) := mul_le_mul_of_nonneg_left this hk
      _ = |i| := mul_div_cancel₀ _ hk'.ne'

/-! ## Bounding boxes of a tree -/

theorem Vector.get_Min [LinearOrderedField α] (u v : Vector α) (i : Nat) :
    (Vector.Min u v).get i = min (u.get i) (v.get i) := by
  unfold Vector.Min Vector.get
  split_ifs with h0 h1 h2 h3 h4 <;> simp [min_def] <;> split_ifs <;> linarith

theorem Vector.get_Max [LinearOrderedField α] (u v : Vector α) (i : Nat) :
    (Vector.Max u v).get i = max (u.get i) (v.get i) := by
  unfold Vector.Max Vector.get
  split_ifs with h0 h1 h2 h3 h4 <;> simp [max_def] <;> split_ifs <;> linarith

theorem Vector.ext_get [LinearOrderedField α] (u v : Vector α)
    (h : ∀ i : Nat, u.get i = v.get i) : u = v := by
  have h0 := h 0
  have h1 := h 1
  have h2 := h 2
  simp only [Vector.get, if_true, one_ne_zero, if_false, OfNat.ofNat_ne_zero,
    OfNat.ofNat_ne_one] at h0 h1 h2
  cases u; cases v
  simp only [Vector.mk.injEq]
  exact ⟨h0, h1, h2⟩

/-- The box of a node is the least box holding the boxes of its leaves. -/
theorem BlobTreeNode.GetBox_least [LinearOrderedField α] (n : BlobTreeNode α) (i : Nat) :
    (∀ l ∈ n.leaves, n.GetBox.a.get i ≤ l.GetBox.a.get i) ∧
    (∃ l ∈ n.leaves, n.GetBox.a.get i = l.GetBox.a.get i) ∧
    (∀ l ∈ n.leaves, l.GetBox.b.get i ≤ n.GetBox.b.get i) ∧
    (∃ l ∈ n.leaves, n.GetBox.b.get i = l.GetBox.b.get i) := by
  induction n with
  | Point c r e => simp [BlobTreeNode.leaves]
  | Blend e1 e2 ih1 ih2 =>
    obtain ⟨a1, ⟨l1, hl1, ha1⟩, b1, ⟨m1, hm1, hb1⟩⟩ := ih1
    obtain ⟨a2, ⟨l2, hl2, ha2⟩, b2, ⟨m2, hm2, hb2⟩⟩ := ih2
    simp only [BlobTreeNode.GetBox, BlobTreeNode.leaves, Box.ofBoxes, Vector.get_Min,
      Vector.get_Max, List.mem_append]
    refine ⟨?_, ?_, ?_, ?_⟩
    · rintro l (hl | hl)
      · exact le_trans (min_le_left _ _) (a1 l hl)
      · exact le_trans (min_le_right _ _) (a2 l hl)
    · rcases le_total (e1.GetBox.a.get i) (e2.GetBox.a.get i) with h | h
      · exact ⟨l1, Or.inl hl1, by rw [min_eq_left h, ha1]⟩
      · exact ⟨l2, Or.inr hl2, by rw [min_eq_right h, ha2]⟩
    · rintro l (hl | hl)
      · exact le_trans (b1 l hl) (le_max_left _ _)
      · exact le_trans (b2 l hl) (le_max_right _ _)
    · rcases le_total (e1.GetBox.b.get i) (e2.GetBox.b.get i) with h | h
      · exact ⟨m2, Or.inr hm2, by rw [max_eq_right h, hb2]⟩
      · exact ⟨m1, Or.inl hm1, by rw [max_eq_left h, hb1]⟩

theorem BlobTreePoint.box_get [LinearOrderedField α] (c : Vector α) (r : α) (i : Nat) :
    (BlobTreePoint.box c r).a.get i = c.get i - r ∧
    (BlobTreePoint.box c r).b.get i = c.get i + r := by
  unfold BlobTreePoint.box Vector.get Vector.sub Vector.add
  constructor <;> split_ifs <;> rfl

/-- The root box of the tree built from a list of centres. -/
theorem OptimizeHierarchy_root_box [LinearOrderedField α] (P : StdPartition (BlobTreeNode α))
    (centers : List (Vector α)) (r : α) (hne : centers ≠ []) :
    ∃ root, OptimizeHierarchy P centers r = some root ∧ ∀ i : Nat,
      (∀ c ∈ centers, root.GetBox.a.get i ≤ c.get i - r) ∧
      (∃ c ∈ centers, root.GetBox.a.get i = c.get i - r) ∧
      (∀ c ∈ centers, c.get i + r ≤ root.GetBox.b.get i) ∧
      (∃ c ∈ centers, root.GetBox.b.get i = c.get i + r) := by
  obtain ⟨root, h, hp⟩ := OptimizeHierarchy_spec P centers r hne
  refine ⟨root, h, fun i => ?_⟩
  obtain ⟨a1, ⟨l1, hl1, ha1⟩, b1, ⟨m1, hm1, hb1⟩⟩ := BlobTreeNode.GetBox_least root i
  have hmem : ∀ l, l ∈ root.leaves ↔ ∃ c ∈ centers, BlobTreeNode.Point c r 1 = l := by
    intro l
    rw [hp.mem_iff, List.mem_map]
  refine ⟨?_, ?_, ?_, ?_⟩
  · intro c hc
    have := a1 _ ((hmem _).mpr ⟨c, hc, rfl⟩)
    simpa [BlobTreeNode.GetBox, (BlobTreePoint.box_get c r i).1] using this
  · obtain ⟨c, hc, rfl⟩ := (hmem l1).mp hl1
    exact ⟨c, hc, by rw [ha1]; exact (BlobTreePoint.box_get c r i).1⟩
  · intro c hc
    have := b1 _ ((hmem _).mpr ⟨c, hc, rfl⟩)
    simpa [BlobTreeNode.GetBox, (BlobTreePoint.box_get c r i).2] using this
  · obtain ⟨c, hc, rfl⟩ := (hmem m1).mp hm1
    exact ⟨c, hc, by rw [hb1]; exact (BlobTreePoint.box_get c r i).2⟩


/-! ## Segments outside the support -/

theorem SquaredNorm_ge_of_not_Inside (c : Vector ℝ) (r : ℝ) (p : Vector ℝ) (hr : 0 < r)
    (h : (BlobTreePoint.box c r).Inside p = false) : r * r ≤ SquaredNorm (p.sub c) := by
  have h' : ¬ (BlobTreePoint.box c r).Inside p = true := by simp [h]
  rw [Box.Inside_eq_true_iff] at h'
  simp only [BlobTreePoint.box, Vector.sub, Vector.add] at h'
  unfold SquaredNorm Vector.sub
  simp only
  have s0 := mul_self_nonneg (p.c0 - c.c0)
  have s1 := mul_self_nonneg (p.c1 - c.c1)
  have s2 := mul_self_nonneg (p.c2 - c.c2)
  by_contra hc
  apply h'
  have hc' := not_le.mp hc
  have b0 : (p.c0 - c.c0) * (p.c0 - c.c0) < r * r := by linarith
  have b1 : (p.c1 - c.c1) * (p.c1 - c.c1) < r * r := by linarith
  have b2 : (p.c2 - c.c2) * (p.c2 - c.c2) < r * r := by linarith
  have a0 : -r < p.c0 - c.c0 ∧ p.c0 - c.c0 < r :=
    abs_lt_of_sq_lt_sq' (by rw [sq, sq]; exact b0) hr.le
  have a1 : -r < p.c1 - c.c1 ∧ p.c1 - c.c1 < r :=
    abs_lt_of_sq_lt_sq' (by rw [sq, sq]; exact b1) hr.le
  have a2 : -r < p.c2 - c.c2 ∧ p.c2 - c.c2 < r :=
    abs_lt_of_sq_lt_sq' (by rw [sq, sq]; exact b2) hr.le
  refine ⟨⟨?_, ?_, ?_⟩, ?_, ?_, ?_⟩ <;> linarith

theorem CubicFalloffK4_eq_zero (amin amax r e : ℝ) (hr : 0 < r) (h1 : r * r ≤ amin)
    (h2 : amin ≤ amax) : CubicFalloffK4 Real.sqrt amin amax r e = 0 := by
  have hr2 : 0 < r * r := mul_pos hr hr
  unfold CubicFalloffK4
  split_ifs with c1 c2 c3
  · rfl
  · exfalso; linarith
  · have : amin = r * r := le_antisymm (not_lt.mp c1) h1
    simp only
    rw [this, div_self hr2.ne']
    ring
  · exfalso
    have := not_lt.mp c3
    linarith

theorem SquaredNorm_sub_comm (u v : Vector ℝ) : SquaredNorm (u.sub v) = SquaredNorm (v.sub u) := by
  unfold SquaredNorm Vector.sub; ring

/-- A segment with no point strictly inside the box of a point primitive has
the segment bound 0. -/
theorem BlobTreePoint.K_eq_zero_of_outside (c : Vector ℝ) (r e : ℝ) (s : Segment ℝ) (hr : 0 < r)
    (hout : ∀ σ : ℝ, 0 ≤ σ → σ ≤ 1 → (BlobTreePoint.box c r).Inside (Lerp s.a s.b σ) = false) :
    BlobTreePoint.K Real.sqrt c r e s = 0 := by
  have hA : r * r ≤ SquaredNorm (c.sub s.a) := by
    have := SquaredNorm_ge_of_not_Inside c r _ hr (hout 0 le_rfl zero_le_one)
    rwa [Lerp_zero, SquaredNorm_sub_comm] at this
  have hB : r * r ≤ SquaredNorm (c.sub s.b) := by
    have := SquaredNorm_ge_of_not_Inside c r _ hr (hout 1 zero_le_one le_rfl)
    rwa [Lerp_one, SquaredNorm_sub_comm] at this
  by_cases hI : s.Intersect (BlobTreePoint.box c r) = true
  swap
  · unfold BlobTreePoint.K
    simp [hI]
  rcases eq_or_lt_of_le (Norm_nonneg (s.b.sub s.a)) with hz | hpos
  · -- a degenerate segment
    have haxis : Normalized Real.sqrt (s.b.sub s.a) = ⟨0, 0, 0⟩ := by
      unfold Normalized; rw [← hz]; simp [Vector.mul]
    unfold BlobTreePoint.K
    simp only [hI, Bool.not_true, Bool.false_eq_true, if_false, Segment.get, if_true,
      one_ne_zero, haxis]
    have hl : (c.sub s.a).dot (⟨0, 0, 0⟩ : Vector ℝ) = 0 := by simp [Vector.dot]
    rw [hl, ← hz]
    simp only [lt_irrefl, if_false, mul_zero, sub_zero]
    rw [CubicFalloffK4_eq_zero _ _ r e hr hA (by rw [Math.Max_eq_max]; exact le_max_right _ _)]
    ring
  · rw [BlobTreePoint.K_eq c r e s hI hpos]
    have hfar := far_end_sq s.a s.b c hpos
    have hlA := axis_sq_le (c.sub s.a) (s.b.sub s.a) hpos
    have hkk : (if (c.sub s.a).dot (Normalized Real.sqrt (s.b.sub s.a)) < 0 then
        CubicFalloffK4 Real.sqrt (SquaredNorm (c.sub s.a)) (SquaredNorm (c.sub s.b)) r e
       else if Norm Real.sqrt (s.b.sub s.a) < (c.sub s.a).dot (Normalized Real.sqrt (s.b.sub s.a))
       then CubicFalloffK4 Real.sqrt (SquaredNorm (c.sub s.b)) (SquaredNorm (c.sub s.a)) r e
       else CubicFalloffK4 Real.sqrt
        (SquaredNorm (c.sub s.a) - (c.sub s.a).dot (Normalized Real.sqrt (s.b.sub s.a))
          * (c.sub s.a).dot (Normalized Real.sqrt (s.b.sub s.a)))
        (Math.Max (SquaredNorm (c.sub s.b)) (SquaredNorm (c.sub s.a))) r e) = 0 := by
      split_ifs with c1 c2
      · apply CubicFalloffK4_eq_zero _ _ r e hr hA
        rw [hfar]; nlinarith
      · apply CubicFalloffK4_eq_zero _ _ r e hr hB
        rw [hfar]; nlinarith
      · -- the foot of the perpendicular is a point of the segment
        have hl0 := not_lt.mp c1
        have hl1 := not_lt.mp c2
        have hσ0 : 0 ≤ (c.sub s.a).dot (Normalized Real.sqrt (s.b.sub s.a))
            / Norm Real.sqrt (s.b.sub s.a) := div_nonneg hl0 hpos.le
        have hσ1 : (c.sub s.a).dot (Normalized Real.sqrt (s.b.sub s.a))
            / Norm Real.sqrt (s.b.sub s.a) ≤ 1 := (div_le_one hpos).mpr hl1
        have hfoot := SquaredNorm_ge_of_not_Inside c r _ hr (hout _ hσ0 hσ1)
        rw [path_sq, ← dot_axis_mul_len (c.sub s.a) (s.b.sub s.a) hpos,
          ← Norm_mul_self (s.b.sub s.a)] at hfoot
        apply CubicFalloffK4_eq_zero _ _ r e hr
        · calc r * r ≤ _ := hfoot
            _ = _ := by field_simp; ring
        · rw [Math.Max_eq_max]
          exact le_trans (sub_le_self _ (mul_self_nonneg _)) (le_max_right _ _)
    rw [hkk, zero_mul]

theorem BlobTreeNode.KSeg_eq_zero_of_outside (n : BlobTreeNode ℝ) (hpos : n.PositiveRadii)
    (s : Segment ℝ)
    (hout : ∀ σ : ℝ, 0 ≤ σ → σ ≤ 1 → ∀ l ∈ n.leaves, l.GetBox.Inside (Lerp s.a s.b σ) = false) :
    n.KSeg Real.sqrt s = 0 := by
  induction n with
  | Point c r e =>
    simp only [BlobTreeNode.KSeg]
    apply BlobTreePoint.K_eq_zero_of_outside c r e s hpos
    intro σ h0 h1
    exact hout σ h0 h1 (BlobTreeNode.Point c r e) (by simp [BlobTreeNode.leaves])
  | Blend e1 e2 ih1 ih2 =>
    simp only [BlobTreeNode.PositiveRadii] at hpos
    simp only [BlobTreeNode.KSeg]
    rw [ih1 hpos.1 (fun σ h0 h1 l hl => hout σ h0 h1 l (by simp [BlobTreeNode.leaves, hl])),
      ih2 hpos.2 (fun σ h0 h1 l hl => hout σ h0 h1 l (by simp [BlobTreeNode.leaves, hl]))]
    simp

theorem BlobTreeNode.K_pos (n : BlobTreeNode ℝ) (hpos : n.PositiveRadii)
    (hne : n.EnergyNonzero) : 0 < n.K := by
  induction n with
  | Point c r e =>
    simp only [BlobTreeNode.PositiveRadii] at hpos
    simp only [BlobTreeNode.EnergyNonzero] at hne
    simp only [BlobTreeNode.K, CubicFalloffK]
    have : (0:ℝ) < 1.72 := by norm_num
    have := abs_pos.mpr hne
    positivity
  | Blend e1 e2 ih1 ih2 =>
    simp only [BlobTreeNode.PositiveRadii] at hpos
    simp only [BlobTreeNode.EnergyNonzero] at hne
    simp only [BlobTreeNode.K]
    exact add_pos (ih1 hpos.1 hne.1) (ih2 hpos.2 hne.2)


/-! ## The interval of a ray in a box -/

theorem Box.IntersectAxis_le [LinearOrderedField α] (a b p d epsilon tmin tmax : α)
    (h : tmin ≤ tmax) (hok : (Box.IntersectAxis a b p d epsilon tmin tmax).1 = true) :
    (Box.IntersectAxis a b p d epsilon tmin tmax).2.1
      ≤ (Box.IntersectAxis a b p d epsilon tmin tmax).2.2 := by
  unfold Box.IntersectAxis at hok ⊢
  simp only at hok ⊢
  split_ifs at hok ⊢ <;> simp_all

theorem Box.IntersectRay_le [LinearOrderedField α] (box : Box α) (ray : Ray α) (epsilon : α)
    (hok : (box.IntersectRay ray epsilon).1 ≠ 0) :
    (box.IntersectRay ray epsilon).2.1 ≤ (box.IntersectRay ray epsilon).2.2 := by
  have h0 : (-1e16 : α) ≤ 1e16 := by norm_num
  unfold Box.IntersectRay at hok ⊢
  simp only at hok ⊢
  split_ifs at hok ⊢ with hx hy hz
  · simp at hok
  · simp at hok
  · simp at hok
  · have ex := Box.IntersectAxis_le _ _ _ _ epsilon _ _ h0 (by simpa using hx)
    have ey := Box.IntersectAxis_le _ _ _ _ epsilon _ _ ex (by simpa using hy)
    exact Box.IntersectAxis_le _ _ _ _ epsilon _ _ ey (by simpa using hz)

/-! ## The marching loop -/

/-- Total correctness of the marching loop from a variant `m` and an invariant
`Inv`: with more fuel than the variant the loop returns, after at most `m st`
passes, either from a hit pass or with the loop condition false. -/
theorem marchLoop_spec [LinearOrderedField α] {σ : Type} (pass : σ → Option (Pass σ α))
    (time : σ → α) (count : σ → Int) (b : α) (Inv : σ → Prop) (m : σ → Nat)
    (hpass : ∀ st, Inv st → time st < b → 1 ≤ m st ∧ ∃ out, pass st = some out ∧
      (∀ t s, out = Pass.hit t s → s = count st + 1) ∧
      (∀ st1, out = Pass.retreat st1 ∨ out = Pass.advance st1 →
        Inv st1 ∧ m st1 < m st ∧ count st1 = count st + 1)) :
    ∀ (fuel : Nat) (st : σ), Inv st → m st < fuel →
      ∃ res, marchLoop pass time count b fuel st = some res ∧
        res.2.2 ≤ count st + m st ∧
        ((res.1 = true ∧ ∃ st1, Inv st1 ∧ time st1 < b ∧
            pass st1 = some (Pass.hit res.2.1 res.2.2)) ∨
          (res.1 = false ∧ ∃ st1, Inv st1 ∧ ¬ time st1 < b ∧ res.2.1 = time st1 ∧
            res.2.2 = count st1)) := by
  intro fuel
  induction fuel with
  | zero => intro st _ h; omega
  | succ fuel ih =>
    intro st hInv hm
    by_cases ht : time st < b
    · obtain ⟨h1, out, hout, hhit, hnext⟩ := hpass st hInv ht
      cases out with
      | hit t s =>
        refine ⟨(true, t, s), by simp [marchLoop, ht, hout], ?_, Or.inl ⟨rfl, st, hInv, ht, hout⟩⟩
        have := hhit t s rfl
        simp only
        omega
      | retreat st1 =>
        obtain ⟨i1, m1, c1⟩ := hnext st1 (Or.inl rfl)
        obtain ⟨res, hres, hs, hcase⟩ := ih st1 i1 (by omega)
        exact ⟨res, by simp [marchLoop, ht, hout, hres], by omega, hcase⟩
      | advance st1 =>
        obtain ⟨i1, m1, c1⟩ := hnext st1 (Or.inr rfl)
        obtain ⟨res, hres, hs, hcase⟩ := ih st1 i1 (by omega)
        exact ⟨res, by simp [marchLoop, ht, hout, hres], by omega, hcase⟩
    · exact ⟨(false, time st, count st), by simp [marchLoop, ht], by simp,
        Or.inr ⟨rfl, st, hInv, ht, rfl, rfl⟩⟩

/-- One more pass at the end of a run. -/
theorem marchStates_succ [LinearOrderedField α] {σ : Type} (pass : σ → Option (Pass σ α))
    (time : σ → α) (b : α) (n : Nat) (st : σ) :
    marchStates pass time b (n + 1) st =
      (marchStates pass time b n st).bind (marchStates pass time b 1) := by
  induction n generalizing st with
  | zero => simp [marchStates]
  | succ n ih =>
    rw [marchStates]
    by_cases ht : time st < b
    · simp only [ht, if_true]
      cases hp : pass st with
      | none => simp [marchStates, ht, hp]
      | some out =>
        cases out with
        | hit t s => simp [marchStates, ht, hp]
        | retreat st1 =>
          simp only
          rw [ih st1]
          conv_rhs => rw [marchStates]
          simp [ht, hp]
        | advance st1 =>
          simp only
          rw [ih st1]
          conv_rhs => rw [marchStates]
          simp [ht, hp]
    · simp [marchStates, ht]

/-- The last pass of a run of `n + 1` passes. -/
theorem marchStates_last [LinearOrderedField α] {σ : Type} (pass : σ → Option (Pass σ α))
    (time : σ → α) (b : α) (n : Nat) (st st2 : σ)
    (h : marchStates pass time b (n + 1) st = some st2) :
    ∃ st1, marchStates pass time b n st = some st1 ∧ time st1 < b ∧
      (pass st1 = some (Pass.retreat st2) ∨ pass st1 = some (Pass.advance st2)) := by
  rw [marchStates_succ] at h
  cases h1 : marchStates pass time b n st with
  | none => rw [h1] at h; simp at h
  | some st1 =>
    rw [h1] at h
    simp only [Option.some_bind, marchStates] at h
    refine ⟨st1, rfl, ?_⟩
    by_cases ht : time st1 < b
    · refine ⟨ht, ?_⟩
      simp only [ht, if_true] at h
      cases hp : pass st1 with
      | none => rw [hp] at h; simp at h
      | some out =>
        rw [hp] at h
        cases out with
        | hit t s => simp at h
        | retreat s1 => simp only [Option.some.injEq] at h; left; rw [h]
        | advance s1 => simp only [Option.some.injEq] at h; right; rw [h]
    · simp [ht] at h

/-- A forward pass from the last state of a run extends the run. -/
theorem marchStates_step [LinearOrderedField α] {σ : Type} (pass : σ → Option (Pass σ α))
    (time : σ → α) (b : α) (n : Nat) (st0 st st1 : σ)
    (h : marchStates pass time b n st0 = some st) (ht : time st < b)
    (hp : pass st = some (Pass.advance st1)) :
    marchStates pass time b (n + 1) st0 = some st1 := by
  rw [marchStates_succ, h]
  simp [marchStates, ht, hp]

/-- An invariant of the body holds along the run. -/
theorem marchStates_inv [LinearOrderedField α] {σ : Type} (pass : σ → Option (Pass σ α))
    (time : σ → α) (b : α) (Inv : σ → Prop)
    (hpass : ∀ st st1, Inv st → time st < b →
      (pass st = some (Pass.retreat st1) ∨ pass st = some (Pass.advance st1)) → Inv st1) :
    ∀ (n : Nat) (st st1 : σ), Inv st → marchStates pass time b n st = some st1 → Inv st1 := by
  intro n
  induction n with
  | zero =>
    intro st st1 hInv h
    simp only [marchStates, Option.some.injEq] at h
    rw [← h]; exact hInv
  | succ n ih =>
    intro st st2 hInv h
    obtain ⟨st1, h1, ht, hp⟩ := marchStates_last pass time b n st st2 h
    exact hpass st1 st2 (ih st st1 hInv h1) ht hp


/-! ## Sphere tracing -/

theorem Epsilon_pos : (0 : ℝ) < Epsilon := by
  unfold Epsilon; norm_num

theorem Epsilon_le_Max (x : ℝ) : Epsilon ≤ Math.Max x Epsilon := by
  rw [Math.Max_eq_max]; exact le_max_right _ _

theorem le_Max_left (x y : ℝ) : x ≤ Math.Max x y := by
  rw [Math.Max_eq_max]; exact le_max_left _ _

/-- The variant of a loop that advances by at least `eps` in every pass. -/
theorem ceil_variant (b t t1 eps : ℝ) (heps : 0 < eps) (ht : t < b) (hs : t + eps ≤ t1) :
    1 ≤ ⌈(b - t) / eps⌉₊ ∧ ⌈(b - t1) / eps⌉₊ < ⌈(b - t) / eps⌉₊ := by
  have hx : 0 < (b - t) / eps := div_pos (sub_pos.mpr ht) heps
  have h1 : 1 ≤ ⌈(b - t) / eps⌉₊ := Nat.ceil_pos.mpr hx
  refine ⟨h1, ?_⟩
  have hy : (b - t1) / eps ≤ (b - t) / eps - 1 := by
    rw [div_le_iff₀ heps, sub_mul, div_mul_cancel₀ _ heps.ne']
    linarith
  have h2 : ⌈(b - t1) / eps⌉₊ ≤ ⌈(b - t) / eps⌉₊ - 1 := by
    rw [Nat.ceil_le, Nat.cast_sub h1, Nat.cast_one]
    have := Nat.le_ceil ((b - t) / eps)
    linarith
  omega

theorem SphereTrace_pass_eq (root : BlobTreeNode ℝ) (ray : Ray ℝ) (k : ℝ)
    (st : SphereTrace.State ℝ) :
    SphereTrace.pass ⟨some root⟩ ray k st =
      if root.Intensity (ray.eval st.t) - 0.5 > 0 then some (Pass.hit st.t (st.s + 1))
      else some (Pass.advance
        ⟨st.t + Math.Max (|root.Intensity (ray.eval st.t) - 0.5| / k) Epsilon, st.s + 1⟩) := by
  simp [SphereTrace.pass, BlobTree.Intensity]

/-- The loop of `SphereTrace` returns within `⌈(b - t) / ε⌉` passes, with any
invariant of the body. -/
theorem SphereTrace_loop_spec (root : BlobTreeNode ℝ) (ray : Ray ℝ) (k b : ℝ)
    (Inv : ℝ → Prop)
    (hInv : ∀ t, Inv t → t < b → root.Intensity (ray.eval t) - 0.5 ≤ 0 →
      Inv (t + Math.Max (|root.Intensity (ray.eval t) - 0.5| / k) Epsilon))
    (fuel : Nat) (st : SphereTrace.State ℝ) (h0 : Inv st.t)
    (hfuel : ⌈(b - st.t) / Epsilon⌉₊ < fuel) :
    ∃ res, marchLoop (SphereTrace.pass ⟨some root⟩ ray k) SphereTrace.State.t
        SphereTrace.State.s b fuel st = some res ∧
      res.2.2 ≤ st.s + ⌈(b - st.t) / Epsilon⌉₊ ∧
      ((res.1 = true ∧ Inv res.2.1 ∧ res.2.1 < b ∧
          0 < root.Intensity (ray.eval res.2.1) - 0.5) ∨
        (res.1 = false ∧ Inv res.2.1 ∧ b ≤ res.2.1)) := by
  obtain ⟨res, hres, hs, hcase⟩ := marchLoop_spec (SphereTrace.pass ⟨some root⟩ ray k)
    SphereTrace.State.t SphereTrace.State.s b (fun st => Inv st.t)
    (fun st => ⌈(b - st.t) / Epsilon⌉₊) (by
      intro st hI ht
      rw [SphereTrace_pass_eq]
      by_cases hpos : root.Intensity (ray.eval st.t) - 0.5 > 0
      · refine ⟨Nat.ceil_pos.mpr (div_pos (sub_pos.mpr ht) Epsilon_pos), _, if_pos hpos, ?_, ?_⟩
        · intro t s h; simp only [Pass.hit.injEq] at h; rw [← h.2]
        · intro st1 h; simp at h
      · have hv := ceil_variant b st.t
          (st.t + Math.Max (|root.Intensity (ray.eval st.t) - 0.5| / k) Epsilon) Epsilon
          Epsilon_pos ht (by linarith [Epsilon_le_Max (|root.Intensity (ray.eval st.t) - 0.5| / k)])
        refine ⟨hv.1, _, if_neg hpos, ?_, ?_⟩
        · intro t s h; simp at h
        · intro st1 h
          simp only [reduceCtorEq, Pass.advance.injEq, false_or] at h
          rw [← h]
          exact ⟨hInv st.t hI ht (not_lt.mp hpos), hv.2, rfl⟩)
    fuel st h0 hfuel
  refine ⟨res, hres, hs, ?_⟩
  rcases hcase with ⟨hb, st1, hI1, ht1, hp1⟩ | ⟨hb, st1, hI1, ht1, e1, -⟩
  · left
    rw [SphereTrace_pass_eq] at hp1
    by_cases hpos : root.Intensity (ray.eval st1.t) - 0.5 > 0
    · rw [if_pos hpos] at hp1
      simp only [Option.some.injEq, Pass.hit.injEq] at hp1
      rw [← hp1.1]
      exact ⟨hb, hI1, ht1, hpos⟩
    · rw [if_neg hpos] at hp1
      simp at hp1
  · right
    rw [e1]
    exact ⟨hb, hI1, not_lt.mp ht1⟩

theorem SphereTrace_eq_loop (fuel : Nat) (root : BlobTreeNode ℝ) (ray : Ray ℝ) (t0 : ℝ)
    (s0 : Int) (k a b : ℝ) (hbox : root.GetBox.IntersectRay ray 1e-3 = (1, a, b)) :
    SphereTrace fuel ⟨some root⟩ ray t0 s0 k =
      marchLoop (SphereTrace.pass ⟨some root⟩ ray k) SphereTrace.State.t SphereTrace.State.s b
        fuel ⟨a, 0⟩ := by
  simp [SphereTrace, BlobTree.GetBox, hbox]

theorem IntersectRay_interval (box : Box ℝ) (ray : Ray ℝ) (a b : ℝ)
    (hbox : box.IntersectRay ray 1e-3 = (1, a, b)) : a ≤ b := by
  have := Box.IntersectRay_le box ray 1e-3 (by rw [hbox]; simp)
  rw [hbox] at this
  exact this

/-! ## Segment tracing -/

theorem SegmentTrace.safeStep_nonneg (i k ts : ℝ) (hk : 0 ≤ k) (hts : 0 ≤ ts) :
    0 ≤ SegmentTrace.safeStep i k ts := by
  unfold SegmentTrace.safeStep Math.Min
  split_ifs
  · exact hts
  · exact div_nonneg (abs_nonneg i) hk
  · exact hts

theorem SegmentTrace.tk_nonneg (nan : Bool) (i k ts : ℝ) (hk : 0 ≤ k) (hts : 0 ≤ ts) :
    0 ≤ SegmentTrace.tk nan i k ts := by
  unfold SegmentTrace.tk
  split_ifs
  · exact hts
  · exact SegmentTrace.safeStep_nonneg i k ts hk hts

theorem SegmentTrace.tk_le (nan : Bool) (i k ts : ℝ) : SegmentTrace.tk nan i k ts ≤ ts := by
  unfold SegmentTrace.tk
  split_ifs
  · exact le_rfl
  · exact SegmentTrace.safeStep_le i k ts

theorem SegmentTrace_pass_eq (root : BlobTreeNode ℝ) (ray : Ray ℝ) (st : SegmentTrace.State ℝ)
    (I k tk : ℝ) (hI : I = root.Intensity (ray.eval st.t) - 0.5)
    (hk : k = root.KSeg Real.sqrt ⟨ray.eval st.t, ray.eval (st.t + st.ts)⟩)
    (htk : tk = SegmentTrace.tk
      (root.KSegNaN Real.sqrt ⟨ray.eval st.t, ray.eval (st.t + st.ts)⟩) I k st.ts) :
    SegmentTrace.pass Real.sqrt ⟨some root⟩ ray st =
      if I > 0 then some (Pass.hit st.t (st.s + 1))
      else if tk < (1.0 - 1.0) * st.te then
        some (Pass.retreat ⟨st.t - (1.0 - 1.0) * st.te, st.s + 1, tk * 1.5, 0⟩)
      else
        some (Pass.advance
          ⟨st.t + Math.Max (tk * 1.0) Epsilon, st.s + 1, tk * 1.5, Math.Max (tk * 1.0) Epsilon⟩) := by
  subst hI hk htk
  rfl

/-- A pass of `SegmentTrace` started with `0 ≤ ts` either returns a hit or takes
the forward branch, with `0 ≤ tk ≤ ts`. -/
theorem SegmentTrace_pass_cases (root : BlobTreeNode ℝ) (hpos : root.PositiveRadii)
    (ray : Ray ℝ) (st : SegmentTrace.State ℝ) (hts : 0 ≤ st.ts) :
    (0 < root.Intensity (ray.eval st.t) - 0.5 ∧
      SegmentTrace.pass Real.sqrt ⟨some root⟩ ray st = some (Pass.hit st.t (st.s + 1))) ∨
    (root.Intensity (ray.eval st.t) - 0.5 ≤ 0 ∧ ∃ tk,
      tk = SegmentTrace.tk
        (root.KSegNaN Real.sqrt ⟨ray.eval st.t, ray.eval (st.t + st.ts)⟩)
        (root.Intensity (ray.eval st.t) - 0.5)
        (root.KSeg Real.sqrt ⟨ray.eval st.t, ray.eval (st.t + st.ts)⟩) st.ts ∧
      0 ≤ tk ∧ tk ≤ st.ts ∧ ¬ tk < (1.0 - 1.0) * st.te ∧
      SegmentTrace.pass Real.sqrt ⟨some root⟩ ray st = some (Pass.advance
        ⟨st.t + Math.Max (tk * 1.0) Epsilon, st.s + 1, tk * 1.5,
          Math.Max (tk * 1.0) Epsilon⟩)) := by
  have hp := SegmentTrace_pass_eq root ray st _ _ _ rfl rfl rfl
  have h0 : 0 ≤ SegmentTrace.tk
      (root.KSegNaN Real.sqrt ⟨ray.eval st.t, ray.eval (st.t + st.ts)⟩)
      (root.Intensity (ray.eval st.t) - 0.5)
      (root.KSeg Real.sqrt ⟨ray.eval st.t, ray.eval (st.t + st.ts)⟩) st.ts :=
    SegmentTrace.tk_nonneg _ _ _ _ (BlobTreeNode.KSeg_nonneg root hpos _) hts
  have hno : ¬ SegmentTrace.tk
      (root.KSegNaN Real.sqrt ⟨ray.eval st.t, ray.eval (st.t + st.ts)⟩)
      (root.Intensity (ray.eval st.t) - 0.5)
      (root.KSeg Real.sqrt ⟨ray.eval st.t, ray.eval (st.t + st.ts)⟩) st.ts
        < (1.0 - 1.0) * st.te := by
    have e : ((1.0 : ℝ) - 1.0) * st.te = 0 := by norm_num
    rw [e]; exact not_lt.mpr h0
  by_cases hI : root.Intensity (ray.eval st.t) - 0.5 > 0
  · left
    rw [if_pos hI] at hp
    exact ⟨hI, hp⟩
  · right
    rw [if_neg hI, if_neg hno] at hp
    exact ⟨not_lt.mp hI, _, rfl, h0, SegmentTrace.tk_le _ _ _ _, hno, hp⟩

/-- The loop of `SegmentTrace` returns within `⌈(b - t) / ε⌉` passes, with any
invariant of the forward branch. -/
theorem SegmentTrace_loop_spec (root : BlobTreeNode ℝ) (hpos : root.PositiveRadii)
    (ray : Ray ℝ) (b : ℝ) (Inv : SegmentTrace.State ℝ → Prop)
    (hInv : ∀ st st1, Inv st → 0 ≤ st.ts → st.t < b →
      root.Intensity (ray.eval st.t) - 0.5 ≤ 0 →
      SegmentTrace.pass Real.sqrt ⟨some root⟩ ray st = some (Pass.advance st1) → Inv st1)
    (fuel : Nat) (st : SegmentTrace.State ℝ) (h0 : Inv st) (hts : 0 ≤ st.ts)
    (hfuel : ⌈(b - st.t) / Epsilon⌉₊ < fuel) :
    ∃ res, marchLoop (SegmentTrace.pass Real.sqrt ⟨some root⟩ ray) SegmentTrace.State.t
        SegmentTrace.State.s b fuel st = some res ∧
      res.2.2 ≤ st.s + ⌈(b - st.t) / Epsilon⌉₊ ∧
      ((res.1 = true ∧ (∃ st1, Inv st1 ∧ st1.t = res.2.1) ∧ res.2.1 < b ∧
          0 < root.Intensity (ray.eval res.2.1) - 0.5) ∨
        (res.1 = false ∧ (∃ st1, Inv st1 ∧ st1.t = res.2.1) ∧ b ≤ res.2.1)) := by
  obtain ⟨res, hres, hs, hcase⟩ := marchLoop_spec (SegmentTrace.pass Real.sqrt ⟨some root⟩ ray)
    SegmentTrace.State.t SegmentTrace.State.s b (fun st => Inv st ∧ 0 ≤ st.ts)
    (fun st => ⌈(b - st.t) / Epsilon⌉₊) (by
      intro st hI ht
      rcases SegmentTrace_pass_cases root hpos ray st hI.2 with ⟨-, hp⟩ | ⟨hneg, tk, htk, h0, -, -, hp⟩
      · refine ⟨Nat.ceil_pos.mpr (div_pos (sub_pos.mpr ht) Epsilon_pos), _, hp, ?_, ?_⟩
        · intro t s h; simp only [Pass.hit.injEq] at h; rw [← h.2]
        · intro st1 h; simp at h
      · have hv := ceil_variant b st.t (st.t + Math.Max (tk * 1.0) Epsilon) Epsilon
          Epsilon_pos ht (by linarith [Epsilon_le_Max (tk * 1.0)])
        refine ⟨hv.1, _, hp, ?_, ?_⟩
        · intro t s h; simp at h
        · intro st1 h
          simp only [reduceCtorEq, Pass.advance.injEq, false_or] at h
          subst h
          exact ⟨⟨hInv st _ hI.1 hI.2 ht hneg hp, mul_nonneg h0 (by norm_num)⟩, hv.2, rfl⟩)
    fuel st ⟨h0, hts⟩ hfuel
  refine ⟨res, hres, hs, ?_⟩
  rcases hcase with ⟨hb, st1, hI1, ht1, hp1⟩ | ⟨hb, st1, hI1, ht1, e1, -⟩
  · left
    rcases SegmentTrace_pass_cases root hpos ray st1 hI1.2 with ⟨hI, hp⟩ | ⟨-, tk, -, -, -, -, hp⟩
    · rw [hp] at hp1
      simp only [Option.some.injEq, Pass.hit.injEq] at hp1
      rw [← hp1.1]
      exact ⟨hb, ⟨st1, hI1.1, rfl⟩, ht1, hI⟩
    · rw [hp] at hp1
      simp at hp1
  · right
    rw [e1]
    exact ⟨hb, ⟨st1, hI1.1, rfl⟩, not_lt.mp ht1⟩

theorem SegmentTrace_eq_loop (fuel : Nat) (root : BlobTreeNode ℝ) (ray : Ray ℝ) (t0 : ℝ)
    (s0 : Int) (a b : ℝ) (hbox : root.GetBox.IntersectRay ray 1e-3 = (1, a, b)) :
    SegmentTrace Real.sqrt fuel ⟨some root⟩ ray t0 s0 =
      marchLoop (SegmentTrace.pass Real.sqrt ⟨some root⟩ ray) SegmentTrace.State.t
        SegmentTrace.State.s b fuel ⟨a, 0, b - a, 0⟩ := by
  simp [SegmentTrace, BlobTree.GetBox, hbox]

/-- Along a run of the loop of `SegmentTrace` from `ts ≥ 0`, `ts` stays
non-negative. -/
theorem SegmentTrace.states_ts_nonneg (root : BlobTreeNode ℝ) (hpos : root.PositiveRadii)
    (ray : Ray ℝ) (b : ℝ) (n : Nat) (st0 st : SegmentTrace.State ℝ) (h0 : 0 ≤ st0.ts)
    (hst : marchStates (SegmentTrace.pass Real.sqrt ⟨some root⟩ ray) SegmentTrace.State.t b n
      st0 = some st) : 0 ≤ st.ts := by
  refine marchStates_inv (SegmentTrace.pass Real.sqrt ⟨some root⟩ ray) SegmentTrace.State.t b
    (fun st => 0 ≤ st.ts) ?_ n st0 st h0 hst
  intro st st1 hI _ hp
  rcases SegmentTrace_pass_cases root hpos ray st hI with ⟨-, hq⟩ | ⟨-, tk, -, h0, -, -, hq⟩
  · rw [hq] at hp; simp at hp
  · rw [hq] at hp
    simp only [Option.some.injEq, reduceCtorEq, Pass.advance.injEq, false_or] at hp
    rw [← hp]
    show 0 ≤ tk * 1.5
    positivity

/-! ## Enhanced sphere tracing -/

theorem EnhancedSphereTrace_pass_eq (root : BlobTreeNode ℝ) (ray : Ray ℝ) (k : ℝ)
    (st : EnhancedSphereTrace.State ℝ) (I tk : ℝ)
    (hI : I = root.Intensity (ray.eval st.t) - 0.5) (htk : tk = |I| / k) :
    EnhancedSphereTrace.pass ⟨some root⟩ ray k st =
      if I > 0 then some (Pass.hit st.t (st.s + 1))
      else if tk < (1.25 - 1) * st.te then
        some (Pass.retreat ⟨st.t - (1.25 - 1) * st.te, st.s + 1, 0⟩)
      else some (Pass.advance ⟨st.t + Math.Max (tk * 1.25) Epsilon, st.s + 1, tk⟩) := by
  subst hI htk
  rfl

/-- The overstep of a forward pass, less the quarter a backward pass may take
back, is at least `0.8 * ε`. -/
theorem EnhancedSphereTrace.net_advance (tk : ℝ) :
    0.8 * Epsilon ≤ Math.Max (tk * 1.25) Epsilon - 0.25 * tk := by
  have h1 := le_Max_left (tk * 1.25) Epsilon
  have h2 := Epsilon_le_Max (tk * 1.25)
  have h3 := Epsilon_pos
  by_cases h : 0.8 * Epsilon ≤ tk
  · linarith
  · have := not_le.mp h
    linarith

/-- The three outcomes of a pass of `EnhancedSphereTrace` for `k > 0`. -/
theorem EnhancedSphereTrace_pass_cases (root : BlobTreeNode ℝ) (ray : Ray ℝ) (k : ℝ)
    (hk : 0 < k) (st : EnhancedSphereTrace.State ℝ) :
    (0 < root.Intensity (ray.eval st.t) - 0.5 ∧
      EnhancedSphereTrace.pass ⟨some root⟩ ray k st = some (Pass.hit st.t (st.s + 1))) ∨
    (root.Intensity (ray.eval st.t) - 0.5 ≤ 0 ∧ 0 < st.te ∧
      EnhancedSphereTrace.pass ⟨some root⟩ ray k st
        = some (Pass.retreat ⟨st.t - (1.25 - 1) * st.te, st.s + 1, 0⟩)) ∨
    (root.Intensity (ray.eval st.t) - 0.5 ≤ 0 ∧ ∃ tk,
      tk = |root.Intensity (ray.eval st.t) - 0.5| / k ∧ 0 ≤ tk ∧
      EnhancedSphereTrace.pass ⟨some root⟩ ray k st
        = some (Pass.advance ⟨st.t + Math.Max (tk * 1.25) Epsilon, st.s + 1, tk⟩)) := by
  have hp := EnhancedSphereTrace_pass_eq root ray k st _ _ rfl rfl
  have h0 : 0 ≤ |root.Intensity (ray.eval st.t) - 0.5| / k :=
    div_nonneg (abs_nonneg _) hk.le
  by_cases hI : root.Intensity (ray.eval st.t) - 0.5 > 0
  · left
    rw [if_pos hI] at hp
    exact ⟨hI, hp⟩
  · right
    by_cases hr : |root.Intensity (ray.eval st.t) - 0.5| / k < (1.25 - 1) * st.te
    · left
      rw [if_neg hI, if_pos hr] at hp
      refine ⟨not_lt.mp hI, ?_, hp⟩
      have : (0 : ℝ) < (1.25 - 1) * st.te := lt_of_le_of_lt h0 hr
      norm_num at this
      exact this
    · right
      rw [if_neg hI, if_neg hr] at hp
      exact ⟨not_lt.mp hI, _, rfl, h0, hp⟩

/-- The invariant of the loop of `EnhancedSphereTrace`: `te ≥ 0` and the
position less a quarter of the last step stays at or above `lo`. -/
theorem EnhancedSphereTrace.pass_inv (root : BlobTreeNode ℝ) (ray : Ray ℝ) (k : ℝ)
    (hk : 0 < k) (lo : ℝ) (st st1 : EnhancedSphereTrace.State ℝ)
    (hI : 0 ≤ st.te ∧ lo ≤ st.t - 0.25 * st.te)
    (hp : EnhancedSphereTrace.pass ⟨some root⟩ ray k st = some (Pass.retreat st1) ∨
      EnhancedSphereTrace.pass ⟨some root⟩ ray k st = some (Pass.advance st1)) :
    0 ≤ st1.te ∧ lo ≤ st1.t - 0.25 * st1.te := by
  rcases EnhancedSphereTrace_pass_cases root ray k hk st with
    ⟨-, hq⟩ | ⟨-, -, hq⟩ | ⟨-, tk, -, h0, hq⟩
  · rw [hq] at hp; simp at hp
  · rw [hq] at hp
    simp only [Option.some.injEq, Pass.retreat.injEq, reduceCtorEq, or_false] at hp
    rw [← hp]
    refine ⟨le_rfl, ?_⟩
    show lo ≤ st.t - (1.25 - 1) * st.te - 0.25 * 0
    norm_num
    linarith [hI.2]
  · rw [hq] at hp
    simp only [Option.some.injEq, reduceCtorEq, Pass.advance.injEq, false_or] at hp
    rw [← hp]
    refine ⟨h0, ?_⟩
    show lo ≤ st.t + Math.Max (tk * 1.25) Epsilon - 0.25 * tk
    have := EnhancedSphereTrace.net_advance tk
    have := Epsilon_pos
    linarith [hI.1, hI.2]

/-- The loop of `EnhancedSphereTrace` returns within twice
`⌈(b - (t - te / 4)) / (0.8 ε)⌉` passes, plus one when `te > 0`. -/
theorem EnhancedSphereTrace_loop_spec (root : BlobTreeNode ℝ) (ray : Ray ℝ) (k : ℝ)
    (hk : 0 < k) (b : ℝ) (fuel : Nat) (st : EnhancedSphereTrace.State ℝ) (h0 : 0 ≤ st.te)
    (hfuel : 2 * ⌈(b - (st.t - 0.25 * st.te)) / (0.8 * Epsilon)⌉₊
      + (if 0 < st.te then 1 else 0) < fuel) :
    ∃ res, marchLoop (EnhancedSphereTrace.pass ⟨some root⟩ ray k) EnhancedSphereTrace.State.t
        EnhancedSphereTrace.State.s b fuel st = some res ∧
      res.2.2 ≤ st.s + ((2 * ⌈(b - (st.t - 0.25 * st.te)) / (0.8 * Epsilon)⌉₊
        + (if 0 < st.te then 1 else 0) : Nat) : Int) := by
  have he : (0 : ℝ) < 0.8 * Epsilon := by have := Epsilon_pos; linarith
  obtain ⟨res, hres, hs, -⟩ := marchLoop_spec (EnhancedSphereTrace.pass ⟨some root⟩ ray k)
    EnhancedSphereTrace.State.t EnhancedSphereTrace.State.s b (fun st => 0 ≤ st.te)
    (fun st => 2 * ⌈(b - (st.t - 0.25 * st.te)) / (0.8 * Epsilon)⌉₊
      + (if 0 < st.te then 1 else 0)) (by
      intro st hI ht
      have hΦ : st.t - 0.25 * st.te < b := by linarith
      have hA : 1 ≤ ⌈(b - (st.t - 0.25 * st.te)) / (0.8 * Epsilon)⌉₊ :=
        Nat.ceil_pos.mpr (div_pos (sub_pos.mpr hΦ) he)
      refine ⟨by dsimp only; omega, ?_⟩
      rcases EnhancedSphereTrace_pass_cases root ray k hk st with
        ⟨-, hq⟩ | ⟨-, hte, hq⟩ | ⟨-, tk, -, htk, hq⟩
      · refine ⟨_, hq, ?_, ?_⟩
        · intro t s h; simp only [Pass.hit.injEq] at h; rw [← h.2]
        · intro st1 h; simp at h
      · refine ⟨_, hq, ?_, ?_⟩
        · intro t s h; simp at h
        · intro st1 h
          simp only [Pass.retreat.injEq, reduceCtorEq, or_false] at h
          rw [← h]
          refine ⟨le_rfl, ?_, rfl⟩
          have e : b - (st.t - (1.25 - 1) * st.te - 0.25 * 0) = b - (st.t - 0.25 * st.te) := by
            ring
          simp only [e, lt_self_iff_false, if_false, if_pos hte]
          omega
      · refine ⟨_, hq, ?_, ?_⟩
        · intro t s h; simp at h
        · intro st1 h
          simp only [reduceCtorEq, Pass.advance.injEq, false_or] at h
          rw [← h]
          refine ⟨htk, ?_, rfl⟩
          have hv := ceil_variant b (st.t - 0.25 * st.te)
            (st.t + Math.Max (tk * 1.25) Epsilon - 0.25 * tk) (0.8 * Epsilon) he hΦ
            (by linarith [EnhancedSphereTrace.net_advance tk])
          simp only
          split_ifs <;> omega)
    fuel st h0 hfuel
  exact ⟨res, hres, hs⟩

theorem EnhancedSphereTrace_eq_loop (fuel : Nat) (root : BlobTreeNode ℝ) (ray : Ray ℝ)
    (t0 : ℝ) (s0 : Int) (k a b : ℝ) (hbox : root.GetBox.IntersectRay ray 1e-3 = (1, a, b)) :
    EnhancedSphereTrace fuel ⟨some root⟩ ray t0 s0 k =
      marchLoop (EnhancedSphereTrace.pass ⟨some root⟩ ray k) EnhancedSphereTrace.State.t
        EnhancedSphereTrace.State.s b fuel ⟨a, 0, 0⟩ := by
  simp [EnhancedSphereTrace, BlobTree.GetBox, hbox]

/-! ## Steps that do not cross the surface -/

/-- The Lipschitz step of sphere tracing stays on the outer side of the surface. -/
theorem SphereTrace_step_safe (root : BlobTreeNode ℝ) (hpos : root.PositiveRadii)
    (hunit : root.UnitEnergy) (ray : Ray ℝ) (hd : Norm Real.sqrt ray.d = 1) (t : ℝ)
    (hI0 : root.Intensity (ray.eval t) - 0.5 ≤ 0) (t' : ℝ) (h1 : t ≤ t')
    (h2 : t' ≤ t + |root.Intensity (ray.eval t) - 0.5| / root.K) :
    root.Intensity (ray.eval t') - 0.5 ≤ 0 := by
  have hk0 : 0 ≤ root.K := BlobTreeNode.K_nonneg root hpos
  have key := BlobTreeNode.K_lipschitz root hpos hunit (ray.eval t') (ray.eval t)
  rw [Ray.eval_sub, hd, mul_one, abs_of_nonneg (sub_nonneg.mpr h1)] at key
  have hle : root.K * (t' - t) ≤ |root.Intensity (ray.eval t) - 0.5| := by
    rcases eq_or_lt_of_le hk0 with hz | hkpos
    · rw [← hz, zero_mul]; exact abs_nonneg _
    · calc root.K * (t' - t)
          ≤ root.K * (|root.Intensity (ray.eval t) - 0.5| / root.K) :=
            mul_le_mul_of_nonneg_left (by linarith) hk0
        _ = |root.Intensity (ray.eval t) - 0.5| := mul_div_cancel₀ _ hkpos.ne'
  have := (abs_le.mp (le_trans key hle)).2
  rw [abs_of_nonpos hI0] at this
  linarith

/-- The step `tk` of segment tracing stays on the outer side of the surface when
`K(s)` is not NaN on the probed segment, or the probe has length `0`. -/
theorem SegmentTrace_step_safe (root : BlobTreeNode ℝ) (hpos : root.PositiveRadii)
    (hunit : root.UnitEnergy) (ray : Ray ℝ) (hd : Norm Real.sqrt ray.d = 1) (t ts : ℝ)
    (hts : 0 ≤ ts)
    (hfree : root.KSegNaN Real.sqrt ⟨ray.eval t, ray.eval (t + ts)⟩ = false ∨ ts = 0)
    (hI0 : root.Intensity (ray.eval t) - 0.5 ≤ 0) (t' : ℝ) (h1 : t ≤ t')
    (h2 : t' ≤ t + SegmentTrace.tk
      (root.KSegNaN Real.sqrt ⟨ray.eval t, ray.eval (t + ts)⟩)
      (root.Intensity (ray.eval t) - 0.5)
      (root.KSeg Real.sqrt ⟨ray.eval t, ray.eval (t + ts)⟩) ts) :
    root.Intensity (ray.eval t') - 0.5 ≤ 0 := by
  have htk := SegmentTrace.tk_le
    (root.KSegNaN Real.sqrt ⟨ray.eval t, ray.eval (t + ts)⟩)
    (root.Intensity (ray.eval t) - 0.5)
    (root.KSeg Real.sqrt ⟨ray.eval t, ray.eval (t + ts)⟩) ts
  rcases eq_or_lt_of_le hts with hz | hpos'
  · have : t' = t := by
      rw [← hz] at htk h2
      linarith
    rw [this]; exact hI0
  · have hn : root.KSegNaN Real.sqrt ⟨ray.eval t, ray.eval (t + ts)⟩ = false := by
      rcases hfree with h | h
      · exact h
      · exact absurd h hpos'.ne'
    rw [hn] at h2
    simp only [SegmentTrace.tk, Bool.false_eq_true, if_false] at h2
    have hk0 : 0 ≤ root.KSeg Real.sqrt ⟨ray.eval t, ray.eval (t + ts)⟩ :=
      BlobTreeNode.KSeg_nonneg root hpos _
    have hstep := SegmentTrace.safeStep_le (root.Intensity (ray.eval t) - 0.5)
      (root.KSeg Real.sqrt ⟨ray.eval t, ray.eval (t + ts)⟩) ts
    have hmul := SegmentTrace.mul_safeStep_le (root.Intensity (ray.eval t) - 0.5)
      (root.KSeg Real.sqrt ⟨ray.eval t, ray.eval (t + ts)⟩) ts hk0
    have hσ0 : 0 ≤ (t' - t) / ts := div_nonneg (by linarith) hts
    have hσ1 : (t' - t) / ts ≤ 1 := (div_le_one hpos').mpr (by linarith)
    have key := BlobTreeNode.KSeg_lipschitz root hpos hunit
      ⟨ray.eval t, ray.eval (t + ts)⟩ ((t' - t) / ts) 0 ⟨hσ0, hσ1⟩ ⟨le_rfl, zero_le_one⟩
    simp only [Ray.eval_Lerp] at key
    have e1 : t + ts * ((t' - t) / ts) = t' := by field_simp
    have e2 : t + ts * 0 = t := by ring
    rw [e1, e2, Ray.eval_sub, hd, mul_one, abs_of_nonneg (sub_nonneg.mpr h1)] at key
    have hle : root.KSeg Real.sqrt ⟨ray.eval t, ray.eval (t + ts)⟩ * (t' - t)
        ≤ |root.Intensity (ray.eval t) - 0.5| :=
      le_trans (mul_le_mul_of_nonneg_left (by linarith) hk0) hmul
    have := (abs_le.mp (le_trans key hle)).2
    rw [abs_of_nonpos hI0] at this
    linarith

/-- The loop of `SegmentTrace` from the entry into the root box, along a run
on which `K(s)` is NaN on no probed segment of positive length: it returns, and
a property `P` of `t` that safe forward steps keep holds at the end. -/
theorem SegmentTrace_loop_safe (root : BlobTreeNode ℝ) (hpos : root.PositiveRadii)
    (hunit : root.UnitEnergy) (ray : Ray ℝ) (hd : Norm Real.sqrt ray.d = 1) (a b : ℝ)
    (hab : a ≤ b)
    (hfree : ∀ n st, marchStates (SegmentTrace.pass Real.sqrt ⟨some root⟩ ray)
        SegmentTrace.State.t b n ⟨a, 0, b - a, 0⟩ = some st →
      root.KSegNaN Real.sqrt ⟨ray.eval st.t, ray.eval (st.t + st.ts)⟩ = false ∨ st.ts = 0)
    (P : ℝ → Prop)
    (hP : ∀ t step, P t → t < b → root.Intensity (ray.eval t) - 0.5 ≤ 0 → 0 ≤ step →
      (∀ t', t ≤ t' → t' ≤ t + step → root.Intensity (ray.eval t') - 0.5 ≤ 0) →
      P (t + Math.Max (step * 1.0) Epsilon))
    (h0 : P a) (fuel : Nat) (hfuel : ⌈(b - a) / Epsilon⌉₊ < fuel) :
    ∃ res, marchLoop (SegmentTrace.pass Real.sqrt ⟨some root⟩ ray) SegmentTrace.State.t
        SegmentTrace.State.s b fuel ⟨a, 0, b - a, 0⟩ = some res ∧
      ((res.1 = true ∧ P res.2.1 ∧ res.2.1 < b ∧
          0 < root.Intensity (ray.eval res.2.1) - 0.5) ∨
        (res.1 = false ∧ P res.2.1 ∧ b ≤ res.2.1)) := by
  obtain ⟨res, hres, -, hcase⟩ := SegmentTrace_loop_spec root hpos ray b
    (fun st => P st.t ∧ ∃ n, marchStates (SegmentTrace.pass Real.sqrt ⟨some root⟩ ray)
      SegmentTrace.State.t b n ⟨a, 0, b - a, 0⟩ = some st)
    (by
      intro st st1 hI hts ht hneg hp
      obtain ⟨hPt, n, hn⟩ := hI
      refine ⟨?_, n + 1, marchStates_step _ _ _ n _ st st1 hn ht hp⟩
      rcases SegmentTrace_pass_cases root hpos ray st hts with ⟨hI0, -⟩ | ⟨-, tk, htk, h0tk, -, -, hq⟩
      · linarith
      · rw [hq] at hp
        simp only [Option.some.injEq, Pass.advance.injEq] at hp
        subst hp
        refine hP st.t tk hPt ht hneg h0tk ?_
        intro t' h1 h2
        rw [htk] at h2
        exact SegmentTrace_step_safe root hpos hunit ray hd st.t st.ts hts (hfree n st hn)
          hneg t' h1 h2)
    fuel ⟨a, 0, b - a, 0⟩ ⟨h0, 0, rfl⟩ (sub_nonneg.mpr hab) hfuel
  refine ⟨res, hres, ?_⟩
  rcases hcase with ⟨hb, ⟨st1, hI1, e1⟩, ht1, hp1⟩ | ⟨hb, ⟨st1, hI1, e1⟩, ht1⟩
  · left
    exact ⟨hb, by rw [← e1]; exact hI1.1, ht1, hp1⟩
  · right
    exact ⟨hb, by rw [← e1]; exact hI1.1, ht1⟩

/-! ## Segments on which the segment bound is NaN -/

theorem Norm_eq_zero_iff (u : Vector ℝ) : Norm Real.sqrt u = 0 ↔ u = ⟨0, 0, 0⟩ := by
  rw [Norm_eq_sqrt, Real.sqrt_eq_zero (SquaredNorm_nonneg u)]
  obtain ⟨x, y, z⟩ := u
  simp only [SquaredNorm, Vector.mk.injEq]
  constructor
  · intro h
    have hx := mul_self_nonneg x
    have hy := mul_self_nonneg y
    have hz := mul_self_nonneg z
    exact ⟨mul_self_eq_zero.mp (by linarith), mul_self_eq_zero.mp (by linarith),
      mul_self_eq_zero.mp (by linarith)⟩
  · rintro ⟨rfl, rfl, rfl⟩
    ring

theorem Normalized.NaN_iff (u : Vector ℝ) :
    Normalized.NaN Real.sqrt u = true ↔ u = ⟨0, 0, 0⟩ := by
  unfold Normalized.NaN
  rw [decide_eq_true_iff, Norm_eq_zero_iff]

theorem Vector.sub_eq_zero_iff (u v : Vector ℝ) : u.sub v = ⟨0, 0, 0⟩ ↔ u = v := by
  obtain ⟨a, b, c⟩ := u
  obtain ⟨x, y, z⟩ := v
  simp only [Vector.sub, Vector.mk.injEq, sub_eq_zero]

/-- In the source `BlobTreePoint::K(s)` is NaN exactly on the segments that pass
the box test and are degenerate or end at the centre. -/
theorem BlobTreePoint.KNaN_iff (c : Vector ℝ) (r : ℝ) (s : Segment ℝ) :
    BlobTreePoint.KNaN Real.sqrt c r s = true ↔
      s.Intersect (BlobTreePoint.box c r) = true ∧ (s.b = s.a ∨ c = s.b) := by
  unfold BlobTreePoint.KNaN
  by_cases hI : s.Intersect (BlobTreePoint.box c r) = true
  · simp [hI, Segment.get, Normalized.NaN_iff, Vector.sub_eq_zero_iff]
  · simp [hI]

theorem BlobTreeNode.KSegNaN_of_leaves (n : BlobTreeNode ℝ) (s : Segment ℝ)
    (h : ∀ l ∈ n.leaves, l.KSegNaN Real.sqrt s = false) : n.KSegNaN Real.sqrt s = false := by
  induction n with
  | Point c r e => exact h _ (by simp [BlobTreeNode.leaves])
  | Blend e1 e2 ih1 ih2 =>
    have h1 := ih1 (fun l hl => h l (by simp [BlobTreeNode.leaves, hl]))
    have h2 := ih2 (fun l hl => h l (by simp [BlobTreeNode.leaves, hl]))
    simp [BlobTreeNode.KSegNaN, h1, h2]

/-- A non-degenerate segment outside the box of every leaf has no NaN bound. -/
theorem BlobTreeNode.KSegNaN_of_outside (n : BlobTreeNode ℝ) (hpos : n.PositiveRadii)
    (s : Segment ℝ) (hs : s.a ≠ s.b)
    (hout : ∀ σ : ℝ, 0 ≤ σ → σ ≤ 1 → ∀ l ∈ n.leaves, l.GetBox.Inside (Lerp s.a s.b σ) = false) :
    n.KSegNaN Real.sqrt s = false := by
  induction n with
  | Point c r e =>
    by_contra hne
    have ht : BlobTreePoint.KNaN Real.sqrt c r s = true := by
      simpa [BlobTreeNode.KSegNaN] using hne
    rcases ((BlobTreePoint.KNaN_iff c r s).mp ht).2 with h | h
    · exact hs h.symm
    · have ho := hout 1 zero_le_one le_rfl (BlobTreeNode.Point c r e)
        (by simp [BlobTreeNode.leaves])
      rw [Lerp_one, ← h] at ho
      have hr : 0 < r := hpos
      have hin : (BlobTreePoint.box c r).Inside c = true := by
        rw [Box.Inside_eq_true_iff]
        simp only [BlobTreePoint.box, Vector.sub, Vector.add]
        refine ⟨⟨?_, ?_, ?_⟩, ⟨?_, ?_, ?_⟩⟩ <;> linarith
      simp only [BlobTreeNode.GetBox] at ho
      rw [hin] at ho
      exact absurd ho (by simp)
  | Blend e1 e2 ih1 ih2 =>
    have hp := hpos
    simp only [BlobTreeNode.PositiveRadii] at hp
    have h1 := ih1 hp.1 (fun σ a b l hl => hout σ a b l (by simp [BlobTreeNode.leaves, hl]))
    have h2 := ih2 hp.2 (fun σ a b l hl => hout σ a b l (by simp [BlobTreeNode.leaves, hl]))
    simp [BlobTreeNode.KSegNaN, h1, h2]

/-! ## One primitive of radius 2 on the ray from `(0,-10,0)` along `(0,1,0)` -/

theorem witness_box :
    (BlobTreeNode.Point (⟨0, 0, 0⟩ : Vector ℝ) 2 1).GetBox.IntersectRay
      ⟨⟨0, -10, 0⟩, ⟨0, 1, 0⟩⟩ 1e-3 = (1, 8, 12) := by
  norm_num [BlobTreeNode.GetBox, BlobTreePoint.box, Box.IntersectRay, Box.IntersectAxis,
    Vector.get, Vector.sub, Vector.add]

theorem witness_K : (BlobTreeNode.Point (⟨0, 0, 0⟩ : Vector ℝ) 2 1).K = 43 / 50 := by
  norm_num [BlobTreeNode.K, CubicFalloffK]

theorem witness_dir : Norm Real.sqrt (⟨0, 1, 0⟩ : Vector ℝ) = 1 := by simp [Norm]

theorem witness_field (t : ℝ) :
    (BlobTreeNode.Point (⟨0, 0, 0⟩ : Vector ℝ) 2 1).Intensity
      (Ray.eval ⟨⟨0, -10, 0⟩, ⟨0, 1, 0⟩⟩ t) = CubicFalloff ((t - 10) ^ 2) 4 := by
  rw [BlobTreeNode.Intensity, BlobTreePoint.Intensity_eq _ _ _ _ (by norm_num)]
  congr 1
  · simp only [SquaredNorm, Ray.eval, Vector.sub, Vector.add, Vector.mul]
    ring
  · norm_num

/-- The field is above the threshold within `0.908` of the centre. -/
theorem witness_field_pos (t : ℝ) (h1 : 9.092 ≤ t) (h2 : t ≤ 10.908) :
    0 < (BlobTreeNode.Point (⟨0, 0, 0⟩ : Vector ℝ) 2 1).Intensity
      (Ray.eval ⟨⟨0, -10, 0⟩, ⟨0, 1, 0⟩⟩ t) - 0.5 := by
  have hx : (t - 10) ^ 2 ≤ 0.908 ^ 2 := sq_le_sq' (by linarith) (by linarith)
  rw [witness_field, CubicFalloff_of_le _ _ (by norm_num at hx ⊢; linarith)]
  have h3 : (0.793884 : ℝ) ≤ 1 - (t - 10) ^ 2 / 4 := by norm_num at hx ⊢; linarith
  have h4 := pow_le_pow_left₀ (by norm_num : (0 : ℝ) ≤ 0.793884) h3 3
  norm_num at h4 ⊢
  linarith

/-- The field is at or below the threshold `0.909` and more from the centre. -/
theorem witness_field_neg (t : ℝ) (h : t ≤ 9.091) :
    (BlobTreeNode.Point (⟨0, 0, 0⟩ : Vector ℝ) 2 1).Intensity
      (Ray.eval ⟨⟨0, -10, 0⟩, ⟨0, 1, 0⟩⟩ t) - 0.5 ≤ 0 := by
  have hx : (0.909 : ℝ) ^ 2 ≤ (10 - t) ^ 2 :=
    pow_le_pow_left₀ (by norm_num) (by linarith) 2
  have hx' : (0.909 : ℝ) ^ 2 ≤ (t - 10) ^ 2 := by
    have : (t - 10) ^ 2 = (10 - t) ^ 2 := by ring
    rw [this]; exact hx
  rw [witness_field]
  by_cases hR : (t - 10) ^ 2 ≤ 4
  · rw [CubicFalloff_of_le _ _ hR]
    have h0 : (0 : ℝ) ≤ 1 - (t - 10) ^ 2 / 4 := by linarith
    have h3 : 1 - (t - 10) ^ 2 / 4 ≤ (0.79342975 : ℝ) := by norm_num at hx' ⊢; linarith
    have h4 := pow_le_pow_left₀ h0 h3 3
    norm_num at h4 ⊢
    linarith
  · rw [CubicFalloff_of_ge _ _ (by norm_num) (not_le.mp hR).le]
    norm_num

/-- From inside `[8, 9.093]` a forward step that does not cross the surface,
or of length `ε` from a point outside, stays inside `[8, 9.093]`. -/
theorem witness_step (t step : ℝ) (h8 : 8 ≤ t) (ht : t ≤ 9.093) (h0 : 0 ≤ step)
    (hI0 : (BlobTreeNode.Point (⟨0, 0, 0⟩ : Vector ℝ) 2 1).Intensity
      (Ray.eval ⟨⟨0, -10, 0⟩, ⟨0, 1, 0⟩⟩ t) - 0.5 ≤ 0)
    (hsafe : ∀ t', t ≤ t' → t' ≤ t + step →
      (BlobTreeNode.Point (⟨0, 0, 0⟩ : Vector ℝ) 2 1).Intensity
        (Ray.eval ⟨⟨0, -10, 0⟩, ⟨0, 1, 0⟩⟩ t') - 0.5 ≤ 0) :
    8 ≤ t + Math.Max step Epsilon ∧ t + Math.Max step Epsilon ≤ 9.093 := by
  have hlt : t < 9.092 := by
    by_contra hge
    have := witness_field_pos t (not_lt.mp hge) (by linarith)
    linarith
  have he : (Epsilon : ℝ) = 0.001 := by unfold Epsilon; norm_num
  rw [Math.Max_eq_max]
  refine ⟨by have := le_max_left step Epsilon; linarith, ?_⟩
  rcases max_cases step Epsilon with ⟨e, -⟩ | ⟨e, -⟩
  · rw [e]
    by_contra hgt
    have hgt := not_le.mp hgt
    have := hsafe 9.0925 (by linarith) (by linarith)
    have := witness_field_pos 9.0925 (by norm_num) (by norm_num)
    linarith
  · rw [e, he]; linarith

theorem witness_fuel : ⌈((12 : ℝ) - 8) / Epsilon⌉₊ ≤ 4000 := by
  rw [Nat.ceil_le]
  unfold Epsilon
  norm_num

theorem SphereTrace_witness_run (fuel : Nat) (hfuel : 4000 < fuel) (t0 : ℝ) (s0 : Int) :
    ∃ t s, SphereTrace fuel ⟨some (BlobTreeNode.Point (⟨0, 0, 0⟩ : Vector ℝ) 2 1)⟩
      ⟨⟨0, -10, 0⟩, ⟨0, 1, 0⟩⟩ t0 s0 (43 / 50) = some (true, t, s) ∧ 9.091 < t ∧ t ≤ 9.093 := by
  have hp : (BlobTreeNode.Point (⟨0, 0, 0⟩ : Vector ℝ) 2 1).PositiveRadii := by
    simp [BlobTreeNode.PositiveRadii]
  have hu : (BlobTreeNode.Point (⟨0, 0, 0⟩ : Vector ℝ) 2 1).UnitEnergy := by
    simp [BlobTreeNode.UnitEnergy]
  rw [SphereTrace_eq_loop fuel _ _ t0 s0 (43 / 50) 8 12 witness_box]
  obtain ⟨res, hres, -, hcase⟩ := SphereTrace_loop_spec
    (BlobTreeNode.Point (⟨0, 0, 0⟩ : Vector ℝ) 2 1) ⟨⟨0, -10, 0⟩, ⟨0, 1, 0⟩⟩ (43 / 50) 12
    (fun t => 8 ≤ t ∧ t ≤ 9.093) (by
      intro t hI _ hneg
      refine witness_step t _ hI.1 hI.2 (div_nonneg (abs_nonneg _) (by norm_num)) hneg ?_
      intro t' h1 h2
      refine SphereTrace_step_safe _ hp hu ⟨⟨0, -10, 0⟩, ⟨0, 1, 0⟩⟩ witness_dir t hneg t' h1 ?_
      rw [witness_K]; exact h2)
    fuel ⟨8, 0⟩ ⟨le_rfl, by norm_num⟩ (lt_of_le_of_lt witness_fuel hfuel)
  obtain ⟨b1, t1, s1⟩ := res
  rcases hcase with ⟨hb, hI, -, hpos⟩ | ⟨-, hI, hge⟩
  · simp only at hb hI hpos
    subst hb
    refine ⟨t1, s1, hres, ?_, hI.2⟩
    by_contra hle
    have := witness_field_neg t1 (not_lt.mp hle)
    linarith
  · simp only at hI hge
    linarith [hI.2]

/-- The square root of `4`. -/
theorem sqrt_four : Real.sqrt 4 = 2 := by
  rw [show (4 : ℝ) = 2 ^ 2 by norm_num]
  exact Real.sqrt_sq (by norm_num)

/-- The square root of `16`. -/
theorem sqrt_sixteen : Real.sqrt 16 = 4 := by
  rw [show (16 : ℝ) = 4 ^ 2 by norm_num]
  exact Real.sqrt_sq (by norm_num)

/-- The segment bound of the first probe, from `ray(8)` to `ray(12)`. -/
theorem witness_first_K :
    (BlobTreeNode.Point (⟨0, 0, 0⟩ : Vector ℝ) 2 1).KSeg Real.sqrt
      ⟨Ray.eval ⟨⟨0, -10, 0⟩, ⟨0, 1, 0⟩⟩ 8, Ray.eval ⟨⟨0, -10, 0⟩, ⟨0, 1, 0⟩⟩ (8 + 4)⟩
        = 43 / 50 := by
  have ea : Ray.eval (⟨⟨0, -10, 0⟩, ⟨0, 1, 0⟩⟩ : Ray ℝ) 8 = ⟨0, -2, 0⟩ := by
    norm_num [Ray.eval, Vector.add, Vector.mul]
  have eb : Ray.eval (⟨⟨0, -10, 0⟩, ⟨0, 1, 0⟩⟩ : Ray ℝ) (8 + 4) = ⟨0, 2, 0⟩ := by
    norm_num [Ray.eval, Vector.add, Vector.mul]
  rw [ea, eb]
  have hI : (⟨⟨0, -2, 0⟩, ⟨0, 2, 0⟩⟩ : Segment ℝ).Intersect (BlobTreePoint.box ⟨0, 0, 0⟩ 2)
      = true := by
    norm_num [Segment.Intersect, BlobTreePoint.box, Box.Diagonal, Box.Center, Vector.get,
      Vector.sub, Vector.add, Vector.mul, abs_of_pos, abs_of_neg]
  have n1 : Norm Real.sqrt ((⟨0, 2, 0⟩ : Vector ℝ).sub ⟨0, -2, 0⟩) = 4 := by
    rw [Norm_eq_sqrt]
    norm_num [SquaredNorm, Vector.sub, sqrt_sixteen]
  have n2 : Norm Real.sqrt ((⟨0, 0, 0⟩ : Vector ℝ).sub ⟨0, -2, 0⟩) = 2 := by
    rw [Norm_eq_sqrt]
    norm_num [SquaredNorm, Vector.sub, sqrt_four]
  have n3 : Norm Real.sqrt ((⟨0, 0, 0⟩ : Vector ℝ).sub ⟨0, 2, 0⟩) = 2 := by
    rw [Norm_eq_sqrt]
    norm_num [SquaredNorm, Vector.sub, sqrt_four]
  simp only [BlobTreeNode.KSeg, BlobTreePoint.K, Segment.get, hI, Normalized, n1, n2, n3,
    if_true, one_ne_zero, if_false, Bool.not_true, Bool.false_eq_true]
  norm_num [Vector.sub, Vector.dot, Vector.mul, SquaredNorm, CubicFalloffK4, CubicFalloffK,
    Math.Max, Math.Abs, abs_of_pos]

/-- A probe along this ray that does not end at the centre has no NaN bound,
unless it has length `0`. -/
theorem witness_probe_free (t ts : ℝ) (hne : t + ts ≠ 10) :
    (BlobTreeNode.Point (⟨0, 0, 0⟩ : Vector ℝ) 2 1).KSegNaN Real.sqrt
      ⟨Ray.eval ⟨⟨0, -10, 0⟩, ⟨0, 1, 0⟩⟩ t, Ray.eval ⟨⟨0, -10, 0⟩, ⟨0, 1, 0⟩⟩ (t + ts)⟩
        = false ∨ ts = 0 := by
  by_cases hz : ts = 0
  · exact Or.inr hz
  · left
    by_contra hc
    have ht : BlobTreePoint.KNaN Real.sqrt (⟨0, 0, 0⟩ : Vector ℝ) 2
        ⟨Ray.eval ⟨⟨0, -10, 0⟩, ⟨0, 1, 0⟩⟩ t, Ray.eval ⟨⟨0, -10, 0⟩, ⟨0, 1, 0⟩⟩ (t + ts)⟩
          = true := by
      simpa [BlobTreeNode.KSegNaN] using hc
    rcases ((BlobTreePoint.KNaN_iff _ _ _).mp ht).2 with e | e
    · simp only [Ray.eval, Vector.add, Vector.mul, Vector.mk.injEq] at e
      apply hz
      linarith [e.2.1]
    · simp only [Ray.eval, Vector.add, Vector.mul, Vector.mk.injEq] at e
      apply hne
      linarith [e.2.1]

/-- The states of the run of `SegmentTrace` along this ray: the first one, or a
later one, whose probe ends before the centre. -/
theorem witness_states (n : Nat) (st : SegmentTrace.State ℝ)
    (h : marchStates (SegmentTrace.pass Real.sqrt
        ⟨some (BlobTreeNode.Point (⟨0, 0, 0⟩ : Vector ℝ) 2 1)⟩ ⟨⟨0, -10, 0⟩, ⟨0, 1, 0⟩⟩)
      SegmentTrace.State.t 12 n ⟨8, 0, 12 - 8, 0⟩ = some st) :
    (st.t = 8 ∧ st.ts = 4) ∨
      (8.58 ≤ st.t ∧ st.t ≤ 9.093 ∧ 0 ≤ st.ts ∧ st.t + st.ts < 10) := by
  have hp : (BlobTreeNode.Point (⟨0, 0, 0⟩ : Vector ℝ) 2 1).PositiveRadii := by
    simp [BlobTreeNode.PositiveRadii]
  have hu : (BlobTreeNode.Point (⟨0, 0, 0⟩ : Vector ℝ) 2 1).UnitEnergy := by
    simp [BlobTreeNode.UnitEnergy]
  have he : (Epsilon : ℝ) = 0.001 := by unfold Epsilon; norm_num
  refine marchStates_inv (SegmentTrace.pass Real.sqrt
      ⟨some (BlobTreeNode.Point (⟨0, 0, 0⟩ : Vector ℝ) 2 1)⟩ ⟨⟨0, -10, 0⟩, ⟨0, 1, 0⟩⟩)
    SegmentTrace.State.t 12
    (fun st => (st.t = 8 ∧ st.ts = 4) ∨
      (8.58 ≤ st.t ∧ st.t ≤ 9.093 ∧ 0 ≤ st.ts ∧ st.t + st.ts < 10)) ?_ n _ st
    (Or.inl ⟨rfl, by norm_num⟩) h
  intro st st1 hJ _ hpass
  have hts : 0 ≤ st.ts := by
    rcases hJ with ⟨-, e⟩ | ⟨-, -, h0, -⟩
    · rw [e]; norm_num
    · exact h0
  have h8 : 8 ≤ st.t ∧ st.t ≤ 9.093 := by
    rcases hJ with ⟨e, -⟩ | ⟨h1, h2, -, -⟩
    · rw [e]; norm_num
    · exact ⟨by linarith, h2⟩
  have hne : st.t + st.ts ≠ 10 := by
    rcases hJ with ⟨e1, e2⟩ | ⟨-, -, -, h3⟩
    · rw [e1, e2]; norm_num
    · exact h3.ne
  rcases SegmentTrace_pass_cases _ hp ⟨⟨0, -10, 0⟩, ⟨0, 1, 0⟩⟩ st hts with
    ⟨-, hq⟩ | ⟨hneg, tk, htk, h0tk, hle, -, hq⟩
  · rw [hq] at hpass
    simp at hpass
  rw [hq] at hpass
  simp only [Option.some.injEq, reduceCtorEq, Pass.advance.injEq, false_or] at hpass
  subst hpass
  have hsafe : ∀ t', st.t ≤ t' → t' ≤ st.t + tk →
      (BlobTreeNode.Point (⟨0, 0, 0⟩ : Vector ℝ) 2 1).Intensity
        (Ray.eval ⟨⟨0, -10, 0⟩, ⟨0, 1, 0⟩⟩ t') - 0.5 ≤ 0 := by
    intro t' h1 h2
    rw [htk] at h2
    exact SegmentTrace_step_safe _ hp hu ⟨⟨0, -10, 0⟩, ⟨0, 1, 0⟩⟩ witness_dir st.t st.ts hts
      (witness_probe_free st.t st.ts hne) hneg t' h1 h2
  have hlt : st.t < 9.092 := by
    by_contra hge
    have := witness_field_pos st.t (not_lt.mp hge) (by linarith [h8.2])
    linarith
  have htk2 : st.t + tk < 9.092 := by
    by_contra hge
    have h1 := hsafe 9.092 hlt.le (not_lt.mp hge)
    have h2 := witness_field_pos 9.092 le_rfl (by norm_num)
    linarith
  have hstep := witness_step st.t (tk * 1.0) h8.1 h8.2 (mul_nonneg h0tk (by norm_num)) hneg
    (fun t' h1 h2 => hsafe t' h1 (le_trans h2 (by norm_num)))
  have he' : (Epsilon : ℝ) = 1 / 1000 := by unfold Epsilon; norm_num
  have hmax1 : Epsilon ≤ Math.Max (tk * 1.0) Epsilon := Epsilon_le_Max _
  have hmax2 : Math.Max (tk * 1.0) Epsilon ≤ tk + Epsilon := by
    rw [Math.Max_eq_max]
    apply max_le
    · rw [show ((1.0 : ℝ)) = 1 by norm_num, mul_one]
      linarith
    · linarith
  have hmax3 : tk ≤ Math.Max (tk * 1.0) Epsilon := by
    rw [Math.Max_eq_max]
    exact le_trans (by norm_num) (le_max_left _ _)
  right
  show 8.58 ≤ st.t + Math.Max (tk * 1.0) Epsilon ∧ st.t + Math.Max (tk * 1.0) Epsilon ≤ 9.093 ∧
    0 ≤ tk * 1.5 ∧ st.t + Math.Max (tk * 1.0) Epsilon + tk * 1.5 < 10
  rcases hJ with ⟨e1, e2⟩ | ⟨h1, -, -, -⟩
  · -- the first pass
    have hn : (BlobTreeNode.Point (⟨0, 0, 0⟩ : Vector ℝ) 2 1).KSegNaN Real.sqrt
        ⟨Ray.eval ⟨⟨0, -10, 0⟩, ⟨0, 1, 0⟩⟩ st.t,
          Ray.eval ⟨⟨0, -10, 0⟩, ⟨0, 1, 0⟩⟩ (st.t + st.ts)⟩ = false := by
      rcases witness_probe_free st.t st.ts hne with h | h
      · exact h
      · rw [e2] at h; norm_num at h
    have hI : (BlobTreeNode.Point (⟨0, 0, 0⟩ : Vector ℝ) 2 1).Intensity
        (Ray.eval ⟨⟨0, -10, 0⟩, ⟨0, 1, 0⟩⟩ 8) = 0 := by
      norm_num [BlobTreeNode.Intensity, BlobTreePoint.Intensity, BlobTreePoint.box, Box.Inside,
        Vector.gt, Vector.lt, Vector.sub, Vector.add, Vector.mul, Ray.eval]
    have hv : tk = 25 / 43 := by
      rw [htk, hn, e1, e2, witness_first_K, hI]
      norm_num [SegmentTrace.tk, SegmentTrace.safeStep, Math.Min, abs_of_neg]
    have h2 := hstep.2
    generalize Math.Max (tk * 1.0) Epsilon = m at hmax1 hmax2 hmax3 h2 ⊢
    norm_num at h2 htk2 ⊢
    refine ⟨by linarith, h2, by linarith, by linarith⟩
  · have h2 := hstep.2
    generalize Math.Max (tk * 1.0) Epsilon = m at hmax1 hmax2 hmax3 h2 ⊢
    norm_num at h1 h2 htk2 ⊢
    refine ⟨by linarith, h2, by linarith, by linarith⟩

/-- On the run of `SegmentTrace` along this ray no probed segment of positive
length ends at the centre, so `K(s)` is NaN on none of them. -/
theorem witness_free (n : Nat) (st : SegmentTrace.State ℝ)
    (h : marchStates (SegmentTrace.pass Real.sqrt
        ⟨some (BlobTreeNode.Point (⟨0, 0, 0⟩ : Vector ℝ) 2 1)⟩ ⟨⟨0, -10, 0⟩, ⟨0, 1, 0⟩⟩)
      SegmentTrace.State.t 12 n ⟨8, 0, 12 - 8, 0⟩ = some st) :
    (BlobTreeNode.Point (⟨0, 0, 0⟩ : Vector ℝ) 2 1).KSegNaN Real.sqrt
      ⟨Ray.eval ⟨⟨0, -10, 0⟩, ⟨0, 1, 0⟩⟩ st.t,
        Ray.eval ⟨⟨0, -10, 0⟩, ⟨0, 1, 0⟩⟩ (st.t + st.ts)⟩ = false ∨ st.ts = 0 := by
  refine witness_probe_free st.t st.ts ?_
  rcases witness_states n st h with ⟨e1, e2⟩ | ⟨-, -, -, h3⟩
  · rw [e1, e2]; norm_num
  · exact h3.ne

theorem SegmentTrace_witness_run (fuel : Nat) (hfuel : 4000 < fuel) (t0 : ℝ) (s0 : Int) :
    ∃ t s, SegmentTrace Real.sqrt fuel ⟨some (BlobTreeNode.Point (⟨0, 0, 0⟩ : Vector ℝ) 2 1)⟩
      ⟨⟨0, -10, 0⟩, ⟨0, 1, 0⟩⟩ t0 s0 = some (true, t, s) ∧ 9.091 < t ∧ t ≤ 9.093 := by
  have hp : (BlobTreeNode.Point (⟨0, 0, 0⟩ : Vector ℝ) 2 1).PositiveRadii := by
    simp [BlobTreeNode.PositiveRadii]
  have hu : (BlobTreeNode.Point (⟨0, 0, 0⟩ : Vector ℝ) 2 1).UnitEnergy := by
    simp [BlobTreeNode.UnitEnergy]
  rw [SegmentTrace_eq_loop fuel _ _ t0 s0 8 12 witness_box]
  obtain ⟨res, hres, hcase⟩ := SegmentTrace_loop_safe
    (BlobTreeNode.Point (⟨0, 0, 0⟩ : Vector ℝ) 2 1) hp hu ⟨⟨0, -10, 0⟩, ⟨0, 1, 0⟩⟩ witness_dir
    8 12 (by norm_num) witness_free (fun t => 8 ≤ t ∧ t ≤ 9.093) (by
      intro t step hI _ hneg h0 hsafe
      refine witness_step t (step * 1.0) hI.1 hI.2 (mul_nonneg h0 (by norm_num)) hneg ?_
      intro t' h1 h2
      exact hsafe t' h1 (le_trans h2 (by norm_num)))
    ⟨le_rfl, by norm_num⟩ fuel (lt_of_le_of_lt witness_fuel hfuel)
  obtain ⟨b1, t1, s1⟩ := res
  rcases hcase with ⟨hb, hI, -, hpos⟩ | ⟨-, hI, hge⟩
  · simp only at hb hI hpos
    subst hb
    refine ⟨t1, s1, hres, ?_, hI.2⟩
    by_contra hle
    have := witness_field_neg t1 (not_lt.mp hle)
    linarith
  · simp only at hI hge
    linarith [hI.2]

/-! ## The enhanced marcher on the single primitive -/

theorem marchLoop_advance [LinearOrderedField α] {σ : Type} (pass : σ → Option (Pass σ α))
    (time : σ → α) (count : σ → Int) (b : α) (fuel : Nat) (st st1 : σ) (ht : time st < b)
    (hp : pass st = some (Pass.advance st1)) :
    marchLoop pass time count b (fuel + 1) st = marchLoop pass time count b fuel st1 := by
  simp [marchLoop, ht, hp]

theorem marchLoop_hit [LinearOrderedField α] {σ : Type} (pass : σ → Option (Pass σ α))
    (time : σ → α) (count : σ → Int) (b : α) (fuel : Nat) (st : σ) (t : α) (s : Int)
    (ht : time st < b) (hp : pass st = some (Pass.hit t s)) :
    marchLoop pass time count b (fuel + 1) st = some (true, t, s) := by
  simp [marchLoop, ht, hp]

theorem EnhancedSphereTrace.witness_pass1 :
    EnhancedSphereTrace.pass ⟨some (BlobTreeNode.Point (⟨0, 0, 0⟩ : Vector ℝ) 2 1)⟩
      ⟨⟨0, -10, 0⟩, ⟨0, 1, 0⟩⟩ (43 / 50) ⟨8, 0, 0⟩
      = some (Pass.advance ⟨1501 / 172, 1, 25 / 43⟩) := by
  rw [EnhancedSphereTrace_pass_eq _ _ _ _ (-1 / 2) (25 / 43)
    (by rw [witness_field]; norm_num [CubicFalloff])
    (by rw [abs_of_neg (by norm_num)]; norm_num)]
  norm_num [Math.Max, Epsilon]

theorem EnhancedSphereTrace.witness_pass2 :
    EnhancedSphereTrace.pass ⟨some (BlobTreeNode.Point (⟨0, 0, 0⟩ : Vector ℝ) 2 1)⟩
      ⟨⟨0, -10, 0⟩, ⟨0, 1, 0⟩⟩ (43 / 50) ⟨1501 / 172, 1, 25 / 43⟩
      = some (Pass.advance ⟨1303660551732119653 / 142511235980066816, 2,
          12000290339353825 / 35627808995016704⟩) := by
  rw [EnhancedSphereTrace_pass_eq _ _ _ _ (-480011613574153 / 1657107395117056)
    (12000290339353825 / 35627808995016704)
    (by rw [witness_field]; norm_num [CubicFalloff])
    (by rw [abs_of_neg (by norm_num)]; norm_num)]
  norm_num [Math.Max, Epsilon]

theorem EnhancedSphereTrace.witness_pass3 :
    EnhancedSphereTrace.pass ⟨some (BlobTreeNode.Point (⟨0, 0, 0⟩ : Vector ℝ) 2 1)⟩
      ⟨⟨0, -10, 0⟩, ⟨0, 1, 0⟩⟩ (43 / 50)
      ⟨1303660551732119653 / 142511235980066816, 2, 12000290339353825 / 35627808995016704⟩
      = some (Pass.hit (1303660551732119653 / 142511235980066816) 3) := by
  rw [EnhancedSphereTrace_pass_eq _ _ _ _ _ _ rfl rfl,
    if_pos (witness_field_pos _ (by norm_num) (by norm_num))]
  norm_num

/-- The run of `EnhancedSphereTrace` on the single primitive: two forward
passes, then a hit in the third. -/
theorem EnhancedSphereTrace_witness_run (fuel : Nat) (hfuel : 3 ≤ fuel) (t0 : ℝ) (s0 : Int) :
    EnhancedSphereTrace fuel ⟨some (BlobTreeNode.Point (⟨0, 0, 0⟩ : Vector ℝ) 2 1)⟩
      ⟨⟨0, -10, 0⟩, ⟨0, 1, 0⟩⟩ t0 s0 (43 / 50)
      = some (true, 1303660551732119653 / 142511235980066816, 3) := by
  obtain ⟨n, rfl⟩ : ∃ n, fuel = n + 1 + 1 + 1 := ⟨fuel - 3, by omega⟩
  rw [EnhancedSphereTrace_eq_loop _ _ _ t0 s0 (43 / 50) 8 12 witness_box,
    marchLoop_advance _ _ _ _ _ _ _ (by norm_num) EnhancedSphereTrace.witness_pass1,
    marchLoop_advance _ _ _ _ _ _ _ (by norm_num) EnhancedSphereTrace.witness_pass2,
    marchLoop_hit _ _ _ _ _ _ _ _ (by norm_num) EnhancedSphereTrace.witness_pass3]

/-! ## Agreement of sphere tracing and segment tracing on one primitive -/

theorem CubicFalloff_antitone (x y R : ℝ) (hR : 0 < R) (hxy : x ≤ y) :
    CubicFalloff y R ≤ CubicFalloff x R := by
  by_cases hy : y ≤ R
  · rw [CubicFalloff_of_le _ _ hy, CubicFalloff_of_le _ _ (le_trans hxy hy)]
    have h0 : 0 ≤ 1 - y / R := by
      rw [sub_nonneg, div_le_one hR]; exact hy
    exact pow_le_pow_left₀ h0 (by
      have := div_le_div_of_nonneg_right hxy hR.le
      linarith) 3
  · rw [CubicFalloff_of_ge _ _ hR (not_le.mp hy).le]
    by_cases hx : x ≤ R
    · rw [CubicFalloff_of_le _ _ hx]
      have h0 : 0 ≤ 1 - x / R := by
        rw [sub_nonneg, div_le_one hR]; exact hx
      positivity
    · rw [CubicFalloff_of_ge _ _ hR (not_le.mp hx).le]

/-- The squared distance to a point is convex along a ray. -/
theorem SquaredNorm_ray_convex (ray : Ray ℝ) (c : Vector ℝ) (t1 t2 p : ℝ) (h1 : t1 ≤ p)
    (h2 : p ≤ t2) :
    SquaredNorm ((ray.eval p).sub c) ≤ SquaredNorm ((ray.eval t1).sub c) ∨
    SquaredNorm ((ray.eval p).sub c) ≤ SquaredNorm ((ray.eval t2).sub c) := by
  obtain ⟨⟨o0, o1, o2⟩, ⟨d0, d1, d2⟩⟩ := ray
  obtain ⟨c0, c1, c2⟩ := c
  simp only [SquaredNorm, Ray.eval, Vector.sub, Vector.add, Vector.mul]
  have hA : 0 ≤ d0 * d0 + d1 * d1 + d2 * d2 :=
    add_nonneg (add_nonneg (mul_self_nonneg d0) (mul_self_nonneg d1)) (mul_self_nonneg d2)
  by_cases h : (d0 * d0 + d1 * d1 + d2 * d2) * (p + t1)
      + 2 * (d0 * (o0 - c0) + d1 * (o1 - c1) + d2 * (o2 - c2)) ≤ 0
  · left
    have := mul_nonpos_of_nonneg_of_nonpos (sub_nonneg.mpr h1) h
    nlinarith [this]
  · right
    have h' := not_le.mp h
    have h3 : 0 ≤ (d0 * d0 + d1 * d1 + d2 * d2) * (t2 - t1) :=
      mul_nonneg hA (by linarith)
    have := mul_nonneg (sub_nonneg.mpr h2)
      (by linarith : 0 ≤ (d0 * d0 + d1 * d1 + d2 * d2) * (t2 + p)
        + 2 * (d0 * (o0 - c0) + d1 * (o1 - c1) + d2 * (o2 - c2)))
    nlinarith [this]

/-- Along a ray the set where the field of one primitive exceeds a level is an
interval. -/
theorem BlobTreePoint.level_convex (c : Vector ℝ) (r e : ℝ) (hr : 0 < r) (ray : Ray ℝ)
    (t1 t2 p v : ℝ) (h1 : t1 ≤ p) (h2 : p ≤ t2)
    (hp1 : v < BlobTreePoint.Intensity c r e (ray.eval t1))
    (hp2 : v < BlobTreePoint.Intensity c r e (ray.eval t2)) :
    v < BlobTreePoint.Intensity c r e (ray.eval p) := by
  rw [BlobTreePoint.Intensity_eq c r e _ hr] at hp1 hp2 ⊢
  rcases SquaredNorm_ray_convex ray c t1 t2 p h1 h2 with h | h
  · exact lt_of_lt_of_le hp1 (CubicFalloff_antitone _ _ _ (mul_pos hr hr) h)
  · exact lt_of_lt_of_le hp2 (CubicFalloff_antitone _ _ _ (mul_pos hr hr) h)

/-- What both marchers keep true of the position `t`: it is the start `a`, or
the start is outside and `t` is outside or at most `ε` past an outside point. -/
theorem march_inv_step (φ : ℝ → ℝ) (a t step : ℝ)
    (hI : t = a ∨ (φ a ≤ 0 ∧ (φ t ≤ 0 ∨ ∃ p, φ p ≤ 0 ∧ p < t ∧ t ≤ p + Epsilon)))
    (hneg : φ t ≤ 0) (hsafe : φ (t + step) ≤ 0) :
    t + Math.Max step Epsilon = a ∨ (φ a ≤ 0 ∧ (φ (t + Math.Max step Epsilon) ≤ 0 ∨
      ∃ p, φ p ≤ 0 ∧ p < t + Math.Max step Epsilon ∧ t + Math.Max step Epsilon ≤ p + Epsilon)) := by
  right
  refine ⟨?_, ?_⟩
  · rcases hI with h | h
    · rw [← h]; exact hneg
    · exact h.1
  · rw [Math.Max_eq_max]
    rcases max_cases step Epsilon with ⟨e, -⟩ | ⟨e, -⟩
    · left; rw [e]; exact hsafe
    · right
      rw [e]
      exact ⟨t, hneg, by linarith [Epsilon_pos], le_rfl⟩

/-- Two hits found that way on a field whose inside is an interval along the
ray are within `ε` of each other. -/
theorem hits_close (φ : ℝ → ℝ)
    (hconv : ∀ t1 t2 p, t1 ≤ p → p ≤ t2 → 0 < φ t1 → 0 < φ t2 → 0 < φ p) (a t1 t2 : ℝ)
    (h1 : t1 = a ∨ (φ a ≤ 0 ∧ (φ t1 ≤ 0 ∨ ∃ p, φ p ≤ 0 ∧ p < t1 ∧ t1 ≤ p + Epsilon)))
    (h2 : t2 = a ∨ (φ a ≤ 0 ∧ (φ t2 ≤ 0 ∨ ∃ p, φ p ≤ 0 ∧ p < t2 ∧ t2 ≤ p + Epsilon)))
    (hp1 : 0 < φ t1) (hp2 : 0 < φ t2) : |t1 - t2| ≤ Epsilon := by
  have he := Epsilon_pos
  rcases h1 with e1 | ⟨ha1, h1⟩
  · rcases h2 with e2 | ⟨ha2, -⟩
    · rw [e1, e2, sub_self, abs_zero]; exact he.le
    · rw [e1] at hp1; linarith
  · rcases h2 with e2 | ⟨-, h2⟩
    · rw [e2] at hp2; linarith
    · rcases h1 with h1 | ⟨p1, hn1, hl1, hu1⟩
      · linarith
      rcases h2 with h2 | ⟨p2, hn2, hl2, hu2⟩
      · linarith
      rw [abs_le]
      constructor
      · by_contra hlt
        have hlt := not_le.mp hlt
        have := hconv t1 t2 p2 (by linarith) hl2.le hp1 hp2
        linarith
      · by_contra hlt
        have hlt := not_le.mp hlt
        have := hconv t2 t1 p1 (by linarith) hl1.le hp2 hp1
        linarith

/-- Sphere tracing with `k = tree.K()` and segment tracing both return, and
two hits are within `ε`, when the field along the ray is that of one
primitive. -/
theorem sphere_and_segment_hits_close (root : BlobTreeNode ℝ) (hpos : root.PositiveRadii)
    (hunit : root.UnitEnergy) (ray : Ray ℝ) (hd : Norm Real.sqrt ray.d = 1)
    (c : Vector ℝ) (r : ℝ) (hr : 0 < r)
    (hone : ∀ t, root.Intensity (ray.eval t) = BlobTreePoint.Intensity c r 1 (ray.eval t))
    (a b : ℝ) (hbox : root.GetBox.IntersectRay ray 1e-3 = (1, a, b))
    (hfree : ∀ n st, marchStates (SegmentTrace.pass Real.sqrt ⟨some root⟩ ray)
        SegmentTrace.State.t b n ⟨a, 0, b - a, 0⟩ = some st →
      root.KSegNaN Real.sqrt ⟨ray.eval st.t, ray.eval (st.t + st.ts)⟩ = false ∨ st.ts = 0)
    (fuel : Nat) (hfuel : ⌈(b - a) / Epsilon⌉₊ < fuel) (t0 t0' : ℝ) (s0 s0' : Int) :
    ∃ r1 r2, SphereTrace fuel ⟨some root⟩ ray t0 s0 root.K = some r1 ∧
      SegmentTrace Real.sqrt fuel ⟨some root⟩ ray t0' s0' = some r2 ∧
      (r1.1 = true → r2.1 = true → |r1.2.1 - r2.2.1| ≤ Epsilon) := by
  have hconv : ∀ t1 t2 p, t1 ≤ p → p ≤ t2 → 0 < root.Intensity (ray.eval t1) - 0.5 →
      0 < root.Intensity (ray.eval t2) - 0.5 → 0 < root.Intensity (ray.eval p) - 0.5 := by
    intro t1 t2 p h1 h2 hp1 hp2
    rw [hone] at hp1 hp2 ⊢
    have := BlobTreePoint.level_convex c r 1 hr ray t1 t2 p 0.5 h1 h2 (by linarith)
      (by linarith)
    linarith
  obtain ⟨r1, hr1, -, hc1⟩ := SphereTrace_loop_spec root ray root.K b
    (fun t => t = a ∨ (root.Intensity (ray.eval a) - 0.5 ≤ 0 ∧
      (root.Intensity (ray.eval t) - 0.5 ≤ 0 ∨
        ∃ p, root.Intensity (ray.eval p) - 0.5 ≤ 0 ∧ p < t ∧ t ≤ p + Epsilon)))
    (by
      intro t hI _ hneg
      exact march_inv_step (fun t => root.Intensity (ray.eval t) - 0.5) a t _ hI hneg
        (SphereTrace_step_safe root hpos hunit ray hd t hneg _
          (le_add_of_nonneg_right (div_nonneg (abs_nonneg _) (BlobTreeNode.K_nonneg root hpos)))
          le_rfl))
    fuel ⟨a, 0⟩ (Or.inl rfl) hfuel
  obtain ⟨r2, hr2, hc2⟩ := SegmentTrace_loop_safe root hpos hunit ray hd a b
    (IntersectRay_interval _ ray a b hbox) hfree
    (fun t => t = a ∨ (root.Intensity (ray.eval a) - 0.5 ≤ 0 ∧
      (root.Intensity (ray.eval t) - 0.5 ≤ 0 ∨
        ∃ p, root.Intensity (ray.eval p) - 0.5 ≤ 0 ∧ p < t ∧ t ≤ p + Epsilon)))
    (by
      intro t step hI _ hneg h0 hsafe
      exact march_inv_step (fun t => root.Intensity (ray.eval t) - 0.5) a t _ hI hneg
        (hsafe _ (le_add_of_nonneg_right (mul_nonneg h0 (by norm_num))) (by norm_num)))
    (Or.inl rfl) fuel hfuel
  refine ⟨r1, r2, by rw [SphereTrace_eq_loop fuel root ray t0 s0 root.K a b hbox, hr1],
    by rw [SegmentTrace_eq_loop fuel root ray t0' s0' a b hbox, hr2], ?_⟩
  intro hb1 hb2
  rcases hc1 with ⟨-, hI1, -, hp1⟩ | ⟨hf, -⟩
  · rcases hc2 with ⟨-, hI2, -, hp2⟩ | ⟨hf, -⟩
    · exact hits_close (fun t => root.Intensity (ray.eval t) - 0.5) hconv a _ _ hI1 hI2 hp1 hp2
    · rw [hf] at hb2; exact absurd hb2 (by simp)
  · rw [hf] at hb1; exact absurd hb1 (by simp)

/-! ## Pruning of the segment bound -/

theorem BlobTreeNode.leaves_of_mem_leaves [LinearOrderedField α] (n l : BlobTreeNode α)
    (h : l ∈ n.leaves) : l.leaves = [l] := by
  induction n with
  | Point c r e =>
    simp only [BlobTreeNode.leaves, List.mem_singleton] at h
    rw [h]; rfl
  | Blend e1 e2 ih1 ih2 =>
    simp only [BlobTreeNode.leaves, List.mem_append] at h
    rcases h with h | h
    · exact ih1 h
    · exact ih2 h

/-- The box of a leaf lies in the box of the node. -/
theorem BlobTreeNode.Inside_of_leaf [LinearOrderedField α] (n l : BlobTreeNode α)
    (h : l ∈ n.leaves) (p : Vector α) (hin : l.GetBox.Inside p = true) :
    n.GetBox.Inside p = true := by
  induction n with
  | Point c r e =>
    simp only [BlobTreeNode.leaves, List.mem_singleton] at h
    rw [← h]; exact hin
  | Blend e1 e2 ih1 ih2 =>
    simp only [BlobTreeNode.leaves, List.mem_append] at h
    simp only [BlobTreeNode.GetBox]
    rcases h with h | h
    · exact Box.Inside_ofBoxes_left _ _ p (ih1 h)
    · exact Box.Inside_ofBoxes_right _ _ p (ih2 h)

/-- When the box of a node does not overlap the box of the segment, no point of
the segment is inside the box of a leaf. -/
theorem BlobTreeNode.outside_of_pruned [LinearOrderedField α] (n : BlobTreeNode α)
    (s : Segment α) (h : n.GetBox.Intersect s.GetBox = false) (σ : α) (h0 : 0 ≤ σ)
    (h1 : σ ≤ 1) (l : BlobTreeNode α) (hl : l ∈ n.leaves) :
    l.GetBox.Inside (Lerp s.a s.b σ) = false := by
  have hn := Box.not_Inside_of_not_Intersect n.GetBox s.GetBox (Lerp s.a s.b σ)
    (Lerp_mem_GetBox s σ h0 h1) h
  by_contra hc
  have hin : l.GetBox.Inside (Lerp s.a s.b σ) = true := by simpa using hc
  rw [BlobTreeNode.Inside_of_leaf n l hl _ hin] at hn
  exact absurd hn (by simp)

/-- When the box of a node does not overlap the box of the segment, the
segment bound of every leaf below it is zero. -/
theorem BlobTreeNode.leaves_KSeg_zero_of_pruned (n : BlobTreeNode ℝ) (hpos : n.PositiveRadii)
    (s : Segment ℝ) (h : n.GetBox.Intersect s.GetBox = false) (l : BlobTreeNode ℝ)
    (hl : l ∈ n.leaves) : l.KSeg Real.sqrt s = 0 := by
  refine BlobTreeNode.KSeg_eq_zero_of_outside l
    ((BlobTreeNode.PositiveRadii_iff_leaves n).mp hpos l hl) s ?_
  intro σ h0 h1 l' hl'
  rw [BlobTreeNode.leaves_of_mem_leaves n l hl, List.mem_singleton] at hl'
  rw [hl']
  exact BlobTreeNode.outside_of_pruned n s h σ h0 h1 l hl

theorem BlobTreeNode.KSeg_eq_sum_leaves (n : BlobTreeNode ℝ) (hpos : n.PositiveRadii)
    (s : Segment ℝ) :
    n.KSeg Real.sqrt s = (n.leaves.map (fun l => l.KSeg Real.sqrt s)).sum := by
  induction n with
  | Point c r e => simp [BlobTreeNode.leaves]
  | Blend e1 e2 ih1 ih2 =>
    have hp := hpos
    simp only [BlobTreeNode.PositiveRadii] at hp
    by_cases h : (Box.ofBoxes e1.GetBox e2.GetBox).Intersect s.GetBox = true
    · simp only [BlobTreeNode.KSeg, h, Bool.not_true, Bool.false_eq_true, if_false,
        BlobTreeNode.leaves, List.map_append, List.sum_append]
      rw [ih1 hp.1, ih2 hp.2]
    · have h' : (BlobTreeNode.Blend e1 e2).GetBox.Intersect s.GetBox = false := by
        simpa [BlobTreeNode.GetBox] using h
      have hz : ((BlobTreeNode.Blend e1 e2).leaves.map (fun l => l.KSeg Real.sqrt s)).sum
          = 0 := by
        apply List.sum_eq_zero
        intro x hx
        obtain ⟨l, hl, rfl⟩ := List.mem_map.mp hx
        exact BlobTreeNode.leaves_KSeg_zero_of_pruned _ hpos s h' l hl
      rw [hz]
      have hf : (Box.ofBoxes e1.GetBox e2.GetBox).Intersect s.GetBox = false := by
        simpa using h
      simp [BlobTreeNode.KSeg, hf]

/-! ## What a reported hit means -/

/-- A hit returned by the loop comes from a pass that returns it, at a state
satisfying every invariant of the body. -/
theorem marchLoop_hit_inv [LinearOrderedField α] {σ : Type} (pass : σ → Option (Pass σ α))
    (time : σ → α) (count : σ → Int) (b : α) (Inv : σ → Prop)
    (hpass : ∀ st st1, Inv st → time st < b →
      (pass st = some (Pass.retreat st1) ∨ pass st = some (Pass.advance st1)) → Inv st1) :
    ∀ (fuel : Nat) (st : σ) (t : α) (s : Int), Inv st →
      marchLoop pass time count b fuel st = some (true, t, s) →
      ∃ st1, Inv st1 ∧ time st1 < b ∧ pass st1 = some (Pass.hit t s) := by
  intro fuel
  induction fuel with
  | zero => intro st t s _ h; simp [marchLoop] at h
  | succ fuel ih =>
    intro st t s hI h
    rw [marchLoop] at h
    by_cases ht : time st < b
    · simp only [ht, if_true] at h
      cases hp : pass st with
      | none => rw [hp] at h; simp at h
      | some out =>
        rw [hp] at h
        cases out with
        | hit t1 s1 =>
          simp only [Option.some.injEq, Prod.mk.injEq, true_and] at h
          exact ⟨st, hI, ht, by rw [hp, h.1, h.2]⟩
        | retreat st1 => exact ih st1 t s (hpass st st1 hI ht (Or.inl hp)) h
        | advance st1 => exact ih st1 t s (hpass st st1 hI ht (Or.inr hp)) h
    · simp [ht] at h

theorem Box.IntersectRay_fst [LinearOrderedField α] (box : Box α) (ray : Ray α) (epsilon : α) :
    (box.IntersectRay ray epsilon).1 = 0 ∨ (box.IntersectRay ray epsilon).1 = 1 := by
  unfold Box.IntersectRay
  simp only
  split_ifs <;> simp

/-- A marcher that reports a hit has found the ray in the root box. -/
theorem IntersectRay_of_ne_zero [LinearOrderedField α] (box : Box α) (ray : Ray α)
    (h : (box.IntersectRay ray 1e-3).1 ≠ 0) :
    box.IntersectRay ray 1e-3
      = (1, (box.IntersectRay ray 1e-3).2.1, (box.IntersectRay ray 1e-3).2.2) := by
  rcases Box.IntersectRay_fst box ray 1e-3 with h0 | h1
  · exact absurd h0 h
  · exact Prod.ext h1 rfl

theorem SphereTrace_hit_sound (root : BlobTreeNode ℝ) (ray : Ray ℝ) (k : ℝ) (fuel : Nat)
    (t0 : ℝ) (s0 : Int) (t : ℝ) (s : Int)
    (h : SphereTrace fuel ⟨some root⟩ ray t0 s0 k = some (true, t, s)) :
    0 < root.Intensity (ray.eval t) - 0.5 ∧ 1 ≤ s ∧
    ∃ a b, root.GetBox.IntersectRay ray 1e-3 = (1, a, b) ∧ a ≤ t ∧ t < b := by
  have hne : (root.GetBox.IntersectRay ray 1e-3).1 ≠ 0 := by
    intro h0
    simp [SphereTrace, BlobTree.GetBox, h0] at h
  have hbox := IntersectRay_of_ne_zero _ ray hne
  rw [SphereTrace_eq_loop fuel root ray t0 s0 k _ _ hbox] at h
  obtain ⟨st1, hI, ht, hp⟩ := marchLoop_hit_inv (SphereTrace.pass ⟨some root⟩ ray k)
    SphereTrace.State.t SphereTrace.State.s _
    (fun st => (root.GetBox.IntersectRay ray 1e-3).2.1 ≤ st.t ∧ 0 ≤ st.s) (by
      intro st st1 hI _ hp
      rw [SphereTrace_pass_eq] at hp
      split_ifs at hp with hpos
      · simp at hp
      · simp only [Option.some.injEq, reduceCtorEq, Pass.advance.injEq, false_or] at hp
        rw [← hp]
        have := Epsilon_le_Max (|root.Intensity (ray.eval st.t) - 0.5| / k)
        have := Epsilon_pos
        exact ⟨by show _ ≤ st.t + _; linarith [hI.1], by show (0 : Int) ≤ st.s + 1; linarith [hI.2]⟩)
    fuel ⟨_, 0⟩ t s ⟨le_rfl, le_rfl⟩ h
  rw [SphereTrace_pass_eq] at hp
  split_ifs at hp with hpos
  · simp only [Option.some.injEq, Pass.hit.injEq] at hp
    rw [← hp.1, ← hp.2]
    exact ⟨hpos, by linarith [hI.2], _, _, hbox, hI.1, ht⟩
  · simp at hp

theorem EnhancedSphereTrace_hit_sound (root : BlobTreeNode ℝ) (ray : Ray ℝ) (k : ℝ)
    (hk : 0 < k) (fuel : Nat) (t0 : ℝ) (s0 : Int) (t : ℝ) (s : Int)
    (h : EnhancedSphereTrace fuel ⟨some root⟩ ray t0 s0 k = some (true, t, s)) :
    0 < root.Intensity (ray.eval t) - 0.5 ∧ 1 ≤ s ∧
    ∃ a b, root.GetBox.IntersectRay ray 1e-3 = (1, a, b) ∧ a ≤ t ∧ t < b := by
  have hne : (root.GetBox.IntersectRay ray 1e-3).1 ≠ 0 := by
    intro h0
    simp [EnhancedSphereTrace, BlobTree.GetBox, h0] at h
  have hbox := IntersectRay_of_ne_zero _ ray hne
  rw [EnhancedSphereTrace_eq_loop fuel root ray t0 s0 k _ _ hbox] at h
  obtain ⟨st1, hI, ht, hp⟩ := marchLoop_hit_inv (EnhancedSphereTrace.pass ⟨some root⟩ ray k)
    EnhancedSphereTrace.State.t EnhancedSphereTrace.State.s _
    (fun st => (0 ≤ st.te ∧ (root.GetBox.IntersectRay ray 1e-3).2.1 ≤ st.t - 0.25 * st.te)
      ∧ 0 ≤ st.s) (by
      intro st st1 hI _ hp
      refine ⟨EnhancedSphereTrace.pass_inv root ray k hk _ st st1 hI.1 hp, ?_⟩
      rcases EnhancedSphereTrace_pass_cases root ray k hk st with
        ⟨-, hq⟩ | ⟨-, -, hq⟩ | ⟨-, tk, -, -, hq⟩
      · rw [hq] at hp; simp at hp
      · rw [hq] at hp
        simp only [Option.some.injEq, Pass.retreat.injEq, reduceCtorEq, or_false] at hp
        rw [← hp]
        show (0 : Int) ≤ st.s + 1
        linarith [hI.2]
      · rw [hq] at hp
        simp only [Option.some.injEq, reduceCtorEq, Pass.advance.injEq, false_or] at hp
        rw [← hp]
        show (0 : Int) ≤ st.s + 1
        linarith [hI.2])
    fuel ⟨_, 0, 0⟩ t s ⟨⟨le_rfl, by show _ ≤ _ - 0.25 * (0 : ℝ); linarith⟩, le_rfl⟩ h
  rcases EnhancedSphereTrace_pass_cases root ray k hk st1 with
    ⟨hpos, hq⟩ | ⟨-, -, hq⟩ | ⟨-, tk, -, -, hq⟩
  · rw [hq] at hp
    simp only [Option.some.injEq, Pass.hit.injEq] at hp
    rw [← hp.1, ← hp.2]
    exact ⟨hpos, by linarith [hI.2], _, _, hbox, by linarith [hI.1.1, hI.1.2], ht⟩
  · rw [hq] at hp; simp at hp
  · rw [hq] at hp; simp at hp

theorem SegmentTrace_hit_sound (root : BlobTreeNode ℝ) (hpos : root.PositiveRadii)
    (ray : Ray ℝ) (fuel : Nat) (t0 : ℝ) (s0 : Int) (t : ℝ) (s : Int)
    (h : SegmentTrace Real.sqrt fuel ⟨some root⟩ ray t0 s0 = some (true, t, s)) :
    0 < root.Intensity (ray.eval t) - 0.5 ∧ 1 ≤ s ∧
    ∃ a b, root.GetBox.IntersectRay ray 1e-3 = (1, a, b) ∧ a ≤ t ∧ t < b := by
  have hne : (root.GetBox.IntersectRay ray 1e-3).1 ≠ 0 := by
    intro h0
    simp [SegmentTrace, BlobTree.GetBox, h0] at h
  have hbox := IntersectRay_of_ne_zero _ ray hne
  have hab := IntersectRay_interval _ ray _ _ hbox
  rw [SegmentTrace_eq_loop fuel root ray t0 s0 _ _ hbox] at h
  obtain ⟨st1, hI, ht, hp⟩ := marchLoop_hit_inv (SegmentTrace.pass Real.sqrt ⟨some root⟩ ray)
    SegmentTrace.State.t SegmentTrace.State.s _
    (fun st => (root.GetBox.IntersectRay ray 1e-3).2.1 ≤ st.t ∧ 0 ≤ st.ts ∧ 0 ≤ st.s) (by
      intro st st1 hI _ hp
      rcases SegmentTrace_pass_cases root hpos ray st hI.2.1 with
        ⟨-, hq⟩ | ⟨-, tk, -, h0, -, -, hq⟩
      · rw [hq] at hp; simp at hp
      · rw [hq] at hp
        simp only [Option.some.injEq, reduceCtorEq, Pass.advance.injEq, false_or] at hp
        rw [← hp]
        have := Epsilon_le_Max (tk * 1.0)
        have := Epsilon_pos
        refine ⟨?_, ?_, ?_⟩
        · show _ ≤ st.t + _
          linarith [hI.1]
        · show 0 ≤ tk * 1.5
          positivity
        · show (0 : Int) ≤ st.s + 1
          linarith [hI.2.2])
    fuel ⟨_, 0, _, 0⟩ t s ⟨le_rfl, sub_nonneg.mpr hab, le_rfl⟩ h
  rcases SegmentTrace_pass_cases root hpos ray st1 hI.2.1 with
    ⟨hI0, hq⟩ | ⟨-, tk, -, -, -, -, hq⟩
  · rw [hq] at hp
    simp only [Option.some.injEq, Pass.hit.injEq] at hp
    rw [← hp.1, ← hp.2]
    exact ⟨hI0, by linarith [hI.2.2], _, _, hbox, hI.1, ht⟩
  · rw [hq] at hp; simp at hp

/-! ## The slab method is exact -/

/-- One slab of `Box::Intersect` with entry parameter `lo` and exit parameter
`hi`: the block succeeds exactly when `[tmin, tmax]` meets `[lo, hi]`, and then
leaves the intersection of the two intervals. -/
theorem slab_core [LinearOrderedField α] (lo hi tmin tmax : α) (hle : tmin ≤ tmax) :
    ((if hi < tmin then (false, tmin, tmax)
      else
        if lo ≥ tmin then
          if lo > (if hi ≤ tmax then hi else tmax) then
            (false, tmin, (if hi ≤ tmax then hi else tmax))
          else (true, lo, (if hi ≤ tmax then hi else tmax))
        else (true, tmin, (if hi ≤ tmax then hi else tmax))).1 = true ↔
      ∃ t, tmin ≤ t ∧ t ≤ tmax ∧ lo ≤ t ∧ t ≤ hi) ∧
    ((if hi < tmin then (false, tmin, tmax)
      else
        if lo ≥ tmin then
          if lo > (if hi ≤ tmax then hi else tmax) then
            (false, tmin, (if hi ≤ tmax then hi else tmax))
          else (true, lo, (if hi ≤ tmax then hi else tmax))
        else (true, tmin, (if hi ≤ tmax then hi else tmax))).1 = true → ∀ t,
      ((if hi < tmin then (false, tmin, tmax)
        else
          if lo ≥ tmin then
            if lo > (if hi ≤ tmax then hi else tmax) then
              (false, tmin, (if hi ≤ tmax then hi else tmax))
            else (true, lo, (if hi ≤ tmax then hi else tmax))
          else (true, tmin, (if hi ≤ tmax then hi else tmax))).2.1 ≤ t ∧
        t ≤ (if hi < tmin then (false, tmin, tmax)
        else
          if lo ≥ tmin then
            if lo > (if hi ≤ tmax then hi else tmax) then
              (false, tmin, (if hi ≤ tmax then hi else tmax))
            else (true, lo, (if hi ≤ tmax then hi else tmax))
          else (true, tmin, (if hi ≤ tmax then hi else tmax))).2.2) ↔
      (tmin ≤ t ∧ t ≤ tmax ∧ lo ≤ t ∧ t ≤ hi)) := by
  have hmin : (if hi ≤ tmax then hi else tmax) = min hi tmax := by
    rw [min_def]
  rw [hmin]
  by_cases h1 : hi < tmin
  · simp only [if_pos h1, Bool.false_eq_true, false_iff, not_exists, not_and, not_le,
      false_imp_iff, and_true]
    intro t h _ _
    linarith
  · have h1' := not_lt.mp h1
    simp only [if_neg h1]
    by_cases h2 : lo ≥ tmin
    · simp only [if_pos h2]
      by_cases h3 : lo > min hi tmax
      · simp only [if_pos h3, Bool.false_eq_true, false_iff, not_exists, not_and, not_le,
          false_imp_iff, and_true]
        intro t _ ht hl
        rcases min_cases hi tmax with ⟨e, _⟩ | ⟨e, _⟩
        · rw [e] at h3; linarith
        · rw [e] at h3; linarith
      · have h3' := not_lt.mp h3
        simp only [if_neg h3, true_iff, true_imp_iff]
        refine ⟨⟨lo, h2, ?_, le_rfl, ?_⟩, fun t => ?_⟩
        · exact le_trans h3' (min_le_right _ _)
        · exact le_trans h3' (min_le_left _ _)
        · simp only [le_min_iff]
          constructor
          · rintro ⟨a1, a2, a3⟩
            exact ⟨le_trans h2 a1, a3, a1, a2⟩
          · rintro ⟨_, a2, a3, a4⟩
            exact ⟨a3, a4, a2⟩
    · have h2' := not_le.mp h2
      simp only [if_neg h2, true_iff, true_imp_iff]
      refine ⟨⟨tmin, le_rfl, hle, h2'.le, h1'⟩, fun t => ?_⟩
      simp only [le_min_iff]
      constructor
      · rintro ⟨a1, a2, a3⟩
        exact ⟨a1, a3, le_trans h2'.le a1, a2⟩
      · rintro ⟨a1, a2, _, a4⟩
        exact ⟨a1, a4, a2⟩

theorem Box.IntersectAxis_spec [LinearOrderedField α] (a b p d eps tmin tmax : α)
    (heps : 0 ≤ eps) (hd : d = 0 ∨ eps < |d|) (hle : tmin ≤ tmax) :
    ((Box.IntersectAxis a b p d eps tmin tmax).1 = true ↔
      ∃ t, tmin ≤ t ∧ t ≤ tmax ∧ a ≤ p + d * t ∧ p + d * t ≤ b) ∧
    ((Box.IntersectAxis a b p d eps tmin tmax).1 = true → ∀ t,
      ((Box.IntersectAxis a b p d eps tmin tmax).2.1 ≤ t ∧
        t ≤ (Box.IntersectAxis a b p d eps tmin tmax).2.2) ↔
      (tmin ≤ t ∧ t ≤ tmax ∧ a ≤ p + d * t ∧ p + d * t ≤ b)) := by
  by_cases hneg : d < -eps
  · have hd0 : d < 0 := by linarith
    have e1 : ∀ t, a ≤ p + d * t ↔ t ≤ (a - p) / d := by
      intro t
      rw [le_div_iff_of_neg hd0]
      constructor <;> intro h <;> linarith
    have e2 : ∀ t, p + d * t ≤ b ↔ (b - p) / d ≤ t := by
      intro t
      rw [div_le_iff_of_neg hd0]
      constructor <;> intro h <;> linarith
    have key := slab_core ((b - p) / d) ((a - p) / d) tmin tmax hle
    unfold Box.IntersectAxis
    simp only [if_pos hneg, e1, e2]
    refine ⟨key.1.trans ?_, fun h t => (key.2 h t).trans ?_⟩
    · constructor <;> rintro ⟨t, a1, a2, a3, a4⟩ <;> exact ⟨t, a1, a2, a4, a3⟩
    · constructor <;> rintro ⟨a1, a2, a3, a4⟩ <;> exact ⟨a1, a2, a4, a3⟩
  · by_cases hpos : d > eps
    · have hd0 : 0 < d := by linarith
      have e1 : ∀ t, a ≤ p + d * t ↔ (a - p) / d ≤ t := by
        intro t
        rw [div_le_iff₀ hd0]
        constructor <;> intro h <;> linarith
      have e2 : ∀ t, p + d * t ≤ b ↔ t ≤ (b - p) / d := by
        intro t
        rw [le_div_iff₀ hd0]
        constructor <;> intro h <;> linarith
      have key := slab_core ((a - p) / d) ((b - p) / d) tmin tmax hle
      unfold Box.IntersectAxis
      simp only [if_neg hneg, if_pos hpos, e1, e2]
      exact key
    · have hz : d = 0 := by
        rcases hd with h | h
        · exact h
        · exfalso
          rcases abs_cases d with ⟨e, _⟩ | ⟨e, _⟩
          · rw [e] at h; exact hpos h
          · rw [e] at h; exact hneg (by linarith)
      subst hz
      unfold Box.IntersectAxis
      simp only [if_neg hneg, if_neg hpos, zero_mul, add_zero]
      by_cases hout : p < a ∨ p > b
      · simp only [if_pos hout, Bool.false_eq_true, false_iff, not_exists, not_and, not_le,
          false_imp_iff, and_true]
        intro t _ _ ha
        rcases hout with h | h
        · linarith
        · exact h
      · simp only [if_neg hout, true_iff, true_imp_iff]
        simp only [not_or, not_lt] at hout
        refine ⟨⟨tmin, le_rfl, hle, hout.1, hout.2⟩, fun t => ?_⟩
        constructor
        · rintro ⟨a1, a2⟩; exact ⟨a1, a2, hout.1, hout.2⟩
        · rintro ⟨a1, a2, _, _⟩; exact ⟨a1, a2⟩

/-- The member `Box::Intersect(const Ray&, ...)` on a ray none of whose
direction components lies in `[-epsilon, epsilon]` other than `0`: it returns
`1` exactly when some parameter in `[-1e16, 1e16]` puts the ray in the closed
box, and then `[tmin, tmax]` is the set of these parameters. -/
theorem Box.IntersectRay_spec [LinearOrderedField α] (box : Box α) (ray : Ray α) (eps : α)
    (heps : 0 ≤ eps) (hd0 : ray.d.c0 = 0 ∨ eps < |ray.d.c0|)
    (hd1 : ray.d.c1 = 0 ∨ eps < |ray.d.c1|) (hd2 : ray.d.c2 = 0 ∨ eps < |ray.d.c2|) :
    ((box.IntersectRay ray eps).1 = 1 ↔ ∃ t, (-1e16 ≤ t ∧ t ≤ 1e16) ∧
      (box.a.c0 ≤ ray.o.c0 + ray.d.c0 * t ∧ ray.o.c0 + ray.d.c0 * t ≤ box.b.c0) ∧
      (box.a.c1 ≤ ray.o.c1 + ray.d.c1 * t ∧ ray.o.c1 + ray.d.c1 * t ≤ box.b.c1) ∧
      (box.a.c2 ≤ ray.o.c2 + ray.d.c2 * t ∧ ray.o.c2 + ray.d.c2 * t ≤ box.b.c2)) ∧
    ((box.IntersectRay ray eps).1 = 1 → ∀ t,
      ((box.IntersectRay ray eps).2.1 ≤ t ∧ t ≤ (box.IntersectRay ray eps).2.2) ↔
      ((-1e16 ≤ t ∧ t ≤ 1e16) ∧
      (box.a.c0 ≤ ray.o.c0 + ray.d.c0 * t ∧ ray.o.c0 + ray.d.c0 * t ≤ box.b.c0) ∧
      (box.a.c1 ≤ ray.o.c1 + ray.d.c1 * t ∧ ray.o.c1 + ray.d.c1 * t ≤ box.b.c1) ∧
      (box.a.c2 ≤ ray.o.c2 + ray.d.c2 * t ∧ ray.o.c2 + ray.d.c2 * t ≤ box.b.c2))) := by
  have h0 : (-1e16 : α) ≤ 1e16 := by norm_num
  have g : ∀ v : Vector α, v.get 0 = v.c0 ∧ v.get 1 = v.c1 ∧ v.get 2 = v.c2 := by
    intro v; simp [Vector.get]
  unfold Box.IntersectRay
  simp only [(g _).1, (g _).2.1, (g _).2.2]
  have sx := Box.IntersectAxis_spec box.a.c0 box.b.c0 ray.o.c0 ray.d.c0 eps (-1e16) 1e16
    heps hd0 h0
  have lx := Box.IntersectAxis_le box.a.c0 box.b.c0 ray.o.c0 ray.d.c0 eps (-1e16) 1e16 h0
  generalize Box.IntersectAxis box.a.c0 box.b.c0 ray.o.c0 ray.d.c0 eps (-1e16) 1e16 = X
    at sx lx ⊢
  by_cases hx : X.1 = true
  swap
  · have hx' : X.1 = false := by simpa using hx
    simp only [hx', Bool.not_false, if_true, zero_ne_one, false_iff, false_imp_iff, and_true]
    rintro ⟨t, ⟨a1, a2⟩, ⟨a3, a4⟩, -⟩
    exact hx (sx.1.mpr ⟨t, a1, a2, a3, a4⟩)
  have sy := Box.IntersectAxis_spec box.a.c1 box.b.c1 ray.o.c1 ray.d.c1 eps X.2.1 X.2.2
    heps hd1 (lx hx)
  have ly := Box.IntersectAxis_le box.a.c1 box.b.c1 ray.o.c1 ray.d.c1 eps X.2.1 X.2.2 (lx hx)
  generalize Box.IntersectAxis box.a.c1 box.b.c1 ray.o.c1 ray.d.c1 eps X.2.1 X.2.2 = Y
    at sy ly ⊢
  have ex := sx.2 hx
  by_cases hy : Y.1 = true
  swap
  · have hy' : Y.1 = false := by simpa using hy
    simp only [hx, hy', Bool.not_true, Bool.false_eq_true, if_false, Bool.not_false, if_true,
      zero_ne_one, false_iff, false_imp_iff, and_true]
    rintro ⟨t, ⟨a1, a2⟩, ⟨a3, a4⟩, ⟨a5, a6⟩, -⟩
    have := (ex t).mpr ⟨a1, a2, a3, a4⟩
    exact hy (sy.1.mpr ⟨t, this.1, this.2, a5, a6⟩)
  have sz := Box.IntersectAxis_spec box.a.c2 box.b.c2 ray.o.c2 ray.d.c2 eps Y.2.1 Y.2.2
    heps hd2 (ly hy)
  generalize Box.IntersectAxis box.a.c2 box.b.c2 ray.o.c2 ray.d.c2 eps Y.2.1 Y.2.2 = Z
    at sz ⊢
  have ey := sy.2 hy
  have full : ∀ t, (Y.2.1 ≤ t ∧ t ≤ Y.2.2 ∧
      box.a.c2 ≤ ray.o.c2 + ray.d.c2 * t ∧ ray.o.c2 + ray.d.c2 * t ≤ box.b.c2) ↔
      ((-1e16 ≤ t ∧ t ≤ 1e16) ∧
      (box.a.c0 ≤ ray.o.c0 + ray.d.c0 * t ∧ ray.o.c0 + ray.d.c0 * t ≤ box.b.c0) ∧
      (box.a.c1 ≤ ray.o.c1 + ray.d.c1 * t ∧ ray.o.c1 + ray.d.c1 * t ≤ box.b.c1) ∧
      (box.a.c2 ≤ ray.o.c2 + ray.d.c2 * t ∧ ray.o.c2 + ray.d.c2 * t ≤ box.b.c2)) := by
    intro t
    constructor
    · rintro ⟨a1, a2, a3, a4⟩
      obtain ⟨b1, b2, b3, b4⟩ := (ey t).mp ⟨a1, a2⟩
      obtain ⟨c1, c2, c3, c4⟩ := (ex t).mp ⟨b1, b2⟩
      exact ⟨⟨c1, c2⟩, ⟨c3, c4⟩, ⟨b3, b4⟩, a3, a4⟩
    · rintro ⟨⟨c1, c2⟩, ⟨c3, c4⟩, ⟨b3, b4⟩, a3, a4⟩
      have hX := (ex t).mpr ⟨c1, c2, c3, c4⟩
      have hY := (ey t).mpr ⟨hX.1, hX.2, b3, b4⟩
      exact ⟨hY.1, hY.2, a3, a4⟩
  by_cases hz : Z.1 = true
  swap
  · have hz' : Z.1 = false := by simpa using hz
    simp only [hx, hy, hz', Bool.not_true, Bool.false_eq_true, if_false, Bool.not_false,
      if_true, zero_ne_one, false_iff, false_imp_iff, and_true]
    rintro ⟨t, ht⟩
    exact hz (sz.1.mpr ⟨t, (full t).mpr ht⟩)
  simp only [hx, hy, hz, Bool.not_true, Bool.false_eq_true, if_false, true_iff, true_imp_iff]
  obtain ⟨t, ht⟩ := sz.1.mp hz
  refine ⟨⟨t, (full t).mp ht⟩, fun t => ?_⟩
  exact ((sz.2 hz) t).trans (full t)

/-! ## Nearest and farthest points of a segment -/

/-- The squared distance from `c` along the segment, in terms of the projection
`l` on the axis and the length `L`. -/
theorem segment_dist_sq (a b c : Vector ℝ) (σ : ℝ) (hlen : 0 < Norm Real.sqrt (b.sub a)) :
    SquaredNorm (c.sub (Lerp a b σ)) = SquaredNorm (c.sub a)
      - 2 * σ * ((c.sub a).dot (Normalized Real.sqrt (b.sub a)) * Norm Real.sqrt (b.sub a))
      + σ ^ 2 * (Norm Real.sqrt (b.sub a) * Norm Real.sqrt (b.sub a)) := by
  rw [SquaredNorm_sub_comm, path_sq, dot_axis_mul_len _ _ hlen, Norm_mul_self]
  ring

theorem dist_sq_before (A l L σ : ℝ) (hL : 0 < L) (hl : l < 0) (h0 : 0 ≤ σ) (h1 : σ ≤ 1) :
    A ≤ A - 2 * σ * (l * L) + σ ^ 2 * (L * L) ∧
    A - 2 * σ * (l * L) + σ ^ 2 * (L * L) ≤ A - 2 * l * L + L * L := by
  have e1 : A - 2 * σ * (l * L) + σ ^ 2 * (L * L) - A = σ * L * (σ * L - 2 * l) := by ring
  have e2 : A - 2 * l * L + L * L - (A - 2 * σ * (l * L) + σ ^ 2 * (L * L))
      = (1 - σ) * L * ((1 + σ) * L - 2 * l) := by ring
  have p1 : 0 ≤ σ * L * (σ * L - 2 * l) :=
    mul_nonneg (mul_nonneg h0 hL.le) (by nlinarith [mul_nonneg h0 hL.le])
  have p2 : 0 ≤ (1 - σ) * L * ((1 + σ) * L - 2 * l) :=
    mul_nonneg (mul_nonneg (by linarith) hL.le)
      (by nlinarith [mul_nonneg (by linarith : (0 : ℝ) ≤ 1 + σ) hL.le])
  constructor <;> linarith

theorem dist_sq_past (A l L σ : ℝ) (hL : 0 < L) (hl : L < l) (h0 : 0 ≤ σ) (h1 : σ ≤ 1) :
    A - 2 * l * L + L * L ≤ A - 2 * σ * (l * L) + σ ^ 2 * (L * L) ∧
    A - 2 * σ * (l * L) + σ ^ 2 * (L * L) ≤ A := by
  have e1 : A - (A - 2 * σ * (l * L) + σ ^ 2 * (L * L)) = σ * L * (2 * l - σ * L) := by ring
  have e2 : A - 2 * σ * (l * L) + σ ^ 2 * (L * L) - (A - 2 * l * L + L * L)
      = (1 - σ) * L * (2 * l - (1 + σ) * L) := by ring
  have p1 : 0 ≤ σ * L * (2 * l - σ * L) :=
    mul_nonneg (mul_nonneg h0 hL.le) (by nlinarith [mul_nonneg (sub_nonneg.mpr h1) hL.le])
  have p2 : 0 ≤ (1 - σ) * L * (2 * l - (1 + σ) * L) :=
    mul_nonneg (mul_nonneg (by linarith) hL.le)
      (by nlinarith [mul_nonneg (sub_nonneg.mpr h1) hL.le])
  constructor <;> linarith

theorem dist_sq_on (A l L σ : ℝ) (h0 : 0 ≤ σ) (h1 : σ ≤ 1) :
    A - l * l ≤ A - 2 * σ * (l * L) + σ ^ 2 * (L * L) ∧
    A - 2 * σ * (l * L) + σ ^ 2 * (L * L) ≤ max (A - 2 * l * L + L * L) A := by
  constructor
  · nlinarith [sq_nonneg (l - σ * L)]
  · have hconv : A - 2 * σ * (l * L) + σ ^ 2 * (L * L)
        ≤ (1 - σ) * A + σ * (A - 2 * l * L + L * L) := by
      nlinarith [mul_nonneg (mul_nonneg h0 (sub_nonneg.mpr h1)) (mul_self_nonneg L)]
    have hA := le_max_right (A - 2 * l * L + L * L) A
    have hB := le_max_left (A - 2 * l * L + L * L) A
    nlinarith [mul_le_mul_of_nonneg_left hA (sub_nonneg.mpr h1),
      mul_le_mul_of_nonneg_left hB h0]

/-! ## The builder on a grid -/

theorem Vector.MaxIndex_lt [LinearOrderedField α] (v : Vector α) : v.MaxIndex < 3 := by
  unfold Vector.MaxIndex
  split_ifs <;> norm_num

theorem Vector.MaxIndex_ge [LinearOrderedField α] (v : Vector α) (i : Nat) :
    v.get i ≤ v.get v.MaxIndex := by
  unfold Vector.MaxIndex Vector.get
  split_ifs <;> simp_all <;> linarith

theorem gridPoint_get [LinearOrderedField α] (o h : Vector α) (m : Nat → Nat) (i : Nat)
    (hi : i < 3) : (gridPoint o h m).get i = o.get i + (m i : α) * h.get i := by
  interval_cases i <;> simp [gridPoint, Vector.get]

/-- The box a fold of `Box(bbox, n.GetBox())` over a list of nodes ends with:
each corner coordinate is the extreme one among the start box and the nodes. -/
theorem foldl_box [LinearOrderedField α] (i : Nat) :
    ∀ (xs : List (BlobTreeNode α)) (B0 : Box α),
      ((xs.foldl (fun bb n => Box.ofBoxes bb n.GetBox) B0).a.get i ≤ B0.a.get i ∧
        (∀ n ∈ xs, (xs.foldl (fun bb n => Box.ofBoxes bb n.GetBox) B0).a.get i
          ≤ n.GetBox.a.get i) ∧
        ((xs.foldl (fun bb n => Box.ofBoxes bb n.GetBox) B0).a.get i = B0.a.get i ∨
          ∃ n ∈ xs, (xs.foldl (fun bb n => Box.ofBoxes bb n.GetBox) B0).a.get i
            = n.GetBox.a.get i)) ∧
      (B0.b.get i ≤ (xs.foldl (fun bb n => Box.ofBoxes bb n.GetBox) B0).b.get i ∧
        (∀ n ∈ xs, n.GetBox.b.get i
          ≤ (xs.foldl (fun bb n => Box.ofBoxes bb n.GetBox) B0).b.get i) ∧
        ((xs.foldl (fun bb n => Box.ofBoxes bb n.GetBox) B0).b.get i = B0.b.get i ∨
          ∃ n ∈ xs, (xs.foldl (fun bb n => Box.ofBoxes bb n.GetBox) B0).b.get i
            = n.GetBox.b.get i)) := by
  intro xs
  induction xs with
  | nil => intro B0; simp
  | cons x xs ih =>
    intro B0
    simp only [List.foldl_cons]
    obtain ⟨⟨a1, a2, a3⟩, b1, b2, b3⟩ := ih (Box.ofBoxes B0 x.GetBox)
    have ea : (Box.ofBoxes B0 x.GetBox).a.get i = min (B0.a.get i) (x.GetBox.a.get i) :=
      Vector.get_Min _ _ i
    have eb : (Box.ofBoxes B0 x.GetBox).b.get i = max (B0.b.get i) (x.GetBox.b.get i) :=
      Vector.get_Max _ _ i
    rw [ea] at a1 a3
    rw [eb] at b1 b3
    refine ⟨⟨le_trans a1 (min_le_left _ _), ?_, ?_⟩, le_trans (le_max_left _ _) b1, ?_, ?_⟩
    · intro n hn
      rcases List.mem_cons.mp hn with h | h
      · rw [h]; exact le_trans a1 (min_le_right _ _)
      · exact a2 n h
    · rcases a3 with h | ⟨n, hn, h⟩
      · rcases min_choice (B0.a.get i) (x.GetBox.a.get i) with hm | hm
        · left; rw [h, hm]
        · right; exact ⟨x, List.mem_cons_self _ _, by rw [h, hm]⟩
      · right; exact ⟨n, List.mem_cons_of_mem _ hn, h⟩
    · intro n hn
      rcases List.mem_cons.mp hn with h | h
      · rw [h]; exact le_trans (le_max_right _ _) b1
      · exact b2 n h
    · rcases b3 with h | ⟨n, hn, h⟩
      · rcases max_choice (B0.b.get i) (x.GetBox.b.get i) with hm | hm
        · left; rw [h, hm]
        · right; exact ⟨x, List.mem_cons_self _ _, by rw [h, hm]⟩
      · right; exact ⟨n, List.mem_cons_of_mem _ hn, h⟩

/-- The bounding box `BVHRecursive` computes for a range: each corner
coordinate is attained by a node of the range and bounds all of them. -/
theorem foldl_box_cons [LinearOrderedField α] (i : Nat) (x : BlobTreeNode α)
    (xs : List (BlobTreeNode α)) :
    ((∀ n ∈ x :: xs, (xs.foldl (fun bb n => Box.ofBoxes bb n.GetBox) x.GetBox).a.get i
        ≤ n.GetBox.a.get i) ∧
      ∃ n ∈ x :: xs, (xs.foldl (fun bb n => Box.ofBoxes bb n.GetBox) x.GetBox).a.get i
        = n.GetBox.a.get i) ∧
    ((∀ n ∈ x :: xs, n.GetBox.b.get i
        ≤ (xs.foldl (fun bb n => Box.ofBoxes bb n.GetBox) x.GetBox).b.get i) ∧
      ∃ n ∈ x :: xs, (xs.foldl (fun bb n => Box.ofBoxes bb n.GetBox) x.GetBox).b.get i
        = n.GetBox.b.get i) := by
  obtain ⟨⟨a1, a2, a3⟩, b1, b2, b3⟩ := foldl_box i xs x.GetBox
  refine ⟨⟨?_, ?_⟩, ?_, ?_⟩
  · intro n hn
    rcases List.mem_cons.mp hn with h | h
    · rw [h]; exact a1
    · exact a2 n h
  · rcases a3 with h | ⟨n, hn, h⟩
    · exact ⟨x, List.mem_cons_self _ _, h⟩
    · exact ⟨n, List.mem_cons_of_mem _ hn, h⟩
  · intro n hn
    rcases List.mem_cons.mp hn with h | h
    · rw [h]; exact b1
    · exact b2 n h
  · rcases b3 with h | ⟨n, hn, h⟩
    · exact ⟨x, List.mem_cons_self _ _, h⟩
    · exact ⟨n, List.mem_cons_of_mem _ hn, h⟩

/-- The bounding box of the nodes of a grid block. -/
theorem grid_box [LinearOrderedField α] (o h : Vector α) (lo e : Nat → Nat) (r : α)
    (cs : List (Vector α)) (hg : IsGridBlock o h lo e cs) (hh : ∀ i, i < 3 → 0 < h.get i)
    (x : BlobTreeNode α) (xs : List (BlobTreeNode α))
    (hp : (x :: xs).Perm (cs.map (fun c => BlobTreeNode.Point c r 1))) (i : Nat) (hi : i < 3) :
    (xs.foldl (fun bb n => Box.ofBoxes bb n.GetBox) x.GetBox).a.get i
      = o.get i + (lo i : α) * h.get i - r ∧
    (xs.foldl (fun bb n => Box.ofBoxes bb n.GetBox) x.GetBox).b.get i
      = o.get i + ((lo i + 2 ^ e i - 1 : Nat) : α) * h.get i + r := by
  obtain ⟨⟨a1, n1, hn1, a2⟩, b1, n2, hn2, b2⟩ := foldl_box_cons i x xs
  have mem : ∀ n, n ∈ x :: xs ↔ ∃ m : Nat → Nat,
      (∀ i, i < 3 → lo i ≤ m i ∧ m i < lo i + 2 ^ e i) ∧
      n = BlobTreeNode.Point (gridPoint o h m) r 1 := by
    intro n
    rw [hp.mem_iff, List.mem_map]
    constructor
    · rintro ⟨c, hc, rfl⟩
      obtain ⟨m, hm, rfl⟩ := (hg.2 c).mp hc
      exact ⟨m, hm, rfl⟩
    · rintro ⟨m, hm, rfl⟩
      exact ⟨gridPoint o h m, (hg.2 _).mpr ⟨m, hm, rfl⟩, rfl⟩
  have hpow : ∀ i, 0 < 2 ^ e i := fun i => Nat.two_pow_pos (e i)
  have val : ∀ m : Nat → Nat,
      (BlobTreeNode.Point (gridPoint o h m) r (1 : α)).GetBox.a.get i
        = o.get i + (m i : α) * h.get i - r ∧
      (BlobTreeNode.Point (gridPoint o h m) r (1 : α)).GetBox.b.get i
        = o.get i + (m i : α) * h.get i + r := by
    intro m
    have := BlobTreePoint.box_get (gridPoint o h m) r i
    rw [gridPoint_get o h m i hi] at this
    exact this
  have hhi := hh i hi
  constructor
  · apply le_antisymm
    · have := a1 _ ((mem _).mpr ⟨lo, fun j _ => ⟨le_rfl, by have := hpow j; omega⟩, rfl⟩)
      rw [(val lo).1] at this
      exact this
    · obtain ⟨m, hm, rfl⟩ := (mem n1).mp hn1
      rw [a2, (val m).1]
      have h1 : (lo i : α) ≤ (m i : α) := by exact_mod_cast (hm i hi).1
      have := mul_le_mul_of_nonneg_right h1 hhi.le
      linarith
  · apply le_antisymm
    · obtain ⟨m, hm, rfl⟩ := (mem n2).mp hn2
      rw [b2, (val m).2]
      have h1 : (m i : α) ≤ ((lo i + 2 ^ e i - 1 : Nat) : α) := by
        have := (hm i hi).2
        exact_mod_cast (by omega : m i ≤ lo i + 2 ^ e i - 1)
      have := mul_le_mul_of_nonneg_right h1 hhi.le
      linarith
    · have := b1 _ ((mem _).mpr ⟨fun j => lo j + 2 ^ e j - 1,
        fun j _ => ⟨by have := hpow j; dsimp only; omega,
          by have := hpow j; dsimp only; omega⟩, rfl⟩)
      rw [(val _).2] at this
      exact this

theorem Vector.get_sub [LinearOrderedField α] (u v : Vector α) (i : Nat) :
    (u.sub v).get i = u.get i - v.get i := by
  unfold Vector.sub Vector.get
  split_ifs <;> rfl

/-- The most stretched axis of the box of a grid block with more than one point
is an axis along which the block has more than one point. -/
theorem grid_axis [LinearOrderedField α] (o h : Vector α) (lo e : Nat → Nat) (r : α)
    (hh : ∀ i, i < 3 → 0 < h.get i) (bbox : Box α)
    (hbox : ∀ i, i < 3 → bbox.a.get i = o.get i + (lo i : α) * h.get i - r ∧
      bbox.b.get i = o.get i + ((lo i + 2 ^ e i - 1 : Nat) : α) * h.get i + r)
    (hpos : 0 < e 0 + e 1 + e 2) : 1 ≤ e bbox.Diagonal.MaxIndex := by
  have hdiag : ∀ i, i < 3 →
      bbox.Diagonal.get i = ((2 ^ e i - 1 : Nat) : α) * h.get i + 2 * r := by
    intro i hi
    have hp : 0 < 2 ^ e i := Nat.two_pow_pos (e i)
    have hc : ((lo i + 2 ^ e i - 1 : Nat) : α) = (lo i : α) + ((2 ^ e i - 1 : Nat) : α) := by
      rw [← Nat.cast_add]; congr 1; omega
    unfold Box.Diagonal
    rw [Vector.get_sub, (hbox i hi).1, (hbox i hi).2, hc]
    ring
  by_contra hc
  have hz : e bbox.Diagonal.MaxIndex = 0 := by omega
  have hj := Vector.MaxIndex_lt bbox.Diagonal
  obtain ⟨i, hi, hei⟩ : ∃ i, i < 3 ∧ 1 ≤ e i := by
    by_contra hne
    push_neg at hne
    have := hne 0 (by norm_num)
    have := hne 1 (by norm_num)
    have := hne 2 (by norm_num)
    omega
  have hge := Vector.MaxIndex_ge bbox.Diagonal i
  rw [hdiag i hi, hdiag _ hj, hz] at hge
  have h1 : (1 : α) ≤ ((2 ^ e i - 1 : Nat) : α) := by
    have : 2 ^ 1 ≤ 2 ^ e i := Nat.pow_le_pow_right (by norm_num) hei
    exact_mod_cast (by omega : 1 ≤ 2 ^ e i - 1)
  have := mul_le_mul_of_nonneg_right h1 (hh i hi).le
  have := hh i hi
  simp only [pow_zero, Nat.sub_self, Nat.cast_zero, zero_mul, zero_add] at hge
  linarith

theorem BlobTreePoint.Center_get [LinearOrderedField α] (c : Vector α) (r : α) (i : Nat) :
    (BlobTreePoint.box c r).Center.get i = c.get i := by
  unfold BlobTreePoint.box Box.Center Vector.add Vector.sub Vector.mul Vector.get
  split_ifs <;> simp only <;> ring

/-- The partition predicate on the nodes of a grid block: the lower half of
the indices on the cut axis. -/
theorem grid_pred [LinearOrderedField α] (o h : Vector α) (lo e : Nat → Nat) (r : α)
    (j : Nat) (hj : j < 3) (hej : 1 ≤ e j) (hhj : 0 < h.get j) (bbox : Box α)
    (ha : bbox.a.get j = o.get j + (lo j : α) * h.get j - r)
    (hb : bbox.b.get j = o.get j + ((lo j + 2 ^ e j - 1 : Nat) : α) * h.get j + r)
    (m : Nat → Nat) :
    BVHPartitionPredicate j (((bbox.get 0).get j + (bbox.get 1).get j) / 2)
      (BlobTreeNode.Point (gridPoint o h m) r 1) = decide (m j < lo j + 2 ^ (e j - 1)) := by
  have hpow : 2 ^ e j = 2 * 2 ^ (e j - 1) := by
    have : e j = (e j - 1) + 1 := by omega
    rw [this, pow_succ]
    simp
    ring
  have hK : 0 < 2 ^ (e j - 1) := Nat.two_pow_pos _
  have hc : ((lo j + 2 ^ e j - 1 : Nat) : α)
      = (lo j : α) + 2 * ((2 ^ (e j - 1) : Nat) : α) - 1 := by
    have : lo j + 2 ^ e j - 1 + 1 = lo j + 2 * 2 ^ (e j - 1) := by omega
    have h2 : ((lo j + 2 ^ e j - 1 : Nat) : α) + 1
        = (lo j : α) + 2 * ((2 ^ (e j - 1) : Nat) : α) := by
      exact_mod_cast congrArg (Nat.cast : Nat → α) this
    linarith
  unfold BVHPartitionPredicate
  simp only [BlobTreeNode.GetBox, BlobTreePoint.Center_get, gridPoint_get o h m j hj, Box.get,
    if_true, one_ne_zero, if_false, ha, hb, hc]
  rw [decide_eq_decide]
  constructor
  · intro hlt
    by_contra hge
    have hge' : ((lo j : α) + ((2 ^ (e j - 1) : Nat) : α)) ≤ (m j : α) := by
      exact_mod_cast not_lt.mp hge
    have := mul_le_mul_of_nonneg_right hge' hhj.le
    have e1 : (o.get j + (lo j : α) * h.get j - r
        + (o.get j + ((lo j : α) + 2 * ((2 ^ (e j - 1) : Nat) : α) - 1) * h.get j + r)) / 2
        = o.get j + ((lo j : α) + ((2 ^ (e j - 1) : Nat) : α)) * h.get j - h.get j / 2 := by
      ring
    rw [e1] at hlt
    linarith
  · intro hlt
    have hle : (m j : α) + 1 ≤ (lo j : α) + ((2 ^ (e j - 1) : Nat) : α) := by
      exact_mod_cast hlt
    have := mul_le_mul_of_nonneg_right hle hhj.le
    have e1 : (o.get j + (lo j : α) * h.get j - r
        + (o.get j + ((lo j : α) + 2 * ((2 ^ (e j - 1) : Nat) : α) - 1) * h.get j + r)) / 2
        = o.get j + ((lo j : α) + ((2 ^ (e j - 1) : Nat) : α)) * h.get j - h.get j / 2 := by
      ring
    rw [e1]
    linarith

/-- The two halves of a grid block along an axis with more than one index. -/
theorem grid_halves [LinearOrderedField α] (o h : Vector α) (lo e : Nat → Nat)
    (cs : List (Vector α)) (hg : IsGridBlock o h lo e cs) (j : Nat) (hj : j < 3)
    (hej : 1 ≤ e j) (p : Vector α → Bool)
    (hp : ∀ m : Nat → Nat, p (gridPoint o h m) = decide (m j < lo j + 2 ^ (e j - 1))) :
    IsGridBlock o h lo (Function.update e j (e j - 1)) (cs.filter p) ∧
    IsGridBlock o h (Function.update lo j (lo j + 2 ^ (e j - 1)))
      (Function.update e j (e j - 1)) (cs.filter (fun c => !p c)) := by
  have hpow : 2 ^ e j = 2 ^ (e j - 1) + 2 ^ (e j - 1) := by
    have : e j = (e j - 1) + 1 := by omega
    rw [this, pow_succ]
    simp
    ring
  constructor
  · refine ⟨hg.1.filter _, fun c => ?_⟩
    rw [List.mem_filter, hg.2 c]
    constructor
    · rintro ⟨⟨m, hm, rfl⟩, hpc⟩
      rw [hp m, decide_eq_true_eq] at hpc
      refine ⟨m, fun i hi => ?_, rfl⟩
      by_cases hij : i = j
      · subst hij
        simp only [Function.update_same]
        exact ⟨(hm i hi).1, hpc⟩
      · simp only [Function.update_noteq hij]
        exact hm i hi
    · rintro ⟨m, hm, rfl⟩
      have hmj : m j < lo j + 2 ^ (e j - 1) := by
        have := (hm j hj).2
        simpa only [Function.update_same] using this
      refine ⟨⟨m, fun i hi => ?_, rfl⟩, by rw [hp m, decide_eq_true_eq]; exact hmj⟩
      by_cases hij : i = j
      · subst hij
        have := hm i hi
        simp only [Function.update_same] at this
        exact ⟨this.1, by omega⟩
      · have := hm i hi
        simp only [Function.update_noteq hij] at this
        exact this
  · refine ⟨hg.1.filter _, fun c => ?_⟩
    rw [List.mem_filter, hg.2 c]
    constructor
    · rintro ⟨⟨m, hm, rfl⟩, hpc⟩
      rw [hp m] at hpc
      simp only [Bool.not_eq_true', decide_eq_false_iff_not, not_lt] at hpc
      refine ⟨m, fun i hi => ?_, rfl⟩
      by_cases hij : i = j
      · subst hij
        simp only [Function.update_same]
        have := (hm i hi).2
        exact ⟨hpc, by omega⟩
      · simp only [Function.update_noteq hij]
        exact hm i hi
    · rintro ⟨m, hm, rfl⟩
      have hmj := hm j hj
      simp only [Function.update_same] at hmj
      refine ⟨⟨m, fun i hi => ?_, rfl⟩, ?_⟩
      · by_cases hij : i = j
        · subst hij
          exact ⟨by omega, by omega⟩
        · have := hm i hi
          simp only [Function.update_noteq hij] at this
          exact this
      · rw [hp m]
        simp only [Bool.not_eq_true', decide_eq_false_iff_not, not_lt]
        exact hmj.1

theorem slice_cons {β : Type} (pts : List β) (b e : Nat) (x : β) (h : pts[b]? = some x)
    (hbe : b < e) : slice pts b e = x :: slice pts (b + 1) e := by
  rw [← slice_append pts b (b + 1) e (by omega) (by omega), slice_singleton pts b x h]
  rfl

theorem length_le_one_of_all_eq {β : Type} (l : List β) (x : β) (hn : l.Nodup)
    (h : ∀ y ∈ l, y = x) : l.length ≤ 1 := by
  match l, hn, h with
  | [], _, _ => simp
  | [_], _, _ => simp
  | a :: b :: t, hn, h =>
    exfalso
    have ha := h a (by simp)
    have hb := h b (by simp)
    rw [List.nodup_cons] at hn
    exact hn.1 (by rw [ha, ← hb]; simp)

theorem sum_update_pred (e : Nat → Nat) (j : Nat) (hj : j < 3) (hej : 1 ≤ e j) :
    Function.update e j (e j - 1) 0 + Function.update e j (e j - 1) 1
      + Function.update e j (e j - 1) 2 + 1 = e 0 + e 1 + e 2 := by
  interval_cases j <;> simp [Function.update] <;> omega

/-- On a range holding the nodes of a grid block of `2 ^ N` points,
`BVHRecursive` returns a tree of depth `N + 1`: every split is along an axis
with more than one index and halves the block. -/
theorem BVHRecursive_grid [LinearOrderedField α] (P : StdPartition (BlobTreeNode α))
    (o h : Vector α) (r : α) (hh : ∀ i, i < 3 → 0 < h.get i) :
    ∀ (N fuel : Nat) (lo e : Nat → Nat) (cs : List (Vector α)) (pts : List (BlobTreeNode α))
      (b en : Nat), e 0 + e 1 + e 2 = N → IsGridBlock o h lo e cs →
      (slice pts b en).Perm (cs.map (fun c => BlobTreeNode.Point c r 1)) →
      b < en → en ≤ pts.length → en - b ≤ fuel →
      ∃ root pts', BVHRecursive P fuel pts b en = some (root, pts') ∧ root.depth = N + 1 ∧
        root.leaves.length = 2 ^ N := by
  intro N
  induction N with
  | zero =>
    intro fuel lo e cs pts b en hN hg hp hbe hen hf
    obtain ⟨fuel, rfl⟩ : ∃ f, fuel = f + 1 := ⟨fuel - 1, by omega⟩
    have hb : b < pts.length := by omega
    obtain ⟨first, hfirst⟩ : ∃ first, pts[b]? = some first :=
      ⟨pts[b], List.getElem?_eq_getElem hb⟩
    have hall : ∀ c ∈ cs, c = gridPoint o h lo := by
      intro c hc
      obtain ⟨m, hm, rfl⟩ := (hg.2 c).mp hc
      have e0 : e 0 = 0 := by omega
      have e1 : e 1 = 0 := by omega
      have e2 : e 2 = 0 := by omega
      have m0 := hm 0 (by norm_num)
      have m1 := hm 1 (by norm_num)
      have m2 := hm 2 (by norm_num)
      rw [e0] at m0
      rw [e1] at m1
      rw [e2] at m2
      have a0 : m 0 = lo 0 := by omega
      have a1 : m 1 = lo 1 := by omega
      have a2 : m 2 = lo 2 := by omega
      simp only [gridPoint, a0, a1, a2]
    have hlen : en - b ≤ 1 := by
      have h1 := length_le_one_of_all_eq cs _ hg.1 hall
      have h2 := hp.length_eq
      rw [slice_length pts b en hen, List.length_map] at h2
      omega
    have hS := slice_cons pts b en first hfirst hbe
    have hmem : first ∈ cs.map (fun c => BlobTreeNode.Point c r 1) := by
      rw [← hp.mem_iff, hS]; simp
    obtain ⟨c, -, hc⟩ := List.mem_map.mp hmem
    refine ⟨first, pts, by simp [BVHRecursive, hlen, hfirst], ?_, ?_⟩ <;> rw [← hc] <;> rfl
  | succ k ih =>
    intro fuel lo e cs pts b en hN hg hp hbe hen hf
    obtain ⟨fuel, rfl⟩ : ∃ f, fuel = f + 1 := ⟨fuel - 1, by omega⟩
    have hb : b < pts.length := by omega
    obtain ⟨first, hfirst⟩ : ∃ first, pts[b]? = some first :=
      ⟨pts[b], List.getElem?_eq_getElem hb⟩
    have hS := slice_cons pts b en first hfirst hbe
    have hSlen := slice_length pts b en hen
    have hp' := hp
    rw [hS] at hp'
    have hbox := fun i hi => grid_box o h lo e r cs hg hh first (slice pts (b + 1) en) hp' i hi
    generalize hbdef : List.foldl (fun bb n => Box.ofBoxes bb n.GetBox) first.GetBox
      (slice pts (b + 1) en) = bbox at hbox
    have hej := grid_axis o h lo e r hh bbox hbox (by omega)
    have hj := Vector.MaxIndex_lt bbox.Diagonal
    have hpred := grid_pred o h lo e r _ hj hej (hh _ hj) bbox (hbox _ hj).1 (hbox _ hj).2
    have hpow : 2 ^ e bbox.Diagonal.MaxIndex
        = 2 ^ (e bbox.Diagonal.MaxIndex - 1) + 2 ^ (e bbox.Diagonal.MaxIndex - 1) := by
      have : e bbox.Diagonal.MaxIndex = (e bbox.Diagonal.MaxIndex - 1) + 1 := by omega
      rw [this, pow_succ]
      simp
      ring
    have hK : 0 < 2 ^ (e bbox.Diagonal.MaxIndex - 1) := Nat.two_pow_pos _
    have memS : ∀ m : Nat → Nat, (∀ i, i < 3 → lo i ≤ m i ∧ m i < lo i + 2 ^ e i) →
        BlobTreeNode.Point (gridPoint o h m) r 1 ∈ slice pts b en := by
      intro m hm
      rw [hp.mem_iff, List.mem_map]
      exact ⟨gridPoint o h m, (hg.2 _).mpr ⟨m, hm, rfl⟩, rfl⟩
    have hlow : BlobTreeNode.Point (gridPoint o h lo) r 1 ∈ slice pts b en :=
      memS lo (fun i _ => ⟨le_rfl, by have := Nat.two_pow_pos (e i); omega⟩)
    have hhigh : BlobTreeNode.Point (gridPoint o h
        (Function.update lo bbox.Diagonal.MaxIndex
          (lo bbox.Diagonal.MaxIndex + 2 ^ e bbox.Diagonal.MaxIndex - 1))) r 1
        ∈ slice pts b en := by
      apply memS
      intro i _
      by_cases hij : i = bbox.Diagonal.MaxIndex
      · rw [hij]
        simp only [Function.update_same]
        omega
      · simp only [Function.update_noteq hij]
        exact ⟨le_rfl, by have := Nat.two_pow_pos (e i); omega⟩
    have plow := hpred lo
    have phigh := hpred (Function.update lo bbox.Diagonal.MaxIndex
      (lo bbox.Diagonal.MaxIndex + 2 ^ e bbox.Diagonal.MaxIndex - 1))
    simp only [Function.update_same] at phigh
    have hsum := sum_update_pred e _ hj hej
    have hhalves := fun p hp => grid_halves o h lo e cs hg bbox.Diagonal.MaxIndex hj hej p hp
    have h1 : ¬ en - b ≤ 1 := by
      intro hle
      have hen1 : en = b + 1 := by omega
      rw [hen1, slice_singleton pts b first hfirst] at hlow hhigh
      rw [List.mem_singleton] at hlow hhigh
      rw [← hlow] at hhigh
      rw [hhigh] at phigh
      rw [plow] at phigh
      have t1 : decide (lo bbox.Diagonal.MaxIndex
          < lo bbox.Diagonal.MaxIndex + 2 ^ (e bbox.Diagonal.MaxIndex - 1)) = true := by
        rw [decide_eq_true_eq]; omega
      have t2 : decide (lo bbox.Diagonal.MaxIndex + 2 ^ e bbox.Diagonal.MaxIndex - 1
          < lo bbox.Diagonal.MaxIndex + 2 ^ (e bbox.Diagonal.MaxIndex - 1)) = false := by
        rw [decide_eq_false_iff_not]; omega
      rw [t1, t2] at phigh
      exact absurd phigh (by simp)
    have hlen : ¬ pts.length < en := by omega
    simp only [BVHRecursive, h1, if_false, hlen, hfirst, hbdef]
    generalize bbox.Diagonal.MaxIndex = j at *
    generalize BVHPartitionPredicate j (((bbox.get 0).get j + (bbox.get 1).get j) / 2) = pred
      at *
    have hc1 : 0 < (slice pts b en).countP pred := by
      rw [List.countP_pos_iff]
      refine ⟨_, hlow, ?_⟩
      rw [plow, decide_eq_true_eq]; omega
    have hc2 : (slice pts b en).countP pred < en - b := by
      rw [← hSlen]
      apply lt_of_le_of_ne (List.countP_le_length pred)
      intro heq
      have := (List.countP_eq_length.mp heq) _ hhigh
      rw [phigh, decide_eq_true_eq] at this
      omega
    have hmid : (if b + (slice pts b en).countP pred = b ∨
        b + (slice pts b en).countP pred = en then (b + en) / 2
        else b + (slice pts b en).countP pred) = b + (slice pts b en).countP pred := by
      rw [if_neg]
      omega
    rw [hmid]
    generalize hmdef : b + (slice pts b en).countP pred = mid
    have hrun : (P.run pred (slice pts b en)).length = en - b := by
      rw [(P.perm pred (slice pts b en)).length_eq, hSlen]
    have hRsplit := P.split pred (slice pts b en)
    have hRperm := P.perm pred (slice pts b en)
    generalize hRdef : P.run pred (slice pts b en) = R at hrun hRsplit hRperm
    generalize hpts1 : setSlice pts b en R = pts1
    have hl1 : pts1.length = pts.length := by
      rw [← hpts1]; exact setSlice_length _ _ _ _ hbe.le hen hrun
    have hs1 : slice pts1 b en = R := by
      rw [← hpts1, setSlice_slice _ _ _ _ hbe.le hen hrun]
    have hfl : (R.filter pred).length = mid - b := by
      rw [← List.countP_eq_length_filter, hRperm.countP_eq, ← hmdef]; omega
    have hsplit := slice_append pts1 b mid en (by omega) (by omega)
    rw [hs1] at hsplit
    have hinj := List.append_inj (hsplit.trans hRsplit)
      (by rw [slice_length pts1 b mid (by omega), hfl])
    have hcomp : ∀ q : BlobTreeNode α → Bool,
        ((R.filter q).Perm ((cs.filter (fun c => q (BlobTreeNode.Point c r 1))).map
          (fun c => BlobTreeNode.Point c r 1))) := by
      intro q
      have := (hRperm.filter q).trans (hp.filter q)
      rw [List.filter_map] at this
      exact this
    obtain ⟨gL, gR⟩ := hhalves (fun c => pred (BlobTreeNode.Point c r 1)) hpred
    obtain ⟨left, pts2, hL, dL, cL⟩ := ih fuel lo _ _ pts1 b mid (by omega) gL
      (by rw [hinj.1]; exact hcomp pred) (by omega) (by omega) (by omega)
    obtain ⟨left', pts2', hL', hl2, -, hd2, -⟩ :=
      BVHRecursive_spec P fuel pts1 b mid (by omega) (by omega) (by omega)
    rw [hL] at hL'
    simp only [Option.some.injEq, Prod.mk.injEq] at hL'
    rw [← hL'.2] at hl2 hd2
    obtain ⟨right, pts3, hR, dR, cR⟩ := ih fuel _ _ _ pts2 mid en (by omega) gR
      (by rw [slice_congr pts2 pts1 mid en hd2, hinj.2]; exact hcomp (fun x => !pred x))
      (by omega) (by omega) (by omega)
    refine ⟨BlobTreeNode.Blend left right, pts3, ?_, ?_, ?_⟩
    · rw [hL]; simp only; rw [hR]
    · simp only [BlobTreeNode.depth, dL, dR]
      omega
    · simp only [BlobTreeNode.leaves, List.length_append, cL, cR, pow_succ]
      omega

/-- The 32 x 32 lattice `{0..31} x {0..31} x {0}` is a grid. -/
theorem lattice_grid :
    IsGridBlock (⟨0, 0, 0⟩ : Vector ℚ) ⟨1, 1, 1⟩ (fun _ => 0)
      (fun i => if i = 0 then 5 else if i = 1 then 5 else 0)
      ((List.range 32).flatMap (fun i : Nat => (List.range 32).map
        (fun j : Nat => (⟨(i : ℚ), (j : ℚ), 0⟩ : Vector ℚ)))) := by
  constructor
  · rw [List.nodup_flatMap]
    constructor
    · intro i _
      apply List.Nodup.map _ (List.nodup_range 32)
      intro a b hab
      simp only [Vector.mk.injEq, Nat.cast_inj, and_true, true_and] at hab
      exact hab
    · apply (List.nodup_range 32).imp
      intro a b hab
      rw [Function.onFun, List.disjoint_left]
      intro c hc1 hc2
      obtain ⟨j1, -, rfl⟩ := List.mem_map.mp hc1
      obtain ⟨j2, -, h2⟩ := List.mem_map.mp hc2
      simp only [Vector.mk.injEq, Nat.cast_inj, and_true] at h2
      exact hab h2.1.symm
  · intro c
    simp only [List.mem_flatMap, List.mem_map, List.mem_range]
    constructor
    · rintro ⟨i, hi, j, hj, rfl⟩
      refine ⟨fun k => if k = 0 then i else if k = 1 then j else 0, ?_, ?_⟩
      · intro k hk
        interval_cases k <;> simp <;> omega
      · simp [gridPoint]
    · rintro ⟨m, hm, rfl⟩
      have h0 := hm 0 (by norm_num)
      have h1 := hm 1 (by norm_num)
      have h2 := hm 2 (by norm_num)
      simp only [if_true, one_ne_zero, if_false, OfNat.ofNat_ne_zero, OfNat.ofNat_ne_one,
        zero_add, pow_zero, Nat.lt_one_iff] at h0 h1 h2
      refine ⟨m 0, by omega, m 1, by omega, ?_⟩
      simp [gridPoint, h2.2]

/-! ## The pixel ray -/

theorem SquaredNorm_mul (u : Vector ℝ) (a : ℝ) : SquaredNorm (u.mul a) = a ^ 2 * SquaredNorm u := by
  unfold SquaredNorm Vector.mul; ring

theorem Norm_pos_iff (u : Vector ℝ) : 0 < Norm Real.sqrt u ↔ 0 < SquaredNorm u := by
  rw [Norm_eq_sqrt, Real.sqrt_pos]

theorem Norm_Normalized (u : Vector ℝ) (h : 0 < SquaredNorm u) :
    Norm Real.sqrt (Normalized Real.sqrt u) = 1 := by
  have hn := (Norm_pos_iff u).mpr h
  have e : SquaredNorm (Normalized Real.sqrt u) = 1 := by
    unfold Normalized
    rw [SquaredNorm_mul, ← Norm_mul_self u]
    field_simp
    ring
  rw [Norm_eq_sqrt, e, Real.sqrt_one]

theorem Norm_eq_one_iff (u : Vector ℝ) : Norm Real.sqrt u = 1 ↔ SquaredNorm u = 1 := by
  rw [Norm_eq_sqrt]
  constructor
  · intro h
    have := Real.sq_sqrt (SquaredNorm_nonneg u)
    rw [h] at this
    linarith
  · intro h
    rw [h, Real.sqrt_one]

theorem mul_dot (u v : Vector ℝ) (k : ℝ) : (u.mul k).dot v = u.dot v * k := by
  unfold Vector.dot Vector.mul; ring

theorem cross_dot_left (u v : Vector ℝ) : (u.cross v).dot u = 0 := by
  unfold Vector.cross Vector.dot; ring

theorem cross_dot_right (u v : Vector ℝ) : (u.cross v).dot v = 0 := by
  unfold Vector.cross Vector.dot; ring

theorem SquaredNorm_cross (u v : Vector ℝ) :
    SquaredNorm (u.cross v) = SquaredNorm u * SquaredNorm v - (u.dot v) ^ 2 := by
  unfold Vector.cross Vector.dot SquaredNorm; ring

/-- The camera frame of `ComputeRayFromPixel` for a camera off the z axis:
three unit vectors orthogonal to one another. -/
theorem camera_frame (O : Vector ℝ) (hO : O.c0 ≠ 0 ∨ O.c1 ≠ 0) :
    Norm Real.sqrt (Normalized Real.sqrt O.neg) = 1 ∧
    Norm Real.sqrt (Normalized Real.sqrt
      ((Normalized Real.sqrt O.neg).cross ⟨0, 0, 1.0⟩)) = 1 ∧
    Norm Real.sqrt (Normalized Real.sqrt
      ((Normalized Real.sqrt ((Normalized Real.sqrt O.neg).cross ⟨0, 0, 1.0⟩)).cross
        (Normalized Real.sqrt O.neg))) = 1 ∧
    (Normalized Real.sqrt ((Normalized Real.sqrt O.neg).cross ⟨0, 0, 1.0⟩)).dot
      (Normalized Real.sqrt O.neg) = 0 ∧
    (Normalized Real.sqrt
      ((Normalized Real.sqrt ((Normalized Real.sqrt O.neg).cross ⟨0, 0, 1.0⟩)).cross
        (Normalized Real.sqrt O.neg))).dot (Normalized Real.sqrt O.neg) = 0 ∧
    (Normalized Real.sqrt ((Normalized Real.sqrt O.neg).cross ⟨0, 0, 1.0⟩)).dot
      (Normalized Real.sqrt
        ((Normalized Real.sqrt ((Normalized Real.sqrt O.neg).cross ⟨0, 0, 1.0⟩)).cross
          (Normalized Real.sqrt O.neg))) = 0 := by
  have hxy : 0 < O.c0 * O.c0 + O.c1 * O.c1 := by
    rcases hO with h | h
    · have := mul_self_pos.mpr h
      nlinarith [mul_self_nonneg O.c1]
    · have := mul_self_pos.mpr h
      nlinarith [mul_self_nonneg O.c0]
  have hOn : 0 < SquaredNorm O.neg := by
    have e : SquaredNorm O.neg = O.c0 * O.c0 + O.c1 * O.c1 + O.c2 * O.c2 := by
      unfold SquaredNorm Vector.neg
      ring
    rw [e]
    nlinarith [mul_self_nonneg O.c2]
  have hv := Norm_Normalized O.neg hOn
  generalize hvdef : Normalized Real.sqrt O.neg = v at *
  have hvxy : 0 < v.c0 * v.c0 + v.c1 * v.c1 := by
    have hn := (Norm_pos_iff O.neg).mpr hOn
    have e : v.c0 * v.c0 + v.c1 * v.c1 = (O.c0 * O.c0 + O.c1 * O.c1)
        * ((1 / Norm Real.sqrt O.neg) * (1 / Norm Real.sqrt O.neg)) := by
      rw [← hvdef]
      unfold Normalized Vector.mul Vector.neg
      ring
    rw [e]
    exact mul_pos hxy (by positivity)
  have hw : 0 < SquaredNorm (v.cross ⟨0, 0, 1.0⟩) := by
    unfold SquaredNorm Vector.cross
    simp only
    norm_num
    nlinarith
  have hh := Norm_Normalized _ hw
  have hhv : (Normalized Real.sqrt (v.cross ⟨0, 0, 1.0⟩)).dot v = 0 := by
    unfold Normalized
    rw [mul_dot, cross_dot_left, zero_mul]
  generalize hhdef : Normalized Real.sqrt (v.cross ⟨0, 0, 1.0⟩) = h at *
  have hw2 : SquaredNorm (h.cross v) = 1 := by
    rw [SquaredNorm_cross, hhv, (Norm_eq_one_iff h).mp hh, (Norm_eq_one_iff v).mp hv]
    norm_num
  have hu := Norm_Normalized (h.cross v) (by rw [hw2]; norm_num)
  refine ⟨hv, hh, hu, hhv, ?_, ?_⟩
  · unfold Normalized
    rw [mul_dot, cross_dot_right, zero_mul]
  · rw [dot_comm]
    unfold Normalized
    rw [mul_dot, cross_dot_left, zero_mul]

/-- The function `ComputeRayFromPixel` with the angles evaluated: the
horizontal and the vertical vector are scaled by `1.995 * 25.4 * 0.5 / 35` and
by that times `imgHeight / imgWidth`. -/
theorem ComputeRayFromPixel_eq (O : Vector ℝ) (W H : Int) (hW : 0 < W) (hH : 0 < H)
    (px py : Int) :
    ComputeRayFromPixel Real.sqrt Real.arctan Real.tan O W H px py =
      ⟨O, Normalized Real.sqrt
        (((Normalized Real.sqrt O.neg).add
          (((Normalized Real.sqrt ((Normalized Real.sqrt O.neg).cross ⟨0, 0, 1.0⟩)).mul
            (50673 / 70000)).mul (((px : ℝ) - (W : ℝ) / 2) / ((W : ℝ) / 2)))).add
          (((Normalized Real.sqrt
            ((Normalized Real.sqrt ((Normalized Real.sqrt O.neg).cross ⟨0, 0, 1.0⟩)).cross
              (Normalized Real.sqrt O.neg))).mul (50673 / 70000 * (H : ℝ) / (W : ℝ))).mul
            (((H : ℝ) / 2 - (py : ℝ)) / ((H : ℝ) / 2))))⟩ := by
  have hW' : (0 : ℝ) < (W : ℝ) := by exact_mod_cast hW
  have hH' : (0 : ℝ) < (H : ℝ) := by exact_mod_cast hH
  unfold ComputeRayFromPixel
  simp only
  have e1 : (2.0 : ℝ) * Real.arctan (1.995 * 25.4 * 0.5 / 35.0) / 2.0
      = Real.arctan (1.995 * 25.4 * 0.5 / 35.0) := by ring
  have e2 : ∀ z : ℝ, (2.0 : ℝ) * Real.arctan z / 2.0 = Real.arctan z := by intro z; ring
  rw [e1, Real.tan_arctan, e2, Real.tan_arctan]
  have e3 : (1.995 : ℝ) * 25.4 * 0.5 / 35.0 * (H : ℝ) / (W : ℝ) * 1.0
      = 50673 / 70000 * (H : ℝ) / (W : ℝ) := by norm_num
  have e4 : (1.995 : ℝ) * 25.4 * 0.5 / 35.0 * (H : ℝ) / (W : ℝ) * 1.0 * ((W : ℝ) / (H : ℝ))
      = 50673 / 70000 := by
    field_simp
    norm_num
    ring
  have e5 : ∀ u : Vector ℝ, u.mul 1.0 = u := by
    intro u
    unfold Vector.mul
    norm_num
  rw [e4, e3, e5]
  norm_num

theorem mul_mul_eq (u : Vector ℝ) (a b : ℝ) : (u.mul a).mul b = u.mul (a * b) := by
  unfold Vector.mul
  simp only [Vector.mk.injEq]
  refine ⟨?_, ?_, ?_⟩ <;> ring

/-- The direction along the view axis of a normalised combination of the
camera frame. -/
theorem frame_dot (v h u : Vector ℝ) (hv : Norm Real.sqrt v = 1) (hh : Norm Real.sqrt h = 1)
    (hu : Norm Real.sqrt u = 1) (hhv : h.dot v = 0) (huv : u.dot v = 0) (hhu : h.dot u = 0)
    (a b : ℝ) :
    (Normalized Real.sqrt ((v.add (h.mul a)).add (u.mul b))).dot v
      = 1 / Real.sqrt (1 + a ^ 2 + b ^ 2) := by
  have sv := (Norm_eq_one_iff v).mp hv
  have sh := (Norm_eq_one_iff h).mp hh
  have su := (Norm_eq_one_iff u).mp hu
  have e1 : SquaredNorm ((v.add (h.mul a)).add (u.mul b))
      = SquaredNorm v + a ^ 2 * SquaredNorm h + b ^ 2 * SquaredNorm u
        + 2 * a * h.dot v + 2 * b * u.dot v + 2 * a * b * h.dot u := by
    unfold SquaredNorm Vector.dot Vector.add Vector.mul
    ring
  have e2 : ((v.add (h.mul a)).add (u.mul b)).dot v
      = SquaredNorm v + a * h.dot v + b * u.dot v := by
    unfold SquaredNorm Vector.dot Vector.add Vector.mul
    ring
  unfold Normalized
  rw [mul_dot, e2, Norm_eq_sqrt, e1, sv, sh, su, hhv, huv, hhu]
  ring_nf

/-! ## The colour of a pixel -/

theorem marchLoop_count_le [LinearOrderedField α] {σ : Type} (pass : σ → Option (Pass σ α))
    (time : σ → α) (count : σ → Int) (b : α)
    (hpass : ∀ st out, pass st = some out →
      (∀ t s, out = Pass.hit t s → count st ≤ s) ∧
      (∀ st1, out = Pass.retreat st1 ∨ out = Pass.advance st1 → count st ≤ count st1)) :
    ∀ (fuel : Nat) (st : σ) (res : Bool × α × Int),
      marchLoop pass time count b fuel st = some res → count st ≤ res.2.2 := by
  intro fuel
  induction fuel with
  | zero => intro st res h; simp [marchLoop] at h
  | succ fuel ih =>
    intro st res h
    rw [marchLoop] at h
    by_cases ht : time st < b
    · simp only [ht, if_true] at h
      cases hp : pass st with
      | none => rw [hp] at h; simp at h
      | some out =>
        rw [hp] at h
        cases out with
        | hit t1 s1 =>
          simp only [Option.some.injEq] at h
          subst h
          exact (hpass st _ hp).1 t1 s1 rfl
        | retreat st1 =>
          exact le_trans ((hpass st _ hp).2 st1 (Or.inl rfl)) (ih st1 res h)
        | advance st1 =>
          exact le_trans ((hpass st _ hp).2 st1 (Or.inr rfl)) (ih st1 res h)
    · simp only [ht, if_false, Option.some.injEq] at h
      subst h
      exact le_rfl

theorem SphereTrace_count_nonneg [LinearOrderedField α] (fuel : Nat) (tree : BlobTree α)
    (ray : Ray α) (t0 : α) (k : α) (res : Bool × α × Int)
    (h : SphereTrace fuel tree ray t0 0 k = some res) : 0 ≤ res.2.2 := by
  unfold SphereTrace at h
  cases hb : tree.GetBox with
  | none => rw [hb] at h; simp at h
  | some box =>
    rw [hb] at h
    simp only at h
    split_ifs at h with h0
    · simp only [Option.some.injEq] at h
      subst h
      exact le_rfl
    · refine marchLoop_count_le _ _ SphereTrace.State.s _ ?_ fuel _ res h
      intro st out hp
      unfold SphereTrace.pass at hp
      cases hI : tree.Intensity (ray.eval st.t) with
      | none => rw [hI] at hp; simp at hp
      | some I =>
        rw [hI] at hp
        simp only at hp
        split_ifs at hp <;> simp only [Option.some.injEq] at hp <;> subst hp
        · refine ⟨?_, ?_⟩
          · intro t s e
            simp only [Pass.hit.injEq] at e
            omega
          · intro st1 e
            simp at e
        · refine ⟨?_, ?_⟩
          · intro t s e
            simp at e
          · intro st1 e
            rcases e with e | e <;> cases e
            simp

theorem EnhancedSphereTrace_count_nonneg [LinearOrderedField α] (fuel : Nat) (tree : BlobTree α)
    (ray : Ray α) (t0 : α) (k : α) (res : Bool × α × Int)
    (h : EnhancedSphereTrace fuel tree ray t0 0 k = some res) : 0 ≤ res.2.2 := by
  unfold EnhancedSphereTrace at h
  cases hb : tree.GetBox with
  | none => rw [hb] at h; simp at h
  | some box =>
    rw [hb] at h
    simp only at h
    split_ifs at h with h0
    · simp only [Option.some.injEq] at h
      subst h
      exact le_rfl
    · refine marchLoop_count_le _ _ EnhancedSphereTrace.State.s _ ?_ fuel _ res h
      intro st out hp
      unfold EnhancedSphereTrace.pass at hp
      cases hI : tree.Intensity (ray.eval st.t) with
      | none => rw [hI] at hp; simp at hp
      | some I =>
        rw [hI] at hp
        simp only at hp
        split_ifs at hp <;> simp only [Option.some.injEq] at hp <;> subst hp
        · refine ⟨?_, ?_⟩
          · intro t s e
            simp only [Pass.hit.injEq] at e
            omega
          · intro st1 e
            simp at e
        · refine ⟨?_, ?_⟩
          · intro t s e
            simp at e
          · intro st1 e
            rcases e with e | e <;> cases e
            simp
        · refine ⟨?_, ?_⟩
          · intro t s e
            simp at e
          · intro st1 e
            rcases e with e | e <;> cases e
            simp

theorem SegmentTrace_count_nonneg [LinearOrderedField α] (sqrt : α → α) (fuel : Nat)
    (tree : BlobTree α) (ray : Ray α) (t0 : α) (res : Bool × α × Int)
    (h : SegmentTrace sqrt fuel tree ray t0 0 = some res) : 0 ≤ res.2.2 := by
  unfold SegmentTrace at h
  cases hb : tree.GetBox with
  | none => rw [hb] at h; simp at h
  | some box =>
    rw [hb] at h
    simp only at h
    split_ifs at h with h0
    · simp only [Option.some.injEq] at h
      subst h
      exact le_rfl
    · refine marchLoop_count_le _ _ SegmentTrace.State.s _ ?_ fuel _ res h
      intro st out hp
      unfold SegmentTrace.pass at hp
      cases hI : tree.Intensity (ray.eval st.t) with
      | none => rw [hI] at hp; simp at hp
      | some I =>
        rw [hI] at hp
        simp only at hp
        split_ifs at hp with hpos
        · simp only [Option.some.injEq] at hp
          subst hp
          refine ⟨?_, ?_⟩
          · intro t s e
            simp only [Pass.hit.injEq] at e
            omega
          · intro st1 e
            simp at e
        · cases hK : tree.KSeg sqrt ⟨ray.eval st.t, ray.eval (st.t + st.ts)⟩ with
          | none => rw [hK] at hp; simp at hp
          | some kk =>
            rw [hK] at hp
            simp only at hp
            cases hN : tree.KSegNaN sqrt ⟨ray.eval st.t, ray.eval (st.t + st.ts)⟩ with
            | none => rw [hN] at hp; simp at hp
            | some nan =>
              rw [hN] at hp
              simp only at hp
              split_ifs at hp <;> simp only [Option.some.injEq] at hp <;> subst hp
              · refine ⟨?_, ?_⟩
                · intro t s e
                  simp at e
                · intro st1 e
                  rcases e with e | e <;> cases e
                  simp
              · refine ⟨?_, ?_⟩
                · intro t s e
                  simp at e
                · intro st1 e
                  rcases e with e | e <;> cases e
                  simp

theorem PixelColor.trace_count_nonneg [LinearOrderedField α] (sqrt : α → α) (fuel : Nat)
    (tree : BlobTree α) (ray : Ray α) (k : α) (method : RayTraceMethod) (res : Bool × α × Int)
    (h : PixelColor.trace sqrt fuel tree ray k method = some res) : 0 ≤ res.2.2 := by
  unfold PixelColor.trace at h
  cases method with
  | SphereTracing => exact SphereTrace_count_nonneg fuel tree ray _ k res h
  | EnhancedSphereTracing => exact EnhancedSphereTrace_count_nonneg fuel tree ray _ k res h
  | SegmentTracing => exact SegmentTrace_count_nonneg sqrt fuel tree ray _ res h
  | COUNT =>
    simp only [Option.some.injEq] at h
    subst h
    exact le_rfl

theorem trace_of_miss (root : BlobTreeNode ℝ) (ray : Ray ℝ) (k : ℝ) (method : RayTraceMethod)
    (fuel : Nat) (h0 : (root.GetBox.IntersectRay ray 1e-3).1 = 0) :
    PixelColor.trace Real.sqrt fuel ⟨some root⟩ ray k method = some (false, 0.0, 0) := by
  cases method <;>
    simp [PixelColor.trace, SphereTrace, EnhancedSphereTrace, SegmentTrace, BlobTree.GetBox, h0]

theorem PixelColor.trace_terminates (root : BlobTreeNode ℝ) (hpos : root.PositiveRadii)
    (ray : Ray ℝ) (k : ℝ) (hk : 0 < k) (method : RayTraceMethod) :
    ∃ N : Nat, ∀ fuel, N < fuel →
      ∃ res, PixelColor.trace Real.sqrt fuel ⟨some root⟩ ray k method = some res := by
  rcases Box.IntersectRay_fst root.GetBox ray 1e-3 with h0 | h1
  · exact ⟨0, fun fuel _ => ⟨_, trace_of_miss root ray k method fuel h0⟩⟩
  · obtain ⟨a, b, hbox⟩ : ∃ a b, root.GetBox.IntersectRay ray 1e-3 = (1, a, b) :=
      ⟨(root.GetBox.IntersectRay ray 1e-3).2.1, (root.GetBox.IntersectRay ray 1e-3).2.2, by
        rw [← h1]⟩
    have hab := IntersectRay_interval _ ray a b hbox
    cases method with
    | SphereTracing =>
      refine ⟨⌈(b - a) / Epsilon⌉₊, fun fuel hf => ?_⟩
      obtain ⟨res, hres, _⟩ := SphereTrace_loop_spec root ray k b (fun _ => True)
        (fun _ _ _ _ => trivial) fuel ⟨a, 0⟩ trivial hf
      exact ⟨res, by
        simp only [PixelColor.trace]
        rw [SphereTrace_eq_loop fuel root ray _ _ k a b hbox]; exact hres⟩
    | EnhancedSphereTracing =>
      refine ⟨2 * ⌈(b - (a - 0.25 * 0)) / (0.8 * Epsilon)⌉₊ + (if (0 : ℝ) < 0 then 1 else 0),
        fun fuel hf => ?_⟩
      obtain ⟨res, hres, _⟩ := EnhancedSphereTrace_loop_spec root ray k hk b fuel ⟨a, 0, 0⟩
        le_rfl hf
      exact ⟨res, by
        simp only [PixelColor.trace]
        rw [EnhancedSphereTrace_eq_loop fuel root ray _ _ k a b hbox]; exact hres⟩
    | SegmentTracing =>
      refine ⟨⌈(b - a) / Epsilon⌉₊, fun fuel hf => ?_⟩
      obtain ⟨res, hres, _⟩ := SegmentTrace_loop_spec root hpos ray b (fun _ => True)
        (fun _ _ _ _ _ _ _ => trivial) fuel ⟨a, 0, b - a, 0⟩ trivial (by simpa using hab) hf
      exact ⟨res, by
        simp only [PixelColor.trace]
        rw [SegmentTrace_eq_loop fuel root ray _ _ a b hbox]; exact hres⟩
    | COUNT => exact ⟨0, fun fuel _ => ⟨_, rfl⟩⟩

theorem WriteToFile.channel_of_range [LinearOrderedField α] [FloorRing α] (x : α)
    (h0 : 0 ≤ x) (h1 : x ≤ 255) :
    (WriteToFile.channel x : Int) = ⌊x⌋ ∧ WriteToFile.channel x ≤ 255 := by
  have f0 : 0 ≤ ⌊x⌋ := Int.floor_nonneg.mpr h0
  have f1 : ⌊x⌋ ≤ 255 := by
    have := le_trans (Int.floor_le x) h1
    exact_mod_cast this
  have e1 : Int.tmod ⌊x⌋ 256 = ⌊x⌋ := Int.tmod_eq_of_lt f0 (by omega)
  unfold WriteToFile.channel
  rw [if_pos h0, e1]
  omega

theorem neg_Normalized_dot_le (g sun : Vector ℝ) (hsun : Norm Real.sqrt sun = 1) :
    (Normalized Real.sqrt g).neg.dot sun ≤ 1 := by
  have h := dot_sq_le (Normalized Real.sqrt g).neg sun
  have e : SquaredNorm (Normalized Real.sqrt g).neg = SquaredNorm (Normalized Real.sqrt g) := by
    unfold SquaredNorm Vector.neg
    ring
  rw [e, (Norm_eq_one_iff sun).mp hsun, mul_one] at h
  have h1 := SquaredNorm_Normalized_le g
  nlinarith

theorem Math.Min_eq_min (a b : ℝ) : Math.Min a b = min a b := by
  unfold Math.Min
  split_ifs with h
  · exact (min_eq_left h.le).symm
  · exact (min_eq_right (not_lt.mp h)).symm

theorem PixelColor_eq (root : BlobTreeNode ℝ) (camera sunDir : Vector ℝ) (W H : Int)
    (i j : Int) (k : ℝ) (method : RayTraceMethod) (fuel : Nat) (hit : Bool) (t : ℝ) (s : Int)
    (htr : PixelColor.trace Real.sqrt fuel ⟨some root⟩
      (ComputeRayFromPixel Real.sqrt Real.arctan Real.tan camera W H i j) k method
        = some (hit, t, s)) :
    PixelColor Real.sqrt Real.arctan Real.tan fuel ⟨some root⟩ camera sunDir W H i j k method =
      some (if hit = true then
          ⟨255 * max ((Normalized Real.sqrt (root.Gradient
            ((ComputeRayFromPixel Real.sqrt Real.arctan Real.tan camera W H i j).eval t))).neg.dot
              sunDir) 0.1, 0, 0⟩
        else ⟨0, 0, 0⟩,
        ⟨0, min ((s : ℝ) / 512) 1 * 255, 0⟩) := by
  unfold PixelColor
  simp only [htr, BlobTree.Gradient, Option.map_some', Math.Max_eq_max, Math.Min_eq_min]
  cases hit <;> norm_num

theorem channel_bounds (color cost : Vector ℝ) (x y : ℝ) (hc : color = ⟨x, 0, 0⟩)
    (hk : cost = ⟨0, y, 0⟩) (hx : 0 ≤ x ∧ x ≤ 255) (hy : 0 ≤ y ∧ y ≤ 255) :
    ∀ n, n < 3 → 0 ≤ color.get n ∧ color.get n ≤ 255 ∧ 0 ≤ cost.get n ∧ cost.get n ≤ 255 ∧
      (WriteToFile.channel (color.get n) : Int) = ⌊color.get n⌋ ∧
      (WriteToFile.channel (cost.get n) : Int) = ⌊cost.get n⌋ := by
  intro n hn
  have key : ∀ z : ℝ, 0 ≤ z → z ≤ 255 → (WriteToFile.channel z : Int) = ⌊z⌋ :=
    fun z h0 h1 => (WriteToFile.channel_of_range z h0 h1).1
  have z0 : (0 : ℝ) ≤ 0 ∧ (0 : ℝ) ≤ 255 := ⟨le_rfl, by norm_num⟩
  subst hc hk
  interval_cases n
  · simp only [Vector.get, if_true]
    exact ⟨hx.1, hx.2, z0.1, z0.2, key _ hx.1 hx.2, key _ z0.1 z0.2⟩
  · simp only [Vector.get, one_ne_zero, if_false, if_true]
    exact ⟨z0.1, z0.2, hy.1, hy.2, key _ z0.1 z0.2, key _ hy.1 hy.2⟩
  · simp only [Vector.get, OfNat.ofNat_ne_zero, OfNat.ofNat_ne_one, if_false]
    exact ⟨z0.1, z0.2, z0.1, z0.2, key _ z0.1 z0.2, key _ z0.1 z0.2⟩

/-! ## Two primitives of radius 3.44 and a probe that ends at a centre -/

/-- The norm of a vector along the second axis. -/
theorem Norm_axis (y : ℝ) : Norm Real.sqrt (⟨0, y, 0⟩ : Vector ℝ) = |y| := by
  simp [Norm, Real.sqrt_mul_self_eq_abs]

theorem overstep_box :
    (BlobTreeNode.Blend (BlobTreeNode.Point (⟨0, 65 / 8, 0⟩ : Vector ℝ) (86 / 25) 1)
      (BlobTreeNode.Point ⟨50, 86 / 25, 0⟩ (86 / 25) 1)).GetBox.IntersectRay
      ⟨⟨0, -10, 0⟩, ⟨0, 1, 0⟩⟩ 1e-3 = (1, 10, 4313 / 200) := by
  norm_num [BlobTreeNode.GetBox, BlobTreePoint.box, Box.ofBoxes, Box.IntersectRay,
    Box.IntersectAxis, Vector.Min, Vector.Max, Math.Min, Math.Max, Vector.get, Vector.sub,
    Vector.add]

theorem overstep_K :
    (BlobTreeNode.Blend (BlobTreeNode.Point (⟨0, 65 / 8, 0⟩ : Vector ℝ) (86 / 25) 1)
      (BlobTreeNode.Point ⟨50, 86 / 25, 0⟩ (86 / 25) 1)).K = 1 := by
  norm_num [BlobTreeNode.K, CubicFalloffK]

/-- Along the ray the field of the two primitives is that of the first. -/
theorem overstep_one (t : ℝ) :
    (BlobTreeNode.Blend (BlobTreeNode.Point (⟨0, 65 / 8, 0⟩ : Vector ℝ) (86 / 25) 1)
      (BlobTreeNode.Point ⟨50, 86 / 25, 0⟩ (86 / 25) 1)).Intensity
        (Ray.eval ⟨⟨0, -10, 0⟩, ⟨0, 1, 0⟩⟩ t)
      = BlobTreePoint.Intensity ⟨0, 65 / 8, 0⟩ (86 / 25) 1
        (Ray.eval ⟨⟨0, -10, 0⟩, ⟨0, 1, 0⟩⟩ t) := by
  rw [BlobTreeNode.Intensity_blend]
  simp only [BlobTreeNode.Intensity]
  rw [BlobTreePoint.Intensity_eq ⟨50, 86 / 25, 0⟩ _ _ _ (by norm_num),
    CubicFalloff_of_ge _ _ (by norm_num), add_zero]
  simp only [SquaredNorm, Ray.eval, Vector.sub, Vector.add, Vector.mul]
  nlinarith [mul_self_nonneg (-10 + 1 * t - 86 / 25)]

theorem overstep_field (t : ℝ) :
    (BlobTreeNode.Blend (BlobTreeNode.Point (⟨0, 65 / 8, 0⟩ : Vector ℝ) (86 / 25) 1)
      (BlobTreeNode.Point ⟨50, 86 / 25, 0⟩ (86 / 25) 1)).Intensity
        (Ray.eval ⟨⟨0, -10, 0⟩, ⟨0, 1, 0⟩⟩ t)
      = CubicFalloff ((t - 145 / 8) ^ 2) (7396 / 625) := by
  rw [overstep_one, BlobTreePoint.Intensity_eq _ _ _ _ (by norm_num)]
  congr 1
  · simp only [SquaredNorm, Ray.eval, Vector.sub, Vector.add, Vector.mul]
    ring
  · norm_num

/-- The field is above the threshold within `1.5` of the first centre. -/
theorem overstep_field_pos (t : ℝ) (h1 : 16.625 ≤ t) (h2 : t ≤ 19.625) :
    0 < (BlobTreeNode.Blend (BlobTreeNode.Point (⟨0, 65 / 8, 0⟩ : Vector ℝ) (86 / 25) 1)
      (BlobTreeNode.Point ⟨50, 86 / 25, 0⟩ (86 / 25) 1)).Intensity
        (Ray.eval ⟨⟨0, -10, 0⟩, ⟨0, 1, 0⟩⟩ t) - 0.5 := by
  have hx : (t - 145 / 8) ^ 2 ≤ 1.5 ^ 2 :=
    sq_le_sq' (by norm_num at h1 ⊢; linarith) (by norm_num at h2 ⊢; linarith)
  rw [overstep_field, CubicFalloff_of_le _ _ (by norm_num at hx ⊢; linarith)]
  have h3 : (0.8098 : ℝ) ≤ 1 - (t - 145 / 8) ^ 2 / (7396 / 625) := by
    rw [le_sub_iff_add_le, ← le_sub_iff_add_le', div_le_iff₀ (by norm_num)]
    norm_num at hx ⊢; linarith
  have h4 := pow_le_pow_left₀ (by norm_num : (0 : ℝ) ≤ 0.8098) h3 3
  norm_num at h4 ⊢
  linarith

/-- From inside `[10, 16.626]` a forward step that does not cross the surface,
or of length `ε` from a point outside, stays inside `[10, 16.626]`. -/
theorem overstep_step (t step : ℝ) (h8 : 10 ≤ t) (ht : t ≤ 16.626) (h0 : 0 ≤ step)
    (hI0 : (BlobTreeNode.Blend (BlobTreeNode.Point (⟨0, 65 / 8, 0⟩ : Vector ℝ) (86 / 25) 1)
      (BlobTreeNode.Point ⟨50, 86 / 25, 0⟩ (86 / 25) 1)).Intensity
        (Ray.eval ⟨⟨0, -10, 0⟩, ⟨0, 1, 0⟩⟩ t) - 0.5 ≤ 0)
    (hsafe : ∀ t', t ≤ t' → t' ≤ t + step →
      (BlobTreeNode.Blend (BlobTreeNode.Point (⟨0, 65 / 8, 0⟩ : Vector ℝ) (86 / 25) 1)
        (BlobTreeNode.Point ⟨50, 86 / 25, 0⟩ (86 / 25) 1)).Intensity
          (Ray.eval ⟨⟨0, -10, 0⟩, ⟨0, 1, 0⟩⟩ t') - 0.5 ≤ 0) :
    10 ≤ t + Math.Max step Epsilon ∧ t + Math.Max step Epsilon ≤ 16.626 := by
  have hlt : t < 16.625 := by
    by_contra hge
    have := overstep_field_pos t (not_lt.mp hge) (by linarith)
    linarith
  have he : (Epsilon : ℝ) = 0.001 := by unfold Epsilon; norm_num
  rw [Math.Max_eq_max]
  refine ⟨by have := le_max_left step Epsilon; linarith, ?_⟩
  rcases max_cases step Epsilon with ⟨e, -⟩ | ⟨e, -⟩
  · rw [e]
    by_contra hgt
    have hgt := not_le.mp hgt
    have := hsafe 16.6255 (by linarith) (by linarith)
    have := overstep_field_pos 16.6255 (by norm_num) (by norm_num)
    linarith
  · rw [e, he]; linarith

theorem overstep_fuel : ⌈((4313 / 200 : ℝ) - 10) / Epsilon⌉₊ ≤ 11565 := by
  rw [Nat.ceil_le]
  unfold Epsilon
  norm_num

/-- The run of `SphereTrace` on the two primitives: a hit at least `1.499`
before the first centre, which is at `t = 18.125`. -/
theorem SphereTrace_overstep_run (fuel : Nat) (hfuel : 11565 < fuel) (t0 : ℝ) (s0 : Int) :
    ∃ t s, SphereTrace fuel
      ⟨some (BlobTreeNode.Blend (BlobTreeNode.Point (⟨0, 65 / 8, 0⟩ : Vector ℝ) (86 / 25) 1)
        (BlobTreeNode.Point ⟨50, 86 / 25, 0⟩ (86 / 25) 1))⟩
      ⟨⟨0, -10, 0⟩, ⟨0, 1, 0⟩⟩ t0 s0 1 = some (true, t, s) ∧ t ≤ 16.626 := by
  have hp : (BlobTreeNode.Blend (BlobTreeNode.Point (⟨0, 65 / 8, 0⟩ : Vector ℝ) (86 / 25) 1)
      (BlobTreeNode.Point ⟨50, 86 / 25, 0⟩ (86 / 25) 1)).PositiveRadii := by
    norm_num [BlobTreeNode.PositiveRadii]
  have hu : (BlobTreeNode.Blend (BlobTreeNode.Point (⟨0, 65 / 8, 0⟩ : Vector ℝ) (86 / 25) 1)
      (BlobTreeNode.Point ⟨50, 86 / 25, 0⟩ (86 / 25) 1)).UnitEnergy := by
    simp [BlobTreeNode.UnitEnergy]
  rw [SphereTrace_eq_loop fuel _ _ t0 s0 1 10 (4313 / 200) overstep_box]
  obtain ⟨res, hres, -, hcase⟩ := SphereTrace_loop_spec
    (BlobTreeNode.Blend (BlobTreeNode.Point (⟨0, 65 / 8, 0⟩ : Vector ℝ) (86 / 25) 1)
      (BlobTreeNode.Point ⟨50, 86 / 25, 0⟩ (86 / 25) 1)) ⟨⟨0, -10, 0⟩, ⟨0, 1, 0⟩⟩ 1 (4313 / 200)
    (fun t => 10 ≤ t ∧ t ≤ 16.626) (by
      intro t hI _ hneg
      refine overstep_step t _ hI.1 hI.2 (div_nonneg (abs_nonneg _) (by norm_num)) hneg ?_
      intro t' h1 h2
      refine SphereTrace_step_safe _ hp hu ⟨⟨0, -10, 0⟩, ⟨0, 1, 0⟩⟩ witness_dir t hneg t' h1 ?_
      rw [overstep_K]; exact h2)
    fuel ⟨10, 0⟩ ⟨le_rfl, by norm_num⟩ (lt_of_le_of_lt overstep_fuel hfuel)
  obtain ⟨b1, t1, s1⟩ := res
  rcases hcase with ⟨hb, hI, -, -⟩ | ⟨-, hI, hge⟩
  · simp only at hb hI
    subst hb
    exact ⟨t1, s1, hres, hI.2⟩
  · simp only at hI hge
    norm_num at hI hge
    linarith [hI.2]

theorem overstep_ray (t : ℝ) :
    Ray.eval (⟨⟨0, -10, 0⟩, ⟨0, 1, 0⟩⟩ : Ray ℝ) t = ⟨0, t - 10, 0⟩ := by
  simp only [Ray.eval, Vector.add, Vector.mul, Vector.mk.injEq]
  refine ⟨by ring, by ring, by ring⟩

/-- A segment on the ray fails the box test of the second primitive. -/
theorem overstep_far (y1 y2 : ℝ) :
    (⟨⟨0, y1, 0⟩, ⟨0, y2, 0⟩⟩ : Segment ℝ).Intersect
      (BlobTreePoint.box ⟨50, 86 / 25, 0⟩ (86 / 25)) = false := by
  have h : |((0 : ℝ) + 0) * 0.5 - (50 - 86 / 25 + (50 + 86 / 25)) * 0.5|
      > 50 + 86 / 25 - (50 - 86 / 25) + |(0 - 0) * 0.5| := by
    norm_num [abs_of_neg]
  simp only [Segment.Intersect, BlobTreePoint.box, Box.Diagonal, Box.Center, Vector.get,
    Vector.sub, Vector.add, Vector.mul, if_true, h]

/-- On a segment of the ray the bound of the tree is that of the first
primitive. -/
theorem overstep_KSeg (y1 y2 : ℝ) :
    (BlobTreeNode.Blend (BlobTreeNode.Point (⟨0, 65 / 8, 0⟩ : Vector ℝ) (86 / 25) 1)
      (BlobTreeNode.Point ⟨50, 86 / 25, 0⟩ (86 / 25) 1)).KSeg Real.sqrt
        ⟨⟨0, y1, 0⟩, ⟨0, y2, 0⟩⟩
      = BlobTreePoint.K Real.sqrt ⟨0, 65 / 8, 0⟩ (86 / 25) 1 ⟨⟨0, y1, 0⟩, ⟨0, y2, 0⟩⟩ := by
  rw [BlobTreeNode.KSeg_eq_sum_leaves _ (by norm_num [BlobTreeNode.PositiveRadii])]
  simp [BlobTreeNode.leaves, BlobTreeNode.KSeg, BlobTreePoint.K, overstep_far]

/-- On a segment of the ray of positive length that does not end at the first
centre, the bound of the tree is not NaN. -/
theorem overstep_free (y1 y2 : ℝ) (h1 : y1 ≠ y2) (h2 : y2 ≠ 65 / 8) :
    (BlobTreeNode.Blend (BlobTreeNode.Point (⟨0, 65 / 8, 0⟩ : Vector ℝ) (86 / 25) 1)
      (BlobTreeNode.Point ⟨50, 86 / 25, 0⟩ (86 / 25) 1)).KSegNaN Real.sqrt
        ⟨⟨0, y1, 0⟩, ⟨0, y2, 0⟩⟩ = false := by
  apply BlobTreeNode.KSegNaN_of_leaves
  intro l hl
  simp only [BlobTreeNode.leaves, List.singleton_append, List.mem_cons, List.mem_singleton,
    List.not_mem_nil, or_false] at hl
  rcases hl with rfl | rfl
  · by_contra h
    have ht : BlobTreePoint.KNaN Real.sqrt (⟨0, 65 / 8, 0⟩ : Vector ℝ) (86 / 25)
        ⟨⟨0, y1, 0⟩, ⟨0, y2, 0⟩⟩ = true := by
      simpa [BlobTreeNode.KSegNaN] using h
    rcases ((BlobTreePoint.KNaN_iff _ _ _).mp ht).2 with e | e
    · simp only [Vector.mk.injEq] at e
      exact h1 e.2.1.symm
    · simp only [Vector.mk.injEq] at e
      exact h2 e.2.1.symm
  · simp [BlobTreeNode.KSegNaN, BlobTreePoint.KNaN, overstep_far]

/-- The bound of the first probe, which holds the first centre: `1.72 / 3.44`. -/
theorem overstep_K1 :
    BlobTreePoint.K Real.sqrt (⟨0, 65 / 8, 0⟩ : Vector ℝ) (86 / 25) 1
      ⟨⟨0, 0, 0⟩, ⟨0, 2313 / 200, 0⟩⟩ = 1 / 2 := by
  have hI : (⟨⟨0, 0, 0⟩, ⟨0, 2313 / 200, 0⟩⟩ : Segment ℝ).Intersect
      (BlobTreePoint.box ⟨0, 65 / 8, 0⟩ (86 / 25)) = true := by
    norm_num [Segment.Intersect, BlobTreePoint.box, Box.Diagonal, Box.Center, Vector.get,
      Vector.sub, Vector.add, Vector.mul, abs_of_pos, abs_of_neg]
  have n1 : Norm Real.sqrt ((⟨0, 2313 / 200, 0⟩ : Vector ℝ).sub ⟨0, 0, 0⟩) = 2313 / 200 := by
    norm_num [Vector.sub, Norm_axis, abs_of_pos]
  have n2 : Norm Real.sqrt ((⟨0, 65 / 8, 0⟩ : Vector ℝ).sub ⟨0, 0, 0⟩) = 65 / 8 := by
    norm_num [Vector.sub, Norm_axis, abs_of_pos]
  have n3 : Norm Real.sqrt ((⟨0, 65 / 8, 0⟩ : Vector ℝ).sub ⟨0, 2313 / 200, 0⟩) = 86 / 25 := by
    norm_num [Vector.sub, Norm_axis, abs_of_neg]
  simp only [BlobTreePoint.K, Segment.get, hI, Normalized, n1, n2, n3,
    if_true, one_ne_zero, if_false, Bool.not_true, Bool.false_eq_true]
  norm_num [Vector.sub, Vector.dot, Vector.mul, SquaredNorm, CubicFalloffK4, CubicFalloffK,
    Math.Max, Math.Abs, abs_of_pos]

/-- The bound of the second probe, which stays more than the radius from the
first centre. -/
theorem overstep_K2 :
    BlobTreePoint.K Real.sqrt (⟨0, 65 / 8, 0⟩ : Vector ℝ) (86 / 25) 1
      ⟨⟨0, 1, 0⟩, ⟨0, 5 / 2, 0⟩⟩ = 0 := by
  have hI : (⟨⟨0, 1, 0⟩, ⟨0, 5 / 2, 0⟩⟩ : Segment ℝ).Intersect
      (BlobTreePoint.box ⟨0, 65 / 8, 0⟩ (86 / 25)) = true := by
    norm_num [Segment.Intersect, BlobTreePoint.box, Box.Diagonal, Box.Center, Vector.get,
      Vector.sub, Vector.add, Vector.mul, abs_of_pos, abs_of_neg]
  have n1 : Norm Real.sqrt ((⟨0, 5 / 2, 0⟩ : Vector ℝ).sub ⟨0, 1, 0⟩) = 3 / 2 := by
    norm_num [Vector.sub, Norm_axis, abs_of_pos]
  have n2 : Norm Real.sqrt ((⟨0, 65 / 8, 0⟩ : Vector ℝ).sub ⟨0, 1, 0⟩) = 57 / 8 := by
    norm_num [Vector.sub, Norm_axis, abs_of_pos]
  have n3 : Norm Real.sqrt ((⟨0, 65 / 8, 0⟩ : Vector ℝ).sub ⟨0, 5 / 2, 0⟩) = 45 / 8 := by
    norm_num [Vector.sub, Norm_axis, abs_of_pos]
  simp only [BlobTreePoint.K, Segment.get, hI, Normalized, n1, n2, n3,
    if_true, one_ne_zero, if_false, Bool.not_true, Bool.false_eq_true]
  norm_num [Vector.sub, Vector.dot, Vector.mul, SquaredNorm, CubicFalloffK4, CubicFalloffK,
    Math.Max, Math.Abs, abs_of_pos]

theorem sqrt_729 : Real.sqrt 729 = 27 := by
  rw [show (729 : ℝ) = 27 ^ 2 by norm_num]
  exact Real.sqrt_sq (by norm_num)

theorem sqrt_64 : Real.sqrt 64 = 8 := by
  rw [show (64 : ℝ) = 8 ^ 2 by norm_num]
  exact Real.sqrt_sq (by norm_num)

/-- The bound of the third probe, whose end is within the radius of the first
centre. -/
theorem overstep_K3 :
    BlobTreePoint.K Real.sqrt (⟨0, 65 / 8, 0⟩ : Vector ℝ) (86 / 25) 1
      ⟨⟨0, 5 / 2, 0⟩, ⟨0, 19 / 4, 0⟩⟩ = 15894374900625 / 6628429580468224 := by
  have hI : (⟨⟨0, 5 / 2, 0⟩, ⟨0, 19 / 4, 0⟩⟩ : Segment ℝ).Intersect
      (BlobTreePoint.box ⟨0, 65 / 8, 0⟩ (86 / 25)) = true := by
    norm_num [Segment.Intersect, BlobTreePoint.box, Box.Diagonal, Box.Center, Vector.get,
      Vector.sub, Vector.add, Vector.mul, abs_of_pos, abs_of_neg]
  have n1 : Norm Real.sqrt ((⟨0, 19 / 4, 0⟩ : Vector ℝ).sub ⟨0, 5 / 2, 0⟩) = 9 / 4 := by
    norm_num [Vector.sub, Norm_axis, abs_of_pos]
  have n2 : Norm Real.sqrt ((⟨0, 65 / 8, 0⟩ : Vector ℝ).sub ⟨0, 5 / 2, 0⟩) = 45 / 8 := by
    norm_num [Vector.sub, Norm_axis, abs_of_pos]
  have n3 : Norm Real.sqrt ((⟨0, 65 / 8, 0⟩ : Vector ℝ).sub ⟨0, 19 / 4, 0⟩) = 27 / 8 := by
    norm_num [Vector.sub, Norm_axis, abs_of_pos]
  simp only [BlobTreePoint.K, Segment.get, hI, Normalized, n1, n2, n3,
    if_true, one_ne_zero, if_false, Bool.not_true, Bool.false_eq_true]
  norm_num [Vector.sub, Vector.dot, Vector.mul, SquaredNorm, CubicFalloffK4, CubicFalloffK,
    Math.Max, Math.Abs, abs_of_pos, sqrt_729, sqrt_64]

/-- The first pass: the probe spans the root box, `k = 0.5` and `tk = 1`. -/
theorem SegmentTrace.overstep_pass1 :
    SegmentTrace.pass Real.sqrt
      ⟨some (BlobTreeNode.Blend (BlobTreeNode.Point (⟨0, 65 / 8, 0⟩ : Vector ℝ) (86 / 25) 1)
      (BlobTreeNode.Point ⟨50, 86 / 25, 0⟩ (86 / 25) 1))⟩
      ⟨⟨0, -10, 0⟩, ⟨0, 1, 0⟩⟩ ⟨10, 0, 4313 / 200 - 10, 0⟩
      = some (Pass.advance ⟨11, 1, 3 / 2, 1⟩) := by
  have e1 : Ray.eval (⟨⟨0, -10, 0⟩, ⟨0, 1, 0⟩⟩ : Ray ℝ) (10) = ⟨0, 0, 0⟩ := by
    rw [overstep_ray]; norm_num
  have e2 : Ray.eval (⟨⟨0, -10, 0⟩, ⟨0, 1, 0⟩⟩ : Ray ℝ) (10 + (4313 / 200 - 10)) = ⟨0, 2313 / 200, 0⟩ := by
    rw [overstep_ray]; norm_num
  have hI : (-1 / 2 : ℝ) = (BlobTreeNode.Blend (BlobTreeNode.Point (⟨0, 65 / 8, 0⟩ : Vector ℝ) (86 / 25) 1)
      (BlobTreeNode.Point ⟨50, 86 / 25, 0⟩ (86 / 25) 1)).Intensity
      (Ray.eval ⟨⟨0, -10, 0⟩, ⟨0, 1, 0⟩⟩ (10)) - 0.5 := by
    rw [overstep_field, CubicFalloff_of_ge _ _ (by norm_num) (by norm_num)]; norm_num
  have hk : (1 / 2 : ℝ) = (BlobTreeNode.Blend (BlobTreeNode.Point (⟨0, 65 / 8, 0⟩ : Vector ℝ) (86 / 25) 1)
      (BlobTreeNode.Point ⟨50, 86 / 25, 0⟩ (86 / 25) 1)).KSeg Real.sqrt
      ⟨Ray.eval ⟨⟨0, -10, 0⟩, ⟨0, 1, 0⟩⟩ (10), Ray.eval ⟨⟨0, -10, 0⟩, ⟨0, 1, 0⟩⟩ (10 + (4313 / 200 - 10))⟩ := by
    rw [e1, e2, overstep_KSeg, overstep_K1]
  have htk : (1 : ℝ) = SegmentTrace.tk ((BlobTreeNode.Blend (BlobTreeNode.Point (⟨0, 65 / 8, 0⟩ : Vector ℝ) (86 / 25) 1)
      (BlobTreeNode.Point ⟨50, 86 / 25, 0⟩ (86 / 25) 1)).KSegNaN Real.sqrt
      ⟨Ray.eval ⟨⟨0, -10, 0⟩, ⟨0, 1, 0⟩⟩ (10), Ray.eval ⟨⟨0, -10, 0⟩, ⟨0, 1, 0⟩⟩ (10 + (4313 / 200 - 10))⟩) (-1 / 2) (1 / 2) (4313 / 200 - 10) := by
    rw [e1, e2, overstep_free _ _ (by norm_num) (by norm_num)]
    norm_num [SegmentTrace.tk, SegmentTrace.safeStep, Math.Min, abs_of_neg]
  rw [SegmentTrace_pass_eq _ _ _ _ _ _ hI hk htk]
  norm_num [Math.Max, Epsilon]

/-- The second pass: `k = 0`, so `tk = ts = 1.5`. -/
theorem SegmentTrace.overstep_pass2 :
    SegmentTrace.pass Real.sqrt
      ⟨some (BlobTreeNode.Blend (BlobTreeNode.Point (⟨0, 65 / 8, 0⟩ : Vector ℝ) (86 / 25) 1)
      (BlobTreeNode.Point ⟨50, 86 / 25, 0⟩ (86 / 25) 1))⟩
      ⟨⟨0, -10, 0⟩, ⟨0, 1, 0⟩⟩ ⟨11, 1, 3 / 2, 1⟩
      = some (Pass.advance ⟨25 / 2, 2, 9 / 4, 3 / 2⟩) := by
  have e1 : Ray.eval (⟨⟨0, -10, 0⟩, ⟨0, 1, 0⟩⟩ : Ray ℝ) (11) = ⟨0, 1, 0⟩ := by
    rw [overstep_ray]; norm_num
  have e2 : Ray.eval (⟨⟨0, -10, 0⟩, ⟨0, 1, 0⟩⟩ : Ray ℝ) (11 + (3 / 2)) = ⟨0, 5 / 2, 0⟩ := by
    rw [overstep_ray]; norm_num
  have hI : (-1 / 2 : ℝ) = (BlobTreeNode.Blend (BlobTreeNode.Point (⟨0, 65 / 8, 0⟩ : Vector ℝ) (86 / 25) 1)
      (BlobTreeNode.Point ⟨50, 86 / 25, 0⟩ (86 / 25) 1)).Intensity
      (Ray.eval ⟨⟨0, -10, 0⟩, ⟨0, 1, 0⟩⟩ (11)) - 0.5 := by
    rw [overstep_field, CubicFalloff_of_ge _ _ (by norm_num) (by norm_num)]; norm_num
  have hk : (0 : ℝ) = (BlobTreeNode.Blend (BlobTreeNode.Point (⟨0, 65 / 8, 0⟩ : Vector ℝ) (86 / 25) 1)
      (BlobTreeNode.Point ⟨50, 86 / 25, 0⟩ (86 / 25) 1)).KSeg Real.sqrt
      ⟨Ray.eval ⟨⟨0, -10, 0⟩, ⟨0, 1, 0⟩⟩ (11), Ray.eval ⟨⟨0, -10, 0⟩, ⟨0, 1, 0⟩⟩ (11 + (3 / 2))⟩ := by
    rw [e1, e2, overstep_KSeg, overstep_K2]
  have htk : (3 / 2 : ℝ) = SegmentTrace.tk ((BlobTreeNode.Blend (BlobTreeNode.Point (⟨0, 65 / 8, 0⟩ : Vector ℝ) (86 / 25) 1)
      (BlobTreeNode.Point ⟨50, 86 / 25, 0⟩ (86 / 25) 1)).KSegNaN Real.sqrt
      ⟨Ray.eval ⟨⟨0, -10, 0⟩, ⟨0, 1, 0⟩⟩ (11), Ray.eval ⟨⟨0, -10, 0⟩, ⟨0, 1, 0⟩⟩ (11 + (3 / 2))⟩) (-1 / 2) (0) (3 / 2) := by
    rw [e1, e2, overstep_free _ _ (by norm_num) (by norm_num)]
    norm_num [SegmentTrace.tk, SegmentTrace.safeStep, Math.Min, abs_of_neg]
  rw [SegmentTrace_pass_eq _ _ _ _ _ _ hI hk htk]
  norm_num [Math.Max, Epsilon]

/-- The third pass: `k` is about `0.0024`, so `tk = ts = 2.25`. -/
theorem SegmentTrace.overstep_pass3 :
    SegmentTrace.pass Real.sqrt
      ⟨some (BlobTreeNode.Blend (BlobTreeNode.Point (⟨0, 65 / 8, 0⟩ : Vector ℝ) (86 / 25) 1)
      (BlobTreeNode.Point ⟨50, 86 / 25, 0⟩ (86 / 25) 1))⟩
      ⟨⟨0, -10, 0⟩, ⟨0, 1, 0⟩⟩ ⟨25 / 2, 2, 9 / 4, 3 / 2⟩
      = some (Pass.advance ⟨59 / 4, 3, 27 / 8, 9 / 4⟩) := by
  have e1 : Ray.eval (⟨⟨0, -10, 0⟩, ⟨0, 1, 0⟩⟩ : Ray ℝ) (25 / 2) = ⟨0, 5 / 2, 0⟩ := by
    rw [overstep_ray]; norm_num
  have e2 : Ray.eval (⟨⟨0, -10, 0⟩, ⟨0, 1, 0⟩⟩ : Ray ℝ) (25 / 2 + (9 / 4)) = ⟨0, 19 / 4, 0⟩ := by
    rw [overstep_ray]; norm_num
  have hI : (-1 / 2 : ℝ) = (BlobTreeNode.Blend (BlobTreeNode.Point (⟨0, 65 / 8, 0⟩ : Vector ℝ) (86 / 25) 1)
      (BlobTreeNode.Point ⟨50, 86 / 25, 0⟩ (86 / 25) 1)).Intensity
      (Ray.eval ⟨⟨0, -10, 0⟩, ⟨0, 1, 0⟩⟩ (25 / 2)) - 0.5 := by
    rw [overstep_field, CubicFalloff_of_ge _ _ (by norm_num) (by norm_num)]; norm_num
  have hk : (15894374900625 / 6628429580468224 : ℝ) = (BlobTreeNode.Blend (BlobTreeNode.Point (⟨0, 65 / 8, 0⟩ : Vector ℝ) (86 / 25) 1)
      (BlobTreeNode.Point ⟨50, 86 / 25, 0⟩ (86 / 25) 1)).KSeg Real.sqrt
      ⟨Ray.eval ⟨⟨0, -10, 0⟩, ⟨0, 1, 0⟩⟩ (25 / 2), Ray.eval ⟨⟨0, -10, 0⟩, ⟨0, 1, 0⟩⟩ (25 / 2 + (9 / 4))⟩ := by
    rw [e1, e2, overstep_KSeg, overstep_K3]
  have htk : (9 / 4 : ℝ) = SegmentTrace.tk ((BlobTreeNode.Blend (BlobTreeNode.Point (⟨0, 65 / 8, 0⟩ : Vector ℝ) (86 / 25) 1)
      (BlobTreeNode.Point ⟨50, 86 / 25, 0⟩ (86 / 25) 1)).KSegNaN Real.sqrt
      ⟨Ray.eval ⟨⟨0, -10, 0⟩, ⟨0, 1, 0⟩⟩ (25 / 2), Ray.eval ⟨⟨0, -10, 0⟩, ⟨0, 1, 0⟩⟩ (25 / 2 + (9 / 4))⟩) (-1 / 2) (15894374900625 / 6628429580468224) (9 / 4) := by
    rw [e1, e2, overstep_free _ _ (by norm_num) (by norm_num)]
    norm_num [SegmentTrace.tk, SegmentTrace.safeStep, Math.Min, abs_of_neg]
  rw [SegmentTrace_pass_eq _ _ _ _ _ _ hI hk htk]
  norm_num [Math.Max, Epsilon]

/-- The fourth probe, from `ray(14.75)` to `ray(18.125)`, ends at the first
centre: `K(s)` is NaN. -/
theorem overstep_nan :
    (BlobTreeNode.Blend (BlobTreeNode.Point (⟨0, 65 / 8, 0⟩ : Vector ℝ) (86 / 25) 1)
      (BlobTreeNode.Point ⟨50, 86 / 25, 0⟩ (86 / 25) 1)).KSegNaN Real.sqrt
        ⟨Ray.eval ⟨⟨0, -10, 0⟩, ⟨0, 1, 0⟩⟩ (59 / 4),
          Ray.eval ⟨⟨0, -10, 0⟩, ⟨0, 1, 0⟩⟩ (59 / 4 + 27 / 8)⟩ = true := by
  have e1 : Ray.eval (⟨⟨0, -10, 0⟩, ⟨0, 1, 0⟩⟩ : Ray ℝ) (59 / 4) = ⟨0, 19 / 4, 0⟩ := by
    rw [overstep_ray]; norm_num
  have e2 : Ray.eval (⟨⟨0, -10, 0⟩, ⟨0, 1, 0⟩⟩ : Ray ℝ) (59 / 4 + 27 / 8) = ⟨0, 65 / 8, 0⟩ := by
    rw [overstep_ray]; norm_num
  have hb : (Box.ofBoxes (BlobTreeNode.Point (⟨0, 65 / 8, 0⟩ : Vector ℝ) (86 / 25) 1).GetBox
      (BlobTreeNode.Point (⟨50, 86 / 25, 0⟩ : Vector ℝ) (86 / 25) 1).GetBox).Intersect
        (Segment.GetBox ⟨⟨0, 19 / 4, 0⟩, ⟨0, 65 / 8, 0⟩⟩) = true := by
    norm_num [Box.Intersect, Box.ofBoxes, BlobTreeNode.GetBox, BlobTreePoint.box,
      Segment.GetBox, Vector.Min, Vector.Max, Math.Min, Math.Max, Vector.get, Vector.sub,
      Vector.add]
  have hn : BlobTreePoint.KNaN Real.sqrt (⟨0, 65 / 8, 0⟩ : Vector ℝ) (86 / 25)
      ⟨⟨0, 19 / 4, 0⟩, ⟨0, 65 / 8, 0⟩⟩ = true := by
    rw [BlobTreePoint.KNaN_iff]
    refine ⟨?_, Or.inr rfl⟩
    norm_num [Segment.Intersect, BlobTreePoint.box, Box.Diagonal, Box.Center, Vector.get,
      Vector.sub, Vector.add, Vector.mul, abs_of_pos, abs_of_neg]
  rw [e1, e2]
  simp [BlobTreeNode.KSegNaN, hb, hn]

/-- The fourth pass: `k` is NaN, so `tk = ts = 3.375` and `t` moves onto the
first centre. -/
theorem SegmentTrace.overstep_pass4 :
    SegmentTrace.pass Real.sqrt
      ⟨some (BlobTreeNode.Blend (BlobTreeNode.Point (⟨0, 65 / 8, 0⟩ : Vector ℝ) (86 / 25) 1)
        (BlobTreeNode.Point ⟨50, 86 / 25, 0⟩ (86 / 25) 1))⟩
      ⟨⟨0, -10, 0⟩, ⟨0, 1, 0⟩⟩ ⟨59 / 4, 3, 27 / 8, 9 / 4⟩
      = some (Pass.advance ⟨145 / 8, 4, 81 / 16, 27 / 8⟩) := by
  have hI : (-53021873534039833 / 106054873287491584 : ℝ)
      = (BlobTreeNode.Blend (BlobTreeNode.Point (⟨0, 65 / 8, 0⟩ : Vector ℝ) (86 / 25) 1)
        (BlobTreeNode.Point ⟨50, 86 / 25, 0⟩ (86 / 25) 1)).Intensity
          (Ray.eval ⟨⟨0, -10, 0⟩, ⟨0, 1, 0⟩⟩ (59 / 4)) - 0.5 := by
    rw [overstep_field, CubicFalloff_of_le _ _ (by norm_num)]; norm_num
  have htk : (27 / 8 : ℝ) = SegmentTrace.tk
      ((BlobTreeNode.Blend (BlobTreeNode.Point (⟨0, 65 / 8, 0⟩ : Vector ℝ) (86 / 25) 1)
        (BlobTreeNode.Point ⟨50, 86 / 25, 0⟩ (86 / 25) 1)).KSegNaN Real.sqrt
          ⟨Ray.eval ⟨⟨0, -10, 0⟩, ⟨0, 1, 0⟩⟩ (59 / 4),
            Ray.eval ⟨⟨0, -10, 0⟩, ⟨0, 1, 0⟩⟩ (59 / 4 + 27 / 8)⟩)
      (-53021873534039833 / 106054873287491584)
      ((BlobTreeNode.Blend (BlobTreeNode.Point (⟨0, 65 / 8, 0⟩ : Vector ℝ) (86 / 25) 1)
        (BlobTreeNode.Point ⟨50, 86 / 25, 0⟩ (86 / 25) 1)).KSeg Real.sqrt
          ⟨Ray.eval ⟨⟨0, -10, 0⟩, ⟨0, 1, 0⟩⟩ (59 / 4),
            Ray.eval ⟨⟨0, -10, 0⟩, ⟨0, 1, 0⟩⟩ (59 / 4 + 27 / 8)⟩) (27 / 8) := by
    rw [overstep_nan]
    simp [SegmentTrace.tk]
  rw [SegmentTrace_pass_eq _ _ _ _ _ _ hI rfl htk]
  norm_num [Math.Max, Epsilon]

/-- The fifth pass: the field at the first centre is `1 - 0.5 > 0`, a hit. -/
theorem SegmentTrace.overstep_pass5 :
    SegmentTrace.pass Real.sqrt
      ⟨some (BlobTreeNode.Blend (BlobTreeNode.Point (⟨0, 65 / 8, 0⟩ : Vector ℝ) (86 / 25) 1)
        (BlobTreeNode.Point ⟨50, 86 / 25, 0⟩ (86 / 25) 1))⟩
      ⟨⟨0, -10, 0⟩, ⟨0, 1, 0⟩⟩ ⟨145 / 8, 4, 81 / 16, 27 / 8⟩
      = some (Pass.hit (145 / 8) 5) := by
  rw [SegmentTrace_pass_eq _ _ _ _ _ _ rfl rfl rfl,
    if_pos (overstep_field_pos _ (by norm_num) (by norm_num))]
  norm_num

/-- The run of `SegmentTrace` on the two primitives: four forward passes, the
last over a probe that ends at the first centre, then a hit at the centre,
`t = 18.125`. -/
theorem SegmentTrace_overstep_run (fuel : Nat) (hfuel : 5 ≤ fuel) (t0 : ℝ) (s0 : Int) :
    SegmentTrace Real.sqrt fuel
      ⟨some (BlobTreeNode.Blend (BlobTreeNode.Point (⟨0, 65 / 8, 0⟩ : Vector ℝ) (86 / 25) 1)
        (BlobTreeNode.Point ⟨50, 86 / 25, 0⟩ (86 / 25) 1))⟩
      ⟨⟨0, -10, 0⟩, ⟨0, 1, 0⟩⟩ t0 s0 = some (true, 145 / 8, 5) := by
  obtain ⟨n, rfl⟩ : ∃ n, fuel = n + 1 + 1 + 1 + 1 + 1 := ⟨fuel - 5, by omega⟩
  rw [SegmentTrace_eq_loop _ _ _ t0 s0 10 (4313 / 200) overstep_box,
    marchLoop_advance _ _ _ _ _ _ _ (by norm_num) SegmentTrace.overstep_pass1,
    marchLoop_advance _ _ _ _ _ _ _ (by norm_num) SegmentTrace.overstep_pass2,
    marchLoop_advance _ _ _ _ _ _ _ (by norm_num) SegmentTrace.overstep_pass3,
    marchLoop_advance _ _ _ _ _ _ _ (by norm_num) SegmentTrace.overstep_pass4,
    marchLoop_hit _ _ _ _ _ _ _ _ (by norm_num) SegmentTrace.overstep_pass5]

/-- The loop variables of `SegmentTrace` on the two primitives after three
passes. -/
theorem overstep_states :
    marchStates (SegmentTrace.pass Real.sqrt
        ⟨some (BlobTreeNode.Blend (BlobTreeNode.Point (⟨0, 65 / 8, 0⟩ : Vector ℝ) (86 / 25) 1)
          (BlobTreeNode.Point ⟨50, 86 / 25, 0⟩ (86 / 25) 1))⟩ ⟨⟨0, -10, 0⟩, ⟨0, 1, 0⟩⟩)
      SegmentTrace.State.t (4313 / 200) 3 ⟨10, 0, 4313 / 200 - 10, 0⟩
      = some ⟨59 / 4, 3, 27 / 8, 9 / 4⟩ := by
  have h1 : (10 : ℝ) < 4313 / 200 := by norm_num
  have h2 : (11 : ℝ) < 4313 / 200 := by norm_num
  have h3 : (25 / 2 : ℝ) < 4313 / 200 := by norm_num
  simp only [marchStates, h1, h2, h3, if_true, SegmentTrace.overstep_pass1,
    SegmentTrace.overstep_pass2, SegmentTrace.overstep_pass3]

/-! ## The claims -/

/-- Claim C1 on the code.  For the tree `OptimizeHierarchy` builds from a
non-empty list of centres and a radius `r > 0` (so every leaf has energy 1), for
every segment `s` on which `root.K(s)` is not NaN and all points
`p = Lerp(s.a, s.b, σ₁)`, `q = Lerp(s.a, s.b, σ₂)` of `s` (`0 ≤ σ₁, σ₂ ≤ 1`),
`|root.Intensity(p) - root.Intensity(q)| ≤ root.K(s) * |p - q|` with the
Euclidean norm; the tree exists for every implementation of `std::partition`.
The restriction cannot be dropped: for the single centre `(0,0,0)` with `r = 2`
and the segment from `(0,-3,0)` to `(0,0,0)`, which ends at the centre,
`root.K(s)` is NaN, while the field is `0` at one end of the segment and `1` at
the other. -/
theorem OptimizeHierarchy_segment_bound_lipschitz (P : StdPartition (BlobTreeNode ℝ))
    (centers : List (Vector ℝ)) (r : ℝ) (hne : centers ≠ []) (hr : 0 < r) :
    (∃ root, OptimizeHierarchy P centers r = some root ∧
      ∀ s : Segment ℝ, root.KSegNaN Real.sqrt s = false →
        ∀ σ₁ σ₂ : ℝ, 0 ≤ σ₁ → σ₁ ≤ 1 → 0 ≤ σ₂ → σ₂ ≤ 1 →
        |root.Intensity (Lerp s.a s.b σ₁) - root.Intensity (Lerp s.a s.b σ₂)| ≤
          root.KSeg Real.sqrt s
            * Norm Real.sqrt ((Lerp s.a s.b σ₁).sub (Lerp s.a s.b σ₂))) ∧
    (∃ root, OptimizeHierarchy P [⟨0, 0, 0⟩] 2 = some root ∧
      root.KSegNaN Real.sqrt ⟨⟨0, -3, 0⟩, ⟨0, 0, 0⟩⟩ = true ∧
      root.Intensity (Lerp ⟨0, -3, 0⟩ ⟨0, 0, 0⟩ 0) = 0 ∧
      root.Intensity (Lerp ⟨0, -3, 0⟩ ⟨0, 0, 0⟩ 1) = 1) := by
  constructor
  · obtain ⟨root, h, hpos, hunit⟩ := OptimizeHierarchy_props P centers r hne hr
    exact ⟨root, h, fun s _ σ₁ σ₂ a1 b1 a2 b2 =>
      BlobTreeNode.KSeg_lipschitz root hpos hunit s σ₁ σ₂ ⟨a1, b1⟩ ⟨a2, b2⟩⟩
  · refine ⟨BlobTreeNode.Point ⟨0, 0, 0⟩ 2 1, ?_, ?_, ?_, ?_⟩
    · simp [OptimizeHierarchy, OptimizeHierarchyRange, BVHRecursive]
    · rw [BlobTreeNode.KSegNaN, BlobTreePoint.KNaN_iff]
      refine ⟨?_, Or.inr rfl⟩
      norm_num [Segment.Intersect, BlobTreePoint.box, Box.Diagonal, Box.Center, Vector.get,
        Vector.sub, Vector.add, Vector.mul, abs_of_pos, abs_of_neg]
    · norm_num [BlobTreeNode.Intensity, BlobTreePoint.Intensity, BlobTreePoint.box, Box.Inside,
        Vector.gt, Vector.lt, Vector.sub, Vector.add, Vector.mul, Lerp]
    · norm_num [BlobTreeNode.Intensity, BlobTreePoint.Intensity, BlobTreePoint.box, Box.Inside,
        Vector.gt, Vector.lt, Vector.sub, Vector.add, Vector.mul, Vector.dot, Lerp,
        CubicFalloff]

/-- Claim C1 on the code at two centres, `(0,0,0)` and `(3,0,0)`, with radius 2. -/
theorem OptimizeHierarchy_segment_bound_lipschitz_witness :
    ([⟨0, 0, 0⟩, ⟨3, 0, 0⟩] : List (Vector ℝ)) ≠ [] ∧ (0 : ℝ) < 2 ∧
    ∃ root, OptimizeHierarchy (StdPartition.stable (BlobTreeNode ℝ))
        [⟨0, 0, 0⟩, ⟨3, 0, 0⟩] 2 = some root ∧
      ∀ s : Segment ℝ, root.KSegNaN Real.sqrt s = false →
        ∀ σ₁ σ₂ : ℝ, 0 ≤ σ₁ → σ₁ ≤ 1 → 0 ≤ σ₂ → σ₂ ≤ 1 →
        |root.Intensity (Lerp s.a s.b σ₁) - root.Intensity (Lerp s.a s.b σ₂)| ≤
          root.KSeg Real.sqrt s
            * Norm Real.sqrt ((Lerp s.a s.b σ₁).sub (Lerp s.a s.b σ₂)) :=
  ⟨by simp, by norm_num,
    (OptimizeHierarchy_segment_bound_lipschitz (StdPartition.stable (BlobTreeNode ℝ))
      [⟨0, 0, 0⟩, ⟨3, 0, 0⟩] 2 (by simp) (by norm_num)).1⟩

/-- Claim C2 on the code.  For a tree whose primitives have positive radius and
unit energy, a ray with unit direction, any `t` and any probe length `ts ≥ 0`:
if `I = tree.Intensity(ray(t)) ≤ 0`, `k = tree.K(Segment(ray(t), ray(t + ts)))`
is not NaN (or `ts = 0`) and `tk` is the stepping distance `min(|I| / k, ts)`
(`ts` when `k = 0`), then `tree.Intensity(ray(t')) ≤ 0` for every `t'` with
`t ≤ t' ≤ t + tk`.  The restriction cannot be dropped: on `Point((0,0,0), 2, 1)`
and the ray from `(0,-3,0)` along `(0,1,0)`, with `t = 0` and `ts = 3`, the probe
ends at the centre, `k` is NaN, the pass of the loop takes `tk = ts = 3` and
moves `t` to `3`, and the field there is `+0.5 > 0` while it is `-0.5` at
`t = 0`: the step crosses the surface. -/
theorem SegmentTrace_safeStep_no_crossing (root : BlobTreeNode ℝ) (hpos : root.PositiveRadii)
    (hunit : root.UnitEnergy) (ray : Ray ℝ) (hd : Norm Real.sqrt ray.d = 1) (t ts : ℝ)
    (hts : 0 ≤ ts) (I k : ℝ) (nan : Bool)
    (hI : BlobTree.Intensity ⟨some root⟩ (ray.eval t) = some I) (hI0 : I ≤ 0)
    (hk : BlobTree.KSeg Real.sqrt ⟨some root⟩ ⟨ray.eval t, ray.eval (t + ts)⟩ = some k)
    (hnan : BlobTree.KSegNaN Real.sqrt ⟨some root⟩ ⟨ray.eval t, ray.eval (t + ts)⟩ = some nan)
    (hfree : nan = false ∨ ts = 0)
    (t' : ℝ) (h1 : t ≤ t') (h2 : t' ≤ t + SegmentTrace.tk nan I k ts) :
    (∃ I', BlobTree.Intensity ⟨some root⟩ (ray.eval t') = some I' ∧ I' ≤ 0) ∧
    (BlobTree.KSegNaN Real.sqrt ⟨some (BlobTreeNode.Point (⟨0, 0, 0⟩ : Vector ℝ) 2 1)⟩
        ⟨Ray.eval ⟨⟨0, -3, 0⟩, ⟨0, 1, 0⟩⟩ 0, Ray.eval ⟨⟨0, -3, 0⟩, ⟨0, 1, 0⟩⟩ (0 + 3)⟩
        = some true ∧
      SegmentTrace.pass Real.sqrt ⟨some (BlobTreeNode.Point (⟨0, 0, 0⟩ : Vector ℝ) 2 1)⟩
        ⟨⟨0, -3, 0⟩, ⟨0, 1, 0⟩⟩ ⟨0, 0, 3, 0⟩ = some (Pass.advance ⟨3, 1, 9 / 2, 3⟩) ∧
      BlobTree.Intensity ⟨some (BlobTreeNode.Point (⟨0, 0, 0⟩ : Vector ℝ) 2 1)⟩
        (Ray.eval ⟨⟨0, -3, 0⟩, ⟨0, 1, 0⟩⟩ 0) = some (-1 / 2) ∧
      BlobTree.Intensity ⟨some (BlobTreeNode.Point (⟨0, 0, 0⟩ : Vector ℝ) 2 1)⟩
        (Ray.eval ⟨⟨0, -3, 0⟩, ⟨0, 1, 0⟩⟩ 3) = some (1 / 2)) := by
  constructor
  · refine ⟨root.Intensity (ray.eval t') - 0.5, rfl, ?_⟩
    simp only [BlobTree.Intensity, Option.map_some', Option.some.injEq] at hI
    simp only [BlobTree.KSeg, Option.map_some', Option.some.injEq] at hk
    simp only [BlobTree.KSegNaN, Option.map_some', Option.some.injEq] at hnan
    subst hI hk hnan
    refine SegmentTrace_step_safe root hpos hunit ray hd t ts hts hfree hI0 t' h1 h2
  · have hn : BlobTreeNode.KSegNaN Real.sqrt (BlobTreeNode.Point (⟨0, 0, 0⟩ : Vector ℝ) 2 1)
        ⟨Ray.eval ⟨⟨0, -3, 0⟩, ⟨0, 1, 0⟩⟩ 0, Ray.eval ⟨⟨0, -3, 0⟩, ⟨0, 1, 0⟩⟩ (0 + 3)⟩
        = true := by
      rw [BlobTreeNode.KSegNaN, BlobTreePoint.KNaN_iff]
      refine ⟨?_, Or.inr ?_⟩
      · norm_num [Segment.Intersect, BlobTreePoint.box, Box.Diagonal, Box.Center, Vector.get,
          Vector.sub, Vector.add, Vector.mul, Ray.eval, abs_of_pos, abs_of_neg]
      · norm_num [Ray.eval, Vector.add, Vector.mul]
    have hI0' : BlobTreeNode.Intensity (BlobTreeNode.Point (⟨0, 0, 0⟩ : Vector ℝ) 2 1)
        (Ray.eval ⟨⟨0, -3, 0⟩, ⟨0, 1, 0⟩⟩ 0) = 0 := by
      norm_num [BlobTreeNode.Intensity, BlobTreePoint.Intensity, BlobTreePoint.box, Box.Inside,
        Vector.gt, Vector.lt, Vector.sub, Vector.add, Vector.mul, Ray.eval]
    have hI3 : BlobTreeNode.Intensity (BlobTreeNode.Point (⟨0, 0, 0⟩ : Vector ℝ) 2 1)
        (Ray.eval ⟨⟨0, -3, 0⟩, ⟨0, 1, 0⟩⟩ 3) = 1 := by
      norm_num [BlobTreeNode.Intensity, BlobTreePoint.Intensity, BlobTreePoint.box, Box.Inside,
        Vector.gt, Vector.lt, Vector.sub, Vector.add, Vector.mul, Vector.dot, Ray.eval,
        CubicFalloff]
    refine ⟨by simp only [BlobTree.KSegNaN, Option.map_some', hn], ?_, ?_, ?_⟩
    · rw [SegmentTrace_pass_eq _ _ _ _ _ _ rfl rfl rfl]
      simp only [hn, hI0', SegmentTrace.tk, if_true]
      norm_num [Math.Max, Epsilon]
    · simp only [BlobTree.Intensity, Option.map_some', hI0']
      norm_num
    · simp only [BlobTree.Intensity, Option.map_some', hI3]
      norm_num

/-- Claim C4: the Lipschitz step of sphere tracing does not cross the surface.
For a tree whose primitives have positive radius and unit energy, `k = tree.K()`,
a ray with unit direction and any `t` with `I = tree.Intensity(ray(t)) ≤ 0`,
`tree.Intensity(ray(t')) ≤ 0` for every `t'` with `t ≤ t' ≤ t + |I| / k`. -/
theorem SphereTrace_lipschitz_step_no_crossing (root : BlobTreeNode ℝ)
    (hpos : root.PositiveRadii) (hunit : root.UnitEnergy) (ray : Ray ℝ)
    (hd : Norm Real.sqrt ray.d = 1) (t : ℝ) (I k : ℝ)
    (hI : BlobTree.Intensity ⟨some root⟩ (ray.eval t) = some I) (hI0 : I ≤ 0)
    (hk : BlobTree.K ⟨some root⟩ = some k)
    (t' : ℝ) (h1 : t ≤ t') (h2 : t' ≤ t + |I| / k) :
    ∃ I', BlobTree.Intensity ⟨some root⟩ (ray.eval t') = some I' ∧ I' ≤ 0 := by
  refine ⟨root.Intensity (ray.eval t') - 0.5, rfl, ?_⟩
  simp only [BlobTree.Intensity, Option.map_some', Option.some.injEq] at hI
  simp only [BlobTree.K, Option.map_some', Option.some.injEq] at hk
  have hk0 : 0 ≤ k := by rw [← hk]; exact BlobTreeNode.K_nonneg root hpos
  have key := BlobTreeNode.K_lipschitz root hpos hunit (ray.eval t') (ray.eval t)
  rw [hk, Ray.eval_sub, hd, mul_one, abs_of_nonneg (sub_nonneg.mpr h1)] at key
  have hle : k * (t' - t) ≤ |I| := by
    rcases eq_or_lt_of_le hk0 with hz | hkpos
    · rw [← hz, zero_mul]; exact abs_nonneg I
    · calc k * (t' - t) ≤ k * (|I| / k) := mul_le_mul_of_nonneg_left (by linarith) hk0
        _ = |I| := mul_div_cancel₀ _ hkpos.ne'
  have := (abs_le.mp (le_trans key hle)).2
  rw [abs_of_nonpos hI0] at this
  linarith

/-- Claim C5 on the code.  For every node whose point primitives all have a
positive radius (any energy) and every segment `s` on which `n.K(s)` is not NaN,
`0 ≤ n.K(s) ≤ n.K()`; on a point primitive this says that the piecewise bound
times the directional factor is at most `1.72 * |e| / r`.  The restriction
cannot be dropped: for `Point((0,0,0), 2, 1)` and the segment from `(0,-3,0)` to
`(0,0,0)`, which ends at the centre, `K(s)` is NaN. -/
theorem BlobTreeNode_segment_bound_le_global (n : BlobTreeNode ℝ) (hpos : n.PositiveRadii) :
    (∀ s : Segment ℝ, n.KSegNaN Real.sqrt s = false →
      0 ≤ n.KSeg Real.sqrt s ∧ n.KSeg Real.sqrt s ≤ n.K) ∧
    (BlobTreeNode.Point (⟨0, 0, 0⟩ : Vector ℝ) 2 1).KSegNaN Real.sqrt
      ⟨⟨0, -3, 0⟩, ⟨0, 0, 0⟩⟩ = true := by
  refine ⟨fun s _ => ⟨BlobTreeNode.KSeg_nonneg n hpos s, BlobTreeNode.KSeg_le_K n hpos s⟩, ?_⟩
  rw [BlobTreeNode.KSegNaN, BlobTreePoint.KNaN_iff]
  refine ⟨?_, Or.inr rfl⟩
  norm_num [Segment.Intersect, BlobTreePoint.box, Box.Diagonal, Box.Center, Vector.get,
    Vector.sub, Vector.add, Vector.mul, abs_of_pos, abs_of_neg]


/-- Claim C2 on the code at `Point((0,0,0), 2, 1)` on the ray from `(0,-10,0)`
along `(0,1,0)`, with `t = 8`, `ts = 4`, where `k = 0.86` and
`tk = 0.5 / 0.86`, and `t' = 8.5`. -/
theorem SegmentTrace_safeStep_no_crossing_witness :
    (BlobTreeNode.Point (⟨0, 0, 0⟩ : Vector ℝ) 2 1).PositiveRadii ∧
    (BlobTreeNode.Point (⟨0, 0, 0⟩ : Vector ℝ) 2 1).UnitEnergy ∧
    Norm Real.sqrt (⟨0, 1, 0⟩ : Vector ℝ) = 1 ∧ (0 : ℝ) ≤ 4 ∧
    BlobTree.Intensity ⟨some (BlobTreeNode.Point (⟨0, 0, 0⟩ : Vector ℝ) 2 1)⟩
      (Ray.eval ⟨⟨0, -10, 0⟩, ⟨0, 1, 0⟩⟩ 8) = some (-1 / 2) ∧ (-1 / 2 : ℝ) ≤ 0 ∧
    BlobTree.KSeg Real.sqrt ⟨some (BlobTreeNode.Point (⟨0, 0, 0⟩ : Vector ℝ) 2 1)⟩
      ⟨Ray.eval ⟨⟨0, -10, 0⟩, ⟨0, 1, 0⟩⟩ 8, Ray.eval ⟨⟨0, -10, 0⟩, ⟨0, 1, 0⟩⟩ (8 + 4)⟩
        = some (43 / 50) ∧
    BlobTree.KSegNaN Real.sqrt ⟨some (BlobTreeNode.Point (⟨0, 0, 0⟩ : Vector ℝ) 2 1)⟩
      ⟨Ray.eval ⟨⟨0, -10, 0⟩, ⟨0, 1, 0⟩⟩ 8, Ray.eval ⟨⟨0, -10, 0⟩, ⟨0, 1, 0⟩⟩ (8 + 4)⟩
        = some false ∧
    (8 : ℝ) ≤ 17 / 2 ∧ (17 / 2 : ℝ) ≤ 8 + SegmentTrace.tk false (-1 / 2) (43 / 50) 4 ∧
    SegmentTrace.tk false (-1 / 2 : ℝ) (43 / 50) 4 = 25 / 43 ∧
    ∃ I', BlobTree.Intensity ⟨some (BlobTreeNode.Point (⟨0, 0, 0⟩ : Vector ℝ) 2 1)⟩
      (Ray.eval ⟨⟨0, -10, 0⟩, ⟨0, 1, 0⟩⟩ (17 / 2)) = some I' ∧ I' ≤ 0 := by
  have hp : (BlobTreeNode.Point (⟨0, 0, 0⟩ : Vector ℝ) 2 1).PositiveRadii := by
    simp [BlobTreeNode.PositiveRadii]
  have hu : (BlobTreeNode.Point (⟨0, 0, 0⟩ : Vector ℝ) 2 1).UnitEnergy := by
    simp [BlobTreeNode.UnitEnergy]
  have hI : BlobTree.Intensity ⟨some (BlobTreeNode.Point (⟨0, 0, 0⟩ : Vector ℝ) 2 1)⟩
      (Ray.eval ⟨⟨0, -10, 0⟩, ⟨0, 1, 0⟩⟩ 8) = some (-1 / 2) := by
    norm_num [BlobTree.Intensity, BlobTreeNode.Intensity, BlobTreePoint.Intensity,
      BlobTreePoint.box, Box.Inside, Vector.gt, Vector.lt, Vector.sub, Vector.add, Vector.mul,
      Ray.eval]
  have hk : BlobTree.KSeg Real.sqrt ⟨some (BlobTreeNode.Point (⟨0, 0, 0⟩ : Vector ℝ) 2 1)⟩
      ⟨Ray.eval ⟨⟨0, -10, 0⟩, ⟨0, 1, 0⟩⟩ 8, Ray.eval ⟨⟨0, -10, 0⟩, ⟨0, 1, 0⟩⟩ (8 + 4)⟩
        = some (43 / 50) := by
    simp only [BlobTree.KSeg, Option.map_some', witness_first_K]
  have hn : BlobTree.KSegNaN Real.sqrt ⟨some (BlobTreeNode.Point (⟨0, 0, 0⟩ : Vector ℝ) 2 1)⟩
      ⟨Ray.eval ⟨⟨0, -10, 0⟩, ⟨0, 1, 0⟩⟩ 8, Ray.eval ⟨⟨0, -10, 0⟩, ⟨0, 1, 0⟩⟩ (8 + 4)⟩
        = some false := by
    simp only [BlobTree.KSegNaN, Option.map_some', Option.some.injEq]
    by_contra h
    have ht : BlobTreePoint.KNaN Real.sqrt (⟨0, 0, 0⟩ : Vector ℝ) 2
        ⟨Ray.eval ⟨⟨0, -10, 0⟩, ⟨0, 1, 0⟩⟩ 8, Ray.eval ⟨⟨0, -10, 0⟩, ⟨0, 1, 0⟩⟩ (8 + 4)⟩
          = true := by
      simpa [BlobTreeNode.KSegNaN] using h
    rcases ((BlobTreePoint.KNaN_iff _ _ _).mp ht).2 with e | e
    · norm_num [Ray.eval, Vector.add, Vector.mul] at e
    · norm_num [Ray.eval, Vector.add, Vector.mul] at e
  have hs : SegmentTrace.tk false (-1 / 2 : ℝ) (43 / 50) 4 = 25 / 43 := by
    norm_num [SegmentTrace.tk, SegmentTrace.safeStep, Math.Min, abs_of_neg]
  exact ⟨hp, hu, witness_dir, by norm_num, hI, by norm_num, hk, hn, by norm_num,
    by rw [hs]; norm_num, hs,
    (SegmentTrace_safeStep_no_crossing _ hp hu ⟨⟨0, -10, 0⟩, ⟨0, 1, 0⟩⟩ witness_dir 8 4
      (by norm_num) (-1 / 2) (43 / 50) false hI (by norm_num) hk hn (Or.inl rfl) (17 / 2)
      (by norm_num) (by rw [hs]; norm_num)).1⟩

/-- Claim C4 at `Point((0,0,0), 2, 1)` on the ray from `(0,-10,0)` along `(0,1,0)`,
with `t = 0` and `t' = 1/2`. -/
theorem SphereTrace_lipschitz_step_no_crossing_witness :
    (BlobTreeNode.Point (⟨0, 0, 0⟩ : Vector ℝ) 2 1).PositiveRadii ∧
    (BlobTreeNode.Point (⟨0, 0, 0⟩ : Vector ℝ) 2 1).UnitEnergy ∧
    Norm Real.sqrt (⟨0, 1, 0⟩ : Vector ℝ) = 1 ∧
    BlobTree.Intensity ⟨some (BlobTreeNode.Point (⟨0, 0, 0⟩ : Vector ℝ) 2 1)⟩
      (Ray.eval ⟨⟨0, -10, 0⟩, ⟨0, 1, 0⟩⟩ 0) = some (-1 / 2) ∧ (-1 / 2 : ℝ) ≤ 0 ∧
    BlobTree.K ⟨some (BlobTreeNode.Point (⟨0, 0, 0⟩ : Vector ℝ) 2 1)⟩ = some (43 / 50) ∧
    (0 : ℝ) ≤ 1 / 2 ∧ (1 / 2 : ℝ) ≤ 0 + |(-1 / 2 : ℝ)| / (43 / 50) ∧
    ∃ I', BlobTree.Intensity ⟨some (BlobTreeNode.Point (⟨0, 0, 0⟩ : Vector ℝ) 2 1)⟩
      (Ray.eval ⟨⟨0, -10, 0⟩, ⟨0, 1, 0⟩⟩ (1 / 2)) = some I' ∧ I' ≤ 0 := by
  have hp : (BlobTreeNode.Point (⟨0, 0, 0⟩ : Vector ℝ) 2 1).PositiveRadii := by
    simp [BlobTreeNode.PositiveRadii]
  have hu : (BlobTreeNode.Point (⟨0, 0, 0⟩ : Vector ℝ) 2 1).UnitEnergy := by
    simp [BlobTreeNode.UnitEnergy]
  have hd : Norm Real.sqrt (⟨0, 1, 0⟩ : Vector ℝ) = 1 := by simp [Norm]
  have hI : BlobTree.Intensity ⟨some (BlobTreeNode.Point (⟨0, 0, 0⟩ : Vector ℝ) 2 1)⟩
      (Ray.eval ⟨⟨0, -10, 0⟩, ⟨0, 1, 0⟩⟩ 0) = some (-1 / 2) := by
    norm_num [BlobTree.Intensity, BlobTreeNode.Intensity, BlobTreePoint.Intensity,
      BlobTreePoint.box, Box.Inside, Vector.gt, Vector.lt, Vector.sub, Vector.add, Vector.mul,
      Ray.eval]
  have hk : BlobTree.K ⟨some (BlobTreeNode.Point (⟨0, 0, 0⟩ : Vector ℝ) 2 1)⟩
      = some (43 / 50) := by
    norm_num [BlobTree.K, BlobTreeNode.K, CubicFalloffK]
  have hs : (1 / 2 : ℝ) ≤ 0 + |(-1 / 2 : ℝ)| / (43 / 50) := by
    rw [abs_of_neg (by norm_num)]; norm_num
  exact ⟨hp, hu, hd, hI, by norm_num, hk, by norm_num, hs,
    SphereTrace_lipschitz_step_no_crossing _ hp hu ⟨⟨0, -10, 0⟩, ⟨0, 1, 0⟩⟩ hd 0
      (-1 / 2) (43 / 50) hI (by norm_num) hk (1 / 2) (by norm_num) hs⟩

/-- Claim C5 on the code at `Point((0,0,0), 2, 1)` and the segment from
`(0,-3,0)` to `(0,3,0)`, on which `K(s)` is not NaN. -/
theorem BlobTreeNode_segment_bound_le_global_witness :
    (BlobTreeNode.Point (⟨0, 0, 0⟩ : Vector ℝ) 2 1).PositiveRadii ∧
    (BlobTreeNode.Point (⟨0, 0, 0⟩ : Vector ℝ) 2 1).KSegNaN Real.sqrt
      ⟨⟨0, -3, 0⟩, ⟨0, 3, 0⟩⟩ = false ∧
    0 ≤ (BlobTreeNode.Point (⟨0, 0, 0⟩ : Vector ℝ) 2 1).KSeg Real.sqrt
      ⟨⟨0, -3, 0⟩, ⟨0, 3, 0⟩⟩ ∧
    (BlobTreeNode.Point (⟨0, 0, 0⟩ : Vector ℝ) 2 1).KSeg Real.sqrt ⟨⟨0, -3, 0⟩, ⟨0, 3, 0⟩⟩
      ≤ (BlobTreeNode.Point (⟨0, 0, 0⟩ : Vector ℝ) 2 1).K := by
  have hn : (BlobTreeNode.Point (⟨0, 0, 0⟩ : Vector ℝ) 2 1).KSegNaN Real.sqrt
      ⟨⟨0, -3, 0⟩, ⟨0, 3, 0⟩⟩ = false := by
    by_contra h
    have ht : BlobTreePoint.KNaN Real.sqrt (⟨0, 0, 0⟩ : Vector ℝ) 2
        ⟨⟨0, -3, 0⟩, ⟨0, 3, 0⟩⟩ = true := by
      simpa [BlobTreeNode.KSegNaN] using h
    rcases ((BlobTreePoint.KNaN_iff _ _ _).mp ht).2 with e | e
    · norm_num at e
    · norm_num at e
  exact ⟨by simp [BlobTreeNode.PositiveRadii], hn,
    (BlobTreeNode_segment_bound_le_global _ (by simp [BlobTreeNode.PositiveRadii])).1 _ hn⟩

/-- Claim C6: compact support.  For every node `n` (point or blend, any depth)
and every point `p` that is not strictly inside the bounding box of `n`, that
is with a coordinate `p_i ≤ box.a_i` or `p_i ≥ box.b_i`, `n.Intensity(p) = 0`. -/
theorem BlobTreeNode_Intensity_zero_outside_box [LinearOrderedField α] (n : BlobTreeNode α)
    (p : Vector α)
    (h : p.c0 ≤ n.GetBox.a.c0 ∨ p.c1 ≤ n.GetBox.a.c1 ∨ p.c2 ≤ n.GetBox.a.c2 ∨
      p.c0 ≥ n.GetBox.b.c0 ∨ p.c1 ≥ n.GetBox.b.c1 ∨ p.c2 ≥ n.GetBox.b.c2) :
    n.Intensity p = 0 := by
  apply BlobTreeNode.Intensity_eq_zero_of_not_inside
  by_contra hc
  have hin : n.GetBox.Inside p = true := by simpa using hc
  rw [Box.Inside_eq_true_iff] at hin
  obtain ⟨⟨i0, i1, i2⟩, j0, j1, j2⟩ := hin
  rcases h with h | h | h | h | h | h
  · exact absurd i0 (not_lt.mpr h)
  · exact absurd i1 (not_lt.mpr h)
  · exact absurd i2 (not_lt.mpr h)
  · exact absurd j0 (not_lt.mpr h)
  · exact absurd j1 (not_lt.mpr h)
  · exact absurd j2 (not_lt.mpr h)

/-- Claim C6 at the blend of two points and `p = (3,0,0)` on the face of its box. -/
theorem BlobTreeNode_Intensity_zero_outside_box_witness :
    ((⟨3, 0, 0⟩ : Vector ℚ).c0 ≤
        (BlobTreeNode.Blend (.Point ⟨-1, 0, 0⟩ 2 1) (.Point ⟨1, 0, 0⟩ 2 1)).GetBox.a.c0 ∨
      (⟨3, 0, 0⟩ : Vector ℚ).c1 ≤
        (BlobTreeNode.Blend (.Point ⟨-1, 0, 0⟩ 2 1) (.Point ⟨1, 0, 0⟩ 2 1)).GetBox.a.c1 ∨
      (⟨3, 0, 0⟩ : Vector ℚ).c2 ≤
        (BlobTreeNode.Blend (.Point ⟨-1, 0, 0⟩ 2 1) (.Point ⟨1, 0, 0⟩ 2 1)).GetBox.a.c2 ∨
      (⟨3, 0, 0⟩ : Vector ℚ).c0 ≥
        (BlobTreeNode.Blend (.Point ⟨-1, 0, 0⟩ 2 1) (.Point ⟨1, 0, 0⟩ 2 1)).GetBox.b.c0 ∨
      (⟨3, 0, 0⟩ : Vector ℚ).c1 ≥
        (BlobTreeNode.Blend (.Point ⟨-1, 0, 0⟩ 2 1) (.Point ⟨1, 0, 0⟩ 2 1)).GetBox.b.c1 ∨
      (⟨3, 0, 0⟩ : Vector ℚ).c2 ≥
        (BlobTreeNode.Blend (.Point ⟨-1, 0, 0⟩ 2 1) (.Point ⟨1, 0, 0⟩ 2 1)).GetBox.b.c2) ∧
    (BlobTreeNode.Blend (.Point ⟨-1, 0, 0⟩ 2 1) (.Point ⟨1, 0, 0⟩ 2 1)).Intensity
      (⟨3, 0, 0⟩ : Vector ℚ) = 0 := by
  have h : (⟨3, 0, 0⟩ : Vector ℚ).c0 ≥
      (BlobTreeNode.Blend (.Point ⟨-1, 0, 0⟩ 2 1) (.Point ⟨1, 0, 0⟩ 2 1)).GetBox.b.c0 := by
    norm_num [BlobTreeNode.GetBox, Box.ofBoxes, BlobTreePoint.box, Vector.Max, Vector.add]
  exact ⟨Or.inr (Or.inr (Or.inr (Or.inl h))),
    BlobTreeNode_Intensity_zero_outside_box _ _ (Or.inr (Or.inr (Or.inr (Or.inl h))))⟩

/-- Claim C7: bounding-box pruning preserves the field.  For every tree of
blends over point primitives and every point `p`, `root.Intensity(p)` is the
plain sum over all leaves of `leaf.Intensity(p)`: the early `return 0` of
`BlobTreeBlend::Intensity` never changes the value. -/
theorem BlobTreeNode_Intensity_eq_plainSum [LinearOrderedField α] (n : BlobTreeNode α)
    (p : Vector α) : n.Intensity p = n.plainSum p :=
  BlobTreeNode.Intensity_eq_sum_leaves n p

/-- Claim C9: `BlobTree::Intensity(p) = root.Intensity(p) - 0.5` for every tree
with a root and every `p`; for the blend of `Point((-1,0,0), r = 2, e = 1)` and
`Point((1,0,0), r = 2, e = 1)` the root intensity at the origin is `0.84375` and
the tree intensity is `0.34375 > 0`. -/
theorem BlobTree_Intensity_offset [LinearOrderedField α] :
    (∀ (root : BlobTreeNode α) (p : Vector α),
      BlobTree.Intensity ⟨some root⟩ p = some (root.Intensity p - 0.5)) ∧
    (BlobTreeNode.Blend (.Point ⟨-1, 0, 0⟩ 2 1) (.Point ⟨1, 0, 0⟩ 2 1)).Intensity
      (⟨0, 0, 0⟩ : Vector α) = 0.84375 ∧
    BlobTree.Intensity ⟨some (BlobTreeNode.Blend (.Point ⟨-1, 0, 0⟩ 2 1) (.Point ⟨1, 0, 0⟩ 2 1))⟩
      (⟨0, 0, 0⟩ : Vector α) = some 0.34375 ∧
    (0 : α) < 0.34375 := by
  refine ⟨fun root p => rfl, ?_, ?_, by norm_num⟩
  · norm_num [BlobTreeNode.Intensity, BlobTreePoint.Intensity, BlobTreeNode.GetBox, Box.ofBoxes,
      BlobTreePoint.box, Box.Inside, Vector.gt, Vector.lt, Vector.Min, Vector.Max, Vector.sub,
      Vector.add, Vector.dot, CubicFalloff]
  · norm_num [BlobTree.Intensity, BlobTreeNode.Intensity, BlobTreePoint.Intensity,
      BlobTreeNode.GetBox, Box.ofBoxes,
      BlobTreePoint.box, Box.Inside, Vector.gt, Vector.lt, Vector.Min, Vector.Max, Vector.sub,
      Vector.add, Vector.dot, CubicFalloff]

/-- Claim C10: for every non-empty list `pts` of `n` leaf nodes,
`BVHRecursive(pts, 0, n)` returns a tree whose leaves are the input nodes up to
order (none lost, none duplicated), that has exactly `n - 1` blend nodes, and
whose `K()` is the sum of the `K()` of the leaves.  It does so for every
implementation of `std::partition` and whenever the recursion bound is at
least `n`. -/
theorem BVHRecursive_leaves_blends_K [LinearOrderedField α] (P : StdPartition (BlobTreeNode α))
    (pts : List (BlobTreeNode α)) (hne : pts ≠ [])
    (hleaf : ∀ n ∈ pts, n.isPoint = true) (fuel : Nat) (hfuel : pts.length ≤ fuel) :
    ∃ root pts', BVHRecursive P fuel pts 0 pts.length = some (root, pts') ∧
      root.leaves.Perm pts ∧
      root.blendCount = pts.length - 1 ∧
      root.K = (pts.map BlobTreeNode.K).sum :=
  BVHRecursive_whole P pts hne hleaf fuel hfuel

/-- Claim C10 at two point primitives with the order-preserving partition. -/
theorem BVHRecursive_leaves_blends_K_witness :
    ([.Point ⟨0, 0, 0⟩ 1 1, .Point ⟨3, 0, 0⟩ 1 1] : List (BlobTreeNode ℚ)) ≠ [] ∧
    (∀ n ∈ ([.Point ⟨0, 0, 0⟩ 1 1, .Point ⟨3, 0, 0⟩ 1 1] : List (BlobTreeNode ℚ)),
      n.isPoint = true) ∧
    ([.Point ⟨0, 0, 0⟩ 1 1, .Point ⟨3, 0, 0⟩ 1 1] : List (BlobTreeNode ℚ)).length ≤ 2 ∧
    ∃ root pts', BVHRecursive (StdPartition.stable (BlobTreeNode ℚ)) 2
        [.Point ⟨0, 0, 0⟩ 1 1, .Point ⟨3, 0, 0⟩ 1 1] 0
        ([.Point ⟨0, 0, 0⟩ 1 1, .Point ⟨3, 0, 0⟩ 1 1] : List (BlobTreeNode ℚ)).length
          = some (root, pts') ∧
      root.leaves.Perm [.Point ⟨0, 0, 0⟩ 1 1, .Point ⟨3, 0, 0⟩ 1 1] ∧
      root.blendCount =
        ([.Point ⟨0, 0, 0⟩ 1 1, .Point ⟨3, 0, 0⟩ 1 1] : List (BlobTreeNode ℚ)).length - 1 ∧
      root.K = (([.Point ⟨0, 0, 0⟩ 1 1, .Point ⟨3, 0, 0⟩ 1 1] : List (BlobTreeNode ℚ)).map
        BlobTreeNode.K).sum :=
  ⟨by simp, by simp [BlobTreeNode.isPoint], by simp,
    BVHRecursive_leaves_blends_K (StdPartition.stable (BlobTreeNode ℚ))
      [.Point ⟨0, 0, 0⟩ 1 1, .Point ⟨3, 0, 0⟩ 1 1] (by simp) (by simp [BlobTreeNode.isPoint])
      2 (by simp)⟩

/-- Claim C3, evaluated at `Point((0,0,0), r = 2, e = 0.5)` with `p = (0,0,0)`
and `q = (1,0,0)`: the intensities are `1` and `27/64`, `K()` is `0.43` and
`|p - q| = 1`, so `|Intensity(p) - Intensity(q)| ≤ K() * |p - q|` is false.
`BlobTreePoint::Intensity` does not multiply by the energy, while `K()` does. -/
theorem BlobTreePoint_global_bound_fails_for_small_energy :
    ¬ (|(BlobTreeNode.Point (⟨0, 0, 0⟩ : Vector ℝ) 2 0.5).Intensity ⟨0, 0, 0⟩
        - (BlobTreeNode.Point (⟨0, 0, 0⟩ : Vector ℝ) 2 0.5).Intensity ⟨1, 0, 0⟩|
      ≤ (BlobTreeNode.Point (⟨0, 0, 0⟩ : Vector ℝ) 2 0.5).K
        * Norm Real.sqrt ((⟨0, 0, 0⟩ : Vector ℝ).sub ⟨1, 0, 0⟩)) := by
  have h1 : (BlobTreeNode.Point (⟨0, 0, 0⟩ : Vector ℝ) 2 0.5).Intensity ⟨0, 0, 0⟩ = 1 := by
    norm_num [BlobTreeNode.Intensity, BlobTreePoint.Intensity, BlobTreePoint.box, Box.Inside,
      Vector.gt, Vector.lt, Vector.sub, Vector.add, Vector.dot, CubicFalloff]
  have h2 : (BlobTreeNode.Point (⟨0, 0, 0⟩ : Vector ℝ) 2 0.5).Intensity ⟨1, 0, 0⟩ = 27 / 64 := by
    norm_num [BlobTreeNode.Intensity, BlobTreePoint.Intensity, BlobTreePoint.box, Box.Inside,
      Vector.gt, Vector.lt, Vector.sub, Vector.add, Vector.dot, CubicFalloff]
  have h3 : (BlobTreeNode.Point (⟨0, 0, 0⟩ : Vector ℝ) 2 0.5).K = 43 / 100 := by
    norm_num [BlobTreeNode.K, CubicFalloffK, abs_of_pos]
  have h4 : Norm Real.sqrt ((⟨0, 0, 0⟩ : Vector ℝ).sub ⟨1, 0, 0⟩) = 1 := by
    simp [Norm, Vector.sub]
  rw [h1, h2, h3, h4]
  norm_num [abs_of_pos]

/-- Claim C8, evaluated on the code: `BlobTreePoint::Intensity` returns the same
value for every energy, and at the centre of `Point((0,0,0), r = 1, e = 2)` it
returns `1`, where `e * g(0) = 2`. -/
theorem BlobTreePoint_Intensity_ignores_energy [LinearOrderedField α] :
    (∀ (c : Vector α) (r e e' : α) (p : Vector α),
      BlobTreePoint.Intensity c r e p = BlobTreePoint.Intensity c r e' p) ∧
    BlobTreePoint.Intensity (⟨0, 0, 0⟩ : Vector α) 1 2 ⟨0, 0, 0⟩ = 1 := by
  refine ⟨fun c r e e' p => rfl, ?_⟩
  norm_num [BlobTreePoint.Intensity, BlobTreePoint.box, Box.Inside,
    Vector.gt, Vector.lt, Vector.sub, Vector.add, Vector.dot, CubicFalloff]

/-- Claim C11: a blend node of children `e1` and `e2` has the box
`Box(e1.box, e2.box)`, whose corners are coordinate by coordinate the minimum of
the lower corners and the maximum of the upper corners, and `K()` equal to
`e1.K() + e2.K()`.  Consequently, for a non-empty list of centres, the root box
of `OptimizeHierarchy(centers, r)` has in every coordinate `i` the lower corner
`min_c (c_i - r)` and the upper corner `max_c (c_i + r)` (a bound of all
centres that one of them attains), and is the union of the leaf boxes in the
same sense. -/
theorem BlobTreeBlend_box_union_and_K_sum [LinearOrderedField α]
    (P : StdPartition (BlobTreeNode α)) (centers : List (Vector α)) (r : α)
    (hne : centers ≠ []) :
    (∀ e1 e2 : BlobTreeNode α,
      (BlobTreeNode.Blend e1 e2).GetBox = Box.ofBoxes e1.GetBox e2.GetBox ∧
      (∀ i : Nat,
        (BlobTreeNode.Blend e1 e2).GetBox.a.get i
          = min (e1.GetBox.a.get i) (e2.GetBox.a.get i) ∧
        (BlobTreeNode.Blend e1 e2).GetBox.b.get i
          = max (e1.GetBox.b.get i) (e2.GetBox.b.get i)) ∧
      (BlobTreeNode.Blend e1 e2).K = e1.K + e2.K) ∧
    ∃ root, OptimizeHierarchy P centers r = some root ∧ ∀ i : Nat,
      ((∀ c ∈ centers, root.GetBox.a.get i ≤ c.get i - r) ∧
        (∃ c ∈ centers, root.GetBox.a.get i = c.get i - r) ∧
        (∀ c ∈ centers, c.get i + r ≤ root.GetBox.b.get i) ∧
        (∃ c ∈ centers, root.GetBox.b.get i = c.get i + r)) ∧
      ((∀ l ∈ root.leaves, root.GetBox.a.get i ≤ l.GetBox.a.get i) ∧
        (∃ l ∈ root.leaves, root.GetBox.a.get i = l.GetBox.a.get i) ∧
        (∀ l ∈ root.leaves, l.GetBox.b.get i ≤ root.GetBox.b.get i) ∧
        (∃ l ∈ root.leaves, root.GetBox.b.get i = l.GetBox.b.get i)) := by
  refine ⟨fun e1 e2 => ⟨rfl, fun i => ⟨?_, ?_⟩, rfl⟩, ?_⟩
  · show (Vector.Min e1.GetBox.a e2.GetBox.a).get i = _
    exact Vector.get_Min _ _ i
  · show (Vector.Max e1.GetBox.b e2.GetBox.b).get i = _
    exact Vector.get_Max _ _ i
  · obtain ⟨root, h, hb⟩ := OptimizeHierarchy_root_box P centers r hne
    exact ⟨root, h, fun i => ⟨hb i, BlobTreeNode.GetBox_least root i⟩⟩

/-- Claim C11 at the centres `(0,0,0)` and `(3,1,0)` with radius `1` and the
order-preserving partition. -/
theorem BlobTreeBlend_box_union_and_K_sum_witness :
    ([⟨0, 0, 0⟩, ⟨3, 1, 0⟩] : List (Vector ℚ)) ≠ [] ∧
    ∃ root, OptimizeHierarchy (StdPartition.stable (BlobTreeNode ℚ))
        [⟨0, 0, 0⟩, ⟨3, 1, 0⟩] 1 = some root ∧ ∀ i : Nat,
      ((∀ c ∈ ([⟨0, 0, 0⟩, ⟨3, 1, 0⟩] : List (Vector ℚ)), root.GetBox.a.get i ≤ c.get i - 1) ∧
        (∃ c ∈ ([⟨0, 0, 0⟩, ⟨3, 1, 0⟩] : List (Vector ℚ)), root.GetBox.a.get i = c.get i - 1) ∧
        (∀ c ∈ ([⟨0, 0, 0⟩, ⟨3, 1, 0⟩] : List (Vector ℚ)), c.get i + 1 ≤ root.GetBox.b.get i) ∧
        (∃ c ∈ ([⟨0, 0, 0⟩, ⟨3, 1, 0⟩] : List (Vector ℚ)), root.GetBox.b.get i = c.get i + 1)) ∧
      ((∀ l ∈ root.leaves, root.GetBox.a.get i ≤ l.GetBox.a.get i) ∧
        (∃ l ∈ root.leaves, root.GetBox.a.get i = l.GetBox.a.get i) ∧
        (∀ l ∈ root.leaves, l.GetBox.b.get i ≤ root.GetBox.b.get i) ∧
        (∃ l ∈ root.leaves, root.GetBox.b.get i = l.GetBox.b.get i)) :=
  ⟨by simp, (BlobTreeBlend_box_union_and_K_sum (StdPartition.stable (BlobTreeNode ℚ))
    [⟨0, 0, 0⟩, ⟨3, 1, 0⟩] 1 (by simp)).2⟩

/-- Claim C12 fails as stated: on `Point((0,0,0), 2, 1)` and the ray from
`(0,-10,0)` along `(0,1,0)`, `SphereTrace` with `k = tree.K() = 0.86` reports a
hit whose `t` is not within `ε` of `8`.  The surface is where
`tree.Intensity`, the falloff less `0.5`, changes sign: about `0.908` from the
centre, not at the radius `2`. -/
theorem SphereTrace_single_primitive_hit_not_at_radius :
    BlobTree.K ⟨some (BlobTreeNode.Point (⟨0, 0, 0⟩ : Vector ℝ) 2 1)⟩ = some (43 / 50) ∧
    ∃ t s, SphereTrace 4001 ⟨some (BlobTreeNode.Point (⟨0, 0, 0⟩ : Vector ℝ) 2 1)⟩
      ⟨⟨0, -10, 0⟩, ⟨0, 1, 0⟩⟩ 0 0 (43 / 50) = some (true, t, s) ∧ ¬ |t - 8| ≤ Epsilon := by
  refine ⟨by simp only [BlobTree.K, Option.map_some', witness_K], ?_⟩
  obtain ⟨t, s, h, h1, -⟩ := SphereTrace_witness_run 4001 (by norm_num) 0 0
  refine ⟨t, s, h, ?_⟩
  intro habs
  have := (abs_le.mp habs).2
  unfold Epsilon at this
  norm_num at this h1
  linarith

/-- Claim C12, amended: on `Point((0,0,0), 2, 1)` and the ray from `(0,-10,0)`
along `(0,1,0)`, with `k = tree.K() = 0.86` and more than 4000 passes allowed,
each of the three marchers reports a hit; `t` is within `ε` of `9.092` for
`SphereTrace` and `SegmentTrace`, and between `9.147` and `9.148` for
`EnhancedSphereTrace`. -/
theorem marchers_single_primitive_hit (fuel : Nat) (hfuel : 4000 < fuel) (t0 : ℝ) (s0 : Int) :
    BlobTree.K ⟨some (BlobTreeNode.Point (⟨0, 0, 0⟩ : Vector ℝ) 2 1)⟩ = some (43 / 50) ∧
    (∃ t s, SphereTrace fuel ⟨some (BlobTreeNode.Point (⟨0, 0, 0⟩ : Vector ℝ) 2 1)⟩
      ⟨⟨0, -10, 0⟩, ⟨0, 1, 0⟩⟩ t0 s0 (43 / 50) = some (true, t, s) ∧
        |t - 9.092| ≤ Epsilon) ∧
    (∃ t s, EnhancedSphereTrace fuel ⟨some (BlobTreeNode.Point (⟨0, 0, 0⟩ : Vector ℝ) 2 1)⟩
      ⟨⟨0, -10, 0⟩, ⟨0, 1, 0⟩⟩ t0 s0 (43 / 50) = some (true, t, s) ∧
        9.147 < t ∧ t < 9.148) ∧
    (∃ t s, SegmentTrace Real.sqrt fuel
      ⟨some (BlobTreeNode.Point (⟨0, 0, 0⟩ : Vector ℝ) 2 1)⟩
      ⟨⟨0, -10, 0⟩, ⟨0, 1, 0⟩⟩ t0 s0 = some (true, t, s) ∧ |t - 9.092| ≤ Epsilon) := by
  have he : (Epsilon : ℝ) = 0.001 := by unfold Epsilon; norm_num
  refine ⟨by simp only [BlobTree.K, Option.map_some', witness_K], ?_, ?_, ?_⟩
  · obtain ⟨t, s, h, h1, h2⟩ := SphereTrace_witness_run fuel hfuel t0 s0
    refine ⟨t, s, h, ?_⟩
    rw [abs_le, he]
    norm_num at h1 h2 ⊢
    constructor <;> linarith
  · exact ⟨_, _, EnhancedSphereTrace_witness_run fuel (by omega) t0 s0, by norm_num,
      by norm_num⟩
  · obtain ⟨t, s, h, h1, h2⟩ := SegmentTrace_witness_run fuel hfuel t0 s0
    refine ⟨t, s, h, ?_⟩
    rw [abs_le, he]
    norm_num at h1 h2 ⊢
    constructor <;> linarith

/-- The amended claim C12 with 4001 passes allowed and the outputs started at `0`. -/
theorem marchers_single_primitive_hit_witness :
    4000 < 4001 ∧
    BlobTree.K ⟨some (BlobTreeNode.Point (⟨0, 0, 0⟩ : Vector ℝ) 2 1)⟩ = some (43 / 50) ∧
    (∃ t s, SphereTrace 4001 ⟨some (BlobTreeNode.Point (⟨0, 0, 0⟩ : Vector ℝ) 2 1)⟩
      ⟨⟨0, -10, 0⟩, ⟨0, 1, 0⟩⟩ 0 0 (43 / 50) = some (true, t, s) ∧
        |t - 9.092| ≤ Epsilon) ∧
    (∃ t s, EnhancedSphereTrace 4001 ⟨some (BlobTreeNode.Point (⟨0, 0, 0⟩ : Vector ℝ) 2 1)⟩
      ⟨⟨0, -10, 0⟩, ⟨0, 1, 0⟩⟩ 0 0 (43 / 50) = some (true, t, s) ∧
        9.147 < t ∧ t < 9.148) ∧
    (∃ t s, SegmentTrace Real.sqrt 4001
      ⟨some (BlobTreeNode.Point (⟨0, 0, 0⟩ : Vector ℝ) 2 1)⟩
      ⟨⟨0, -10, 0⟩, ⟨0, 1, 0⟩⟩ 0 0 = some (true, t, s) ∧ |t - 9.092| ≤ Epsilon) :=
  ⟨by decide, marchers_single_primitive_hit 4001 (by decide) 0 0⟩

/-- Claim C13 fails as stated, on its own witness: on `Point((0,0,0), 2, 1)`
and the ray from `(0,-10,0)` along `(0,1,0)`, with `k = tree.K() = 0.86`,
`SphereTrace` and `EnhancedSphereTrace` both report a hit, and the two hit
parameters differ by more than `2 ε`. -/
theorem SphereTrace_EnhancedSphereTrace_disagree :
    ∃ t1 s1 t2 s2,
      SphereTrace 4001 ⟨some (BlobTreeNode.Point (⟨0, 0, 0⟩ : Vector ℝ) 2 1)⟩
        ⟨⟨0, -10, 0⟩, ⟨0, 1, 0⟩⟩ 0 0 (43 / 50) = some (true, t1, s1) ∧
      EnhancedSphereTrace 4001 ⟨some (BlobTreeNode.Point (⟨0, 0, 0⟩ : Vector ℝ) 2 1)⟩
        ⟨⟨0, -10, 0⟩, ⟨0, 1, 0⟩⟩ 0 0 (43 / 50) = some (true, t2, s2) ∧
      ¬ |t1 - t2| ≤ 2 * Epsilon := by
  obtain ⟨t, s, h, -, h2⟩ := SphereTrace_witness_run 4001 (by norm_num) 0 0
  refine ⟨t, s, _, _, h, EnhancedSphereTrace_witness_run 4001 (by norm_num) 0 0, ?_⟩
  intro habs
  have := (abs_le.mp habs).1
  unfold Epsilon at this
  norm_num at this h2
  linarith

/-- Claim C13, amended.  For every tree whose primitives have positive radius
and unit energy and every ray with unit direction along which the field of the
tree is that of one primitive `Point(c, r, 1)`, with `[a, b]` the interval of
the ray in the root box and more than `⌈(b - a) / ε⌉` passes allowed, and such
that `tree.K(s)` is NaN on no probe segment of positive length of the run of
`SegmentTrace` (no such probe ends at the centre of a primitive whose box test
it passes): `SphereTrace` with `k = tree.K()` and `SegmentTrace` both return,
and when both report a hit the two hit parameters differ by at most `ε`, hence
by at most `2 ε`.  `EnhancedSphereTrace` is not within that distance: on
`Point((0,0,0), 2, 1)` and the ray from `(0,-10,0)` along `(0,1,0)` all three
marchers report a hit, `SphereTrace` and `SegmentTrace` within `2 ε` of each
other and `EnhancedSphereTrace` more than `0.05` further along the ray. -/
theorem SphereTrace_SegmentTrace_agreement (root : BlobTreeNode ℝ)
    (hpos : root.PositiveRadii) (hunit : root.UnitEnergy) (ray : Ray ℝ)
    (hd : Norm Real.sqrt ray.d = 1) (c : Vector ℝ) (r : ℝ) (hr : 0 < r)
    (hone : ∀ t, root.Intensity (ray.eval t) = BlobTreePoint.Intensity c r 1 (ray.eval t))
    (a b : ℝ) (hbox : root.GetBox.IntersectRay ray 1e-3 = (1, a, b))
    (hfree : ∀ n st, marchStates (SegmentTrace.pass Real.sqrt ⟨some root⟩ ray)
        SegmentTrace.State.t b n ⟨a, 0, b - a, 0⟩ = some st →
      root.KSegNaN Real.sqrt ⟨ray.eval st.t, ray.eval (st.t + st.ts)⟩ = false ∨ st.ts = 0)
    (fuel : Nat) (hfuel : ⌈(b - a) / Epsilon⌉₊ < fuel) (fuel0 : Nat) (hfuel0 : 4000 < fuel0)
    (t0 : ℝ) (s0 : Int) :
    (∃ k r1 r2, BlobTree.K ⟨some root⟩ = some k ∧
      SphereTrace fuel ⟨some root⟩ ray t0 s0 k = some r1 ∧
      SegmentTrace Real.sqrt fuel ⟨some root⟩ ray t0 s0 = some r2 ∧
      (r1.1 = true → r2.1 = true →
        |r1.2.1 - r2.2.1| ≤ Epsilon ∧ |r1.2.1 - r2.2.1| ≤ 2 * Epsilon)) ∧
    (∃ t1 s1 t2 s2 t3 s3,
      SphereTrace fuel0 ⟨some (BlobTreeNode.Point (⟨0, 0, 0⟩ : Vector ℝ) 2 1)⟩
        ⟨⟨0, -10, 0⟩, ⟨0, 1, 0⟩⟩ t0 s0 (43 / 50) = some (true, t1, s1) ∧
      EnhancedSphereTrace fuel0 ⟨some (BlobTreeNode.Point (⟨0, 0, 0⟩ : Vector ℝ) 2 1)⟩
        ⟨⟨0, -10, 0⟩, ⟨0, 1, 0⟩⟩ t0 s0 (43 / 50) = some (true, t2, s2) ∧
      SegmentTrace Real.sqrt fuel0 ⟨some (BlobTreeNode.Point (⟨0, 0, 0⟩ : Vector ℝ) 2 1)⟩
        ⟨⟨0, -10, 0⟩, ⟨0, 1, 0⟩⟩ t0 s0 = some (true, t3, s3) ∧
      |t1 - t3| ≤ 2 * Epsilon ∧ 0.05 < t2 - t1 ∧ 0.05 < t2 - t3) := by
  have he : (Epsilon : ℝ) = 0.001 := by unfold Epsilon; norm_num
  constructor
  · obtain ⟨r1, r2, h1, h2, h⟩ := sphere_and_segment_hits_close root hpos hunit ray hd c r hr
      hone a b hbox hfree fuel hfuel t0 t0 s0 s0
    refine ⟨root.K, r1, r2, rfl, h1, h2, fun hb1 hb2 => ⟨h hb1 hb2, ?_⟩⟩
    have := h hb1 hb2
    rw [he] at this ⊢
    linarith
  · obtain ⟨t1, s1, h1, l1, u1⟩ := SphereTrace_witness_run fuel0 hfuel0 t0 s0
    obtain ⟨t3, s3, h3, l3, u3⟩ := SegmentTrace_witness_run fuel0 hfuel0 t0 s0
    refine ⟨t1, s1, _, _, t3, s3, h1, EnhancedSphereTrace_witness_run fuel0 (by omega) t0 s0,
      h3, ?_, ?_, ?_⟩
    · rw [abs_le, he]
      norm_num at l1 u1 l3 u3 ⊢
      constructor <;> linarith
    · norm_num at u1 ⊢
      linarith
    · norm_num at u3 ⊢
      linarith

/-- The amended claim C13 at `Point((0,0,0), 2, 1)` and the ray from
`(0,-10,0)` along `(0,1,0)`, whose interval in the root box is `[8, 12]`, with
4001 passes allowed. -/
theorem SphereTrace_SegmentTrace_agreement_witness :
    (BlobTreeNode.Point (⟨0, 0, 0⟩ : Vector ℝ) 2 1).PositiveRadii ∧
    (BlobTreeNode.Point (⟨0, 0, 0⟩ : Vector ℝ) 2 1).UnitEnergy ∧
    Norm Real.sqrt (⟨0, 1, 0⟩ : Vector ℝ) = 1 ∧ (0 : ℝ) < 2 ∧
    (BlobTreeNode.Point (⟨0, 0, 0⟩ : Vector ℝ) 2 1).GetBox.IntersectRay
      ⟨⟨0, -10, 0⟩, ⟨0, 1, 0⟩⟩ 1e-3 = (1, 8, 12) ∧
    (∀ n st, marchStates (SegmentTrace.pass Real.sqrt
          ⟨some (BlobTreeNode.Point (⟨0, 0, 0⟩ : Vector ℝ) 2 1)⟩ ⟨⟨0, -10, 0⟩, ⟨0, 1, 0⟩⟩)
        SegmentTrace.State.t 12 n ⟨8, 0, 12 - 8, 0⟩ = some st →
      (BlobTreeNode.Point (⟨0, 0, 0⟩ : Vector ℝ) 2 1).KSegNaN Real.sqrt
        ⟨Ray.eval ⟨⟨0, -10, 0⟩, ⟨0, 1, 0⟩⟩ st.t,
          Ray.eval ⟨⟨0, -10, 0⟩, ⟨0, 1, 0⟩⟩ (st.t + st.ts)⟩ = false ∨ st.ts = 0) ∧
    ⌈((12 : ℝ) - 8) / Epsilon⌉₊ < 4001 ∧
    ∃ k r1 r2, BlobTree.K ⟨some (BlobTreeNode.Point (⟨0, 0, 0⟩ : Vector ℝ) 2 1)⟩ = some k ∧
      SphereTrace 4001 ⟨some (BlobTreeNode.Point (⟨0, 0, 0⟩ : Vector ℝ) 2 1)⟩
        ⟨⟨0, -10, 0⟩, ⟨0, 1, 0⟩⟩ 0 0 k = some r1 ∧
      SegmentTrace Real.sqrt 4001 ⟨some (BlobTreeNode.Point (⟨0, 0, 0⟩ : Vector ℝ) 2 1)⟩
        ⟨⟨0, -10, 0⟩, ⟨0, 1, 0⟩⟩ 0 0 = some r2 ∧
      (r1.1 = true → r2.1 = true →
        |r1.2.1 - r2.2.1| ≤ Epsilon ∧ |r1.2.1 - r2.2.1| ≤ 2 * Epsilon) :=
  ⟨by simp [BlobTreeNode.PositiveRadii], by simp [BlobTreeNode.UnitEnergy], witness_dir,
    by norm_num, witness_box, witness_free, Nat.lt_succ_of_le witness_fuel,
    (SphereTrace_SegmentTrace_agreement (BlobTreeNode.Point (⟨0, 0, 0⟩ : Vector ℝ) 2 1)
      (by simp [BlobTreeNode.PositiveRadii]) (by simp [BlobTreeNode.UnitEnergy])
      ⟨⟨0, -10, 0⟩, ⟨0, 1, 0⟩⟩ witness_dir ⟨0, 0, 0⟩ 2 (by norm_num) (fun _ => rfl) 8 12
      witness_box witness_free 4001 (Nat.lt_succ_of_le witness_fuel) 4001 (by decide) 0 0).1⟩

/-- Claim C14: for each of `SphereTrace`, `EnhancedSphereTrace` and
`SegmentTrace`, when `Box::Intersect` of the ray with the root box returns `0`
the marcher returns `false` with the output parameters `t` and `s` as they were
passed in.  This holds with any number of passes allowed, zero included: the
loop body, the only place where the field is evaluated, is not entered.  In
particular, for `Point((0,0,0), 2, 1)` the ray from `(10,-10,0)` along
`(0,1,0)` is a miss for the three marchers. -/
theorem marchers_miss_outside_root_box [LinearOrderedField α] (sqrt : α → α) (fuel : Nat)
    (root : BlobTreeNode α) (ray : Ray α) (t : α) (s : Int) (k : α)
    (hmiss : (root.GetBox.IntersectRay ray 1e-3).1 = 0) :
    (SphereTrace fuel ⟨some root⟩ ray t s k = some (false, t, s) ∧
      EnhancedSphereTrace fuel ⟨some root⟩ ray t s k = some (false, t, s) ∧
      SegmentTrace sqrt fuel ⟨some root⟩ ray t s = some (false, t, s)) ∧
    (SphereTrace 0 ⟨some root⟩ ray t s k = some (false, t, s) ∧
      EnhancedSphereTrace 0 ⟨some root⟩ ray t s k = some (false, t, s) ∧
      SegmentTrace sqrt 0 ⟨some root⟩ ray t s = some (false, t, s)) ∧
    ((BlobTreeNode.Point (⟨0, 0, 0⟩ : Vector α) 2 1).GetBox.IntersectRay
        ⟨⟨10, -10, 0⟩, ⟨0, 1, 0⟩⟩ 1e-3).1 = 0 ∧
    (SphereTrace fuel ⟨some (BlobTreeNode.Point (⟨0, 0, 0⟩ : Vector α) 2 1)⟩
        ⟨⟨10, -10, 0⟩, ⟨0, 1, 0⟩⟩ t s k = some (false, t, s) ∧
      EnhancedSphereTrace fuel ⟨some (BlobTreeNode.Point (⟨0, 0, 0⟩ : Vector α) 2 1)⟩
        ⟨⟨10, -10, 0⟩, ⟨0, 1, 0⟩⟩ t s k = some (false, t, s) ∧
      SegmentTrace sqrt fuel ⟨some (BlobTreeNode.Point (⟨0, 0, 0⟩ : Vector α) 2 1)⟩
        ⟨⟨10, -10, 0⟩, ⟨0, 1, 0⟩⟩ t s = some (false, t, s)) := by
  have key : ∀ (fuel : Nat) (root : BlobTreeNode α) (ray : Ray α),
      (root.GetBox.IntersectRay ray 1e-3).1 = 0 →
      SphereTrace fuel ⟨some root⟩ ray t s k = some (false, t, s) ∧
      EnhancedSphereTrace fuel ⟨some root⟩ ray t s k = some (false, t, s) ∧
      SegmentTrace sqrt fuel ⟨some root⟩ ray t s = some (false, t, s) := by
    intro fuel root ray h
    simp [SphereTrace, EnhancedSphereTrace, SegmentTrace, BlobTree.GetBox, h]
  have h0 : ((BlobTreeNode.Point (⟨0, 0, 0⟩ : Vector α) 2 1).GetBox.IntersectRay
      ⟨⟨10, -10, 0⟩, ⟨0, 1, 0⟩⟩ 1e-3).1 = 0 := by
    norm_num [BlobTreeNode.GetBox, BlobTreePoint.box, Box.IntersectRay, Box.IntersectAxis,
      Vector.get, Vector.sub, Vector.add]
  exact ⟨key fuel root ray hmiss, key 0 root ray hmiss, h0, key fuel _ _ h0⟩

/-- Claim C14 at `Point((0,0,0), 2, 1)` and the ray from `(10,-10,0)` along
`(0,1,0)`, with the outputs started at `t = 7`, `s = 3`. -/
theorem marchers_miss_outside_root_box_witness :
    ((BlobTreeNode.Point (⟨0, 0, 0⟩ : Vector ℝ) 2 1).GetBox.IntersectRay
        ⟨⟨10, -10, 0⟩, ⟨0, 1, 0⟩⟩ 1e-3).1 = 0 ∧
    SphereTrace 5 ⟨some (BlobTreeNode.Point (⟨0, 0, 0⟩ : Vector ℝ) 2 1)⟩
        ⟨⟨10, -10, 0⟩, ⟨0, 1, 0⟩⟩ 7 3 (43 / 50) = some (false, 7, 3) ∧
    EnhancedSphereTrace 5 ⟨some (BlobTreeNode.Point (⟨0, 0, 0⟩ : Vector ℝ) 2 1)⟩
        ⟨⟨10, -10, 0⟩, ⟨0, 1, 0⟩⟩ 7 3 (43 / 50) = some (false, 7, 3) ∧
    SegmentTrace Real.sqrt 5 ⟨some (BlobTreeNode.Point (⟨0, 0, 0⟩ : Vector ℝ) 2 1)⟩
        ⟨⟨10, -10, 0⟩, ⟨0, 1, 0⟩⟩ 7 3 = some (false, 7, 3) := by
  have h0 : ((BlobTreeNode.Point (⟨0, 0, 0⟩ : Vector ℝ) 2 1).GetBox.IntersectRay
      ⟨⟨10, -10, 0⟩, ⟨0, 1, 0⟩⟩ 1e-3).1 = 0 := by
    norm_num [BlobTreeNode.GetBox, BlobTreePoint.box, Box.IntersectRay, Box.IntersectAxis,
      Vector.get, Vector.sub, Vector.add]
  exact ⟨h0, (marchers_miss_outside_root_box Real.sqrt 5 _ _ 7 3 (43 / 50) h0).1⟩

/-- Claim C15 on the code.  For every tree whose primitives have a positive
radius and a non-zero energy (a tree has at least one leaf) and every
non-degenerate segment `s` (`s.a ≠ s.b`) all of whose points
`Lerp(s.a, s.b, σ)`, `0 ≤ σ ≤ 1`, are outside the box of every leaf
(`Box::Inside` is false), `tree.K(s)` is not NaN and is `0`, while
`tree.K() > 0`.  The restriction to non-degenerate segments cannot be dropped:
for `Point((0,0,0), 1, 1)` and the segment from `(1.5,0,0)` to `(1.5,0,0)`,
which is outside the box and passes the box test of `BlobTreePoint::K(s)`,
`K(s)` is NaN. -/
theorem BlobTree_KSeg_zero_outside_leaf_boxes (root : BlobTreeNode ℝ)
    (hpos : root.PositiveRadii) (hne : root.EnergyNonzero) (s : Segment ℝ) (hs : s.a ≠ s.b)
    (hout : ∀ σ : ℝ, 0 ≤ σ → σ ≤ 1 →
      ∀ l ∈ root.leaves, l.GetBox.Inside (Lerp s.a s.b σ) = false) :
    (1 ≤ root.leaves.length ∧
      BlobTree.KSegNaN Real.sqrt ⟨some root⟩ s = some false ∧
      BlobTree.KSeg Real.sqrt ⟨some root⟩ s = some 0 ∧
      ∃ k, BlobTree.K ⟨some root⟩ = some k ∧ 0 < k) ∧
    ((∀ σ : ℝ, 0 ≤ σ → σ ≤ 1 → (BlobTreeNode.Point (⟨0, 0, 0⟩ : Vector ℝ) 1 1).GetBox.Inside
        (Lerp ⟨3 / 2, 0, 0⟩ ⟨3 / 2, 0, 0⟩ σ) = false) ∧
      BlobTree.KSegNaN Real.sqrt ⟨some (BlobTreeNode.Point (⟨0, 0, 0⟩ : Vector ℝ) 1 1)⟩
        ⟨⟨3 / 2, 0, 0⟩, ⟨3 / 2, 0, 0⟩⟩ = some true) := by
  constructor
  · refine ⟨?_, ?_, ?_, root.K, rfl, BlobTreeNode.K_pos root hpos hne⟩
    · have := BlobTreeNode.leaves_length root
      omega
    · simp only [BlobTree.KSegNaN, Option.map_some']
      rw [BlobTreeNode.KSegNaN_of_outside root hpos s hs hout]
    · simp only [BlobTree.KSeg, Option.map_some']
      rw [BlobTreeNode.KSeg_eq_zero_of_outside root hpos s hout]
  · constructor
    · intro σ _ _
      simp only [BlobTreeNode.GetBox, BlobTreePoint.box, Box.Inside, Vector.gt, Vector.lt, Lerp,
        Vector.sub, Vector.add, Vector.mul, Bool.and_eq_false_imp, Bool.and_eq_true,
        decide_eq_true_eq, decide_eq_false_iff_not, not_lt]
      intro _ h
      linarith
    · simp only [BlobTree.KSegNaN, Option.map_some', Option.some.injEq, BlobTreeNode.KSegNaN]
      rw [BlobTreePoint.KNaN_iff]
      refine ⟨?_, Or.inl rfl⟩
      norm_num [Segment.Intersect, BlobTreePoint.box, Box.Diagonal, Box.Center, Vector.get,
        Vector.sub, Vector.add, Vector.mul, abs_of_pos, abs_of_neg]

/-- Claim C15 on the code at `Point((0,0,0), 2, 1)` and the segment from
`(5,0,0)` to `(6,0,0)`. -/
theorem BlobTree_KSeg_zero_outside_leaf_boxes_witness :
    (BlobTreeNode.Point (⟨0, 0, 0⟩ : Vector ℝ) 2 1).PositiveRadii ∧
    (BlobTreeNode.Point (⟨0, 0, 0⟩ : Vector ℝ) 2 1).EnergyNonzero ∧
    (⟨5, 0, 0⟩ : Vector ℝ) ≠ ⟨6, 0, 0⟩ ∧
    (∀ σ : ℝ, 0 ≤ σ → σ ≤ 1 → ∀ l ∈ (BlobTreeNode.Point (⟨0, 0, 0⟩ : Vector ℝ) 2 1).leaves,
      l.GetBox.Inside (Lerp (⟨5, 0, 0⟩ : Vector ℝ) ⟨6, 0, 0⟩ σ) = false) ∧
    BlobTree.KSegNaN Real.sqrt ⟨some (BlobTreeNode.Point (⟨0, 0, 0⟩ : Vector ℝ) 2 1)⟩
      ⟨⟨5, 0, 0⟩, ⟨6, 0, 0⟩⟩ = some false ∧
    BlobTree.KSeg Real.sqrt ⟨some (BlobTreeNode.Point (⟨0, 0, 0⟩ : Vector ℝ) 2 1)⟩
      ⟨⟨5, 0, 0⟩, ⟨6, 0, 0⟩⟩ = some 0 ∧
    ∃ k, BlobTree.K ⟨some (BlobTreeNode.Point (⟨0, 0, 0⟩ : Vector ℝ) 2 1)⟩ = some k ∧ 0 < k := by
  have hp : (BlobTreeNode.Point (⟨0, 0, 0⟩ : Vector ℝ) 2 1).PositiveRadii := by
    simp [BlobTreeNode.PositiveRadii]
  have hn : (BlobTreeNode.Point (⟨0, 0, 0⟩ : Vector ℝ) 2 1).EnergyNonzero := by
    simp [BlobTreeNode.EnergyNonzero]
  have hs : (⟨5, 0, 0⟩ : Vector ℝ) ≠ ⟨6, 0, 0⟩ := by
    intro h
    simp only [Vector.mk.injEq] at h
    norm_num at h
  have ho : ∀ σ : ℝ, 0 ≤ σ → σ ≤ 1 →
      ∀ l ∈ (BlobTreeNode.Point (⟨0, 0, 0⟩ : Vector ℝ) 2 1).leaves,
      l.GetBox.Inside (Lerp (⟨5, 0, 0⟩ : Vector ℝ) ⟨6, 0, 0⟩ σ) = false := by
    intro σ h0 _ l hl
    simp only [BlobTreeNode.leaves, List.mem_singleton] at hl
    subst hl
    simp only [BlobTreeNode.GetBox, BlobTreePoint.box, Box.Inside, Vector.gt, Vector.lt, Lerp,
      Vector.sub, Vector.add, Vector.mul, Bool.and_eq_false_imp, Bool.and_eq_true,
      decide_eq_true_eq, decide_eq_false_iff_not, not_lt]
    intro _ h
    linarith
  exact ⟨hp, hn, hs, ho,
    (BlobTree_KSeg_zero_outside_leaf_boxes _ hp hn ⟨⟨5, 0, 0⟩, ⟨6, 0, 0⟩⟩ hs ho).1.2⟩

/-- Claim C16: `SphereTrace` terminates for every tree, ray and `k > 0`.  With
`[a, b]` the interval of the ray in the root box: a pass of the loop either
returns a hit or advances `t` by `max(|I| / k, ε)`, which is at least
`ε = 1e-3 > 0`; and with more than `⌈(b - a) / ε⌉` passes allowed the function
returns, with a sample count `s ≤ ⌈(b - a) / ε⌉`. -/
theorem SphereTrace_terminates (root : BlobTreeNode ℝ) (ray : Ray ℝ) (k : ℝ) (hk : 0 < k)
    (t0 : ℝ) (s0 : Int) (a b : ℝ) (hbox : root.GetBox.IntersectRay ray 1e-3 = (1, a, b)) :
    (∀ (st : SphereTrace.State ℝ) (out : Pass (SphereTrace.State ℝ) ℝ),
      SphereTrace.pass ⟨some root⟩ ray k st = some out →
        out = Pass.hit st.t (st.s + 1) ∨
        ∃ I, BlobTree.Intensity ⟨some root⟩ (ray.eval st.t) = some I ∧
          out = Pass.advance ⟨st.t + Math.Max (|I| / k) Epsilon, st.s + 1⟩ ∧
          Epsilon ≤ Math.Max (|I| / k) Epsilon ∧ (0 : ℝ) < Epsilon) ∧
    (∀ fuel : Nat, ⌈(b - a) / Epsilon⌉₊ < fuel →
      ∃ res, SphereTrace fuel ⟨some root⟩ ray t0 s0 k = some res ∧
        res.2.2 ≤ ⌈(b - a) / Epsilon⌉) := by
  have _ := hk
  constructor
  · intro st out h
    rw [SphereTrace_pass_eq] at h
    split_ifs at h with hpos
    · left; simp only [Option.some.injEq] at h; rw [← h]
    · right
      refine ⟨_, rfl, ?_, Epsilon_le_Max _, Epsilon_pos⟩
      simp only [Option.some.injEq] at h; rw [← h]
  · intro fuel hfuel
    have hab := IntersectRay_interval _ ray a b hbox
    obtain ⟨res, hres, hs, -⟩ := SphereTrace_loop_spec root ray k b (fun _ => True)
      (fun _ _ _ _ => trivial) fuel ⟨a, 0⟩ trivial hfuel
    refine ⟨res, by rw [SphereTrace_eq_loop fuel root ray t0 s0 k a b hbox, hres], ?_⟩
    rw [← Int.natCast_ceil_eq_ceil (div_nonneg (sub_nonneg.mpr hab) Epsilon_pos.le)]
    simpa using hs


/-- Claim C16 at `Point((0,0,0), 2, 1)` and the ray from `(0,-10,0)` along
`(0,1,0)`, whose interval in the root box is `[8, 12]`, with `k = 0.86`. -/
theorem SphereTrace_terminates_witness :
    (0 : ℝ) < 43 / 50 ∧
    (BlobTreeNode.Point (⟨0, 0, 0⟩ : Vector ℝ) 2 1).GetBox.IntersectRay
      ⟨⟨0, -10, 0⟩, ⟨0, 1, 0⟩⟩ 1e-3 = (1, 8, 12) ∧
    ∀ fuel : Nat, ⌈((12 : ℝ) - 8) / Epsilon⌉₊ < fuel →
      ∃ res, SphereTrace fuel ⟨some (BlobTreeNode.Point (⟨0, 0, 0⟩ : Vector ℝ) 2 1)⟩
        ⟨⟨0, -10, 0⟩, ⟨0, 1, 0⟩⟩ 0 0 (43 / 50) = some res ∧
        res.2.2 ≤ ⌈((12 : ℝ) - 8) / Epsilon⌉ :=
  ⟨by norm_num, witness_box,
    (SphereTrace_terminates (BlobTreeNode.Point (⟨0, 0, 0⟩ : Vector ℝ) 2 1)
      ⟨⟨0, -10, 0⟩, ⟨0, 1, 0⟩⟩ (43 / 50) (by norm_num) 0 0 8 12 witness_box).2⟩

/-- Claim C17: `EnhancedSphereTrace` (overstep factor `1.25`) terminates for
every tree, ray and `k > 0`.  With `[a, b]` the interval of the ray in the root
box, at every state `st` the loop reaches after `n` passes: `a ≤ t`; and when
the pass from `st` takes the backward branch to `st1`, the pass before it took
the forward branch (from a state `st0` with `st0.t + 0.8 ε ≤ st1.t`, so the
two together move `t` forward by at least `0.8 ε`), the pass from `st1` does
not take the backward branch, and `a ≤ st1.t`.  With more than
`2 ⌈(b - a) / (0.8 ε)⌉` passes allowed the function returns, with a sample
count `s ≤ 2 ⌈(b - a) / (0.8 ε)⌉`. -/
theorem EnhancedSphereTrace_terminates (root : BlobTreeNode ℝ) (ray : Ray ℝ) (k : ℝ)
    (hk : 0 < k) (t0 : ℝ) (s0 : Int) (a b : ℝ)
    (hbox : root.GetBox.IntersectRay ray 1e-3 = (1, a, b)) :
    (∀ (n : Nat) (st : EnhancedSphereTrace.State ℝ),
      marchStates (EnhancedSphereTrace.pass ⟨some root⟩ ray k) EnhancedSphereTrace.State.t b n
        ⟨a, 0, 0⟩ = some st →
      a ≤ st.t ∧
      ∀ st1, EnhancedSphereTrace.pass ⟨some root⟩ ray k st = some (Pass.retreat st1) →
        (∃ m st0, n = m + 1 ∧
          marchStates (EnhancedSphereTrace.pass ⟨some root⟩ ray k) EnhancedSphereTrace.State.t
            b m ⟨a, 0, 0⟩ = some st0 ∧
          EnhancedSphereTrace.pass ⟨some root⟩ ray k st0 = some (Pass.advance st) ∧
          st0.t + 0.8 * Epsilon ≤ st1.t) ∧
        (∀ st2, EnhancedSphereTrace.pass ⟨some root⟩ ray k st1 ≠ some (Pass.retreat st2)) ∧
        a ≤ st1.t) ∧
    (∀ fuel : Nat, 2 * ⌈(b - a) / (0.8 * Epsilon)⌉₊ < fuel →
      ∃ res, EnhancedSphereTrace fuel ⟨some root⟩ ray t0 s0 k = some res ∧
        res.2.2 ≤ 2 * ⌈(b - a) / (0.8 * Epsilon)⌉) := by
  have hab := IntersectRay_interval _ ray a b hbox
  have he : (0 : ℝ) < 0.8 * Epsilon := by have := Epsilon_pos; linarith
  have hinv : ∀ (n : Nat) (st : EnhancedSphereTrace.State ℝ),
      marchStates (EnhancedSphereTrace.pass ⟨some root⟩ ray k) EnhancedSphereTrace.State.t b n
        ⟨a, 0, 0⟩ = some st → 0 ≤ st.te ∧ a ≤ st.t - 0.25 * st.te := by
    intro n st hst
    refine marchStates_inv (EnhancedSphereTrace.pass ⟨some root⟩ ray k)
      EnhancedSphereTrace.State.t b (fun st => 0 ≤ st.te ∧ a ≤ st.t - 0.25 * st.te)
      (fun st st1 hI _ hp => EnhancedSphereTrace.pass_inv root ray k hk a st st1 hI hp)
      n ⟨a, 0, 0⟩ st ⟨le_rfl, ?_⟩ hst
    show a ≤ a - 0.25 * 0
    norm_num
  constructor
  · intro n st hst
    obtain ⟨hte, hΦ⟩ := hinv n st hst
    refine ⟨by linarith, ?_⟩
    intro st1 hr
    have hst1 : st1 = ⟨st.t - (1.25 - 1) * st.te, st.s + 1, 0⟩ ∧ 0 < st.te := by
      rcases EnhancedSphereTrace_pass_cases root ray k hk st with
        ⟨-, hq⟩ | ⟨-, hpos, hq⟩ | ⟨-, tk, -, -, hq⟩
      · rw [hq] at hr; simp at hr
      · rw [hq] at hr
        simp only [Option.some.injEq, Pass.retreat.injEq] at hr
        exact ⟨hr.symm, hpos⟩
      · rw [hq] at hr; simp at hr
    obtain ⟨e1, hpos⟩ := hst1
    refine ⟨?_, ?_, ?_⟩
    · cases n with
      | zero =>
        simp only [marchStates, Option.some.injEq] at hst
        rw [← hst] at hpos
        exact absurd hpos (lt_irrefl _)
      | succ m =>
        obtain ⟨st0, h0, -, hp⟩ := marchStates_last _ _ _ _ _ _ hst
        refine ⟨m, st0, rfl, h0, ?_⟩
        rcases EnhancedSphereTrace_pass_cases root ray k hk st0 with
          ⟨-, hq⟩ | ⟨-, -, hq⟩ | ⟨-, tk, -, -, hq⟩
        · rw [hq] at hp; simp at hp
        · rw [hq] at hp
          simp only [Option.some.injEq, Pass.retreat.injEq, reduceCtorEq, or_false] at hp
          rw [← hp] at hpos
          exact absurd hpos (lt_irrefl _)
        · rw [hq] at hp
          simp only [Option.some.injEq, reduceCtorEq, Pass.advance.injEq, false_or] at hp
          refine ⟨by rw [hq, hp], ?_⟩
          rw [e1, ← hp]
          show st0.t + 0.8 * Epsilon
            ≤ st0.t + Math.Max (tk * 1.25) Epsilon - (1.25 - 1) * tk
          have := EnhancedSphereTrace.net_advance tk
          norm_num at this ⊢
          linarith
    · intro st2 h2
      rcases EnhancedSphereTrace_pass_cases root ray k hk st1 with
        ⟨-, hq⟩ | ⟨-, hpos1, hq⟩ | ⟨-, tk, -, -, hq⟩
      · rw [hq] at h2; simp at h2
      · rw [e1] at hpos1
        exact absurd hpos1 (lt_irrefl _)
      · rw [hq] at h2; simp at h2
    · rw [e1]
      show a ≤ st.t - (1.25 - 1) * st.te
      norm_num
      linarith
  · intro fuel hfuel
    have hm : 2 * ⌈(b - (a - 0.25 * 0)) / (0.8 * Epsilon)⌉₊
        + (if (0 : ℝ) < 0 then 1 else 0) = 2 * ⌈(b - a) / (0.8 * Epsilon)⌉₊ := by
      norm_num
    obtain ⟨res, hres, hs⟩ := EnhancedSphereTrace_loop_spec root ray k hk b fuel ⟨a, 0, 0⟩
      le_rfl (by rw [hm]; exact hfuel)
    refine ⟨res, by rw [EnhancedSphereTrace_eq_loop fuel root ray t0 s0 k a b hbox, hres], ?_⟩
    rw [← Int.natCast_ceil_eq_ceil (div_nonneg (sub_nonneg.mpr hab) he.le)]
    rw [hm] at hs
    simpa using hs

/-- Claim C17 at `Point((0,0,0), 2, 1)` and the ray from `(0,-10,0)` along
`(0,1,0)`, whose interval in the root box is `[8, 12]`, with `k = 0.86`. -/
theorem EnhancedSphereTrace_terminates_witness :
    (0 : ℝ) < 43 / 50 ∧
    (BlobTreeNode.Point (⟨0, 0, 0⟩ : Vector ℝ) 2 1).GetBox.IntersectRay
      ⟨⟨0, -10, 0⟩, ⟨0, 1, 0⟩⟩ 1e-3 = (1, 8, 12) ∧
    ∀ fuel : Nat, 2 * ⌈((12 : ℝ) - 8) / (0.8 * Epsilon)⌉₊ < fuel →
      ∃ res, EnhancedSphereTrace fuel ⟨some (BlobTreeNode.Point (⟨0, 0, 0⟩ : Vector ℝ) 2 1)⟩
        ⟨⟨0, -10, 0⟩, ⟨0, 1, 0⟩⟩ 0 0 (43 / 50) = some res ∧
        res.2.2 ≤ 2 * ⌈((12 : ℝ) - 8) / (0.8 * Epsilon)⌉ :=
  ⟨by norm_num, witness_box,
    (EnhancedSphereTrace_terminates (BlobTreeNode.Point (⟨0, 0, 0⟩ : Vector ℝ) 2 1)
      ⟨⟨0, -10, 0⟩, ⟨0, 1, 0⟩⟩ (43 / 50) (by norm_num) 0 0 8 12 witness_box).2⟩

/-- Claim C18: in `SegmentTrace` (overstep factor `1.0`) on a tree whose
primitives have positive radius, with `[a, b]` the interval of the ray in the
root box, at every state `st` the loop reaches after `n` passes: the probe
length `ts` is non-negative; the pass from `st` never takes the backward
branch; it either returns a hit or, with `tk = min(|i| / k, ts) ≥ 0` (`tk = ts`
when `k` is `0` or NaN) and `(e - 1) * te = 0`, advances `t` by
`te = max(tk * 1.0, ε) ≥ ε > 0`; and the
state after one more pass has a larger `t`, a positive `te` and a non-negative
`ts`. -/
theorem SegmentTrace_never_retreats (root : BlobTreeNode ℝ) (hpos : root.PositiveRadii)
    (ray : Ray ℝ) (a b : ℝ) (hbox : root.GetBox.IntersectRay ray 1e-3 = (1, a, b))
    (n : Nat) (st : SegmentTrace.State ℝ)
    (hst : marchStates (SegmentTrace.pass Real.sqrt ⟨some root⟩ ray) SegmentTrace.State.t b n
      ⟨a, 0, b - a, 0⟩ = some st) :
    0 ≤ st.ts ∧
    (∀ st1, SegmentTrace.pass Real.sqrt ⟨some root⟩ ray st ≠ some (Pass.retreat st1)) ∧
    (SegmentTrace.pass Real.sqrt ⟨some root⟩ ray st = some (Pass.hit st.t (st.s + 1)) ∨
      ∃ I k nan tk, BlobTree.Intensity ⟨some root⟩ (ray.eval st.t) = some I ∧
        BlobTree.KSeg Real.sqrt ⟨some root⟩ ⟨ray.eval st.t, ray.eval (st.t + st.ts)⟩ = some k ∧
        BlobTree.KSegNaN Real.sqrt ⟨some root⟩ ⟨ray.eval st.t, ray.eval (st.t + st.ts)⟩
          = some nan ∧
        tk = SegmentTrace.tk nan I k st.ts ∧ 0 ≤ tk ∧ (1.0 - 1.0) * st.te = 0 ∧
        Epsilon ≤ Math.Max (tk * 1.0) Epsilon ∧ (0 : ℝ) < Epsilon ∧
        SegmentTrace.pass Real.sqrt ⟨some root⟩ ray st = some (Pass.advance
          ⟨st.t + Math.Max (tk * 1.0) Epsilon, st.s + 1, tk * 1.5,
            Math.Max (tk * 1.0) Epsilon⟩)) ∧
    (∀ st2, marchStates (SegmentTrace.pass Real.sqrt ⟨some root⟩ ray) SegmentTrace.State.t b
        (n + 1) ⟨a, 0, b - a, 0⟩ = some st2 →
      st.t < st2.t ∧ 0 < st2.te ∧ 0 ≤ st2.ts) := by
  have hab := IntersectRay_interval _ ray a b hbox
  have hts : 0 ≤ st.ts :=
    SegmentTrace.states_ts_nonneg root hpos ray b n ⟨a, 0, b - a, 0⟩ st
      (sub_nonneg.mpr hab) hst
  have hc := SegmentTrace_pass_cases root hpos ray st hts
  refine ⟨hts, ?_, ?_, ?_⟩
  · intro st1 h
    rcases hc with ⟨-, hq⟩ | ⟨-, tk, -, -, -, -, hq⟩ <;> rw [hq] at h <;> simp at h
  · rcases hc with ⟨-, hq⟩ | ⟨-, tk, htk, h0, -, -, hq⟩
    · left; exact hq
    · right
      exact ⟨_, _, _, tk, rfl, rfl, rfl, htk, h0, by norm_num, Epsilon_le_Max _, Epsilon_pos,
        hq⟩
  · intro st2 h2
    obtain ⟨st1, h1, -, hp⟩ := marchStates_last _ _ _ _ _ _ h2
    rw [hst] at h1
    simp only [Option.some.injEq] at h1
    subst h1
    rcases hc with ⟨-, hq⟩ | ⟨-, tk, htk, h0, -, -, hq⟩
    · rw [hq] at hp; simp at hp
    · rw [hq] at hp
      simp only [Option.some.injEq, reduceCtorEq, Pass.advance.injEq, false_or] at hp
      rw [← hp]
      have := Epsilon_le_Max (tk * 1.0)
      have := Epsilon_pos
      refine ⟨?_, ?_, ?_⟩
      · show st.t < st.t + Math.Max (tk * 1.0) Epsilon
        linarith
      · show 0 < Math.Max (tk * 1.0) Epsilon
        linarith
      · show 0 ≤ tk * 1.5
        positivity

/-- Claim C18 at `Point((0,0,0), 2, 1)` and the ray from `(0,-10,0)` along
`(0,1,0)`, whose interval in the root box is `[8, 12]`, at the initial state. -/
theorem SegmentTrace_never_retreats_witness :
    (BlobTreeNode.Point (⟨0, 0, 0⟩ : Vector ℝ) 2 1).PositiveRadii ∧
    (BlobTreeNode.Point (⟨0, 0, 0⟩ : Vector ℝ) 2 1).GetBox.IntersectRay
      ⟨⟨0, -10, 0⟩, ⟨0, 1, 0⟩⟩ 1e-3 = (1, 8, 12) ∧
    marchStates (SegmentTrace.pass Real.sqrt
        ⟨some (BlobTreeNode.Point (⟨0, 0, 0⟩ : Vector ℝ) 2 1)⟩ ⟨⟨0, -10, 0⟩, ⟨0, 1, 0⟩⟩)
      SegmentTrace.State.t 12 0 ⟨8, 0, 12 - 8, 0⟩ = some ⟨8, 0, 12 - 8, 0⟩ ∧
    (0 : ℝ) ≤ 12 - 8 ∧
    ∀ st1, SegmentTrace.pass Real.sqrt
      ⟨some (BlobTreeNode.Point (⟨0, 0, 0⟩ : Vector ℝ) 2 1)⟩ ⟨⟨0, -10, 0⟩, ⟨0, 1, 0⟩⟩
      ⟨8, 0, 12 - 8, 0⟩ ≠ some (Pass.retreat st1) :=
  ⟨by simp [BlobTreeNode.PositiveRadii], witness_box, rfl,
    (SegmentTrace_never_retreats (BlobTreeNode.Point (⟨0, 0, 0⟩ : Vector ℝ) 2 1)
      (by simp [BlobTreeNode.PositiveRadii]) ⟨⟨0, -10, 0⟩, ⟨0, 1, 0⟩⟩ 8 12 witness_box 0
      ⟨8, 0, 12 - 8, 0⟩ rfl).1,
    (SegmentTrace_never_retreats (BlobTreeNode.Point (⟨0, 0, 0⟩ : Vector ℝ) 2 1)
      (by simp [BlobTreeNode.PositiveRadii]) ⟨⟨0, -10, 0⟩, ⟨0, 1, 0⟩⟩ 8 12 witness_box 0
      ⟨8, 0, 12 - 8, 0⟩ rfl).2.1⟩

/-- Claim C19 fails as stated: `OptimizeHierarchy` on the single centre
`(0,0,0)` with radius `0` returns the node `Point((0,0,0), 0, 1)`; no error is
reported and a node is produced.  Neither the constructor of `BlobTreePoint`
nor `OptimizeHierarchy` tests the radius. -/
theorem OptimizeHierarchy_zero_radius_builds_node :
    OptimizeHierarchy (StdPartition.stable (BlobTreeNode ℚ)) [⟨0, 0, 0⟩] 0
      = some (BlobTreeNode.Point ⟨0, 0, 0⟩ 0 1) := by
  simp [OptimizeHierarchy, OptimizeHierarchyRange, BVHRecursive]

/-- Claim C19, amended: a point primitive with radius `0` is built, not
rejected.  `BlobTreePoint(c, 0, e)` has the box `[c, c]` and an intensity of `0`
at every point, and `OptimizeHierarchy(centers, 0)` on a non-empty list returns
a tree whose leaves are the primitives `Point(c, 0, 1)`, one per centre, and
whose intensity is `0` at every point. -/
theorem BlobTreePoint_zero_radius_accepted [LinearOrderedField α]
    (P : StdPartition (BlobTreeNode α)) (centers : List (Vector α)) (hne : centers ≠ []) :
    (∀ (c : Vector α) (e : α),
      (BlobTreeNode.Point c 0 e).GetBox = ⟨c, c⟩ ∧
      ∀ p, (BlobTreeNode.Point c 0 e).Intensity p = 0) ∧
    ∃ root, OptimizeHierarchy P centers 0 = some root ∧
      root.leaves.Perm (centers.map (fun c => BlobTreeNode.Point c 0 1)) ∧
      ∀ p, root.Intensity p = 0 := by
  have hpt : ∀ (c : Vector α) (e : α) (p : Vector α),
      (BlobTreeNode.Point c 0 e).Intensity p = 0 := by
    intro c e p
    simp only [BlobTreeNode.Intensity, BlobTreePoint.Intensity]
    rw [if_pos]
    simp only [BlobTreePoint.box, Box.Inside, Vector.gt, Vector.lt, Vector.sub, Vector.add,
      sub_zero, add_zero, Bool.not_eq_true', Bool.and_eq_false_imp, Bool.and_eq_true,
      decide_eq_true_eq, decide_eq_false_iff_not, not_lt]
    intro h _
    exact h.2.le
  refine ⟨fun c e => ⟨?_, hpt c e⟩, ?_⟩
  · simp [BlobTreeNode.GetBox, BlobTreePoint.box, Vector.sub, Vector.add]
  · obtain ⟨root, h, hp⟩ := OptimizeHierarchy_spec P centers 0 hne
    refine ⟨root, h, hp, fun p => ?_⟩
    rw [BlobTreeNode.Intensity_eq_sum_leaves]
    apply List.sum_eq_zero
    intro x hx
    obtain ⟨l, hl, rfl⟩ := List.mem_map.mp hx
    obtain ⟨c, -, rfl⟩ := List.mem_map.mp (hp.mem_iff.mp hl)
    exact hpt c 1 p

/-- The amended claim C19 at the centres `(0,0,0)` and `(3,1,0)` with the
order-preserving partition. -/
theorem BlobTreePoint_zero_radius_accepted_witness :
    ([⟨0, 0, 0⟩, ⟨3, 1, 0⟩] : List (Vector ℚ)) ≠ [] ∧
    ∃ root, OptimizeHierarchy (StdPartition.stable (BlobTreeNode ℚ))
        [⟨0, 0, 0⟩, ⟨3, 1, 0⟩] 0 = some root ∧
      root.leaves.Perm (([⟨0, 0, 0⟩, ⟨3, 1, 0⟩] : List (Vector ℚ)).map
        (fun c => BlobTreeNode.Point c 0 1)) ∧
      ∀ p, root.Intensity p = 0 :=
  ⟨by simp, (BlobTreePoint_zero_radius_accepted (StdPartition.stable (BlobTreeNode ℚ))
    [⟨0, 0, 0⟩, ⟨3, 1, 0⟩] (by simp)).2⟩

/-- Claim C20, the part the code meets: `OptimizeHierarchy` on an empty list
of centres returns no root (`nullptr`), for every radius.  The members
`Intensity`, `Gradient`, `K`, `K(segment)` and `GetBox` of `BlobTree` then
dereference the null root without a test; in this development that is the
result `none`, the absence of a value, and no error is reported by the
source. -/
theorem OptimizeHierarchy_empty_unbuilt [LinearOrderedField α]
    (P : StdPartition (BlobTreeNode α)) (sqrt : α → α) (r : α) (p : Vector α)
    (s : Segment α) :
    OptimizeHierarchy P [] r = none ∧
    BlobTree.Intensity ⟨OptimizeHierarchy P [] r⟩ p = none ∧
    BlobTree.Gradient ⟨OptimizeHierarchy P [] r⟩ p = none ∧
    BlobTree.K ⟨OptimizeHierarchy P [] r⟩ = none ∧
    BlobTree.KSeg sqrt ⟨OptimizeHierarchy P [] r⟩ s = none ∧
    BlobTree.GetBox ⟨OptimizeHierarchy P [] r⟩ = none := by
  have h : OptimizeHierarchy P [] r = none := by
    simp [OptimizeHierarchy, OptimizeHierarchyRange]
  rw [h]
  exact ⟨rfl, rfl, rfl, rfl, rfl, rfl⟩

/-- Claim C30: for every vector `v`, `v.MaxIndex()` is an index `i` in
`{0, 1, 2}` with `v[i] = max(v[0], v[1], v[2])`, every smaller index holds a
strictly smaller component, so it is the smallest index of a maximal component
(at or before every index holding the maximum); and `MaxIndex` of
`Abs((-1, -3, 2))` is `1`. -/
theorem Vector_MaxIndex_smallest_argmax [LinearOrderedField α] (v : Vector α) :
    v.MaxIndex < 3 ∧
    v.get v.MaxIndex = max (v.get 0) (max (v.get 1) (v.get 2)) ∧
    (∀ i, i < v.MaxIndex → v.get i < v.get v.MaxIndex) ∧
    (∀ i, i < 3 → v.get i = max (v.get 0) (max (v.get 1) (v.get 2)) → v.MaxIndex ≤ i) ∧
    (Abs (⟨-1, -3, 2⟩ : Vector α)).MaxIndex = 1 := by
  have key : v.MaxIndex < 3 ∧
      v.get v.MaxIndex = max (v.get 0) (max (v.get 1) (v.get 2)) ∧
      (∀ i, i < v.MaxIndex → v.get i < v.get v.MaxIndex) := by
    unfold Vector.MaxIndex
    split_ifs with h1 h2 h3
    · refine ⟨by norm_num, ?_, fun i hi => absurd hi (Nat.not_lt_zero i)⟩
      simp only [Vector.get, if_true, one_ne_zero, if_false, OfNat.ofNat_ne_zero,
        OfNat.ofNat_ne_one]
      rw [max_eq_left (max_le h1 h2)]
    · have h2' := not_le.mp h2
      refine ⟨by norm_num, ?_, ?_⟩
      · simp only [Vector.get, if_true, one_ne_zero, if_false, OfNat.ofNat_ne_zero,
          OfNat.ofNat_ne_one]
        rw [max_eq_right (le_max_of_le_right h2'.le), max_eq_right (le_trans h1 h2'.le)]
      · intro i hi
        interval_cases i
        · simpa [Vector.get] using h2'
        · simpa [Vector.get] using lt_of_le_of_lt h1 h2'
    · have h1' := not_le.mp h1
      refine ⟨by norm_num, ?_, ?_⟩
      · simp only [Vector.get, if_true, one_ne_zero, if_false, OfNat.ofNat_ne_zero,
          OfNat.ofNat_ne_one]
        rw [max_eq_right (le_max_of_le_left h1'.le), max_eq_left h3]
      · intro i hi
        interval_cases i
        simpa [Vector.get] using h1'
    · have h1' := not_le.mp h1
      have h3' := not_le.mp h3
      refine ⟨by norm_num, ?_, ?_⟩
      · simp only [Vector.get, if_true, one_ne_zero, if_false, OfNat.ofNat_ne_zero,
          OfNat.ofNat_ne_one]
        rw [max_eq_right (le_max_of_le_left h1'.le), max_eq_right h3'.le]
      · intro i hi
        interval_cases i
        · simpa [Vector.get] using lt_trans h1' h3'
        · simpa [Vector.get] using h3'
  refine ⟨key.1, key.2.1, key.2.2, ?_, ?_⟩
  · intro i _ hmax
    by_contra hlt
    have := key.2.2 i (not_le.mp hlt)
    rw [hmax, key.2.1] at this
    exact lt_irrefl _ this
  · norm_num [Abs, Vector.MaxIndex]

/-- Claim C27 on the code.  For every tree whose point primitives have a
positive radius and every segment `s` on which no leaf has a NaN `K(s)`,
`root.K(s)` is not NaN and is the plain sum over the leaves of `leaf.K(s)`; and
when the box of a blend node does not overlap the box of the segment, where
`BlobTreeBlend::K(s)` returns `0` without visiting its children, every leaf
below that node has `K(s) = 0`.  The restriction cannot be dropped: for the
blend of `Point((0,0,0), 1, 1)` and `Point((0,3,0), 1, 1)` and the segment from
`(1.5,0,0)` to `(1.5,0,0)`, the blend returns `0` early (not NaN) while `K(s)`
of its first leaf is NaN. -/
theorem BlobTreeNode_KSeg_eq_plain_sum (root : BlobTreeNode ℝ) (hpos : root.PositiveRadii) :
    (∀ s : Segment ℝ, (∀ l ∈ root.leaves, l.KSegNaN Real.sqrt s = false) →
      root.KSegNaN Real.sqrt s = false ∧
      root.KSeg Real.sqrt s = (root.leaves.map (fun l => l.KSeg Real.sqrt s)).sum ∧
      ∀ e1 e2 : BlobTreeNode ℝ, root = BlobTreeNode.Blend e1 e2 →
        (Box.ofBoxes e1.GetBox e2.GetBox).Intersect s.GetBox = false →
        root.KSeg Real.sqrt s = 0 ∧ ∀ l ∈ root.leaves, l.KSeg Real.sqrt s = 0) ∧
    ((Box.ofBoxes (BlobTreeNode.Point (⟨0, 0, 0⟩ : Vector ℝ) 1 1).GetBox
        (BlobTreeNode.Point (⟨0, 3, 0⟩ : Vector ℝ) 1 1).GetBox).Intersect
        (Segment.GetBox ⟨⟨3 / 2, 0, 0⟩, ⟨3 / 2, 0, 0⟩⟩) = false ∧
      (BlobTreeNode.Blend (BlobTreeNode.Point (⟨0, 0, 0⟩ : Vector ℝ) 1 1)
        (BlobTreeNode.Point ⟨0, 3, 0⟩ 1 1)).KSegNaN Real.sqrt
          ⟨⟨3 / 2, 0, 0⟩, ⟨3 / 2, 0, 0⟩⟩ = false ∧
      (BlobTreeNode.Blend (BlobTreeNode.Point (⟨0, 0, 0⟩ : Vector ℝ) 1 1)
        (BlobTreeNode.Point ⟨0, 3, 0⟩ 1 1)).KSeg Real.sqrt
          ⟨⟨3 / 2, 0, 0⟩, ⟨3 / 2, 0, 0⟩⟩ = 0 ∧
      (BlobTreeNode.Point (⟨0, 0, 0⟩ : Vector ℝ) 1 1).KSegNaN Real.sqrt
        ⟨⟨3 / 2, 0, 0⟩, ⟨3 / 2, 0, 0⟩⟩ = true) := by
  constructor
  · intro s hfree
    refine ⟨BlobTreeNode.KSegNaN_of_leaves root s hfree,
      BlobTreeNode.KSeg_eq_sum_leaves root hpos s, ?_⟩
    intro e1 e2 hr h
    subst hr
    refine ⟨by simp [BlobTreeNode.KSeg, h], fun l hl => ?_⟩
    exact BlobTreeNode.leaves_KSeg_zero_of_pruned _ hpos s
      (by simpa [BlobTreeNode.GetBox] using h) l hl
  · have hb : (Box.ofBoxes (BlobTreeNode.Point (⟨0, 0, 0⟩ : Vector ℝ) 1 1).GetBox
        (BlobTreeNode.Point (⟨0, 3, 0⟩ : Vector ℝ) 1 1).GetBox).Intersect
        (Segment.GetBox ⟨⟨3 / 2, 0, 0⟩, ⟨3 / 2, 0, 0⟩⟩) = false := by
      norm_num [Box.Intersect, Box.ofBoxes, BlobTreeNode.GetBox, BlobTreePoint.box,
        Segment.GetBox, Vector.Min, Vector.Max, Vector.get, Vector.sub, Vector.add]
    refine ⟨hb, ?_, ?_, ?_⟩
    · simp [BlobTreeNode.KSegNaN, hb]
    · simp [BlobTreeNode.KSeg, hb]
    · rw [BlobTreeNode.KSegNaN, BlobTreePoint.KNaN_iff]
      refine ⟨?_, Or.inl rfl⟩
      norm_num [Segment.Intersect, BlobTreePoint.box, Box.Diagonal, Box.Center, Vector.get,
        Vector.sub, Vector.add, Vector.mul, abs_of_pos, abs_of_neg]

/-- Claim C27 on the code at the blend of `Point((0,0,0), 1, 1)` and
`Point((3,0,0), 1, 1)` and the segment from `(0,0,0)` to `(3,1,0)`, which ends
at no centre. -/
theorem BlobTreeNode_KSeg_eq_plain_sum_witness :
    (BlobTreeNode.Blend (BlobTreeNode.Point (⟨0, 0, 0⟩ : Vector ℝ) 1 1)
      (BlobTreeNode.Point ⟨3, 0, 0⟩ 1 1)).PositiveRadii ∧
    (∀ l ∈ (BlobTreeNode.Blend (BlobTreeNode.Point (⟨0, 0, 0⟩ : Vector ℝ) 1 1)
        (BlobTreeNode.Point ⟨3, 0, 0⟩ 1 1)).leaves,
      l.KSegNaN Real.sqrt ⟨⟨0, 0, 0⟩, ⟨3, 1, 0⟩⟩ = false) ∧
    (BlobTreeNode.Blend (BlobTreeNode.Point (⟨0, 0, 0⟩ : Vector ℝ) 1 1)
      (BlobTreeNode.Point ⟨3, 0, 0⟩ 1 1)).KSeg Real.sqrt ⟨⟨0, 0, 0⟩, ⟨3, 1, 0⟩⟩
      = (((BlobTreeNode.Blend (BlobTreeNode.Point (⟨0, 0, 0⟩ : Vector ℝ) 1 1)
        (BlobTreeNode.Point ⟨3, 0, 0⟩ 1 1)).leaves).map
          (fun l => l.KSeg Real.sqrt ⟨⟨0, 0, 0⟩, ⟨3, 1, 0⟩⟩)).sum := by
  have hfree : ∀ l ∈ (BlobTreeNode.Blend (BlobTreeNode.Point (⟨0, 0, 0⟩ : Vector ℝ) 1 1)
        (BlobTreeNode.Point ⟨3, 0, 0⟩ 1 1)).leaves,
      l.KSegNaN Real.sqrt ⟨⟨0, 0, 0⟩, ⟨3, 1, 0⟩⟩ = false := by
    intro l hl
    simp only [BlobTreeNode.leaves, List.singleton_append, List.mem_cons, List.mem_singleton,
      List.not_mem_nil, or_false] at hl
    rcases hl with rfl | rfl
    · by_contra h
      have ht : BlobTreePoint.KNaN Real.sqrt (⟨0, 0, 0⟩ : Vector ℝ) 1
          ⟨⟨0, 0, 0⟩, ⟨3, 1, 0⟩⟩ = true := by
        simpa [BlobTreeNode.KSegNaN] using h
      rcases ((BlobTreePoint.KNaN_iff _ _ _).mp ht).2 with e | e
      · norm_num at e
      · norm_num at e
    · by_contra h
      have ht : BlobTreePoint.KNaN Real.sqrt (⟨3, 0, 0⟩ : Vector ℝ) 1
          ⟨⟨0, 0, 0⟩, ⟨3, 1, 0⟩⟩ = true := by
        simpa [BlobTreeNode.KSegNaN] using h
      rcases ((BlobTreePoint.KNaN_iff _ _ _).mp ht).2 with e | e
      · norm_num at e
      · norm_num at e
  exact ⟨by simp [BlobTreeNode.PositiveRadii], hfree,
    ((BlobTreeNode_KSeg_eq_plain_sum _ (by simp [BlobTreeNode.PositiveRadii])).1 _ hfree).2.1⟩

/-- Claim C28: `BVHRecursive` terminates on every range `begin < end` inside
the vector.  When the range holds at least two nodes, the split index the
function computes from the partition point `pmid` of `std::partition`, which is
`(begin + end) / 2` when `pmid` is `begin` or `end`, satisfies
`begin < mid < end`, so both recursive calls get ranges that are non-empty and
strictly shorter; and with a recursion bound of at least `end - begin` the
function returns a tree, whose leaves are those of the nodes in the range. -/
theorem BVHRecursive_terminates [LinearOrderedField α] (P : StdPartition (BlobTreeNode α))
    (pts : List (BlobTreeNode α)) (b e : Nat) (hbe : b < e) (he : e ≤ pts.length) :
    (2 ≤ e - b → ∀ pred : BlobTreeNode α → Bool,
      b < (if b + (slice pts b e).countP pred = b ∨ b + (slice pts b e).countP pred = e
          then (b + e) / 2 else b + (slice pts b e).countP pred) ∧
      (if b + (slice pts b e).countP pred = b ∨ b + (slice pts b e).countP pred = e
          then (b + e) / 2 else b + (slice pts b e).countP pred) < e ∧
      1 ≤ (if b + (slice pts b e).countP pred = b ∨ b + (slice pts b e).countP pred = e
          then (b + e) / 2 else b + (slice pts b e).countP pred) - b ∧
      (if b + (slice pts b e).countP pred = b ∨ b + (slice pts b e).countP pred = e
          then (b + e) / 2 else b + (slice pts b e).countP pred) - b < e - b ∧
      1 ≤ e - (if b + (slice pts b e).countP pred = b ∨ b + (slice pts b e).countP pred = e
          then (b + e) / 2 else b + (slice pts b e).countP pred) ∧
      e - (if b + (slice pts b e).countP pred = b ∨ b + (slice pts b e).countP pred = e
          then (b + e) / 2 else b + (slice pts b e).countP pred) < e - b) ∧
    (∀ fuel : Nat, e - b ≤ fuel →
      ∃ root pts', BVHRecursive P fuel pts b e = some (root, pts') ∧
        root.leaves.Perm ((slice pts b e).flatMap BlobTreeNode.leaves)) := by
  constructor
  · intro h2 pred
    have hc : (slice pts b e).countP pred ≤ e - b := by
      have := List.countP_le_length pred (l := slice pts b e)
      rwa [slice_length pts b e he] at this
    split_ifs with h <;> omega
  · intro fuel hf
    obtain ⟨root, pts', h, -, -, -, hp⟩ := BVHRecursive_spec P fuel pts b e hbe he hf
    exact ⟨root, pts', h, hp⟩

/-- Claim C28 at the two nodes `Point((0,0,0), 1, 1)` and `Point((3,0,0), 1, 1)`
with the order-preserving partition and the recursion bound `2`. -/
theorem BVHRecursive_terminates_witness :
    0 < 2 ∧ 2 ≤ ([.Point ⟨0, 0, 0⟩ 1 1, .Point ⟨3, 0, 0⟩ 1 1] : List (BlobTreeNode ℚ)).length ∧
    ∃ root pts', BVHRecursive (StdPartition.stable (BlobTreeNode ℚ)) 2
        [.Point ⟨0, 0, 0⟩ 1 1, .Point ⟨3, 0, 0⟩ 1 1] 0 2 = some (root, pts') ∧
      root.leaves.Perm ((slice ([.Point ⟨0, 0, 0⟩ 1 1, .Point ⟨3, 0, 0⟩ 1 1] :
        List (BlobTreeNode ℚ)) 0 2).flatMap BlobTreeNode.leaves) :=
  ⟨by decide, by simp,
    (BVHRecursive_terminates (StdPartition.stable (BlobTreeNode ℚ))
      [.Point ⟨0, 0, 0⟩ 1 1, .Point ⟨3, 0, 0⟩ 1 1] 0 2 (by decide) (by simp)).2 2 (by decide)⟩

/-- Claim C23: whenever `SphereTrace`, `EnhancedSphereTrace` or `SegmentTrace`
returns a hit with parameter `t` and step count `s` (`k > 0`, all radii
positive; any number of passes allowed), `tree.Intensity(ray(t)) > 0`, `s ≥ 1`,
and `Box::Intersect` of the ray with the root box returned `1` with an interval
`[a, b]` such that `a ≤ t < b`. -/
theorem marchers_hit_sound (root : BlobTreeNode ℝ) (hpos : root.PositiveRadii) (ray : Ray ℝ)
    (k : ℝ) (hk : 0 < k) (fuel : Nat) (t0 : ℝ) (s0 : Int) (t : ℝ) (s : Int)
    (hhit : SphereTrace fuel ⟨some root⟩ ray t0 s0 k = some (true, t, s) ∨
      EnhancedSphereTrace fuel ⟨some root⟩ ray t0 s0 k = some (true, t, s) ∨
      SegmentTrace Real.sqrt fuel ⟨some root⟩ ray t0 s0 = some (true, t, s)) :
    (∃ I, BlobTree.Intensity ⟨some root⟩ (ray.eval t) = some I ∧ 0 < I) ∧ 1 ≤ s ∧
    ∃ a b, root.GetBox.IntersectRay ray 1e-3 = (1, a, b) ∧ a ≤ t ∧ t < b := by
  have key : 0 < root.Intensity (ray.eval t) - 0.5 ∧ 1 ≤ s ∧
      ∃ a b, root.GetBox.IntersectRay ray 1e-3 = (1, a, b) ∧ a ≤ t ∧ t < b := by
    rcases hhit with h | h | h
    · exact SphereTrace_hit_sound root ray k fuel t0 s0 t s h
    · exact EnhancedSphereTrace_hit_sound root ray k hk fuel t0 s0 t s h
    · exact SegmentTrace_hit_sound root hpos ray fuel t0 s0 t s h
  exact ⟨⟨_, rfl, key.1⟩, key.2⟩

/-- Claim C23 at `Point((0,0,0), 2, 1)` and the ray from `(0,-10,0)` along
`(0,1,0)`, for the hit `EnhancedSphereTrace` returns in its third pass with
`k = 0.86`. -/
theorem marchers_hit_sound_witness :
    (BlobTreeNode.Point (⟨0, 0, 0⟩ : Vector ℝ) 2 1).PositiveRadii ∧ (0 : ℝ) < 43 / 50 ∧
    EnhancedSphereTrace 3 ⟨some (BlobTreeNode.Point (⟨0, 0, 0⟩ : Vector ℝ) 2 1)⟩
      ⟨⟨0, -10, 0⟩, ⟨0, 1, 0⟩⟩ 0 0 (43 / 50)
      = some (true, 1303660551732119653 / 142511235980066816, 3) ∧
    (∃ I, BlobTree.Intensity ⟨some (BlobTreeNode.Point (⟨0, 0, 0⟩ : Vector ℝ) 2 1)⟩
      (Ray.eval ⟨⟨0, -10, 0⟩, ⟨0, 1, 0⟩⟩ (1303660551732119653 / 142511235980066816))
        = some I ∧ 0 < I) ∧ (1 : Int) ≤ 3 ∧
    ∃ a b, (BlobTreeNode.Point (⟨0, 0, 0⟩ : Vector ℝ) 2 1).GetBox.IntersectRay
        ⟨⟨0, -10, 0⟩, ⟨0, 1, 0⟩⟩ 1e-3 = (1, a, b) ∧
      a ≤ 1303660551732119653 / 142511235980066816 ∧
      1303660551732119653 / 142511235980066816 < b :=
  ⟨by simp [BlobTreeNode.PositiveRadii], by norm_num,
    EnhancedSphereTrace_witness_run 3 le_rfl 0 0,
    marchers_hit_sound (BlobTreeNode.Point (⟨0, 0, 0⟩ : Vector ℝ) 2 1)
      (by simp [BlobTreeNode.PositiveRadii]) ⟨⟨0, -10, 0⟩, ⟨0, 1, 0⟩⟩ (43 / 50) (by norm_num)
      3 0 0 _ 3 (Or.inr (Or.inl (EnhancedSphereTrace_witness_run 3 le_rfl 0 0)))⟩

/-- Claim C24: for every box and every ray whose direction components are each
either `0` or of magnitude greater than `1e-3`, `Box::Intersect(ray, tmin, tmax)`
returns `0` or `1`; it returns `1` if and only if some `t` in `[-1e16, 1e16]`
puts `ray(t)` in the closed box; and then `tmin ≤ tmax` and `[tmin, tmax]` is
exactly the set of these `t`, negative ones included.  (Neither `a ≤ b` nor a
bound on the coordinates is needed in exact arithmetic.) -/
theorem Box_IntersectRay_exact [LinearOrderedField α] (box : Box α) (ray : Ray α)
    (hdir : ∀ i, i < 3 → ray.d.get i = 0 ∨ 1e-3 < |ray.d.get i|) :
    ((box.IntersectRay ray 1e-3).1 = 0 ∨ (box.IntersectRay ray 1e-3).1 = 1) ∧
    ((box.IntersectRay ray 1e-3).1 = 1 ↔ ∃ t, -1e16 ≤ t ∧ t ≤ 1e16 ∧
      ∀ i, i < 3 → box.a.get i ≤ (ray.eval t).get i ∧ (ray.eval t).get i ≤ box.b.get i) ∧
    ((box.IntersectRay ray 1e-3).1 = 1 →
      (box.IntersectRay ray 1e-3).2.1 ≤ (box.IntersectRay ray 1e-3).2.2 ∧
      ∀ t, ((box.IntersectRay ray 1e-3).2.1 ≤ t ∧ t ≤ (box.IntersectRay ray 1e-3).2.2) ↔
        (-1e16 ≤ t ∧ t ≤ 1e16 ∧
          ∀ i, i < 3 → box.a.get i ≤ (ray.eval t).get i ∧
            (ray.eval t).get i ≤ box.b.get i)) := by
  have hd0 := hdir 0 (by norm_num)
  have hd1 := hdir 1 (by norm_num)
  have hd2 := hdir 2 (by norm_num)
  simp only [Vector.get, if_true, one_ne_zero, if_false, OfNat.ofNat_ne_zero,
    OfNat.ofNat_ne_one] at hd0 hd1 hd2
  have key := Box.IntersectRay_spec box ray 1e-3 (by norm_num) hd0 hd1 hd2
  have conv : ∀ t : α, (∀ i, i < 3 → box.a.get i ≤ (ray.eval t).get i ∧
      (ray.eval t).get i ≤ box.b.get i) ↔
      ((box.a.c0 ≤ ray.o.c0 + ray.d.c0 * t ∧ ray.o.c0 + ray.d.c0 * t ≤ box.b.c0) ∧
      (box.a.c1 ≤ ray.o.c1 + ray.d.c1 * t ∧ ray.o.c1 + ray.d.c1 * t ≤ box.b.c1) ∧
      (box.a.c2 ≤ ray.o.c2 + ray.d.c2 * t ∧ ray.o.c2 + ray.d.c2 * t ≤ box.b.c2)) := by
    intro t
    constructor
    · intro h
      have a0 := h 0 (by norm_num)
      have a1 := h 1 (by norm_num)
      have a2 := h 2 (by norm_num)
      simp only [Vector.get, Ray.eval, Vector.add, Vector.mul, if_true, one_ne_zero, if_false,
        OfNat.ofNat_ne_zero, OfNat.ofNat_ne_one] at a0 a1 a2
      exact ⟨a0, a1, a2⟩
    · rintro ⟨a0, a1, a2⟩ i hi
      interval_cases i <;>
        simp only [Vector.get, Ray.eval, Vector.add, Vector.mul, if_true, one_ne_zero,
          if_false, OfNat.ofNat_ne_zero, OfNat.ofNat_ne_one]
      · exact a0
      · exact a1
      · exact a2
  refine ⟨Box.IntersectRay_fst box ray 1e-3, ?_, fun h => ⟨?_, fun t => ?_⟩⟩
  · rw [key.1]
    constructor
    · rintro ⟨t, ⟨a1, a2⟩, hb⟩
      exact ⟨t, a1, a2, (conv t).mpr hb⟩
    · rintro ⟨t, a1, a2, hb⟩
      exact ⟨t, ⟨a1, a2⟩, (conv t).mp hb⟩
  · exact Box.IntersectRay_le box ray 1e-3 (by rw [h]; norm_num)
  · rw [key.2 h t, conv t, and_assoc]

/-- Claim C24 at the box `[-2, 2]^3` and the ray from its centre `(0,0,0)` along
`(0,1,0)`: the returned interval is `[-2, 2]`, negative parameters included. -/
theorem Box_IntersectRay_exact_witness :
    (∀ i, i < 3 → (⟨0, 1, 0⟩ : Vector ℝ).get i = 0 ∨ 1e-3 < |(⟨0, 1, 0⟩ : Vector ℝ).get i|) ∧
    Box.IntersectRay (⟨⟨-2, -2, -2⟩, ⟨2, 2, 2⟩⟩ : Box ℝ) ⟨⟨0, 0, 0⟩, ⟨0, 1, 0⟩⟩ 1e-3
      = (1, -2, 2) ∧
    ((Box.IntersectRay (⟨⟨-2, -2, -2⟩, ⟨2, 2, 2⟩⟩ : Box ℝ) ⟨⟨0, 0, 0⟩, ⟨0, 1, 0⟩⟩ 1e-3).1 = 1 ↔
      ∃ t : ℝ, -1e16 ≤ t ∧ t ≤ 1e16 ∧ ∀ i, i < 3 →
        (⟨⟨-2, -2, -2⟩, ⟨2, 2, 2⟩⟩ : Box ℝ).a.get i
          ≤ (Ray.eval ⟨⟨0, 0, 0⟩, ⟨0, 1, 0⟩⟩ t).get i ∧
        (Ray.eval ⟨⟨0, 0, 0⟩, ⟨0, 1, 0⟩⟩ t).get i
          ≤ (⟨⟨-2, -2, -2⟩, ⟨2, 2, 2⟩⟩ : Box ℝ).b.get i) := by
  have hdir : ∀ i, i < 3 →
      (⟨0, 1, 0⟩ : Vector ℝ).get i = 0 ∨ 1e-3 < |(⟨0, 1, 0⟩ : Vector ℝ).get i| := by
    intro i hi
    interval_cases i <;> norm_num [Vector.get]
  refine ⟨hdir, ?_, (Box_IntersectRay_exact _ _ hdir).2.1⟩
  norm_num [Box.IntersectRay, Box.IntersectAxis, Vector.get]

/-- Claim C26: in `BlobTreePoint::K(s)`, for every non-degenerate segment
`[a, b]` that passes the box test, with `A = |c - a|^2`, `B = |c - b|^2`,
`l = (c - a) . axis` and the factor `grad` computed at the end, the result is
`CubicFalloffK(amin, amax, r, e) * grad` where `(amin, amax)` is `(A, B)` when
`l < 0`, `(B, A)` when `Norm(b - a) < l`, and `(A - l * l, max(B, A))`
otherwise; and in each case `amin` is the least and `amax` the greatest value of
`|c - p|^2` over the points `p = Lerp(a, b, σ)`, `0 ≤ σ ≤ 1`, of the segment,
both attained. -/
theorem BlobTreePoint_K_exact_extremes (c : Vector ℝ) (r e : ℝ) (s : Segment ℝ)
    (hI : s.Intersect (BlobTreePoint.box c r) = true)
    (hlen : 0 < Norm Real.sqrt (s.b.sub s.a)) :
    ∃ amin amax,
      BlobTreePoint.K Real.sqrt c r e s = CubicFalloffK4 Real.sqrt amin amax r e
        * Math.Max
          (Math.Abs ((Normalized Real.sqrt (s.b.sub s.a)).dot
            (Normalized Real.sqrt (c.sub s.a))))
          (Math.Abs ((Normalized Real.sqrt (s.b.sub s.a)).dot
            (Normalized Real.sqrt (c.sub s.b)))) ∧
      ((c.sub s.a).dot (Normalized Real.sqrt (s.b.sub s.a)) < 0 →
        amin = SquaredNorm (c.sub s.a) ∧ amax = SquaredNorm (c.sub s.b)) ∧
      (Norm Real.sqrt (s.b.sub s.a) < (c.sub s.a).dot (Normalized Real.sqrt (s.b.sub s.a)) →
        amin = SquaredNorm (c.sub s.b) ∧ amax = SquaredNorm (c.sub s.a)) ∧
      (0 ≤ (c.sub s.a).dot (Normalized Real.sqrt (s.b.sub s.a)) →
        (c.sub s.a).dot (Normalized Real.sqrt (s.b.sub s.a)) ≤ Norm Real.sqrt (s.b.sub s.a) →
        amin = SquaredNorm (c.sub s.a) - (c.sub s.a).dot (Normalized Real.sqrt (s.b.sub s.a))
          * (c.sub s.a).dot (Normalized Real.sqrt (s.b.sub s.a)) ∧
        amax = max (SquaredNorm (c.sub s.b)) (SquaredNorm (c.sub s.a))) ∧
      (∀ σ : ℝ, 0 ≤ σ → σ ≤ 1 →
        amin ≤ SquaredNorm (c.sub (Lerp s.a s.b σ)) ∧
        SquaredNorm (c.sub (Lerp s.a s.b σ)) ≤ amax) ∧
      (∃ σ : ℝ, 0 ≤ σ ∧ σ ≤ 1 ∧ SquaredNorm (c.sub (Lerp s.a s.b σ)) = amin) ∧
      (∃ σ : ℝ, 0 ≤ σ ∧ σ ≤ 1 ∧ SquaredNorm (c.sub (Lerp s.a s.b σ)) = amax) := by
  have hB := far_end_sq s.a s.b c hlen
  have hq := fun σ => segment_dist_sq s.a s.b c σ hlen
  have q0 : SquaredNorm (c.sub (Lerp s.a s.b 0)) = SquaredNorm (c.sub s.a) := by rw [Lerp_zero]
  have q1 : SquaredNorm (c.sub (Lerp s.a s.b 1)) = SquaredNorm (c.sub s.b) := by rw [Lerp_one]
  by_cases hl : (c.sub s.a).dot (Normalized Real.sqrt (s.b.sub s.a)) < 0
  · refine ⟨SquaredNorm (c.sub s.a), SquaredNorm (c.sub s.b), ?_, fun _ => ⟨rfl, rfl⟩,
      fun h => absurd (lt_trans hlen h) (not_lt.mpr hl.le), fun h => absurd hl (not_lt.mpr h),
      ?_, ⟨0, le_rfl, zero_le_one, q0⟩, ⟨1, zero_le_one, le_rfl, q1⟩⟩
    · unfold BlobTreePoint.K
      simp only [hI, Bool.not_true, Bool.false_eq_true, if_false, Segment.get, if_true,
        one_ne_zero, if_pos hl]
    · intro σ h0 h1
      rw [hq σ, hB]
      exact dist_sq_before _ _ _ σ hlen hl h0 h1
  · by_cases hp : Norm Real.sqrt (s.b.sub s.a)
        < (c.sub s.a).dot (Normalized Real.sqrt (s.b.sub s.a))
    · refine ⟨SquaredNorm (c.sub s.b), SquaredNorm (c.sub s.a), ?_, fun h => absurd h hl,
        fun _ => ⟨rfl, rfl⟩, fun _ h => absurd hp (not_lt.mpr h), ?_,
        ⟨1, zero_le_one, le_rfl, q1⟩, ⟨0, le_rfl, zero_le_one, q0⟩⟩
      · unfold BlobTreePoint.K
        simp only [hI, Bool.not_true, Bool.false_eq_true, if_false, Segment.get, if_true,
          one_ne_zero, if_neg hl, if_pos hp]
      · intro σ h0 h1
        rw [hq σ, hB]
        exact dist_sq_past _ _ _ σ hlen hp h0 h1
    · have hl' := not_lt.mp hl
      have hp' := not_lt.mp hp
      refine ⟨SquaredNorm (c.sub s.a) - (c.sub s.a).dot (Normalized Real.sqrt (s.b.sub s.a))
          * (c.sub s.a).dot (Normalized Real.sqrt (s.b.sub s.a)),
        max (SquaredNorm (c.sub s.b)) (SquaredNorm (c.sub s.a)), ?_, fun h => absurd h hl,
        fun h => absurd h hp, fun _ _ => ⟨rfl, rfl⟩, ?_, ?_, ?_⟩
      · unfold BlobTreePoint.K
        simp only [hI, Bool.not_true, Bool.false_eq_true, if_false, Segment.get, if_true,
          one_ne_zero, if_neg hl, if_neg hp, Math.Max_eq_max]
      · intro σ h0 h1
        rw [hq σ, hB]
        exact dist_sq_on _ _ _ σ h0 h1
      · refine ⟨(c.sub s.a).dot (Normalized Real.sqrt (s.b.sub s.a))
          / Norm Real.sqrt (s.b.sub s.a), div_nonneg hl' hlen.le,
          (div_le_one hlen).mpr hp', ?_⟩
        rw [hq]
        field_simp
        ring
      · rcases max_cases (SquaredNorm (c.sub s.b)) (SquaredNorm (c.sub s.a)) with
          ⟨e, -⟩ | ⟨e, -⟩
        · exact ⟨1, zero_le_one, le_rfl, by rw [q1, e]⟩
        · exact ⟨0, le_rfl, zero_le_one, by rw [q0, e]⟩

/-- Claim C26 at `Point((0,0,0), 2, 1)` and the segment from `(-1,0,0)` to
`(1,0,0)`, whose nearest point is the centre. -/
theorem BlobTreePoint_K_exact_extremes_witness :
    (⟨⟨-1, 0, 0⟩, ⟨1, 0, 0⟩⟩ : Segment ℝ).Intersect (BlobTreePoint.box ⟨0, 0, 0⟩ 2) = true ∧
    0 < Norm Real.sqrt ((⟨1, 0, 0⟩ : Vector ℝ).sub ⟨-1, 0, 0⟩) ∧
    ∃ amin amax : ℝ,
      (∀ σ : ℝ, 0 ≤ σ → σ ≤ 1 →
        amin ≤ SquaredNorm ((⟨0, 0, 0⟩ : Vector ℝ).sub (Lerp ⟨-1, 0, 0⟩ ⟨1, 0, 0⟩ σ)) ∧
        SquaredNorm ((⟨0, 0, 0⟩ : Vector ℝ).sub (Lerp ⟨-1, 0, 0⟩ ⟨1, 0, 0⟩ σ)) ≤ amax) ∧
      (∃ σ : ℝ, 0 ≤ σ ∧ σ ≤ 1 ∧
        SquaredNorm ((⟨0, 0, 0⟩ : Vector ℝ).sub (Lerp ⟨-1, 0, 0⟩ ⟨1, 0, 0⟩ σ)) = amin) ∧
      (∃ σ : ℝ, 0 ≤ σ ∧ σ ≤ 1 ∧
        SquaredNorm ((⟨0, 0, 0⟩ : Vector ℝ).sub (Lerp ⟨-1, 0, 0⟩ ⟨1, 0, 0⟩ σ)) = amax) := by
  have hI : (⟨⟨-1, 0, 0⟩, ⟨1, 0, 0⟩⟩ : Segment ℝ).Intersect (BlobTreePoint.box ⟨0, 0, 0⟩ 2)
      = true := by
    norm_num [Segment.Intersect, BlobTreePoint.box, Box.Diagonal, Box.Center, Vector.get,
      Vector.sub, Vector.add, Vector.mul]
  have hlen : 0 < Norm Real.sqrt ((⟨1, 0, 0⟩ : Vector ℝ).sub ⟨-1, 0, 0⟩) := by
    rw [Norm_eq_sqrt]
    apply Real.sqrt_pos.mpr
    norm_num [SquaredNorm, Vector.sub]
  obtain ⟨amin, amax, -, -, -, -, h1, h2, h3⟩ :=
    BlobTreePoint_K_exact_extremes ⟨0, 0, 0⟩ 2 1 ⟨⟨-1, 0, 0⟩, ⟨1, 0, 0⟩⟩ hI hlen
  exact ⟨hI, hlen, amin, amax, h1, h2, h3⟩

/-- Claim C21, as the code behaves: the loop of the particle-file constructor
pushes one centre for every line `std::getline` delivers and never tests whether
the extraction succeeded.  The centres are the images of all the lines, so their
number is the number of lines: the well-formed ones plus the others, for every
notion `wellFormed` of a well-formed line.  The three lines `1 2 3`, the empty
line and `4 5 6` give three centres, where the claim has two. -/
theorem BlobTree_readCenters_one_per_line [LinearOrderedField α] {Line : Type}
    (extract : Line → Vector α) (lines : List Line) (wellFormed : Line → Bool)
    (extractString : String → Vector α) :
    BlobTree.readCenters extract lines = lines.map extract ∧
    (BlobTree.readCenters extract lines).length = lines.length ∧
    (BlobTree.readCenters extract lines).length =
      (lines.filter wellFormed).length + (lines.filter (fun l => !wellFormed l)).length ∧
    (BlobTree.readCenters extractString ["1 2 3", "", "4 5 6"]).length = 3 := by
  have key : ∀ (β : Type) (f : β → Vector α) (ls : List β) (acc : List (Vector α)),
      ls.foldl (fun centers line => centers ++ [f line]) acc = acc ++ ls.map f := by
    intro β f ls
    induction ls with
    | nil => intro acc; simp
    | cons x xs ih => intro acc; simp [List.foldl_cons, ih]
  have hmap : ∀ (β : Type) (f : β → Vector α) (ls : List β),
      BlobTree.readCenters f ls = ls.map f := by
    intro β f ls
    unfold BlobTree.readCenters
    rw [key]
    simp
  refine ⟨hmap _ _ _, by rw [hmap, List.length_map], ?_, by rw [hmap]; simp⟩
  rw [hmap, List.length_map]
  induction lines with
  | nil => simp
  | cons x xs ih =>
    cases hx : wellFormed x <;> simp [List.filter_cons, hx] at ih ⊢ <;> omega

/-- Claim C25 fails on the code: for the box `[0, 1]^3` (with `a ≤ b`) and the
segment from `(1.3, 0.5, 0.5)` to `(1.4, 0.5, 0.5)`, `Segment::Intersect` returns
`true` although no point of the segment is in the closed box (its first
coordinate is at least `1.3`).  The test compares against the full diagonal
`b - a` where the separating-axis test takes half of it. -/
theorem Segment_Intersect_false_positive :
    Segment.Intersect (⟨⟨13 / 10, 1 / 2, 1 / 2⟩, ⟨7 / 5, 1 / 2, 1 / 2⟩⟩ : Segment ℚ)
      ⟨⟨0, 0, 0⟩, ⟨1, 1, 1⟩⟩ = true ∧
    ∀ σ : ℚ, 0 ≤ σ → σ ≤ 1 →
      ¬ (((0 : ℚ) ≤ (Lerp (⟨13 / 10, 1 / 2, 1 / 2⟩ : Vector ℚ) ⟨7 / 5, 1 / 2, 1 / 2⟩ σ).c0 ∧
          (Lerp (⟨13 / 10, 1 / 2, 1 / 2⟩ : Vector ℚ) ⟨7 / 5, 1 / 2, 1 / 2⟩ σ).c0 ≤ 1) ∧
        ((0 : ℚ) ≤ (Lerp (⟨13 / 10, 1 / 2, 1 / 2⟩ : Vector ℚ) ⟨7 / 5, 1 / 2, 1 / 2⟩ σ).c1 ∧
          (Lerp (⟨13 / 10, 1 / 2, 1 / 2⟩ : Vector ℚ) ⟨7 / 5, 1 / 2, 1 / 2⟩ σ).c1 ≤ 1) ∧
        ((0 : ℚ) ≤ (Lerp (⟨13 / 10, 1 / 2, 1 / 2⟩ : Vector ℚ) ⟨7 / 5, 1 / 2, 1 / 2⟩ σ).c2 ∧
          (Lerp (⟨13 / 10, 1 / 2, 1 / 2⟩ : Vector ℚ) ⟨7 / 5, 1 / 2, 1 / 2⟩ σ).c2 ≤ 1)) := by
  constructor
  · norm_num [Segment.Intersect, Box.Diagonal, Box.Center, Vector.get, Vector.sub, Vector.add,
      Vector.mul, abs_of_pos, abs_of_nonneg]
  · intro σ h0 _ h
    simp only [Lerp, Vector.add, Vector.sub, Vector.mul] at h
    linarith [h.1.2]

/-- Claim C22 fails as stated: with the file variables of `main.cpp` (camera
`(0, -80, 0)`, image 500 by 500) and the pixel `(0, 250)`, where
`x = (0 - 250) / 250 = -1` and `y = 0`, the direction `ComputeRayFromPixel`
returns is not `normalize(v + x * h + y * u)` for any unit vectors `h`, `u`
orthogonal to each other and to `v = normalize(-O)`. -/
theorem ComputeRayFromPixel_frame_not_unit :
    ¬ ∃ h u : Vector ℝ, Norm Real.sqrt h = 1 ∧ Norm Real.sqrt u = 1 ∧ h.dot u = 0 ∧
      h.dot (Normalized Real.sqrt (⟨0, -80, 0⟩ : Vector ℝ).neg) = 0 ∧
      u.dot (Normalized Real.sqrt (⟨0, -80, 0⟩ : Vector ℝ).neg) = 0 ∧
      ComputeRayFromPixel Real.sqrt Real.arctan Real.tan ⟨0, -80, 0⟩ 500 500 0 250 =
        ⟨⟨0, -80, 0⟩, Normalized Real.sqrt
          (((Normalized Real.sqrt (⟨0, -80, 0⟩ : Vector ℝ).neg).add
            (h.mul (((0 : ℝ) - 500 / 2) / (500 / 2)))).add
            (u.mul ((500 / 2 - (250 : ℝ)) / (500 / 2))))⟩ := by
  rintro ⟨h, u, hh, hu, hhu, hhv, huv, heq⟩
  obtain ⟨fv, fh, fu, fhv, fuv, fhu⟩ := camera_frame (⟨0, -80, 0⟩ : Vector ℝ)
    (Or.inr (by norm_num))
  rw [ComputeRayFromPixel_eq _ 500 500 (by norm_num) (by norm_num)] at heq
  simp only [Ray.mk.injEq, true_and, mul_mul_eq] at heq
  have h1 := frame_dot _ _ _ fv fh fu fhv fuv fhu
    (50673 / 70000 * ((((0 : Int) : ℝ) - ((500 : Int) : ℝ) / 2) / (((500 : Int) : ℝ) / 2)))
    (50673 / 70000 * ((500 : Int) : ℝ) / ((500 : Int) : ℝ)
      * ((((500 : Int) : ℝ) / 2 - ((250 : Int) : ℝ)) / (((500 : Int) : ℝ) / 2)))
  have h2 := frame_dot _ h u fv hh hu hhv huv hhu (((0 : ℝ) - 500 / 2) / (500 / 2))
    ((500 / 2 - (250 : ℝ)) / (500 / 2))
  rw [heq, h2] at h1
  have n1 : (1 : ℝ) + (((0 : ℝ) - 500 / 2) / (500 / 2)) ^ 2
      + ((500 / 2 - (250 : ℝ)) / (500 / 2)) ^ 2 = 2 := by norm_num
  have n2 : (1 : ℝ) + (50673 / 70000
      * ((((0 : Int) : ℝ) - ((500 : Int) : ℝ) / 2) / (((500 : Int) : ℝ) / 2))) ^ 2
      + (50673 / 70000 * ((500 : Int) : ℝ) / ((500 : Int) : ℝ)
      * ((((500 : Int) : ℝ) / 2 - ((250 : Int) : ℝ)) / (((500 : Int) : ℝ) / 2))) ^ 2
      = 7467752929 / 4900000000 := by norm_num
  rw [n1, n2] at h1
  have h3 : Real.sqrt 2 = Real.sqrt (7467752929 / 4900000000) := by
    have := congrArg (fun z : ℝ => 1 / z) h1
    simpa using this
  have h4 := (Real.sqrt_inj (by norm_num) (by norm_num)).mp h3
  norm_num at h4

/-- Claim C22, amended: for every pixel `(i, j)` with `0 ≤ i < W`, `0 ≤ j < H`
and camera origin `O` off the z axis, `ComputeRayFromPixel` returns the ray with
origin `O` and direction `normalize(v + x * (L * h) + y * (L * H / W * u))`,
where `v = normalize(-O)`, `h` and `u` are unit vectors orthogonal to each other
and to `v`, `L = 1.995 * 25.4 * 0.5 / 35 = 50673/70000` is the tangent of half the
horizontal field of view (about `0.724`, not `1`), and
`x = (i - W/2) / (W/2)` and `y = (H/2 - j) / (H/2)` both lie in `[-1, 1]`. -/
theorem ComputeRayFromPixel_scaled_frame (O : Vector ℝ) (hO : O.c0 ≠ 0 ∨ O.c1 ≠ 0)
    (W H : Int) (hW : 0 < W) (hH : 0 < H) (i j : Int) (hi : 0 ≤ i ∧ i < W)
    (hj : 0 ≤ j ∧ j < H) :
    ∃ v h u : Vector ℝ, ∃ x y : ℝ,
      v = Normalized Real.sqrt O.neg ∧
      Norm Real.sqrt v = 1 ∧ Norm Real.sqrt h = 1 ∧ Norm Real.sqrt u = 1 ∧
      h.dot v = 0 ∧ u.dot v = 0 ∧ h.dot u = 0 ∧
      x = ((i : ℝ) - (W : ℝ) / 2) / ((W : ℝ) / 2) ∧
      y = ((H : ℝ) / 2 - (j : ℝ)) / ((H : ℝ) / 2) ∧
      -1 ≤ x ∧ x ≤ 1 ∧ -1 ≤ y ∧ y ≤ 1 ∧
      ComputeRayFromPixel Real.sqrt Real.arctan Real.tan O W H i j =
        ⟨O, Normalized Real.sqrt ((v.add ((h.mul (50673 / 70000)).mul x)).add
          ((u.mul (50673 / 70000 * (H : ℝ) / (W : ℝ))).mul y))⟩ := by
  obtain ⟨fv, fh, fu, fhv, fuv, fhu⟩ := camera_frame O hO
  have hW' : (0 : ℝ) < (W : ℝ) := by exact_mod_cast hW
  have hH' : (0 : ℝ) < (H : ℝ) := by exact_mod_cast hH
  have i0 : (0 : ℝ) ≤ (i : ℝ) := by exact_mod_cast hi.1
  have i1 : (i : ℝ) < (W : ℝ) := by exact_mod_cast hi.2
  have j0 : (0 : ℝ) ≤ (j : ℝ) := by exact_mod_cast hj.1
  have j1 : (j : ℝ) < (H : ℝ) := by exact_mod_cast hj.2
  refine ⟨_, _, _, _, _, rfl, fv, fh, fu, fhv, fuv, fhu, rfl, rfl, ?_, ?_, ?_, ?_,
    ComputeRayFromPixel_eq O W H hW hH i j⟩
  · rw [le_div_iff₀ (by linarith)]; linarith
  · rw [div_le_iff₀ (by linarith)]; linarith
  · rw [le_div_iff₀ (by linarith)]; linarith
  · rw [div_le_iff₀ (by linarith)]; linarith

/-- The amended claim C22 at the camera `(0, -80, 0)`, the image of 500 by 500
pixels and the pixel `(0, 250)`. -/
theorem ComputeRayFromPixel_scaled_frame_witness :
    ((⟨0, -80, 0⟩ : Vector ℝ).c0 ≠ 0 ∨ (⟨0, -80, 0⟩ : Vector ℝ).c1 ≠ 0) ∧
    (0 : Int) < 500 ∧ ((0 : Int) ≤ 0 ∧ (0 : Int) < 500) ∧ ((0 : Int) ≤ 250 ∧ (250 : Int) < 500) ∧
    ∃ v h u : Vector ℝ, ∃ x y : ℝ,
      v = Normalized Real.sqrt (⟨0, -80, 0⟩ : Vector ℝ).neg ∧
      Norm Real.sqrt v = 1 ∧ Norm Real.sqrt h = 1 ∧ Norm Real.sqrt u = 1 ∧
      h.dot v = 0 ∧ u.dot v = 0 ∧ h.dot u = 0 ∧
      x = (((0 : Int) : ℝ) - ((500 : Int) : ℝ) / 2) / (((500 : Int) : ℝ) / 2) ∧
      y = (((500 : Int) : ℝ) / 2 - ((250 : Int) : ℝ)) / (((500 : Int) : ℝ) / 2) ∧
      -1 ≤ x ∧ x ≤ 1 ∧ -1 ≤ y ∧ y ≤ 1 ∧
      ComputeRayFromPixel Real.sqrt Real.arctan Real.tan ⟨0, -80, 0⟩ 500 500 0 250 =
        ⟨⟨0, -80, 0⟩, Normalized Real.sqrt ((v.add ((h.mul (50673 / 70000)).mul x)).add
          ((u.mul (50673 / 70000 * ((500 : Int) : ℝ) / ((500 : Int) : ℝ))).mul y))⟩ :=
  ⟨Or.inr (by norm_num), by decide, by decide, by decide,
    ComputeRayFromPixel_scaled_frame ⟨0, -80, 0⟩ (Or.inr (by norm_num)) 500 500 (by decide)
      (by decide) 0 250 (by decide) (by decide)⟩

/-- Claim C29: BVH balance.  For point primitives of one radius whose centres
form a uniform grid of `2 ^ e 0` by `2 ^ e 1` by `2 ^ e 2` points with
`e 0 + e 1 + e 2 = 10` (origin `o`, positive spacings `h`, every point once, in
any order), and for every implementation of `std::partition`, there are 1024
centres and `OptimizeHierarchy` returns a tree with exactly 1024 leaves whose
depth, counted in nodes from the root down to a leaf, is 11, hence at most 12.
The 32 x 32 lattice `{0..31} x {0..31} x {0}` is the case `e = (5, 5, 0)`. -/
theorem OptimizeHierarchy_grid_balanced [LinearOrderedField α]
    (P : StdPartition (BlobTreeNode α)) (o h : Vector α) (r : α)
    (hh : ∀ i, i < 3 → 0 < h.get i) (e : Nat → Nat) (he : e 0 + e 1 + e 2 = 10)
    (centers : List (Vector α)) (hg : IsGridBlock o h (fun _ => 0) e centers) :
    centers.length = 1024 ∧
    ∃ root, OptimizeHierarchy P centers r = some root ∧ root.leaves.length = 1024 ∧
      root.depth = 11 ∧ root.depth ≤ 12 := by
  have hmem : gridPoint o h (fun _ => 0) ∈ centers :=
    (hg.2 _).mpr ⟨fun _ => 0, fun i _ => ⟨le_rfl, by have := Nat.two_pow_pos (e i); omega⟩, rfl⟩
  have hne : centers ≠ [] := List.ne_nil_of_mem hmem
  have hpos : 0 < (centers.map (fun c => BlobTreeNode.Point c r 1)).length := by
    rw [List.length_map]; exact List.length_pos.mpr hne
  obtain ⟨root, pts', hrun, hd, hl⟩ := BVHRecursive_grid P o h r hh 10
    ((centers.map (fun c => BlobTreeNode.Point c r 1)).length - 0 + 1) (fun _ => 0) e centers
    (centers.map (fun c => BlobTreeNode.Point c r 1)) 0
    (centers.map (fun c => BlobTreeNode.Point c r 1)).length he hg
    (by rw [slice_full]) hpos le_rfl (by omega)
  obtain ⟨root', hopt, hperm⟩ := OptimizeHierarchy_spec P centers r hne
  have hroot : OptimizeHierarchy P centers r = some root := by
    unfold OptimizeHierarchy OptimizeHierarchyRange
    simp only
    rw [if_neg (by simpa using hne), hrun]
    rfl
  rw [hroot] at hopt
  simp only [Option.some.injEq] at hopt
  subst hopt
  have hlen := hperm.length_eq
  rw [List.length_map, hl] at hlen
  refine ⟨by rw [← hlen]; norm_num, root, hroot, by rw [hl]; norm_num, hd, by omega⟩

/-- Claim C29 at the 32 x 32 lattice `{0..31} x {0..31} x {0}` with radius `1`
and the order-preserving partition. -/
theorem OptimizeHierarchy_grid_balanced_witness :
    (∀ i, i < 3 → 0 < (⟨1, 1, 1⟩ : Vector ℚ).get i) ∧
    IsGridBlock (⟨0, 0, 0⟩ : Vector ℚ) ⟨1, 1, 1⟩ (fun _ => 0)
      (fun i => if i = 0 then 5 else if i = 1 then 5 else 0)
      ((List.range 32).flatMap (fun i : Nat => (List.range 32).map
        (fun j : Nat => (⟨(i : ℚ), (j : ℚ), 0⟩ : Vector ℚ)))) ∧
    ((List.range 32).flatMap (fun i : Nat => (List.range 32).map
        (fun j : Nat => (⟨(i : ℚ), (j : ℚ), 0⟩ : Vector ℚ)))).length = 1024 ∧
    ∃ root, OptimizeHierarchy (StdPartition.stable (BlobTreeNode ℚ))
        ((List.range 32).flatMap (fun i : Nat => (List.range 32).map
          (fun j : Nat => (⟨(i : ℚ), (j : ℚ), 0⟩ : Vector ℚ)))) 1 = some root ∧
      root.leaves.length = 1024 ∧ root.depth = 11 ∧ root.depth ≤ 12 :=
  ⟨fun i hi => by interval_cases i <;> simp [Vector.get], lattice_grid,
    OptimizeHierarchy_grid_balanced (StdPartition.stable (BlobTreeNode ℚ)) ⟨0, 0, 0⟩ ⟨1, 1, 1⟩ 1
      (fun i hi => by interval_cases i <;> simp [Vector.get])
      (fun i => if i = 0 then 5 else if i = 1 then 5 else 0) (by simp) _ lattice_grid⟩

/-- Claim C31: for every pixel `(i, j)`, on a built tree and with a sun
direction of unit length, `PixelColor` returns colour and cost once the marching
loop is allowed enough passes (`k > 0`, positive radii), and whenever it returns
them, with `hit`, `t`, `s` the results of the marcher chosen by `method` on the
ray of the pixel (`s ≥ 0`): the colour is `(0, 0, 0)` on a miss and
`(255 * max(n . sunDir, 0.1), 0, 0)` with
`n = -Normalized(tree.Gradient(ray(t)))` on a hit, where its red channel is in
`[25.5, 255]`; the cost is `(0, min(s / 512, 1) * 255, 0)`; every channel of both
lies in `[0, 255]`, and the byte `((int)c) % 256` that `WriteToFile` stores for
it is the integer part of the channel, so the reduction modulo `256` changes
nothing. -/
theorem PixelColor_channels_in_range (root : BlobTreeNode ℝ) (camera sunDir : Vector ℝ)
    (hsun : Norm Real.sqrt sunDir = 1) (W H : Int) (i j : Int) (k : ℝ)
    (method : RayTraceMethod) :
    (0 < k → root.PositiveRadii → ∃ N : Nat, ∀ fuel, N < fuel →
      ∃ out, PixelColor Real.sqrt Real.arctan Real.tan fuel ⟨some root⟩ camera sunDir W H i j k
        method = some out) ∧
    ∀ fuel color cost,
      PixelColor Real.sqrt Real.arctan Real.tan fuel ⟨some root⟩ camera sunDir W H i j k method
        = some (color, cost) →
      ∃ hit t s,
        PixelColor.trace Real.sqrt fuel ⟨some root⟩
          (ComputeRayFromPixel Real.sqrt Real.arctan Real.tan camera W H i j) k method
            = some (hit, t, s) ∧
        0 ≤ s ∧
        (hit = false → color = ⟨0, 0, 0⟩) ∧
        (hit = true →
          color = ⟨255 * max ((Normalized Real.sqrt (root.Gradient
            ((ComputeRayFromPixel Real.sqrt Real.arctan Real.tan camera W H i j).eval t))).neg.dot
              sunDir) 0.1, 0, 0⟩ ∧
          25.5 ≤ color.c0 ∧ color.c0 ≤ 255) ∧
        cost = ⟨0, min ((s : ℝ) / 512) 1 * 255, 0⟩ ∧
        ∀ n, n < 3 → 0 ≤ color.get n ∧ color.get n ≤ 255 ∧
          0 ≤ cost.get n ∧ cost.get n ≤ 255 ∧
          (WriteToFile.channel (color.get n) : Int) = ⌊color.get n⌋ ∧
          (WriteToFile.channel (cost.get n) : Int) = ⌊cost.get n⌋ := by
  constructor
  · intro hk hpos
    obtain ⟨N, hN⟩ := PixelColor.trace_terminates root hpos
      (ComputeRayFromPixel Real.sqrt Real.arctan Real.tan camera W H i j) k hk method
    refine ⟨N, fun fuel hf => ?_⟩
    obtain ⟨⟨hit, t, s⟩, hres⟩ := hN fuel hf
    exact ⟨_, PixelColor_eq root camera sunDir W H i j k method fuel hit t s hres⟩
  · intro fuel color cost h
    cases htr : PixelColor.trace Real.sqrt fuel ⟨some root⟩
      (ComputeRayFromPixel Real.sqrt Real.arctan Real.tan camera W H i j) k method with
    | none =>
      unfold PixelColor at h
      simp [htr] at h
    | some res =>
      obtain ⟨hit, t, s⟩ := res
      have hs : 0 ≤ s := PixelColor.trace_count_nonneg _ _ _ _ _ _ _ htr
      rw [PixelColor_eq root camera sunDir W H i j k method fuel hit t s htr] at h
      simp only [Option.some.injEq, Prod.mk.injEq] at h
      obtain ⟨hcol, hcost⟩ := h
      have hd := neg_Normalized_dot_le (root.Gradient
        ((ComputeRayFromPixel Real.sqrt Real.arctan Real.tan camera W H i j).eval t)) sunDir hsun
      have hm1 : (0.1 : ℝ) ≤ max ((Normalized Real.sqrt (root.Gradient
          ((ComputeRayFromPixel Real.sqrt Real.arctan Real.tan camera W H i j).eval t))).neg.dot
            sunDir) 0.1 := le_max_right _ _
      have hm2 : max ((Normalized Real.sqrt (root.Gradient
          ((ComputeRayFromPixel Real.sqrt Real.arctan Real.tan camera W H i j).eval t))).neg.dot
            sunDir) 0.1 ≤ 1 := max_le hd (by norm_num)
      have hs' : (0 : ℝ) ≤ (s : ℝ) / 512 := div_nonneg (by exact_mod_cast hs) (by norm_num)
      have hc1 : 0 ≤ min ((s : ℝ) / 512) 1 * 255 :=
        mul_nonneg (le_min hs' (by norm_num)) (by norm_num)
      have hc2 : min ((s : ℝ) / 512) 1 * 255 ≤ 255 := by
        have := min_le_right ((s : ℝ) / 512) 1
        linarith
      subst hcost
      cases hit
      · simp only [Bool.false_eq_true, if_false] at hcol
        subst hcol
        refine ⟨false, t, s, rfl, hs, fun _ => rfl, fun hf => absurd hf (by simp), rfl, ?_⟩
        exact channel_bounds _ _ 0 _ rfl rfl ⟨le_rfl, by norm_num⟩ ⟨hc1, hc2⟩
      · simp only [if_true] at hcol
        subst hcol
        have e25 : (25.5 : ℝ) = 255 * 0.1 := by norm_num
        have r1 : (25.5 : ℝ) ≤ 255 * max ((Normalized Real.sqrt (root.Gradient
            ((ComputeRayFromPixel Real.sqrt Real.arctan Real.tan camera W H i j).eval t))).neg.dot
              sunDir) 0.1 := by
          rw [e25]
          exact mul_le_mul_of_nonneg_left hm1 (by norm_num)
        have r2 : 255 * max ((Normalized Real.sqrt (root.Gradient
            ((ComputeRayFromPixel Real.sqrt Real.arctan Real.tan camera W H i j).eval t))).neg.dot
              sunDir) 0.1 ≤ 255 := by linarith
        refine ⟨true, t, s, rfl, hs, fun hf => absurd hf (by simp), fun _ => ⟨rfl, r1, r2⟩, rfl,
          ?_⟩
        exact channel_bounds _ _ _ _ rfl rfl ⟨le_trans (by norm_num) r1, r2⟩ ⟨hc1, hc2⟩

/-- Claim C31 at the tree `Point((0,0,0), 2, 1)`, the camera `(0, -80, 0)`, the
sun direction `(0, -1, 0)`, the image of 500 by 500 pixels, the pixel
`(250, 250)`, `k = 0.86` and segment tracing. -/
theorem PixelColor_channels_in_range_witness :
    Norm Real.sqrt (⟨0, -1, 0⟩ : Vector ℝ) = 1 ∧
    ((0 < (43 / 50 : ℝ) → (BlobTreeNode.Point (⟨0, 0, 0⟩ : Vector ℝ) 2 1).PositiveRadii →
      ∃ N : Nat, ∀ fuel, N < fuel →
      ∃ out, PixelColor Real.sqrt Real.arctan Real.tan fuel
        ⟨some (BlobTreeNode.Point (⟨0, 0, 0⟩ : Vector ℝ) 2 1)⟩ ⟨0, -80, 0⟩ ⟨0, -1, 0⟩ 500 500
        250 250 (43 / 50) RayTraceMethod.SegmentTracing = some out) ∧
    ∀ fuel color cost,
      PixelColor Real.sqrt Real.arctan Real.tan fuel
        ⟨some (BlobTreeNode.Point (⟨0, 0, 0⟩ : Vector ℝ) 2 1)⟩ ⟨0, -80, 0⟩ ⟨0, -1, 0⟩ 500 500
        250 250 (43 / 50) RayTraceMethod.SegmentTracing = some (color, cost) →
      ∃ hit t s,
        PixelColor.trace Real.sqrt fuel ⟨some (BlobTreeNode.Point (⟨0, 0, 0⟩ : Vector ℝ) 2 1)⟩
          (ComputeRayFromPixel Real.sqrt Real.arctan Real.tan ⟨0, -80, 0⟩ 500 500 250 250)
          (43 / 50) RayTraceMethod.SegmentTracing = some (hit, t, s) ∧
        0 ≤ s ∧
        (hit = false → color = ⟨0, 0, 0⟩) ∧
        (hit = true →
          color = ⟨255 * max ((Normalized Real.sqrt
            ((BlobTreeNode.Point (⟨0, 0, 0⟩ : Vector ℝ) 2 1).Gradient
              ((ComputeRayFromPixel Real.sqrt Real.arctan Real.tan ⟨0, -80, 0⟩ 500 500
                250 250).eval t))).neg.dot ⟨0, -1, 0⟩) 0.1, 0, 0⟩ ∧
          25.5 ≤ color.c0 ∧ color.c0 ≤ 255) ∧
        cost = ⟨0, min ((s : ℝ) / 512) 1 * 255, 0⟩ ∧
        ∀ n, n < 3 → 0 ≤ color.get n ∧ color.get n ≤ 255 ∧
          0 ≤ cost.get n ∧ cost.get n ≤ 255 ∧
          (WriteToFile.channel (color.get n) : Int) = ⌊color.get n⌋ ∧
          (WriteToFile.channel (cost.get n) : Int) = ⌊cost.get n⌋) :=
  ⟨(Norm_eq_one_iff _).mpr (by norm_num [SquaredNorm]),
    PixelColor_channels_in_range (BlobTreeNode.Point (⟨0, 0, 0⟩ : Vector ℝ) 2 1) ⟨0, -80, 0⟩
      ⟨0, -1, 0⟩ ((Norm_eq_one_iff _).mpr (by norm_num [SquaredNorm])) 500 500 250 250 (43 / 50)
      RayTraceMethod.SegmentTracing⟩

/-- Claim C32: `Segment::Intersect(box)` has no false negatives.  For every
segment and every box (ordered or not), if a point `Lerp(a, b, σ)`, `0 ≤ σ ≤ 1`,
of the segment lies in the closed box, the test, which compares against the full
diagonal, returns `true`.  Hence when `BlobTreePoint::K(s)` returns `0` early
because the test against the box of the primitive failed, the intensity of the
primitive is `0` at every point of the segment, and `0` bounds its slope between
any two points of the segment. -/
theorem Segment_Intersect_no_false_negatives [LinearOrderedField α] (sqrt : α → α)
    (s : Segment α) (box : Box α) (c : Vector α) (r e : α) :
    (∀ σ : α, 0 ≤ σ → σ ≤ 1 →
      (∀ n, n < 3 → box.a.get n ≤ (Lerp s.a s.b σ).get n ∧
        (Lerp s.a s.b σ).get n ≤ box.b.get n) →
      s.Intersect box = true) ∧
    (s.Intersect (BlobTreePoint.box c r) = false →
      BlobTreePoint.K sqrt c r e s = 0 ∧
      (∀ σ : α, 0 ≤ σ → σ ≤ 1 → BlobTreePoint.Intensity c r e (Lerp s.a s.b σ) = 0) ∧
      ∀ σ₁ σ₂ : α, 0 ≤ σ₁ → σ₁ ≤ 1 → 0 ≤ σ₂ → σ₂ ≤ 1 →
        |BlobTreePoint.Intensity c r e (Lerp s.a s.b σ₁)
            - BlobTreePoint.Intensity c r e (Lerp s.a s.b σ₂)|
          ≤ BlobTreePoint.K sqrt c r e s
            * Norm sqrt ((Lerp s.a s.b σ₁).sub (Lerp s.a s.b σ₂))) := by
  have part1 : ∀ (bx : Box α) (σ : α), 0 ≤ σ → σ ≤ 1 →
      (∀ n, n < 3 → bx.a.get n ≤ (Lerp s.a s.b σ).get n ∧
        (Lerp s.a s.b σ).get n ≤ bx.b.get n) →
      s.Intersect bx = true := by
    intro bx σ h0 h1 h
    have hx := h 0 (by norm_num)
    have hy := h 1 (by norm_num)
    have hz := h 2 (by norm_num)
    simp only [Vector.get, if_true, one_ne_zero, if_false, OfNat.ofNat_ne_zero,
      OfNat.ofNat_ne_one] at hx hy hz
    exact Segment.Intersect_of_point s bx σ h0 h1 hx hy hz
  refine ⟨part1 box, fun hI => ?_⟩
  have hK : BlobTreePoint.K sqrt c r e s = 0 := by
    unfold BlobTreePoint.K
    simp [hI]
  have hzero : ∀ σ : α, 0 ≤ σ → σ ≤ 1 →
      BlobTreePoint.Intensity c r e (Lerp s.a s.b σ) = 0 := by
    intro σ h0 h1
    unfold BlobTreePoint.Intensity
    by_cases h : (BlobTreePoint.box c r).Inside (Lerp s.a s.b σ) = true
    · exfalso
      rw [Box.Inside_eq_true_iff] at h
      have := Segment.Intersect_of_point s (BlobTreePoint.box c r) σ h0 h1
        ⟨h.1.1.le, h.2.1.le⟩ ⟨h.1.2.1.le, h.2.2.1.le⟩ ⟨h.1.2.2.le, h.2.2.2.le⟩
      rw [hI] at this
      exact absurd this (by simp)
    · have h' : (BlobTreePoint.box c r).Inside (Lerp s.a s.b σ) = false := by simpa using h
      simp [h']
  refine ⟨hK, hzero, fun σ₁ σ₂ a1 a2 b1 b2 => ?_⟩
  rw [hzero σ₁ a1 a2, hzero σ₂ b1 b2, hK]
  simp

/-! ## Further properties -/

/-- For a tree whose primitives have positive radius and unit energy, the
global bound `K()` is a Lipschitz constant of the field:
`|n.Intensity(p) - n.Intensity(q)| ≤ n.K() * |p - q|` for all points `p`, `q`. -/
theorem BlobTreeNode_global_bound_lipschitz_unit_energy (n : BlobTreeNode ℝ)
    (hpos : n.PositiveRadii) (hunit : n.UnitEnergy) (p q : Vector ℝ) :
    |n.Intensity p - n.Intensity q| ≤ n.K * Norm Real.sqrt (p.sub q) :=
  BlobTreeNode.K_lipschitz n hpos hunit p q

/-- The global bound at `Point((0,0,0), 2, 1)` between the centre and `(1,0,0)`. -/
theorem BlobTreeNode_global_bound_lipschitz_unit_energy_witness :
    (BlobTreeNode.Point (⟨0, 0, 0⟩ : Vector ℝ) 2 1).PositiveRadii ∧
    (BlobTreeNode.Point (⟨0, 0, 0⟩ : Vector ℝ) 2 1).UnitEnergy ∧
    |(BlobTreeNode.Point (⟨0, 0, 0⟩ : Vector ℝ) 2 1).Intensity ⟨0, 0, 0⟩
        - (BlobTreeNode.Point (⟨0, 0, 0⟩ : Vector ℝ) 2 1).Intensity ⟨1, 0, 0⟩|
      ≤ (BlobTreeNode.Point (⟨0, 0, 0⟩ : Vector ℝ) 2 1).K
        * Norm Real.sqrt ((⟨0, 0, 0⟩ : Vector ℝ).sub ⟨1, 0, 0⟩) :=
  ⟨by simp [BlobTreeNode.PositiveRadii], by simp [BlobTreeNode.UnitEnergy],
    BlobTreeNode_global_bound_lipschitz_unit_energy _ (by simp [BlobTreeNode.PositiveRadii])
      (by simp [BlobTreeNode.UnitEnergy]) _ _⟩

/-- For a point primitive of radius `r > 0` the bounding-box test of
`BlobTreePoint::Intensity` changes nothing: at every point `p` the value is
`CubicFalloff(|p - c|², r²)`, whatever the energy. -/
theorem BlobTreePoint_Intensity_closed_form (c : Vector ℝ) (r e : ℝ) (p : Vector ℝ)
    (hr : 0 < r) :
    BlobTreePoint.Intensity c r e p = CubicFalloff (SquaredNorm (p.sub c)) (r * r) :=
  BlobTreePoint.Intensity_eq c r e p hr

/-- The closed form at `Point((0,0,0), 2, 1)` and `p = (3,0,0)`, outside the box. -/
theorem BlobTreePoint_Intensity_closed_form_witness :
    (0 : ℝ) < 2 ∧
    BlobTreePoint.Intensity (⟨0, 0, 0⟩ : Vector ℝ) 2 1 ⟨3, 0, 0⟩
      = CubicFalloff (SquaredNorm ((⟨3, 0, 0⟩ : Vector ℝ).sub ⟨0, 0, 0⟩)) (2 * 2) :=
  ⟨by norm_num, BlobTreePoint_Intensity_closed_form _ 2 1 _ (by norm_num)⟩

/-- Segment tracing steps over the surface when a probe ends at a centre.  For
the blend of `Point((0,8.125,0), 3.44, 1)` and `Point((50,3.44,0), 3.44, 1)`
and the ray from `(0,-10,0)` along `(0,1,0)`: the primitives have positive
radius and unit energy, the direction is a unit vector, the field along the ray
is that of the first primitive, and the interval of the ray in the root box is
`[10, 21.565]`.  After three passes of `SegmentTrace` the probe goes from
`ray(14.75)` to `ray(18.125)`, the first centre, so `tree.K(s)` is NaN and
`tk = ts = 3.375`; the run reports a hit at the centre, `t = 18.125`, in its
fifth pass, whereas `SphereTrace` with `k = tree.K() = 1` reports a hit with
`t ≤ 16.626`: the two hit parameters differ by more than `2 ε`. -/
theorem SegmentTrace_oversteps_at_centre (t0 : ℝ) (s0 : Int) :
    (BlobTreeNode.Blend (BlobTreeNode.Point (⟨0, 65 / 8, 0⟩ : Vector ℝ) (86 / 25) 1)
      (BlobTreeNode.Point ⟨50, 86 / 25, 0⟩ (86 / 25) 1)).PositiveRadii ∧
    (BlobTreeNode.Blend (BlobTreeNode.Point (⟨0, 65 / 8, 0⟩ : Vector ℝ) (86 / 25) 1)
      (BlobTreeNode.Point ⟨50, 86 / 25, 0⟩ (86 / 25) 1)).UnitEnergy ∧
    Norm Real.sqrt (⟨0, 1, 0⟩ : Vector ℝ) = 1 ∧
    (∀ t, (BlobTreeNode.Blend (BlobTreeNode.Point (⟨0, 65 / 8, 0⟩ : Vector ℝ) (86 / 25) 1)
        (BlobTreeNode.Point ⟨50, 86 / 25, 0⟩ (86 / 25) 1)).Intensity
          (Ray.eval ⟨⟨0, -10, 0⟩, ⟨0, 1, 0⟩⟩ t)
        = BlobTreePoint.Intensity ⟨0, 65 / 8, 0⟩ (86 / 25) 1
          (Ray.eval ⟨⟨0, -10, 0⟩, ⟨0, 1, 0⟩⟩ t)) ∧
    (BlobTreeNode.Blend (BlobTreeNode.Point (⟨0, 65 / 8, 0⟩ : Vector ℝ) (86 / 25) 1)
      (BlobTreeNode.Point ⟨50, 86 / 25, 0⟩ (86 / 25) 1)).GetBox.IntersectRay
      ⟨⟨0, -10, 0⟩, ⟨0, 1, 0⟩⟩ 1e-3 = (1, 10, 4313 / 200) ∧
    marchStates (SegmentTrace.pass Real.sqrt
        ⟨some (BlobTreeNode.Blend (BlobTreeNode.Point (⟨0, 65 / 8, 0⟩ : Vector ℝ) (86 / 25) 1)
          (BlobTreeNode.Point ⟨50, 86 / 25, 0⟩ (86 / 25) 1))⟩ ⟨⟨0, -10, 0⟩, ⟨0, 1, 0⟩⟩)
      SegmentTrace.State.t (4313 / 200) 3 ⟨10, 0, 4313 / 200 - 10, 0⟩
      = some ⟨59 / 4, 3, 27 / 8, 9 / 4⟩ ∧
    (BlobTreeNode.Blend (BlobTreeNode.Point (⟨0, 65 / 8, 0⟩ : Vector ℝ) (86 / 25) 1)
      (BlobTreeNode.Point ⟨50, 86 / 25, 0⟩ (86 / 25) 1)).KSegNaN Real.sqrt
        ⟨Ray.eval ⟨⟨0, -10, 0⟩, ⟨0, 1, 0⟩⟩ (59 / 4),
          Ray.eval ⟨⟨0, -10, 0⟩, ⟨0, 1, 0⟩⟩ (59 / 4 + 27 / 8)⟩ = true ∧
    BlobTree.K ⟨some (BlobTreeNode.Blend
      (BlobTreeNode.Point (⟨0, 65 / 8, 0⟩ : Vector ℝ) (86 / 25) 1)
      (BlobTreeNode.Point ⟨50, 86 / 25, 0⟩ (86 / 25) 1))⟩ = some 1 ∧
    ∃ t1 s1, SphereTrace 11566
        ⟨some (BlobTreeNode.Blend (BlobTreeNode.Point (⟨0, 65 / 8, 0⟩ : Vector ℝ) (86 / 25) 1)
          (BlobTreeNode.Point ⟨50, 86 / 25, 0⟩ (86 / 25) 1))⟩
        ⟨⟨0, -10, 0⟩, ⟨0, 1, 0⟩⟩ t0 s0 1 = some (true, t1, s1) ∧
      SegmentTrace Real.sqrt 11566
        ⟨some (BlobTreeNode.Blend (BlobTreeNode.Point (⟨0, 65 / 8, 0⟩ : Vector ℝ) (86 / 25) 1)
          (BlobTreeNode.Point ⟨50, 86 / 25, 0⟩ (86 / 25) 1))⟩
        ⟨⟨0, -10, 0⟩, ⟨0, 1, 0⟩⟩ t0 s0 = some (true, 145 / 8, 5) ∧
      t1 ≤ 16.626 ∧ ¬ |t1 - 145 / 8| ≤ 2 * Epsilon := by
  obtain ⟨t1, s1, h1, hle⟩ := SphereTrace_overstep_run 11566 (by norm_num) t0 s0
  refine ⟨by norm_num [BlobTreeNode.PositiveRadii], by simp [BlobTreeNode.UnitEnergy],
    witness_dir, overstep_one, overstep_box, overstep_states, overstep_nan, ?_,
    t1, s1, h1, SegmentTrace_overstep_run 11566 (by norm_num) t0 s0, hle, ?_⟩
  · simp only [BlobTree.K, Option.map_some', overstep_K]
  · intro habs
    have := (abs_le.mp habs).1
    unfold Epsilon at this
    norm_num at this hle
    linarith

end Theorems

end SegmentTracing
